import Mathlib

/-!
Verification development for a small backtracking regular-expression engine
(parser, compiler, VM).  The definitions below are a shallow embedding of the
Rust sources (`ast.rs`, `parser.rs`, `compiler.rs`, `vm.rs`):

* machine integers (`usize`) become `Nat`; a `usize` subtraction or array index
  that would panic in Rust is modelled by an explicit fallibility (`Option` for
  the compiler, a `fault` outcome for the VM);
* the mutable parser/VM state is threaded explicitly;
* the VM's (possibly non-terminating) inner loop and recursion are driven by an
  explicit fuel parameter; exhausting it yields a dedicated `spin` outcome so
  non-termination is observable as `spin` for every fuel.
-/

namespace RegexEngine

/-! ## AST (`ast.rs`) -/

/-- `ShorthandKind` from `ast.rs`. -/
inductive ShorthandKind where
  | Digit | NonDigit | Word | NonWord | Space | NonSpace
deriving DecidableEq, Repr

/-- `ClassItem` from `ast.rs`. -/
inductive ClassItem where
  | Literal (c : Char)
  | Range (lo hi : Char)
  | Shorthand (k : ShorthandKind)
deriving DecidableEq, Repr

/-- `QuantifierKind` from `ast.rs`. -/
inductive QuantifierKind where
  | Star | Plus | Question
  | Exact (n : Nat)
  | AtLeast (n : Nat)
  | Range (n m : Nat)
deriving DecidableEq, Repr

/-- `AnchorKind` from `ast.rs`. -/
inductive AnchorKind where
  | Start | End | WordBoundary | NonWordBoundary
deriving DecidableEq, Repr

/-- `RegexFlags` from `ast.rs`. -/
structure RegexFlags where
  case_insensitive : Bool
  dotall : Bool
  multiline : Bool
deriving DecidableEq, Repr

/-- `AstNode` from `ast.rs`.  The `InlineFlags` variant carries the flags
record exactly as the source does; the parser never produces it. -/
inductive AstNode where
  | Literal (c : Char)
  | Dot
  | Concat (nodes : List AstNode)
  | Alternation (branches : List AstNode)
  | Quantifier (node : AstNode) (kind : QuantifierKind) (greedy : Bool)
  | CharClass (ranges : List ClassItem) (negated : Bool)
  | ShorthandClass (k : ShorthandKind)
  | Anchor (k : AnchorKind)
  | Group (index : Nat) (node : AstNode)
  | NonCapturingGroup (node : AstNode)
  | Backreference (idx : Nat)
  | Lookahead (node : AstNode) (positive : Bool)
  | Lookbehind (node : AstNode) (positive : Bool)
  | InlineFlags (node : AstNode) (flags : RegexFlags)
deriving Repr

/-! ## Character predicates (`char` methods used by `vm.rs`) -/

/-- Rust `char::is_ascii_digit`: `'0'..='9'`. -/
def isAsciiDigit (c : Char) : Bool :=
  48 ≤ c.toNat && c.toNat ≤ 57

/-- Rust `char::is_ascii_alphanumeric`: `'0'..='9' | 'A'..='Z' | 'a'..='z'`. -/
def isAsciiAlphanumeric (c : Char) : Bool :=
  isAsciiDigit c || (65 ≤ c.toNat && c.toNat ≤ 90) || (97 ≤ c.toNat && c.toNat ≤ 122)

/-- Rust `char::is_ascii_whitespace`: space, horizontal tab, line feed,
form feed, carriage return (note: not vertical tab). -/
def isAsciiWhitespace (c : Char) : Bool :=
  c.toNat = 32 || c.toNat = 9 || c.toNat = 10 || c.toNat = 12 || c.toNat = 13

/-- `is_word_char` from `vm.rs`. -/
def is_word_char (ch : Char) : Bool :=
  isAsciiAlphanumeric ch || ch = '_'

/-- `shorthand_matches` from `vm.rs`. -/
def shorthand_matches (ch : Char) (kind : ShorthandKind) : Bool :=
  match kind with
  | .Digit => isAsciiDigit ch
  | .NonDigit => !isAsciiDigit ch
  | .Word => isAsciiAlphanumeric ch || ch = '_'
  | .NonWord => !(isAsciiAlphanumeric ch || ch = '_')
  | .Space => isAsciiWhitespace ch
  | .NonSpace => !isAsciiWhitespace ch

/-- The body of the item loop in `char_class_matches` from `vm.rs`
(one `ClassItem` test). -/
def classItemMatches (ch : Char) (item : ClassItem) : Bool :=
  match item with
  | .Literal c => ch = c
  | .Range lo hi => lo ≤ ch && ch ≤ hi
  | .Shorthand k => shorthand_matches ch k

/-- `char_class_matches` from `vm.rs`: first matching item short-circuits,
`negated` flips the verdict. -/
def char_class_matches (ch : Char) (items : List ClassItem) (negated : Bool) : Bool :=
  let matched := items.any (classItemMatches ch)
  if negated then !matched else matched

/-- `is_word_boundary` from `vm.rs`.  The source indexes `chars[pos - 1]` and
`chars[pos]` under guards that keep the index in range whenever `pos ≤ len`
(the only situations arising in `exec`); `getD` supplies an irrelevant
default. -/
def is_word_boundary (chars : List Char) (pos : Nat) : Bool :=
  let before := if pos > 0 then is_word_char (chars.getD (pos - 1) ' ') else false
  let after := if pos < chars.length then is_word_char (chars.getD pos ' ') else false
  before != after

/-! ## Parser (`parser.rs`)

The Rust `Parser` owns `chars`, a cursor `pos` and `group_count`; functions
mutate `self` and return `Result<_, String>`.  Here the state is threaded
explicitly and mutual recursion is driven by a fuel parameter (the Rust code
recurses on the nesting depth of the pattern); fuel exhaustion yields the
distinguished diagnostic `"fuel"`. -/

/-- Parser state: `chars`, `pos`, `group_count` from `parser.rs`. -/
structure PState where
  chars : List Char
  pos : Nat
  group_count : Nat
deriving DecidableEq, Repr

/-- `Parser::peek`. -/
def peek (s : PState) : Option Char :=
  s.chars.get? s.pos

/-- `Parser::advance`. -/
def advance (s : PState) : Option Char × PState :=
  match s.chars.get? s.pos with
  | some c => (some c, ⟨s.chars, s.pos + 1, s.group_count⟩)
  | none => (none, s)

/-- `Parser::expect`. -/
def expectCh (expected : Char) (s : PState) : Except String PState :=
  match advance s with
  | (some c, s') => if c = expected then .ok s' else .error "Expected another character"
  | (none, _) => .error "Expected a character, got end of pattern"

/-- `Parser::parse_number`: consume a run of ASCII digits and parse it as a
`usize`.  An empty run is an error; a value not representable in 64 bits
models Rust's `usize` overflow `Err`. -/
def parse_number (s : PState) : Except String (Nat × PState) :=
  let digits := (s.chars.drop s.pos).takeWhile isAsciiDigit
  if digits.length = 0 then .error "Expected number"
  else
    let v := digits.foldl (fun a c => a * 10 + (c.toNat - 48)) 0
    if v < 2 ^ 64 then .ok (v, ⟨s.chars, s.pos + digits.length, s.group_count⟩)
    else .error "number too large"

/-- `Parser::try_parse_brace_contents`. -/
def try_parse_brace_contents (s : PState) : Except String ((QuantifierKind × Bool) × PState) := do
  let (n, s1) ← parse_number s
  let (kind, s2) ←
    if peek s1 = some ',' then
      let s2 := (advance s1).2
      if peek s2 = some '}' then pure (QuantifierKind.AtLeast n, s2)
      else do
        let (m, s3) ← parse_number s2
        pure (QuantifierKind.Range n m, s3)
    else pure (QuantifierKind.Exact n, s1)
  let s3 ← expectCh '}' s2
  if peek s3 = some '?' then pure ((kind, false), (advance s3).2)
  else pure ((kind, true), s3)

/-- `Parser::parse_escape` (top-level escapes). -/
def parse_escape (s : PState) : Except String (AstNode × PState) :=
  let s0 := (advance s).2
  match advance s0 with
  | (none, _) => .error "Unexpected end of pattern after backslash"
  | (some ch, s1) =>
    if ch = 'd' then .ok (.ShorthandClass .Digit, s1)
    else if ch = 'D' then .ok (.ShorthandClass .NonDigit, s1)
    else if ch = 'w' then .ok (.ShorthandClass .Word, s1)
    else if ch = 'W' then .ok (.ShorthandClass .NonWord, s1)
    else if ch = 's' then .ok (.ShorthandClass .Space, s1)
    else if ch = 'S' then .ok (.ShorthandClass .NonSpace, s1)
    else if ch = 'b' then .ok (.Anchor .WordBoundary, s1)
    else if ch = 'B' then .ok (.Anchor .NonWordBoundary, s1)
    else if isAsciiDigit ch && ch ≠ '0' then .ok (.Backreference (ch.toNat - 48), s1)
    else if ch = 'n' then .ok (.Literal '\n', s1)
    else if ch = 'r' then .ok (.Literal '\r', s1)
    else if ch = 't' then .ok (.Literal '\t', s1)
    else .ok (.Literal ch, s1)

/-- One iteration step of the item loop of `Parser::parse_char_class`;
recursion on `fuel` mirrors the `while` loop. -/
def parse_class_items (fuel : Nat) (items : List ClassItem) (s : PState) :
    Except String (List ClassItem × PState) :=
  match fuel with
  | 0 => .error "fuel"
  | fuel + 1 =>
    if peek s = some ']' then .ok (items, s)
    else
      match peek s with
      | none => .error "Unterminated character class"
      | some '\\' =>
        let s1 := (advance s).2
        match advance s1 with
        | (none, _) => .error "Unexpected end in character class escape"
        | (some ch, s2) =>
          let item :=
            if ch = 'd' then ClassItem.Shorthand .Digit
            else if ch = 'D' then ClassItem.Shorthand .NonDigit
            else if ch = 'w' then ClassItem.Shorthand .Word
            else if ch = 'W' then ClassItem.Shorthand .NonWord
            else if ch = 's' then ClassItem.Shorthand .Space
            else if ch = 'S' then ClassItem.Shorthand .NonSpace
            else if ch = 'n' then ClassItem.Literal '\n'
            else if ch = 'r' then ClassItem.Literal '\r'
            else if ch = 't' then ClassItem.Literal '\t'
            else ClassItem.Literal ch
          parse_class_items fuel (items ++ [item]) s2
      | some ch =>
        let s1 := (advance s).2
        if peek s1 = some '-' ∧ s1.pos + 1 < s1.chars.length ∧
            s1.chars.getD (s1.pos + 1) ']' ≠ ']' then
          let s2 := (advance s1).2
          match peek s2 with
          | some '\\' =>
            let s3 := (advance s2).2
            match advance s3 with
            | (some eCh, s4) => parse_class_items fuel (items ++ [ClassItem.Range ch eCh]) s4
            | (none, _) => .error "Unexpected end in range"
          | some c2 => parse_class_items fuel (items ++ [ClassItem.Range ch c2]) ((advance s2).2)
          | none => .error "Unexpected end in character class range"
        else
          parse_class_items fuel (items ++ [ClassItem.Literal ch]) s1

/-- `Parser::parse_char_class`. -/
def parse_char_class (s : PState) : Except String (AstNode × PState) := do
  let s0 := (advance s).2
  let (negated, s1) :=
    if peek s0 = some '^' then (true, (advance s0).2) else (false, s0)
  let (items0, s2) :=
    if peek s1 = some ']' then ([ClassItem.Literal ']'], (advance s1).2) else ([], s1)
  let (items, s3) ← parse_class_items (s2.chars.length + 1) items0 s2
  let s4 := (advance s3).2
  pure (.CharClass items negated, s4)

/-- Helper for the `*`/`+`/`?` arm of `parse_quantified`: consume an optional
trailing `?` marking laziness. -/
def quantify (node : AstNode) (kind : QuantifierKind) (s : PState) : AstNode × PState :=
  if peek s = some '?' then (.Quantifier node kind false, (advance s).2)
  else (.Quantifier node kind true, s)

mutual

/-- `Parser::parse_alternation` (entry). -/
def parse_alternation (fuel : Nat) (s : PState) : Except String (AstNode × PState) :=
  match fuel with
  | 0 => .error "fuel"
  | fuel + 1 => do
    let (first, s1) ← parse_concat fuel s
    parse_alt_branches fuel [first] s1

/-- The `while self.peek() == Some('|')` loop of `parse_alternation`. -/
def parse_alt_branches (fuel : Nat) (branches : List AstNode) (s : PState) :
    Except String (AstNode × PState) :=
  match fuel with
  | 0 => .error "fuel"
  | fuel + 1 =>
    if peek s = some '|' then do
      let s1 := (advance s).2
      let (b, s2) ← parse_concat fuel s1
      parse_alt_branches fuel (branches ++ [b]) s2
    else
      match branches with
      | [single] => .ok (single, s)
      | _ => .ok (.Alternation branches, s)

/-- `Parser::parse_concat` (entry). -/
def parse_concat (fuel : Nat) (s : PState) : Except String (AstNode × PState) :=
  match fuel with
  | 0 => .error "fuel"
  | fuel + 1 => parse_concat_nodes fuel [] s

/-- The atom-collecting loop of `parse_concat`. -/
def parse_concat_nodes (fuel : Nat) (nodes : List AstNode) (s : PState) :
    Except String (AstNode × PState) :=
  match fuel with
  | 0 => .error "fuel"
  | fuel + 1 =>
    match peek s with
    | some ch =>
      if ch = ')' ∨ ch = '|' then
        match nodes with
        | [single] => .ok (single, s)
        | _ => .ok (.Concat nodes, s)
      else do
        let (n, s1) ← parse_quantified fuel s
        parse_concat_nodes fuel (nodes ++ [n]) s1
    | none =>
      match nodes with
      | [single] => .ok (single, s)
      | _ => .ok (.Concat nodes, s)

/-- `Parser::parse_quantified`. -/
def parse_quantified (fuel : Nat) (s : PState) : Except String (AstNode × PState) :=
  match fuel with
  | 0 => .error "fuel"
  | fuel + 1 => do
    let (node, s1) ← parse_atom fuel s
    match peek s1 with
    | some '*' => pure (quantify node .Star (advance s1).2)
    | some '+' => pure (quantify node .Plus (advance s1).2)
    | some '?' => pure (quantify node .Question (advance s1).2)
    | some '{' =>
      -- `parse_brace_quantifier`: on failure rewind to the '{' (it stays a literal)
      let save_pos := s1.pos
      let s2 := (advance s1).2
      match try_parse_brace_contents s2 with
      | .ok ((kind, greedy), s3) => pure (.Quantifier node kind greedy, s3)
      | .error _ => pure (node, ⟨s1.chars, save_pos, s1.group_count⟩)
    | _ => pure (node, s1)

/-- `Parser::parse_atom`. -/
def parse_atom (fuel : Nat) (s : PState) : Except String (AstNode × PState) :=
  match fuel with
  | 0 => .error "fuel"
  | fuel + 1 =>
    match peek s with
    | none => .error "Unexpected end of pattern"
    | some '(' => parse_group fuel s
    | some '[' => parse_char_class s
    | some '.' => .ok (.Dot, (advance s).2)
    | some '^' => .ok (.Anchor .Start, (advance s).2)
    | some '$' => .ok (.Anchor .End, (advance s).2)
    | some '\\' => parse_escape s
    | some ch => .ok (.Literal ch, (advance s).2)

/-- `Parser::parse_group`. -/
def parse_group (fuel : Nat) (s : PState) : Except String (AstNode × PState) :=
  match fuel with
  | 0 => .error "fuel"
  | fuel + 1 =>
    let s1 := (advance s).2
    if peek s1 = some '?' then
      let s2 := (advance s1).2
      match peek s2 with
      | some ':' => do
        let (node, s3) ← parse_alternation fuel (advance s2).2
        let s4 ← expectCh ')' s3
        pure (.NonCapturingGroup node, s4)
      | some '=' => do
        let (node, s3) ← parse_alternation fuel (advance s2).2
        let s4 ← expectCh ')' s3
        pure (.Lookahead node true, s4)
      | some '!' => do
        let (node, s3) ← parse_alternation fuel (advance s2).2
        let s4 ← expectCh ')' s3
        pure (.Lookahead node false, s4)
      | some '<' =>
        let s3 := (advance s2).2
        match peek s3 with
        | some '=' => do
          let (node, s4) ← parse_alternation fuel (advance s3).2
          let s5 ← expectCh ')' s4
          pure (.Lookbehind node true, s5)
        | some '!' => do
          let (node, s4) ← parse_alternation fuel (advance s3).2
          let s5 ← expectCh ')' s4
          pure (.Lookbehind node false, s5)
        | _ => .error "Invalid lookbehind syntax"
      | _ => .error "Invalid group syntax"
    else do
      let index := s1.group_count + 1
      let (node, s2) ← parse_alternation fuel ⟨s1.chars, s1.pos, index⟩
      let s3 ← expectCh ')' s2
      pure (.Group index node, s3)

end

/-- `Parser::parse` plus `Parser::group_count`: parse the whole pattern,
requiring the cursor to reach the end, and report the number of capturing
groups. -/
def parseAll (fuel : Nat) (pattern : List Char) : Except String (AstNode × Nat) := do
  let (node, s') ← parse_alternation fuel ⟨pattern, 0, 0⟩
  if s'.pos < s'.chars.length then .error "Unexpected character"
  else pure (node, s'.group_count)

/-! ## Compiler (`compiler.rs`)

`emit` mutates a growing `Vec<Inst>`; here the vector is threaded as a list.
The `usize` subtraction `*m - *n` in the `Range` arm of `emit_quantifier`
panics when `m < n`; this is modelled by returning `none`.  The repetition
loops (`for _ in 0..n`) become the `emitRepeat`/`emitRepeatQuestion` helpers;
the alternation loop becomes `emitAltChain`. -/

/-- `Inst` from `compiler.rs`. -/
inductive Inst where
  | Char (c : Char)
  | AnyChar
  | CharClass (ranges : List ClassItem) (negated : Bool)
  | ShorthandClass (k : ShorthandKind)
  | Match
  | Jump (target : Nat)
  | Split (first second : Nat)
  | Save (slot : Nat)
  | AssertStart
  | AssertEnd
  | AssertWordBoundary
  | AssertNonWordBoundary
  | Backref (group : Nat)
  | LookaheadPositive (sub_start sub_end : Nat)
  | LookaheadNegative (sub_start sub_end : Nat)
  | LookbehindPositive (sub_start sub_end : Nat)
  | LookbehindNegative (sub_start sub_end : Nat)
  | Nop
  | CaseInsensitiveOn
  | CaseInsensitiveOff
deriving DecidableEq, Repr

/-- `Program` from `compiler.rs`. -/
structure Program where
  insts : List Inst
  n_groups : Nat
  first_char : Option Char
  anchored_start : Bool
deriving DecidableEq, Repr

/-- Backpatch the recorded jump placeholders to `Jump endIdx`
(the `for jpc in fixup_jumps` loop of the `Alternation` arm). -/
def applyFixups (insts : List Inst) (fixups : List Nat) (endIdx : Nat) : List Inst :=
  fixups.foldl (fun is jpc => is.set jpc (.Jump endIdx)) insts

/-- Rank used only in the termination measure of the `emit` family, ordering
which quantifier kinds re-enter `emit_quantifier`. -/
@[simp] def QuantifierKind.rank : QuantifierKind → Nat
  | .Star | .Plus | .Question => 0
  | .Exact _ | .AtLeast _ => 1
  | .Range _ _ => 2

mutual

/-- `emit` from `compiler.rs`.  The `InlineFlags` wrapper corresponds to the
source's flags arm (written there against a `CaseInsensitive` variant):
emit `CaseInsensitiveOn`, the child, `CaseInsensitiveOff`. -/
def emit (insts : List Inst) (node : AstNode) : Option (List Inst) :=
  match node with
  | .Literal ch => some (insts ++ [.Char ch])
  | .Dot => some (insts ++ [.AnyChar])
  | .Concat nodes => emitList insts nodes
  | .Alternation branches =>
    match branches with
    | [] => some insts
    | [b] => emit insts b
    | b1 :: b2 :: rest => do
      let (insts1, fixups) ← emitAltChain insts (b1 :: b2 :: rest) []
      let endIdx := insts1.length
      some (applyFixups insts1 fixups endIdx)
  | .Quantifier sub kind greedy => emit_quantifier insts sub kind greedy
  | .CharClass ranges negated => some (insts ++ [.CharClass ranges negated])
  | .ShorthandClass k => some (insts ++ [.ShorthandClass k])
  | .Anchor .Start => some (insts ++ [.AssertStart])
  | .Anchor .End => some (insts ++ [.AssertEnd])
  | .Anchor .WordBoundary => some (insts ++ [.AssertWordBoundary])
  | .Anchor .NonWordBoundary => some (insts ++ [.AssertNonWordBoundary])
  | .Group index sub => do
    let insts1 := insts ++ [.Save (index * 2)]
    let insts2 ← emit insts1 sub
    some (insts2 ++ [.Save (index * 2 + 1)])
  | .NonCapturingGroup sub => emit insts sub
  | .Backreference idx => some (insts ++ [.Backref idx])
  | .Lookahead sub positive => do
    let la_pc := insts.length
    let sub_start := insts.length + 1
    let insts1 := insts ++ [.Nop]
    let insts2 ← emit insts1 sub
    let insts3 := insts2 ++ [.Match]
    let sub_end := insts3.length
    if positive then some (insts3.set la_pc (.LookaheadPositive sub_start sub_end))
    else some (insts3.set la_pc (.LookaheadNegative sub_start sub_end))
  | .Lookbehind sub positive => do
    let lb_pc := insts.length
    let insts1 := insts ++ [.Nop]
    let sub_start := insts1.length
    let insts2 ← emit insts1 sub
    let insts3 := insts2 ++ [.Match]
    let sub_end := insts3.length
    if positive then some (insts3.set lb_pc (.LookbehindPositive sub_start sub_end))
    else some (insts3.set lb_pc (.LookbehindNegative sub_start sub_end))
  | .InlineFlags sub _ => do
    let insts1 := insts ++ [.CaseInsensitiveOn]
    let insts2 ← emit insts1 sub
    some (insts2 ++ [.CaseInsensitiveOff])
termination_by (sizeOf node, 0, 0)

/-- The child loop of the `Concat` arm of `emit`. -/
def emitList (insts : List Inst) (nodes : List AstNode) : Option (List Inst) :=
  match nodes with
  | [] => some insts
  | n :: rest => do
    let insts1 ← emit insts n
    emitList insts1 rest
termination_by (sizeOf nodes, 1, 0)

/-- The `for i in 0..n-1` loop of the `Alternation` arm of `emit`:
emit a `Split`-prefixed branch per head, collecting the jump placeholders. -/
def emitAltChain (insts : List Inst) (branches : List AstNode) (fixups : List Nat) :
    Option (List Inst × List Nat) :=
  match branches with
  | [] => some (insts, fixups)
  | [b] => do
    let insts1 ← emit insts b
    some (insts1, fixups)
  | b :: rest => do
    let split_pc := insts.length
    let insts1 := insts ++ [.Nop]
    let branch_start := insts1.length
    let insts2 ← emit insts1 b
    let jump_pc := insts2.length
    let insts3 := insts2 ++ [.Nop]
    let next_branch := insts3.length
    let insts4 := insts3.set split_pc (.Split branch_start next_branch)
    emitAltChain insts4 rest (fixups ++ [jump_pc])
termination_by (sizeOf branches, 1, 0)

/-- `emit_quantifier` from `compiler.rs`. -/
def emit_quantifier (insts : List Inst) (sub : AstNode) (kind : QuantifierKind)
    (greedy : Bool) : Option (List Inst) :=
  match kind with
  | .Star => do
    let l1 := insts.length
    let insts1 := insts ++ [.Nop]
    let l2 := insts1.length
    let insts2 ← emit insts1 sub
    let insts3 := insts2 ++ [.Jump l1]
    let l3 := insts3.length
    if greedy then some (insts3.set l1 (.Split l2 l3))
    else some (insts3.set l1 (.Split l3 l2))
  | .Plus => do
    let l1 := insts.length
    let insts1 ← emit insts sub
    let l2 := insts1.length + 1
    if greedy then some (insts1 ++ [.Split l1 l2])
    else some (insts1 ++ [.Split l2 l1])
  | .Question => do
    let split_pc := insts.length
    let insts1 := insts ++ [.Nop]
    let l1 := insts1.length
    let insts2 ← emit insts1 sub
    let l2 := insts2.length
    if greedy then some (insts2.set split_pc (.Split l1 l2))
    else some (insts2.set split_pc (.Split l2 l1))
  | .Exact n => emitRepeat insts sub n
  | .AtLeast n => do
    let insts1 ← emitRepeat insts sub n
    emit_quantifier insts1 sub .Star greedy
  | .Range n m => do
    let insts1 ← emitRepeat insts sub n
    -- Rust computes `*m - *n` on `usize`: for `m < n` this subtraction panics.
    if n ≤ m then emitRepeatQuestion insts1 sub greedy (m - n) else none
termination_by (sizeOf sub, 2 + kind.rank, 0)

/-- The `for _ in 0..n` repetition loop of `Exact`/`AtLeast`/`Range`. -/
def emitRepeat (insts : List Inst) (sub : AstNode) (k : Nat) : Option (List Inst) :=
  match k with
  | 0 => some insts
  | k + 1 => do
    let insts1 ← emit insts sub
    emitRepeat insts1 sub k
termination_by (sizeOf sub, 1, k)

/-- The `for _ in 0..(m - n)` loop of the `Range` arm: `m - n` optional copies. -/
def emitRepeatQuestion (insts : List Inst) (sub : AstNode) (greedy : Bool) (k : Nat) :
    Option (List Inst) :=
  match k with
  | 0 => some insts
  | k + 1 => do
    let insts1 ← emit_quantifier insts sub .Question greedy
    emitRepeatQuestion insts1 sub greedy k
termination_by (sizeOf sub, 3, k)

end

/-- `extract_first_char` from `compiler.rs`. -/
def extract_first_char (insts : List Inst) : Option Char :=
  match insts.head? with
  | some (.Char ch) => some ch
  | some .AssertStart =>
    match insts.get? 1 with
    | some (.Char ch) => some ch
    | _ => none
  | _ => none

/-- `compile` from `compiler.rs`.  `none` models a panic during emission
(the `Range` underflow). -/
def compile (ast : AstNode) (n_groups : Nat) : Option Program := do
  let insts0 ← emit [] ast
  let insts := insts0 ++ [Inst.Match]
  let first_char := extract_first_char insts
  let anchored_start : Bool := insts.head? = some Inst.AssertStart
  some ⟨insts, n_groups, first_char, anchored_start⟩

/-! ## VM (`vm.rs`)

`exec` in `vm.rs` is a loop (one frame) plus recursion at `Split` and at the
lookaround helpers.  Here the loop is `execLoop`, consuming one unit of fuel
per iteration; `exec` is the Rust entry point with its depth check.  The
mutable `captures`/`undo_log` are threaded and returned (also on failure — in
Rust a failing callee leaves its writes in place and the *caller* pops the
undo log).  Outcomes: `out r captures undo` for a Rust `bool` return, `fault`
for a panic (out-of-range index / `usize` underflow / missing match arm),
`spin` for fuel exhaustion. -/

/-- Capture-slot array: `Vec<Option<usize>>`. -/
abbrev Caps := List (Option Nat)

/-- `UndoEntry` from `vm.rs`: `(slot_index, old_value)`. -/
abbrev UndoEntry := Nat × Option Nat

/-- The undo log; the list head is the top of the Rust `Vec` stack. -/
abbrev Undo := List UndoEntry

/-- `MAX_DEPTH` from `vm.rs`. -/
def MAX_DEPTH : Nat := 10000

/-- Outcome of a VM call. -/
inductive ExecOut where
  | out (r : Bool) (captures : Caps) (undo : Undo)
  | fault
  | spin
deriving DecidableEq, Repr

/-- The `while undo_log.len() > undo_mark` restore loop of the `Split` arm:
pop entries down to `mark`, writing each popped old value back. -/
def popTo (mark : Nat) (captures : Caps) : Undo → Caps × Undo
  | [] => (captures, [])
  | e :: rest =>
    if rest.length + 1 ≤ mark then (captures, e :: rest)
    else popTo mark (captures.set e.1 e.2) rest

/-- The capture-propagation loop of the positive lookaround arms
(`for i in 2..captures.len()`), generalised over the index list. -/
def propagateFrom (sub_captures : Caps) : List Nat → Caps → Undo → Caps × Undo
  | [], captures, undo => (captures, undo)
  | i :: rest, captures, undo =>
    if sub_captures.getD i none ≠ captures.getD i none then
      propagateFrom sub_captures rest (captures.set i (sub_captures.getD i none))
        ((i, captures.getD i none) :: undo)
    else propagateFrom sub_captures rest captures undo

/-- Propagate changed capture slots (indices ≥ 2) of a successful lookaround
sub-run back into the enclosing captures, logging each overwrite. -/
def propagate (sub_captures captures : Caps) (undo : Undo) : Caps × Undo :=
  propagateFrom sub_captures (List.range' 2 (captures.length - 2)) captures undo

/-- Outcome of the lookbehind candidate scan. -/
inductive LbOut where
  | found (sub_captures : Caps)
  | notfound
  | fault
  | spin
deriving DecidableEq, Repr

mutual

/-- The dispatch loop of `exec` from `vm.rs`.  Consuming opcodes advance
`pos` and `pc`; `Split` recurses through `exec` on its first target and
tail-continues on the second after popping the undo log to the mark.  Every
call in the `exec` family consumes one unit of fuel (making the recursion
structural); a terminating Rust execution is reproduced by every sufficiently
large fuel, and a non-terminating one yields `spin` for every fuel. -/
def execLoop : Nat → Program → List Char → Nat → Nat → Caps → Undo → Nat → ExecOut
  | 0, _, _, _, _, _, _, _ => .spin
  | fuel + 1, program, chars, pos, pc, captures, undo_log, depth =>
    match program.insts.get? pc with
    | none => .out false captures undo_log
    | some inst =>
      match inst with
      | .Match =>
        if 1 < captures.length then .out true (captures.set 1 (some pos)) undo_log
        else .fault
      | .Char expected =>
        if chars.get? pos = some expected then
          execLoop fuel program chars (pos + 1) (pc + 1) captures undo_log depth
        else .out false captures undo_log
      | .AnyChar =>
        match chars.get? pos with
        | some c =>
          if c ≠ '\n' then execLoop fuel program chars (pos + 1) (pc + 1) captures undo_log depth
          else .out false captures undo_log
        | none => .out false captures undo_log
      | .CharClass ranges negated =>
        match chars.get? pos with
        | some c =>
          if char_class_matches c ranges negated then
            execLoop fuel program chars (pos + 1) (pc + 1) captures undo_log depth
          else .out false captures undo_log
        | none => .out false captures undo_log
      | .ShorthandClass kind =>
        match chars.get? pos with
        | some c =>
          if shorthand_matches c kind then
            execLoop fuel program chars (pos + 1) (pc + 1) captures undo_log depth
          else .out false captures undo_log
        | none => .out false captures undo_log
      | .Jump target =>
        execLoop fuel program chars pos target captures undo_log depth
      | .Split first second =>
        let undo_mark := undo_log.length
        match exec fuel program chars pos first captures undo_log (depth + 1) with
        | .out true c u => .out true c u
        | .out false c u =>
          let (c2, u2) := popTo undo_mark c u
          execLoop fuel program chars pos second c2 u2 depth
        | r => r
      | .Save slot =>
        if slot < captures.length then
          execLoop fuel program chars pos (pc + 1) (captures.set slot (some pos))
            ((slot, captures.getD slot none) :: undo_log) depth
        else .fault
      | .AssertStart =>
        if pos = 0 then execLoop fuel program chars pos (pc + 1) captures undo_log depth
        else .out false captures undo_log
      | .AssertEnd =>
        if pos = chars.length then execLoop fuel program chars pos (pc + 1) captures undo_log depth
        else .out false captures undo_log
      | .AssertWordBoundary =>
        if is_word_boundary chars pos then
          execLoop fuel program chars pos (pc + 1) captures undo_log depth
        else .out false captures undo_log
      | .AssertNonWordBoundary =>
        if !is_word_boundary chars pos then
          execLoop fuel program chars pos (pc + 1) captures undo_log depth
        else .out false captures undo_log
      | .Backref group_idx =>
        let start_slot := group_idx * 2
        let end_slot := group_idx * 2 + 1
        if end_slot < captures.length then
          match captures.getD start_slot none, captures.getD end_slot none with
          | some gs, some ge =>
            -- Rust computes `ge - gs` on `usize`: for `ge < gs` this panics.
            if gs ≤ ge then
              let group_len := ge - gs
              if pos + group_len ≤ chars.length then
                -- the slice `chars[gs..ge]` panics when `ge` exceeds the length
                if ge ≤ chars.length then
                  if (chars.drop gs).take group_len = (chars.drop pos).take group_len then
                    execLoop fuel program chars (pos + group_len) (pc + 1) captures undo_log depth
                  else .out false captures undo_log
                else .fault
              else .out false captures undo_log
            else .fault
          | _, _ => .out false captures undo_log
        else .fault
      | .LookaheadPositive sub_start sub_end =>
        match execSub fuel program chars pos sub_start sub_end captures [] (depth + 1) with
        | .out true sub_caps _ =>
          let (c2, u2) := propagate sub_caps captures undo_log
          execLoop fuel program chars pos sub_end c2 u2 depth
        | .out false _ _ => .out false captures undo_log
        | r => r
      | .LookaheadNegative sub_start sub_end =>
        match execSub fuel program chars pos sub_start sub_end captures [] (depth + 1) with
        | .out true _ _ => .out false captures undo_log
        | .out false _ _ => execLoop fuel program chars pos sub_end captures undo_log depth
        | r => r
      | .LookbehindPositive sub_start sub_end =>
        match lbScan fuel program chars (List.range (pos + 1)) pos sub_start sub_end captures
            (depth + 1) with
        | .found sub_caps =>
          let (c2, u2) := propagate sub_caps captures undo_log
          execLoop fuel program chars pos sub_end c2 u2 depth
        | .notfound => .out false captures undo_log
        | .fault => .fault
        | .spin => .spin
      | .LookbehindNegative sub_start sub_end =>
        match lbScan fuel program chars (List.range (pos + 1)) pos sub_start sub_end captures
            (depth + 1) with
        | .found _ => .out false captures undo_log
        | .notfound => execLoop fuel program chars pos sub_end captures undo_log depth
        | .fault => .fault
        | .spin => .spin
      | .Nop =>
        execLoop fuel program chars pos (pc + 1) captures undo_log depth
      -- `exec` in `vm.rs` has no arm for the two case-insensitivity opcodes
      -- (they are never emitted for parser output); reaching one is a fault.
      | .CaseInsensitiveOn => .fault
      | .CaseInsensitiveOff => .fault
termination_by structural fuel _ _ _ _ _ _ _ => fuel

/-- `exec` from `vm.rs`: the recursion entry with its depth check. -/
def exec : Nat → Program → List Char → Nat → Nat → Caps → Undo → Nat → ExecOut
  | 0, _, _, _, _, _, _, _ => .spin
  | fuel + 1, program, chars, pos, pc, captures, undo_log, depth =>
    if depth > MAX_DEPTH then .out false captures undo_log
    else execLoop fuel program chars pos pc captures undo_log depth
termination_by structural fuel _ _ _ _ _ _ _ => fuel

/-- `exec_sub` from `vm.rs`: run a lookaround sub-program with slot 1 saved
and cleared; restore slot 1 on failure.  (`sub_end` is unused, as in the
source.) -/
def execSub : Nat → Program → List Char → Nat → Nat → Nat → Caps → Undo → Nat → ExecOut
  | 0, _, _, _, _, _, _, _, _ => .spin
  | fuel + 1, program, chars, pos, sub_start, _sub_end, captures, undo_log, depth =>
    if 1 < captures.length then
      let old_cap1 := captures.getD 1 none
      match exec fuel program chars pos sub_start (captures.set 1 none) undo_log depth with
      | .out false c u => .out false (c.set 1 old_cap1) u
      | r => r
    else .fault
termination_by structural fuel _ _ _ _ _ _ _ _ => fuel

/-- The `for lookback in 0..=pos` candidate scan of the lookbehind arms:
run the sub-program on a fresh captures copy at `pos - lookback`; the first
run that succeeds *and* ends exactly at `pos` wins. -/
def lbScan : Nat → Program → List Char → List Nat → Nat → Nat → Nat → Caps → Nat → LbOut
  | 0, _, _, _, _, _, _, _, _ => .spin
  | fuel + 1, program, chars, lookbacks, pos, sub_start, sub_end, captures, depth =>
    match lookbacks with
    | [] => .notfound
    | lb :: rest =>
      let try_pos := pos - lb
      match execSub fuel program chars try_pos sub_start sub_end captures [] depth with
      | .out true sub_caps _ =>
        if sub_caps.getD 1 none = some pos then .found sub_caps
        else lbScan fuel program chars rest pos sub_start sub_end captures depth
      | .out false _ _ => lbScan fuel program chars rest pos sub_start sub_end captures depth
      | .fault => .fault
      | .spin => .spin
termination_by structural fuel _ _ _ _ _ _ _ _ => fuel

end

/-! ## Search driver (`vm.rs::search`) -/

/-- `MatchResult` from `vm.rs` (`end_` is the Rust field `end`). -/
structure MatchResult where
  start : Nat
  end_ : Nat
  captures : Caps
deriving DecidableEq, Repr

/-- Outcome of `search`: a result, no match, or a propagated panic /
non-termination cut. -/
inductive SearchOut where
  | found (r : MatchResult)
  | nomatch
  | fault
  | spin
deriving DecidableEq, Repr

/-- The fresh capture array of a search attempt: all slots unset except
slot 0, which holds the start position. -/
def initCaps (n_slots start : Nat) : Caps :=
  (List.replicate n_slots (none : Option Nat)).set 0 (some start)

/-- The success epilogue of `search`:
`captures[1] = Some(captures[1].unwrap_or(start))`, end = slot 1. -/
def finishResult (start : Nat) (captures : Caps) : MatchResult :=
  let e := (captures.getD 1 none).getD start
  ⟨start, e, captures.set 1 (some e)⟩

/-- The `for start in 0..=chars.len()` loop of `search`, including the
first-char pre-filter. -/
def searchFrom (fuel : Nat) (program : Program) (chars : List Char) (n_slots : Nat) :
    List Nat → SearchOut
  | [] => .nomatch
  | start :: rest =>
    let skip : Bool :=
      match program.first_char with
      | some fc => if start < chars.length then chars.getD start fc != fc else true
      | none => false
    if skip then searchFrom fuel program chars n_slots rest
    else
      match exec fuel program chars start 0 (initCaps n_slots start) [] 0 with
      | .out true captures _ => .found (finishResult start captures)
      | .out false _ _ => searchFrom fuel program chars n_slots rest
      | .fault => .fault
      | .spin => .spin

/-- `search` from `vm.rs`.  `chars` is the code-point sequence of the input
(`input.chars().collect()`). -/
def search (fuel : Nat) (program : Program) (chars : List Char) : SearchOut :=
  let n_slots := (program.n_groups + 1) * 2
  if program.anchored_start then
    match exec fuel program chars 0 0 (initCaps n_slots 0) [] 0 with
    | .out true captures _ => .found (finishResult 0 captures)
    | .out false _ _ => .nomatch
    | .fault => .fault
    | .spin => .spin
  else
    searchFrom fuel program chars n_slots (List.range (chars.length + 1))

/-- Modelled from the spec (the reference driver of claim C2): run the VM at
every start position `0..=len` in increasing order with *no* pre-filter and
return the first success. -/
def searchNaiveFrom (fuel : Nat) (program : Program) (chars : List Char) (n_slots : Nat) :
    List Nat → SearchOut
  | [] => .nomatch
  | start :: rest =>
    match exec fuel program chars start 0 (initCaps n_slots start) [] 0 with
    | .out true captures _ => .found (finishResult start captures)
    | .out false _ _ => searchNaiveFrom fuel program chars n_slots rest
    | .fault => .fault
    | .spin => .spin

/-- Modelled from the spec (the reference driver of claim C2): the naive
search without the anchored-at-start and required-first-literal pre-filters. -/
def searchNaive (fuel : Nat) (program : Program) (chars : List Char) : SearchOut :=
  searchNaiveFrom fuel program chars ((program.n_groups + 1) * 2) (List.range (chars.length + 1))

/-! ## Concrete patterns and programs used by individual claims -/

/-- The syntax tree of the pattern `(?<=(a))b`. -/
def astC3 : AstNode :=
  .Concat [.Lookbehind (.Group 1 (.Literal 'a')) true, .Literal 'b']

/-- The compiled program of `(?<=(a))b`. -/
def progC3 : Program :=
  ⟨[.LookbehindPositive 1 5, .Save 2, .Char 'a', .Save 3, .Match, .Char 'b', .Match],
    1, none, false⟩

/-- The syntax tree of the pattern `a(?=(b))`. -/
def astC3b : AstNode :=
  .Concat [.Literal 'a', .Lookahead (.Group 1 (.Literal 'b')) true]

/-- The compiled program of `a(?=(b))`. -/
def progC3b : Program :=
  ⟨[.Char 'a', .LookaheadPositive 2 6, .Save 2, .Char 'b', .Save 3, .Match, .Match],
    1, some 'a', false⟩

/-- The compiled program of the pattern `\5` (a backreference with no groups). -/
def progC5 : Program :=
  ⟨[.Backref 5, .Match], 0, none, false⟩

/-- The syntax tree of the pattern `(?:)*?b` (lazy star of an empty group). -/
def astC8 : AstNode :=
  .Concat [.Quantifier (.NonCapturingGroup (.Concat [])) .Star false, .Literal 'b']

/-- The compiled program of `(?:)*?b`. -/
def progC8 : Program :=
  ⟨[.Split 2 1, .Jump 0, .Char 'b', .Match], 0, none, false⟩

/-- The syntax tree of the pattern `a|ab`. -/
def astAab : AstNode :=
  .Alternation [.Literal 'a', .Concat [.Literal 'a', .Literal 'b']]

/-- The compiled program of `a|ab`. -/
def progAab : Program :=
  ⟨[.Split 1 3, .Char 'a', .Jump 5, .Char 'a', .Char 'b', .Match], 0, none, false⟩

/-- The syntax tree of the pattern `a{3,1}` (a Range quantifier with m < n). -/
def astC10 : AstNode :=
  .Quantifier (.Literal 'a') (.Range 3 1) true

/-- The number of occurrences of `(` in a pattern that are not immediately
followed by `?` (the count used by spec invariant 3 / claim C6). -/
def countOpens : List Char → Nat
  | [] => 0
  | c :: rest => (if c = '(' ∧ rest.head? ≠ some '?' then 1 else 0) + countOpens rest

/-- `countOpens` of the still-unconsumed suffix of the pattern (from `pos`). -/
def countFrom (chars : List Char) (pos : Nat) : Nat :=
  countOpens (chars.drop pos)

/-- The pattern restriction of the amended claim C6: no backslash escapes and
no character classes, so every `(` reaches `parse_group`. -/
def plainPattern (chars : List Char) : Bool :=
  chars.all fun c => c ≠ '\\' && c ≠ '['

/-- The C6 bookkeeping relation between an initial and a final parser state:
the pattern is unchanged and `group_count` grows by exactly the number of
counted `(` occurrences consumed between the two cursor positions. -/
def StateInv (s s' : PState) : Prop :=
  s'.chars = s.chars ∧
  s'.group_count + countFrom s.chars s'.pos = s.group_count + countFrom s.chars s.pos

/-- Every set capture slot holds a position within bound `n` (the bounds
invariant of the amended claim C3). -/
def CapsLe (caps : Caps) (n : Nat) : Bool :=
  caps.all fun v => match v with | none => true | some p => decide (p ≤ n)

/-- Every logged old capture value lies within bound `n`. -/
def UndoLe (undo : Undo) (n : Nat) : Bool :=
  undo.all fun e => match e.2 with | none => true | some p => decide (p ≤ n)

/-- Group `k`'s reported pair is ordered: if both its slots are set, the
start is at most the end (the per-group conjunct of claim C3). -/
def GoodPair (caps : Caps) (k : Nat) : Prop :=
  ∀ v w, caps.getD (2 * k) none = some v → caps.getD (2 * k + 1) none = some w → v ≤ w

/-- Executable form of `GoodPair`. -/
def goodPairB (caps : Caps) (k : Nat) : Bool :=
  match caps.getD (2 * k) none, caps.getD (2 * k + 1) none with
  | some v, some w => decide (v ≤ w)
  | _, _ => true

/-- Every capturing group reported with both slots set has start ≤ end. -/
def pairsOrdered (caps : Caps) : Bool :=
  (List.range caps.length).all fun k => if 1 ≤ k then goodPairB caps k else true

/-- Position `p` of the program holds a lookaround instruction with
sub-program span `[s1, s2)`. -/
def isLookAt (insts : List Inst) (p s1 s2 : Nat) : Prop :=
  insts.get? p = some (.LookaheadPositive s1 s2) ∨
  insts.get? p = some (.LookaheadNegative s1 s2) ∨
  insts.get? p = some (.LookbehindPositive s1 s2) ∨
  insts.get? p = some (.LookbehindNegative s1 s2)

/-- Control flow started inside `[lo, hi)` stays inside: every successor of
every position in the window is again in the window. -/
def Confined (insts : List Inst) (lo hi : Nat) : Prop :=
  ∀ p, lo ≤ p → p < hi →
    match insts.get? p with
    | some (.Jump t) => lo ≤ t ∧ t < hi
    | some (.Split a b) => lo ≤ a ∧ a < hi ∧ lo ≤ b ∧ b < hi
    | some (.LookaheadPositive s1 s2) => lo ≤ s1 ∧ s1 < hi ∧ lo ≤ s2 ∧ s2 < hi
    | some (.LookaheadNegative s1 s2) => lo ≤ s1 ∧ s1 < hi ∧ lo ≤ s2 ∧ s2 < hi
    | some (.LookbehindPositive s1 s2) => lo ≤ s1 ∧ s1 < hi ∧ lo ≤ s2 ∧ s2 < hi
    | some (.LookbehindNegative s1 s2) => lo ≤ s1 ∧ s1 < hi ∧ lo ≤ s2 ∧ s2 < hi
    | some .Match => True
    | some _ => p + 1 < hi
    | none => True

/-- The window `[lo, hi)` contains no `Save` targeting group `k`'s slots. -/
def NoKSaves (insts : List Inst) (lo hi k : Nat) : Prop :=
  ∀ p t, lo ≤ p → p < hi → insts.get? p = some (.Save t) →
    t ≠ 2 * k ∧ t ≠ 2 * k + 1

/-- All jump-style operands of an instruction are at most `n`. -/
def instTargetsLe (inst : Inst) (n : Nat) : Prop :=
  match inst with
  | .Jump t => t ≤ n
  | .Split a b => a ≤ n ∧ b ≤ n
  | .LookaheadPositive s1 s2 => s1 ≤ n ∧ s2 ≤ n
  | .LookaheadNegative s1 s2 => s1 ≤ n ∧ s2 ≤ n
  | .LookbehindPositive s1 s2 => s1 ≤ n ∧ s2 ≤ n
  | .LookbehindNegative s1 s2 => s1 ≤ n ∧ s2 ≤ n
  | _ => True

/-- All jump-style operands of an instruction are at least `n`. -/
def instTargetsGe (inst : Inst) (n : Nat) : Prop :=
  match inst with
  | .Jump t => n ≤ t
  | .Split a b => n ≤ a ∧ n ≤ b
  | .LookaheadPositive s1 s2 => n ≤ s1 ∧ n ≤ s2
  | .LookaheadNegative s1 s2 => n ≤ s1 ∧ n ≤ s2
  | .LookbehindPositive s1 s2 => n ≤ s1 ∧ n ≤ s2
  | .LookbehindNegative s1 s2 => n ≤ s1 ∧ n ≤ s2
  | _ => True

/-- Every operand in the program points at or before the end of the
program (one past the last instruction included, for jumps to the end). -/
def TargLe (insts : List Inst) : Prop :=
  ∀ p inst, insts.get? p = some inst → instTargetsLe inst insts.length

/-- Structural well-formedness of lookaround sub-programs: every lookaround
instruction's span is nonempty, in range, terminated by a `Match`, and
closed under control flow. -/
def spansWF (insts : List Inst) : Prop :=
  ∀ p s1 s2, isLookAt insts p s1 s2 →
    s1 < s2 ∧ s2 ≤ insts.length ∧ insts.get? (s2 - 1) = some .Match ∧
    Confined insts s1 s2

/-- Geometry of one emission step from `insts` to `out`: the existing
prefix is untouched, the program only grows, operands stay bounded by the
program end, newly emitted instructions only point into the new region, and
lookaround spans stay well-formed. -/
def Geom (insts out : List Inst) : Prop :=
  (∀ p, p < insts.length → out.get? p = insts.get? p) ∧
  insts.length ≤ out.length ∧
  (TargLe insts → TargLe out) ∧
  (∀ p inst, insts.length ≤ p → out.get? p = some inst → instTargetsGe inst insts.length) ∧
  (TargLe insts → spansWF insts → spansWF out)

/-- Local coherence of a group-`k` side marking: `side p = true` exactly
while group `k`'s bracket is open textually; the two `Save`s of group `k`
flip it, every other instruction preserves it across each control edge;
`Match` only occurs outside; the interior of a lookaround emitted while the
bracket is open is marked closed (its sub-program cannot touch group `k`). -/
def sideCond (insts : List Inst) (side : Nat → Bool) (k p : Nat) : Prop :=
  match insts.get? p with
  | some (.Save t) =>
      (t = 2 * k → side p = false ∧ side (p + 1) = true) ∧
      (t = 2 * k + 1 → side p = true ∧ side (p + 1) = false) ∧
      (t ≠ 2 * k → t ≠ 2 * k + 1 → side (p + 1) = side p)
  | some .Match => side p = false
  | some (.Jump t) => side t = side p
  | some (.Split a b) => side a = side p ∧ side b = side p
  | some (.LookaheadPositive s1 s2) =>
      side s2 = side p ∧ (side p = false → side s1 = false) ∧
      (side p = true → ∀ q, s1 ≤ q → q < s2 → side q = false)
  | some (.LookaheadNegative s1 s2) =>
      side s2 = side p ∧ (side p = false → side s1 = false) ∧
      (side p = true → ∀ q, s1 ≤ q → q < s2 → side q = false)
  | some (.LookbehindPositive s1 s2) =>
      side s2 = side p ∧ (side p = false → side s1 = false) ∧
      (side p = true → ∀ q, s1 ≤ q → q < s2 → side q = false)
  | some (.LookbehindNegative s1 s2) =>
      side s2 = side p ∧ (side p = false → side s1 = false) ∧
      (side p = true → ∀ q, s1 ≤ q → q < s2 → side q = false)
  | some _ => side (p + 1) = side p
  | none => True

/-- `sideCond` at every position. -/
def sideOk (insts : List Inst) (side : Nat → Bool) (k : Nat) : Prop :=
  ∀ p, sideCond insts side k p

/-- `sideCond` with placeholder positions exempt: during emission a `Nop` is
a reserved slot that is back-patched before the program is finished, so no
side constraint is imposed at it while it is still a `Nop`. -/
def sideCondN (insts : List Inst) (side : Nat → Bool) (k p : Nat) : Prop :=
  insts.get? p = some Inst.Nop ∨ sideCond insts side k p

/-- `sideCondN` at every position. -/
def sideOkN (insts : List Inst) (side : Nat → Bool) (k : Nat) : Prop :=
  ∀ p, sideCondN insts side k p

/-- Point update of a side marking. -/
def extSide (side : Nat → Bool) (n : Nat) (w : Bool) : Nat → Bool :=
  fun q => if q = n then w else side q

mutual

/-- Every capturing-group index in the tree is strictly greater than `n`. -/
def groupsGt (n : Nat) : AstNode → Bool
  | .Literal _ => true
  | .Dot => true
  | .Concat ns => groupsGtList n ns
  | .Alternation bs => groupsGtList n bs
  | .Quantifier sub _ _ => groupsGt n sub
  | .CharClass _ _ => true
  | .ShorthandClass _ => true
  | .Anchor _ => true
  | .Group index sub => decide (n < index) && groupsGt n sub
  | .NonCapturingGroup sub => groupsGt n sub
  | .Backreference _ => true
  | .Lookahead sub _ => groupsGt n sub
  | .Lookbehind sub _ => groupsGt n sub
  | .InlineFlags sub _ => groupsGt n sub

/-- `groupsGt` over a list of children. -/
def groupsGtList (n : Nat) : List AstNode → Bool
  | [] => true
  | node :: rest => groupsGt n node && groupsGtList n rest

end

mutual

/-- Parser-shaped group indexing: every group's body only contains groups
with strictly larger indices (`group_count` is incremented before the body
is parsed), so no group is nested within a group of the same index. -/
def wfIdx : AstNode → Bool
  | .Literal _ => true
  | .Dot => true
  | .Concat ns => wfIdxList ns
  | .Alternation bs => wfIdxList bs
  | .Quantifier sub _ _ => wfIdx sub
  | .CharClass _ _ => true
  | .ShorthandClass _ => true
  | .Anchor _ => true
  | .Group index sub => groupsGt index sub && wfIdx sub
  | .NonCapturingGroup sub => wfIdx sub
  | .Backreference _ => true
  | .Lookahead sub _ => wfIdx sub
  | .Lookbehind sub _ => wfIdx sub
  | .InlineFlags sub _ => wfIdx sub

/-- `wfIdx` over a list of children. -/
def wfIdxList : List AstNode → Bool
  | [] => true
  | node :: rest => wfIdx node && wfIdxList rest

end

/-- The Range-quantifier side condition of claim C10: `Range n m` compiles
iff `n ≤ m` (otherwise the compiler's `m - n` underflows `usize`). -/
def rangeOkKind : QuantifierKind → Bool
  | .Range n m => decide (n ≤ m)
  | _ => true

mutual

/-- Every `Range(n, m)` quantifier in the tree satisfies `n ≤ m`. -/
def rangesWF : AstNode → Bool
  | .Literal _ => true
  | .Dot => true
  | .Concat ns => rangesWFList ns
  | .Alternation bs => rangesWFList bs
  | .Quantifier sub kind _ => rangeOkKind kind && rangesWF sub
  | .CharClass _ _ => true
  | .ShorthandClass _ => true
  | .Anchor _ => true
  | .Group _ sub => rangesWF sub
  | .NonCapturingGroup sub => rangesWF sub
  | .Backreference _ => true
  | .Lookahead sub _ => rangesWF sub
  | .Lookbehind sub _ => rangesWF sub
  | .InlineFlags sub _ => rangesWF sub

/-- `rangesWF` over a list of children. -/
def rangesWFList : List AstNode → Bool
  | [] => true
  | n :: rest => rangesWF n && rangesWFList rest

end

/-- Every `Save` instruction in the list targets a slot ≥ 2 (true of all
programs compiled from parser output, whose group indices are ≥ 1). -/
def savesGe2 : List Inst → Bool
  | [] => true
  | .Save slot :: rest => decide (2 ≤ slot) && savesGe2 rest
  | _ :: rest => savesGe2 rest

mutual

/-- Every capturing-group index in the tree is ≥ 1 (as assigned by the
parser, which increments `group_count` before using it). -/
def groupsGe1 : AstNode → Bool
  | .Literal _ => true
  | .Dot => true
  | .Concat ns => groupsGe1List ns
  | .Alternation bs => groupsGe1List bs
  | .Quantifier sub _ _ => groupsGe1 sub
  | .CharClass _ _ => true
  | .ShorthandClass _ => true
  | .Anchor _ => true
  | .Group index sub => decide (1 ≤ index) && groupsGe1 sub
  | .NonCapturingGroup sub => groupsGe1 sub
  | .Backreference _ => true
  | .Lookahead sub _ => groupsGe1 sub
  | .Lookbehind sub _ => groupsGe1 sub
  | .InlineFlags sub _ => groupsGe1 sub

/-- `groupsGe1` over a list of children. -/
def groupsGe1List : List AstNode → Bool
  | [] => true
  | n :: rest => groupsGe1 n && groupsGe1List rest

end

/-- Acceptance of the substring `[a, b)` of `chars` by the compiled program:
some run of the VM started at `a` on a fresh capture array (slot 0 = `a`)
succeeds with match-end slot 1 = `b`.  This is the engine's own notion of
"the substring `S[a..b]` is accepted" used by spec invariant 1 / claim C1. -/
def AcceptsAt (prog : Program) (chars : List Char) (a b : Nat) : Prop :=
  ∃ fuel caps undo,
    exec fuel prog chars a 0 (initCaps ((prog.n_groups + 1) * 2) a) [] 0 = .out true caps undo ∧
    caps.getD 1 none = some b

/-! ## Undo-log lemmas (used by claims C7, C1, C2, C3) -/

/-- Overwriting an entry of a list with its own current value is the
identity. -/
theorem set_getD_self {α : Type} (l : List α) (n : Nat) (d : α) (h : n < l.length) :
    l.set n (l.getD n d) = l := by
  induction l generalizing n with
  | nil => simp at h
  | cons a t ih =>
    cases n with
    | zero => rfl
    | succ m =>
      simp only [List.getD_cons_succ, List.set_cons_succ, List.cons.injEq, true_and]
      exact ih m (by simpa using h)

/-- Popping the undo log to its own current length is the identity. -/
theorem popTo_self (caps : Caps) (undo : Undo) :
    popTo undo.length caps undo = (caps, undo) := by
  cases undo with
  | nil => rfl
  | cons e rest => simp [popTo]

/-- Popping to a deeper mark after popping to a shallower one is the same as
popping to the deeper mark directly. -/
theorem popTo_compose (undo : Undo) (n m : Nat) (caps : Caps) (h : n ≤ m) :
    popTo n (popTo m caps undo).1 (popTo m caps undo).2 = popTo n caps undo := by
  induction undo generalizing caps with
  | nil => simp [popTo]
  | cons e rest ih =>
    by_cases hm : rest.length + 1 ≤ m
    · simp only [popTo, if_pos hm]
    · simp only [popTo, if_neg hm, if_neg (by omega : ¬rest.length + 1 ≤ n)]
      exact ih _

/-- The lookaround capture-propagation loop only pushes undo entries, and
popping them undoes exactly the slot writes it performed. -/
theorem propagateFrom_restore (idxs : List Nat) (sub : Caps) (caps : Caps) (undo : Undo)
    (hidx : ∀ i ∈ idxs, i < caps.length) :
    undo.length ≤ (propagateFrom sub idxs caps undo).2.length ∧
    popTo undo.length (propagateFrom sub idxs caps undo).1
      (propagateFrom sub idxs caps undo).2 = (caps, undo) := by
  induction idxs generalizing caps undo with
  | nil => exact ⟨le_refl _, popTo_self caps undo⟩
  | cons i rest ih =>
    by_cases hch : sub.getD i none ≠ caps.getD i none
    · simp only [propagateFrom, if_pos hch]
      have hlen : ∀ j ∈ rest, j < (caps.set i (sub.getD i none)).length := by
        intro j hj; simpa using hidx j (List.mem_cons_of_mem _ hj)
      obtain ⟨ih1, ih2⟩ := ih (caps.set i (sub.getD i none))
        ((i, caps.getD i none) :: undo) hlen
      refine ⟨by simpa using Nat.le_of_succ_le ih1, ?_⟩
      -- rewrite through the composition at mark `undo.length + 1`
      have := popTo_compose
        ((propagateFrom sub rest (caps.set i (sub.getD i none))
            ((i, caps.getD i none) :: undo)).2) undo.length (undo.length + 1)
        (propagateFrom sub rest (caps.set i (sub.getD i none))
          ((i, caps.getD i none) :: undo)).1 (Nat.le_succ _)
      rw [show ((i, caps.getD i none) :: undo).length = undo.length + 1 from rfl] at ih2
      rw [ih2] at this
      rw [← this]
      simp only [popTo, Nat.lt_irrefl, if_neg (by omega : ¬undo.length + 1 ≤ undo.length)]
      rw [List.set_set, set_getD_self caps i none (hidx i (List.mem_cons_self i rest))]
      exact popTo_self caps undo
    · simp only [propagateFrom, if_neg hch]
      exact ih caps undo (fun j hj => hidx j (List.mem_cons_of_mem _ hj))

/-- Injectivity helper for a failing VM outcome. -/
theorem out_false_inj {caps undo caps' undo'}
    (h : ExecOut.out false caps undo = .out false caps' undo') :
    caps' = caps ∧ undo' = undo := by
  injection h with _ h2 h3
  exact ⟨h2.symm, h3.symm⟩

/-- A VM call that returns `false` can be rolled back: popping the undo log
to its length at entry restores the capture array and undo log exactly.
Every capture write on a failing path is logged (`Save`, lookaround
propagation); the only unlogged write, `Match` into slot 1, happens only on
success. -/
theorem vm_false_restores (fuel : Nat) :
    (∀ prog chars pos pc caps undo depth caps' undo',
        execLoop fuel prog chars pos pc caps undo depth = .out false caps' undo' →
        popTo undo.length caps' undo' = (caps, undo)) ∧
    (∀ prog chars pos pc caps undo depth caps' undo',
        exec fuel prog chars pos pc caps undo depth = .out false caps' undo' →
        popTo undo.length caps' undo' = (caps, undo)) := by
  induction fuel with
  | zero =>
    constructor <;>
      (intro prog chars pos pc caps undo depth caps' undo' h;
        exact ExecOut.noConfusion h)
  | succ fuel ih =>
    obtain ⟨ihL, ihE⟩ := ih
    have hsave : ∀ (caps : Caps) (undo : Undo) slot v caps' undo',
        slot < caps.length →
        popTo (undo.length + 1) caps' undo' = (caps.set slot v, (slot, caps.getD slot none) :: undo) →
        popTo undo.length caps' undo' = (caps, undo) := by
      intro caps undo slot v caps' undo' hslot hres
      have hcomp := popTo_compose undo' undo.length (undo.length + 1) caps' (Nat.le_succ _)
      rw [hres] at hcomp
      rw [← hcomp]
      simp only [popTo, if_neg (by omega : ¬undo.length + 1 ≤ undo.length)]
      rw [List.set_set, set_getD_self caps slot none hslot]
      exact popTo_self caps undo
    have hprop : ∀ (sub caps : Caps) (undo : Undo) caps' undo',
        popTo (propagate sub caps undo).2.length caps' undo' = (propagate sub caps undo) →
        popTo undo.length caps' undo' = (caps, undo) := by
      intro sub caps undo caps' undo' hres
      have hr := propagateFrom_restore (List.range' 2 (caps.length - 2)) sub caps undo
        (by intro i hi; have := List.mem_range'_1.mp hi; omega)
      have hcomp := popTo_compose undo' undo.length (propagate sub caps undo).2.length caps'
        hr.1
      rw [hres] at hcomp
      rw [← hcomp]
      exact hr.2
    constructor
    · intro prog chars pos pc caps undo depth caps' undo' h
      rcases hpc : prog.insts.get? pc with _ | inst
      · simp only [execLoop, hpc] at h
        obtain ⟨rfl, rfl⟩ := out_false_inj h
        exact popTo_self _ _
      · cases inst <;> simp only [execLoop, hpc] at h
        case Match =>
          split at h <;> simp at h
        case Char expected =>
          split at h
          · exact ihL _ _ _ _ _ _ _ _ _ h
          · obtain ⟨rfl, rfl⟩ := out_false_inj h; exact popTo_self _ _
        case AnyChar =>
          rcases hc : chars.get? pos with _ | c <;> simp only [hc] at h
          · obtain ⟨rfl, rfl⟩ := out_false_inj h; exact popTo_self _ _
          · split at h
            · exact ihL _ _ _ _ _ _ _ _ _ h
            · obtain ⟨rfl, rfl⟩ := out_false_inj h; exact popTo_self _ _
        case CharClass ranges negated =>
          rcases hc : chars.get? pos with _ | c <;> simp only [hc] at h
          · obtain ⟨rfl, rfl⟩ := out_false_inj h; exact popTo_self _ _
          · split at h
            · exact ihL _ _ _ _ _ _ _ _ _ h
            · obtain ⟨rfl, rfl⟩ := out_false_inj h; exact popTo_self _ _
        case ShorthandClass kind =>
          rcases hc : chars.get? pos with _ | c <;> simp only [hc] at h
          · obtain ⟨rfl, rfl⟩ := out_false_inj h; exact popTo_self _ _
          · split at h
            · exact ihL _ _ _ _ _ _ _ _ _ h
            · obtain ⟨rfl, rfl⟩ := out_false_inj h; exact popTo_self _ _
        case Jump target =>
          exact ihL _ _ _ _ _ _ _ _ _ h
        case Split first second =>
          rcases hx : exec fuel prog chars pos first caps undo (depth + 1) with
            ⟨_ | _, c, u⟩ | _ | _ <;> simp only [hx] at h
          · have hres := ihE _ _ _ _ _ _ _ _ _ hx
            rw [hres] at h
            exact ihL _ _ _ _ _ _ _ _ _ h
          · simp at h
          · exact ExecOut.noConfusion h
          · exact ExecOut.noConfusion h
        case Save slot =>
          split at h
          · have hres := ihL _ _ _ _ _ _ _ _ _ h
            exact hsave caps undo slot (some pos) caps' undo' (by assumption) hres
          · exact ExecOut.noConfusion h
        case AssertStart =>
          split at h
          · exact ihL _ _ _ _ _ _ _ _ _ h
          · obtain ⟨rfl, rfl⟩ := out_false_inj h; exact popTo_self _ _
        case AssertEnd =>
          split at h
          · exact ihL _ _ _ _ _ _ _ _ _ h
          · obtain ⟨rfl, rfl⟩ := out_false_inj h; exact popTo_self _ _
        case AssertWordBoundary =>
          split at h
          · exact ihL _ _ _ _ _ _ _ _ _ h
          · obtain ⟨rfl, rfl⟩ := out_false_inj h; exact popTo_self _ _
        case AssertNonWordBoundary =>
          split at h
          · exact ihL _ _ _ _ _ _ _ _ _ h
          · obtain ⟨rfl, rfl⟩ := out_false_inj h; exact popTo_self _ _
        case Backref group_idx =>
          split at h
          case isTrue =>
            split at h
            case _ gs ge =>
              split at h
              · split at h
                · split at h
                  · split at h
                    · exact ihL _ _ _ _ _ _ _ _ _ h
                    · obtain ⟨rfl, rfl⟩ := out_false_inj h; exact popTo_self _ _
                  · exact ExecOut.noConfusion h
                · obtain ⟨rfl, rfl⟩ := out_false_inj h; exact popTo_self _ _
              · exact ExecOut.noConfusion h
            all_goals (obtain ⟨rfl, rfl⟩ := out_false_inj h; exact popTo_self _ _)
          case isFalse => exact ExecOut.noConfusion h
        case LookaheadPositive sub_start sub_end =>
          rcases hx : execSub fuel prog chars pos sub_start sub_end caps [] (depth + 1) with
            ⟨_ | _, c, u⟩ | _ | _ <;> simp only [hx] at h
          · obtain ⟨rfl, rfl⟩ := out_false_inj h; exact popTo_self _ _
          · have hres := ihL _ _ _ _ _ _ _ _ _ h
            exact hprop c caps undo caps' undo' (by
              rw [show ((propagate c caps undo).1, (propagate c caps undo).2) =
                propagate c caps undo from rfl] at hres
              exact hres)
          · exact ExecOut.noConfusion h
          · exact ExecOut.noConfusion h
        case LookaheadNegative sub_start sub_end =>
          rcases hx : execSub fuel prog chars pos sub_start sub_end caps [] (depth + 1) with
            ⟨_ | _, c, u⟩ | _ | _ <;> simp only [hx] at h
          · exact ihL _ _ _ _ _ _ _ _ _ h
          · obtain ⟨rfl, rfl⟩ := out_false_inj h; exact popTo_self _ _
          · exact ExecOut.noConfusion h
          · exact ExecOut.noConfusion h
        case LookbehindPositive sub_start sub_end =>
          rcases hx : lbScan fuel prog chars (List.range (pos + 1)) pos sub_start sub_end caps
              (depth + 1) with ⟨c⟩ | _ | _ | _ <;> simp only [hx] at h
          · have hres := ihL _ _ _ _ _ _ _ _ _ h
            exact hprop c caps undo caps' undo' (by
              rw [show ((propagate c caps undo).1, (propagate c caps undo).2) =
                propagate c caps undo from rfl] at hres
              exact hres)
          · obtain ⟨rfl, rfl⟩ := out_false_inj h; exact popTo_self _ _
          · exact ExecOut.noConfusion h
          · exact ExecOut.noConfusion h
        case LookbehindNegative sub_start sub_end =>
          rcases hx : lbScan fuel prog chars (List.range (pos + 1)) pos sub_start sub_end caps
              (depth + 1) with ⟨c⟩ | _ | _ | _ <;> simp only [hx] at h
          · obtain ⟨rfl, rfl⟩ := out_false_inj h; exact popTo_self _ _
          · exact ihL _ _ _ _ _ _ _ _ _ h
          · exact ExecOut.noConfusion h
          · exact ExecOut.noConfusion h
        case Nop =>
          exact ihL _ _ _ _ _ _ _ _ _ h
        case CaseInsensitiveOn => exact ExecOut.noConfusion h
        case CaseInsensitiveOff => exact ExecOut.noConfusion h
    · intro prog chars pos pc caps undo depth caps' undo' h
      simp only [exec] at h
      split at h
      · obtain ⟨rfl, rfl⟩ := out_false_inj h; exact popTo_self _ _
      · exact ihL _ _ _ _ _ _ _ _ _ h

/-! ## Slot-0 preservation and success invariants (claims C1, C2, C3) -/

/-- Setting one index leaves `getD` at another index unchanged. -/
theorem getD_set_ne {α : Type} (l : List α) (i j : Nat) (v d : α) (h : i ≠ j) :
    (l.set i v).getD j d = l.getD j d := by
  simp [List.getD_eq_getElem?_getD, List.getElem?_set_ne h]

/-- `getD` after setting the same in-range index returns the new value. -/
theorem getD_set_lt {α : Type} (l : List α) (i : Nat) (v d : α) (h : i < l.length) :
    (l.set i v).getD i d = v := by
  simp [List.getD_eq_getElem?_getD, List.getElem?_set_self', List.getElem?_eq_getElem h]

/-- Looking up a `Save` in a `savesGe2` list yields a slot ≥ 2. -/
theorem savesGe2_get (insts : List Inst) (pc slot : Nat)
    (hw : savesGe2 insts = true) (hg : insts.get? pc = some (.Save slot)) : 2 ≤ slot := by
  induction insts generalizing pc with
  | nil => simp at hg
  | cons i rest ih =>
    cases pc with
    | zero =>
      simp only [List.get?_cons_zero, Option.some.injEq] at hg
      subst hg
      simp only [savesGe2, Bool.and_eq_true, decide_eq_true_eq] at hw
      exact hw.1
    | succ pc' =>
      refine ih pc' ?_ (by simpa using hg)
      cases i <;> simp_all [savesGe2]

/-- Popping undo entries whose slots are all ≥ 2 leaves slot 0 untouched and
keeps the remaining entries' slots ≥ 2. -/
theorem popTo_get0 (m : Nat) (caps : Caps) (undo : Undo) (h : ∀ e ∈ undo, 2 ≤ e.1) :
    (popTo m caps undo).1.getD 0 none = caps.getD 0 none ∧
    (∀ e ∈ (popTo m caps undo).2, 2 ≤ e.1) := by
  induction undo generalizing caps with
  | nil =>
    refine ⟨rfl, ?_⟩
    intro x hx
    simp only [popTo] at hx
    simp at hx
  | cons e rest ih =>
    by_cases hm : rest.length + 1 ≤ m
    · simp only [popTo, if_pos hm]
      exact ⟨by simp, h⟩
    · simp only [popTo, if_neg hm]
      obtain ⟨ih1, ih2⟩ := ih (caps.set e.1 e.2) (fun x hx => h x (List.mem_cons_of_mem _ hx))
      refine ⟨?_, ih2⟩
      rw [ih1, getD_set_ne]
      have := h e (List.mem_cons_self e rest)
      omega

/-- Propagating capture slots at indices ≥ 2 leaves slot 0 untouched and
pushes only entries with slots ≥ 2. -/
theorem propagateFrom_get0 (idxs : List Nat) (sub caps : Caps) (undo : Undo)
    (hidx : ∀ i ∈ idxs, 2 ≤ i) (h : ∀ e ∈ undo, 2 ≤ e.1) :
    (propagateFrom sub idxs caps undo).1.getD 0 none = caps.getD 0 none ∧
    (∀ e ∈ (propagateFrom sub idxs caps undo).2, 2 ≤ e.1) := by
  induction idxs generalizing caps undo with
  | nil => exact ⟨rfl, h⟩
  | cons i rest ih =>
    by_cases hch : sub.getD i none ≠ caps.getD i none
    · simp only [propagateFrom, if_pos hch]
      have hi := hidx i (List.mem_cons_self i rest)
      obtain ⟨ih1, ih2⟩ := ih (caps.set i (sub.getD i none)) ((i, caps.getD i none) :: undo)
        (fun j hj => hidx j (List.mem_cons_of_mem _ hj))
        (by
          intro x hx
          rcases List.mem_cons.mp hx with hx | hx
          · subst hx; exact hi
          · exact h x hx)
      refine ⟨?_, ih2⟩
      rw [ih1, getD_set_ne] ; omega
    · simp only [propagateFrom, if_neg hch]
      exact ih caps undo (fun j hj => hidx j (List.mem_cons_of_mem _ hj)) h

/-- `propagate` (indices 2 and up) leaves slot 0 untouched and pushes only
entries with slots ≥ 2. -/
theorem propagate_get0 (sub caps : Caps) (undo : Undo) (h : ∀ e ∈ undo, 2 ≤ e.1) :
    (propagate sub caps undo).1.getD 0 none = caps.getD 0 none ∧
    (∀ e ∈ (propagate sub caps undo).2, 2 ≤ e.1) :=
  propagateFrom_get0 _ sub caps undo
    (by intro i hi; have := List.mem_range'_1.mp hi; omega) h

/-- For programs whose `Save` slots are all ≥ 2 (compiled parser output),
the VM never writes capture slot 0, keeps every undo entry's slot ≥ 2, and
on success always leaves slot 1 set (the `Match` write). -/
theorem vm_slot0 (fuel : Nat) :
    (∀ prog chars pos pc caps undo depth r caps' undo',
        savesGe2 prog.insts = true →
        (∀ e ∈ undo, 2 ≤ e.1) →
        execLoop fuel prog chars pos pc caps undo depth = .out r caps' undo' →
        caps'.getD 0 none = caps.getD 0 none ∧ (∀ e ∈ undo', 2 ≤ e.1) ∧
          (r = true → ∃ p, caps'.getD 1 none = some p)) ∧
    (∀ prog chars pos pc caps undo depth r caps' undo',
        savesGe2 prog.insts = true →
        (∀ e ∈ undo, 2 ≤ e.1) →
        exec fuel prog chars pos pc caps undo depth = .out r caps' undo' →
        caps'.getD 0 none = caps.getD 0 none ∧ (∀ e ∈ undo', 2 ≤ e.1) ∧
          (r = true → ∃ p, caps'.getD 1 none = some p)) := by
  induction fuel with
  | zero =>
    constructor <;>
      (intro prog chars pos pc caps undo depth r caps' undo' _ _ h;
        exact ExecOut.noConfusion h)
  | succ fuel ih =>
    obtain ⟨ihL, ihE⟩ := ih
    constructor
    · intro prog chars pos pc caps undo depth r caps' undo' hw hu h
      rcases hpc : prog.insts.get? pc with _ | inst
      · simp only [execLoop, hpc] at h
        injection h with h1 h2 h3
        subst h1; subst h2; subst h3
        exact ⟨rfl, hu, by simp⟩
      · cases inst <;> simp only [execLoop, hpc] at h
        case Match =>
          split at h
          · injection h with h1 h2 h3
            subst h1; subst h2; subst h3
            refine ⟨getD_set_ne caps 1 0 _ _ (by omega), hu, fun _ => ⟨pos, ?_⟩⟩
            exact getD_set_lt caps 1 _ _ (by assumption)
          · exact ExecOut.noConfusion h
        case Char expected =>
          split at h
          · exact ihL _ _ _ _ _ _ _ _ _ _ hw hu h
          · injection h with h1 h2 h3; subst h1; subst h2; subst h3
            exact ⟨rfl, hu, by simp⟩
        case AnyChar =>
          rcases hc : chars.get? pos with _ | c <;> simp only [hc] at h
          · injection h with h1 h2 h3; subst h1; subst h2; subst h3
            exact ⟨rfl, hu, by simp⟩
          · split at h
            · exact ihL _ _ _ _ _ _ _ _ _ _ hw hu h
            · injection h with h1 h2 h3; subst h1; subst h2; subst h3
              exact ⟨rfl, hu, by simp⟩
        case CharClass ranges negated =>
          rcases hc : chars.get? pos with _ | c <;> simp only [hc] at h
          · injection h with h1 h2 h3; subst h1; subst h2; subst h3
            exact ⟨rfl, hu, by simp⟩
          · split at h
            · exact ihL _ _ _ _ _ _ _ _ _ _ hw hu h
            · injection h with h1 h2 h3; subst h1; subst h2; subst h3
              exact ⟨rfl, hu, by simp⟩
        case ShorthandClass kind =>
          rcases hc : chars.get? pos with _ | c <;> simp only [hc] at h
          · injection h with h1 h2 h3; subst h1; subst h2; subst h3
            exact ⟨rfl, hu, by simp⟩
          · split at h
            · exact ihL _ _ _ _ _ _ _ _ _ _ hw hu h
            · injection h with h1 h2 h3; subst h1; subst h2; subst h3
              exact ⟨rfl, hu, by simp⟩
        case Jump target =>
          exact ihL _ _ _ _ _ _ _ _ _ _ hw hu h
        case Split first second =>
          rcases hx : exec fuel prog chars pos first caps undo (depth + 1) with
            ⟨_ | _, c, u⟩ | _ | _ <;> simp only [hx] at h
          · obtain ⟨g1, g2, _⟩ := ihE _ _ _ _ _ _ _ _ _ _ hw hu hx
            obtain ⟨p1, p2⟩ := popTo_get0 undo.length c u g2
            obtain ⟨q1, q2, q3⟩ := ihL _ _ _ _ _ _ _ _ _ _ hw p2 h
            exact ⟨by rw [q1, p1, g1], q2, q3⟩
          · injection h with h1 h2 h3; subst h1; subst h2; subst h3
            obtain ⟨g1, g2, g3⟩ := ihE _ _ _ _ _ _ _ _ _ _ hw hu hx
            exact ⟨g1, g2, g3⟩
          · exact ExecOut.noConfusion h
          · exact ExecOut.noConfusion h
        case Save slot =>
          split at h
          · have hslot : 2 ≤ slot := savesGe2_get prog.insts pc slot hw hpc
            obtain ⟨q1, q2, q3⟩ := ihL _ _ _ _ _ _ _ _ _ _ hw
              (by
                intro x hx
                rcases List.mem_cons.mp hx with hx | hx
                · subst hx; exact hslot
                · exact hu x hx) h
            refine ⟨?_, q2, q3⟩
            rw [q1, getD_set_ne] ; omega
          · exact ExecOut.noConfusion h
        case AssertStart =>
          split at h
          · exact ihL _ _ _ _ _ _ _ _ _ _ hw hu h
          · injection h with h1 h2 h3; subst h1; subst h2; subst h3
            exact ⟨rfl, hu, by simp⟩
        case AssertEnd =>
          split at h
          · exact ihL _ _ _ _ _ _ _ _ _ _ hw hu h
          · injection h with h1 h2 h3; subst h1; subst h2; subst h3
            exact ⟨rfl, hu, by simp⟩
        case AssertWordBoundary =>
          split at h
          · exact ihL _ _ _ _ _ _ _ _ _ _ hw hu h
          · injection h with h1 h2 h3; subst h1; subst h2; subst h3
            exact ⟨rfl, hu, by simp⟩
        case AssertNonWordBoundary =>
          split at h
          · exact ihL _ _ _ _ _ _ _ _ _ _ hw hu h
          · injection h with h1 h2 h3; subst h1; subst h2; subst h3
            exact ⟨rfl, hu, by simp⟩
        case Backref group_idx =>
          split at h
          case isTrue =>
            split at h
            case _ gs ge =>
              split at h
              · split at h
                · split at h
                  · split at h
                    · exact ihL _ _ _ _ _ _ _ _ _ _ hw hu h
                    · injection h with h1 h2 h3; subst h1; subst h2; subst h3
                      exact ⟨rfl, hu, by simp⟩
                  · exact ExecOut.noConfusion h
                · injection h with h1 h2 h3; subst h1; subst h2; subst h3
                  exact ⟨rfl, hu, by simp⟩
              · exact ExecOut.noConfusion h
            all_goals (injection h with h1 h2 h3; subst h1; subst h2; subst h3; exact ⟨rfl, hu, by simp⟩)
          case isFalse => exact ExecOut.noConfusion h
        case LookaheadPositive sub_start sub_end =>
          rcases hx : execSub fuel prog chars pos sub_start sub_end caps [] (depth + 1) with
            ⟨_ | _, c, u⟩ | _ | _ <;> simp only [hx] at h
          · injection h with h1 h2 h3; subst h1; subst h2; subst h3
            exact ⟨rfl, hu, by simp⟩
          · obtain ⟨p1, p2⟩ := propagate_get0 c caps undo hu
            obtain ⟨q1, q2, q3⟩ := ihL _ _ _ _ _ _ _ _ _ _ hw p2 h
            exact ⟨by rw [q1, p1], q2, q3⟩
          · exact ExecOut.noConfusion h
          · exact ExecOut.noConfusion h
        case LookaheadNegative sub_start sub_end =>
          rcases hx : execSub fuel prog chars pos sub_start sub_end caps [] (depth + 1) with
            ⟨_ | _, c, u⟩ | _ | _ <;> simp only [hx] at h
          · exact ihL _ _ _ _ _ _ _ _ _ _ hw hu h
          · injection h with h1 h2 h3; subst h1; subst h2; subst h3
            exact ⟨rfl, hu, by simp⟩
          · exact ExecOut.noConfusion h
          · exact ExecOut.noConfusion h
        case LookbehindPositive sub_start sub_end =>
          rcases hx : lbScan fuel prog chars (List.range (pos + 1)) pos sub_start sub_end caps
              (depth + 1) with ⟨c⟩ | _ | _ | _ <;> simp only [hx] at h
          · obtain ⟨p1, p2⟩ := propagate_get0 c caps undo hu
            obtain ⟨q1, q2, q3⟩ := ihL _ _ _ _ _ _ _ _ _ _ hw p2 h
            exact ⟨by rw [q1, p1], q2, q3⟩
          · injection h with h1 h2 h3; subst h1; subst h2; subst h3
            exact ⟨rfl, hu, by simp⟩
          · exact ExecOut.noConfusion h
          · exact ExecOut.noConfusion h
        case LookbehindNegative sub_start sub_end =>
          rcases hx : lbScan fuel prog chars (List.range (pos + 1)) pos sub_start sub_end caps
              (depth + 1) with ⟨c⟩ | _ | _ | _ <;> simp only [hx] at h
          · injection h with h1 h2 h3; subst h1; subst h2; subst h3
            exact ⟨rfl, hu, by simp⟩
          · exact ihL _ _ _ _ _ _ _ _ _ _ hw hu h
          · exact ExecOut.noConfusion h
          · exact ExecOut.noConfusion h
        case Nop =>
          exact ihL _ _ _ _ _ _ _ _ _ _ hw hu h
        case CaseInsensitiveOn => exact ExecOut.noConfusion h
        case CaseInsensitiveOff => exact ExecOut.noConfusion h
    · intro prog chars pos pc caps undo depth r caps' undo' hw hu h
      simp only [exec] at h
      split at h
      · injection h with h1 h2 h3; subst h1; subst h2; subst h3
        exact ⟨rfl, hu, by simp⟩
      · exact ihL _ _ _ _ _ _ _ _ _ _ hw hu h

/-- Inversion for a successful `Option` bind. -/
theorem option_bind_some {α β : Type} (x : Option α) (f : α → Option β) (b : β)
    (h : x.bind f = some b) : ∃ v, x = some v ∧ f v = some b := by
  cases x with
  | none => exact Option.noConfusion h
  | some v => exact ⟨v, rfl, h⟩

/-- Inversion for a successful `Except` bind. -/
theorem except_bind_ok {α β : Type} (x : Except String α) (f : α → Except String β) (b : β)
    (h : (x >>= f) = .ok b) : ∃ v, x = .ok v ∧ f v = .ok b := by
  cases x with
  | error e => exact Except.noConfusion h
  | ok v => exact ⟨v, rfl, h⟩

/-- A search-loop success comes from a successful VM run at some candidate
start, with the result assembled by `finishResult`. -/
theorem searchFrom_found (fuel : Nat) (prog : Program) (chars : List Char) (ns : Nat) :
    ∀ (starts : List Nat) (r : MatchResult),
      searchFrom fuel prog chars ns starts = .found r →
      ∃ start caps undo,
        exec fuel prog chars start 0 (initCaps ns start) [] 0 = .out true caps undo ∧
        r = finishResult start caps := by
  intro starts
  induction starts with
  | nil => intro r h; exact SearchOut.noConfusion h
  | cons start rest ih =>
    intro r h
    simp only [searchFrom] at h
    repeat' split at h
    all_goals try exact ih r h
    all_goals try exact SearchOut.noConfusion h
    all_goals (rename_i captures undo heq; exact ⟨start, captures, undo, heq, by injection h with h1; exact h1.symm⟩)

/-- A `search` success comes from a successful VM run at the reported start
(position 0 in the anchored case). -/
theorem search_found (fuel : Nat) (prog : Program) (chars : List Char) (r : MatchResult)
    (h : search fuel prog chars = .found r) :
    ∃ start caps undo,
      exec fuel prog chars start 0 (initCaps ((prog.n_groups + 1) * 2) start) [] 0 =
        .out true caps undo ∧
      r = finishResult start caps := by
  simp only [search] at h
  split at h
  · split at h
    all_goals try exact SearchOut.noConfusion h
    rename_i captures undo heq
    exact ⟨0, captures, undo, heq, by injection h with h1; exact h1.symm⟩
  · exact searchFrom_found fuel prog chars _ _ r h

/-- `savesGe2` distributes over append. -/
theorem savesGe2_append (l1 l2 : List Inst) :
    savesGe2 (l1 ++ l2) = (savesGe2 l1 && savesGe2 l2) := by
  induction l1 with
  | nil => simp [savesGe2]
  | cons i rest ih => cases i <;> simp [savesGe2, ih, Bool.and_assoc]

/-- Setting a non-`Save` instruction preserves `savesGe2`. -/
theorem savesGe2_set (l : List Inst) (pc : Nat) (v : Inst)
    (hv : ∀ s, v ≠ .Save s) (h : savesGe2 l = true) : savesGe2 (l.set pc v) = true := by
  induction l generalizing pc with
  | nil => simpa using h
  | cons i rest ih =>
    cases pc with
    | zero =>
      have hrest : savesGe2 rest = true := by cases i <;> simp_all [savesGe2]
      cases v <;> first
        | exact absurd rfl (hv _)
        | simpa [savesGe2] using hrest
    | succ pc' => cases i <;> simp_all [savesGe2]

/-- Backpatching jumps preserves `savesGe2`. -/
theorem savesGe2_applyFixups (fixups : List Nat) (l : List Inst) (endIdx : Nat)
    (h : savesGe2 l = true) : savesGe2 (applyFixups l fixups endIdx) = true := by
  induction fixups generalizing l with
  | nil => simpa [applyFixups] using h
  | cons j rest ih =>
    simp only [applyFixups, List.foldl_cons]
    exact ih _ (savesGe2_set l j _ (by intro s; simp) h)

/-- Compiling parser output (group indices ≥ 1) only appends `Save`
instructions with slots ≥ 2. -/
theorem emit_savesGe2 :
    ∀ (insts : List Inst) (node : AstNode),
      groupsGe1 node = true → savesGe2 insts = true →
      ∀ out, emit insts node = some out → savesGe2 out = true := by
  intro insts₀ node₀
  refine emit.induct
    (fun insts node => groupsGe1 node = true → savesGe2 insts = true →
      ∀ out, emit insts node = some out → savesGe2 out = true)
    (fun insts sub kind greedy => groupsGe1 sub = true → savesGe2 insts = true →
      ∀ out, emit_quantifier insts sub kind greedy = some out → savesGe2 out = true)
    (fun insts sub greedy k => groupsGe1 sub = true → savesGe2 insts = true →
      ∀ out, emitRepeatQuestion insts sub greedy k = some out → savesGe2 out = true)
    (fun insts sub k => groupsGe1 sub = true → savesGe2 insts = true →
      ∀ out, emitRepeat insts sub k = some out → savesGe2 out = true)
    (fun insts bs fixups => groupsGe1List bs = true → savesGe2 insts = true →
      ∀ out, emitAltChain insts bs fixups = some out → savesGe2 out.1 = true)
    (fun insts ns => groupsGe1List ns = true → savesGe2 insts = true →
      ∀ out, emitList insts ns = some out → savesGe2 out = true)
    ?_ ?_ ?_ ?_ ?_ ?_ ?_ ?_ ?_ ?_ ?_ ?_ ?_ ?_ ?_ ?_ ?_ ?_ ?_ ?_ ?_ ?_ ?_ ?_ ?_ ?_ ?_ ?_
    ?_ ?_ ?_ ?_ ?_ ?_ insts₀ node₀
  · intro insts ch _ hw out ho
    simp only [emit] at ho
    injection ho with h1; subst h1
    simp [savesGe2_append, savesGe2, hw]
  · intro insts _ hw out ho
    simp only [emit] at ho
    injection ho with h1; subst h1
    simp [savesGe2_append, savesGe2, hw]
  · intro insts nodes ih hg hw out ho
    exact ih (by simpa [groupsGe1] using hg) hw out (by simpa [emit] using ho)
  · intro insts _ hw out ho
    simp only [emit] at ho
    injection ho with h1; subst h1
    exact hw
  · intro insts b ih hg hw out ho
    simp only [groupsGe1, groupsGe1List, Bool.and_eq_true] at hg
    exact ih hg.1 hw out (by simpa [emit] using ho)
  · intro insts b1 b2 rest ih hg hw out ho
    simp only [groupsGe1] at hg
    simp only [emit, Option.bind_eq_bind] at ho
    obtain ⟨⟨insts1, fixups⟩, h1, h2⟩ := option_bind_some _ _ _ ho
    injection h2 with h2; subst h2
    exact savesGe2_applyFixups _ _ _ (ih hg hw (insts1, fixups) h1)
  · intro insts sub kind greedy ih hg hw out ho
    simp only [groupsGe1] at hg
    exact ih hg hw out (by simpa [emit] using ho)
  · intro insts ranges negated _ hw out ho
    simp only [emit] at ho
    injection ho with h1; subst h1
    simp [savesGe2_append, savesGe2, hw]
  · intro insts k _ hw out ho
    simp only [emit] at ho
    injection ho with h1; subst h1
    simp [savesGe2_append, savesGe2, hw]
  · intro insts _ hw out ho
    simp only [emit] at ho
    injection ho with h1; subst h1
    simp [savesGe2_append, savesGe2, hw]
  · intro insts _ hw out ho
    simp only [emit] at ho
    injection ho with h1; subst h1
    simp [savesGe2_append, savesGe2, hw]
  · intro insts _ hw out ho
    simp only [emit] at ho
    injection ho with h1; subst h1
    simp [savesGe2_append, savesGe2, hw]
  · intro insts _ hw out ho
    simp only [emit] at ho
    injection ho with h1; subst h1
    simp [savesGe2_append, savesGe2, hw]
  · intro insts index sub
    try dsimp only
    intro ih hg hw out ho
    simp only [groupsGe1, Bool.and_eq_true, decide_eq_true_eq] at hg
    simp only [emit, Option.bind_eq_bind] at ho
    obtain ⟨insts2, h1, h2⟩ := option_bind_some _ _ _ ho
    injection h2 with h2; subst h2
    have hw1 : savesGe2 (insts ++ [Inst.Save (index * 2)]) = true := by
      simp only [savesGe2_append, hw, Bool.true_and]
      simp [savesGe2]; omega
    have hw2 := ih hg.2 hw1 insts2 h1
    simp only [savesGe2_append, hw2, Bool.true_and]
    simp [savesGe2]; omega
  · intro insts sub ih hg hw out ho
    simp only [groupsGe1] at hg
    exact ih hg hw out (by simpa [emit] using ho)
  · intro insts idx _ hw out ho
    simp only [emit] at ho
    injection ho with h1; subst h1
    simp [savesGe2_append, savesGe2, hw]
  · intro insts sub positive
    try dsimp only
    intro ih hg hw out ho
    simp only [groupsGe1] at hg
    simp only [emit, Option.bind_eq_bind] at ho
    obtain ⟨insts2, h1, h2⟩ := option_bind_some _ _ _ ho
    have hw1 : savesGe2 (insts ++ [Inst.Nop]) = true := by
      simp [savesGe2_append, hw, savesGe2]
    have hw2 := ih hg hw1 insts2 h1
    have hw3 : savesGe2 (insts2 ++ [Inst.Match]) = true := by
      simp [savesGe2_append, hw2, savesGe2]
    split at h2 <;> (injection h2 with h2; subst h2; exact savesGe2_set _ _ _ (by intro s; simp) hw3)
  · intro insts sub positive
    try dsimp only
    intro ih hg hw out ho
    simp only [groupsGe1] at hg
    simp only [emit, Option.bind_eq_bind] at ho
    obtain ⟨insts2, h1, h2⟩ := option_bind_some _ _ _ ho
    have hw1 : savesGe2 (insts ++ [Inst.Nop]) = true := by
      simp [savesGe2_append, hw, savesGe2]
    have hw2 := ih hg hw1 insts2 h1
    have hw3 : savesGe2 (insts2 ++ [Inst.Match]) = true := by
      simp [savesGe2_append, hw2, savesGe2]
    split at h2 <;> (injection h2 with h2; subst h2; exact savesGe2_set _ _ _ (by intro s; simp) hw3)
  · intro insts sub flags
    try dsimp only
    intro ih hg hw out ho
    simp only [groupsGe1] at hg
    simp only [emit, Option.bind_eq_bind] at ho
    obtain ⟨insts2, h1, h2⟩ := option_bind_some _ _ _ ho
    injection h2 with h2; subst h2
    have hw1 : savesGe2 (insts ++ [Inst.CaseInsensitiveOn]) = true := by
      simp [savesGe2_append, hw, savesGe2]
    have hw2 := ih hg hw1 insts2 h1
    simp [savesGe2_append, hw2, savesGe2]
  · intro insts sub greedy
    try dsimp only
    intro ih hg hw out ho
    simp only [emit_quantifier, Option.bind_eq_bind] at ho
    obtain ⟨insts2, h1, h2⟩ := option_bind_some _ _ _ ho
    have hw1 : savesGe2 (insts ++ [Inst.Nop]) = true := by
      simp [savesGe2_append, hw, savesGe2]
    have hw2 := ih hg hw1 insts2 h1
    have hw3 : savesGe2 (insts2 ++ [Inst.Jump insts.length]) = true := by
      simp [savesGe2_append, hw2, savesGe2]
    split at h2 <;> (injection h2 with h2; subst h2; exact savesGe2_set _ _ _ (by intro s; simp) hw3)
  · intro insts sub greedy ih hg hw out ho
    simp only [emit_quantifier, Option.bind_eq_bind] at ho
    obtain ⟨insts1, h1, h2⟩ := option_bind_some _ _ _ ho
    have hw1 := ih hg hw insts1 h1
    split at h2 <;> (injection h2 with h2; subst h2; simp [savesGe2_append, hw1, savesGe2])
  · intro insts sub greedy
    try dsimp only
    intro ih hg hw out ho
    simp only [emit_quantifier, Option.bind_eq_bind] at ho
    obtain ⟨insts2, h1, h2⟩ := option_bind_some _ _ _ ho
    have hw1 : savesGe2 (insts ++ [Inst.Nop]) = true := by
      simp [savesGe2_append, hw, savesGe2]
    have hw2 := ih hg hw1 insts2 h1
    split at h2 <;> (injection h2 with h2; subst h2; exact savesGe2_set _ _ _ (by intro s; simp) hw2)
  · intro insts sub greedy n ih hg hw out ho
    exact ih hg hw out (by simpa [emit_quantifier] using ho)
  · intro insts sub greedy n ih1 ih2 hg hw out ho
    simp only [emit_quantifier, Option.bind_eq_bind] at ho
    obtain ⟨insts1, h1, h2⟩ := option_bind_some _ _ _ ho
    exact ih2 insts1 hg (ih1 hg hw insts1 h1) out
      (by simpa [emit_quantifier, Option.bind_eq_bind] using h2)
  · intro insts sub greedy n m ih1 ih2 hg hw out ho
    simp only [emit_quantifier, Option.bind_eq_bind] at ho
    obtain ⟨insts1, h1, h2⟩ := option_bind_some _ _ _ ho
    split at h2
    · exact ih2 insts1 hg (ih1 hg hw insts1 h1) out h2
    · exact Option.noConfusion h2
  · intro insts sub greedy hg hw out ho
    simp only [emitRepeatQuestion] at ho
    injection ho with h1; subst h1
    exact hw
  · intro insts sub greedy k ih1 ih2 hg hw out ho
    simp only [emitRepeatQuestion, Option.bind_eq_bind] at ho
    obtain ⟨insts1, h1, h2⟩ := option_bind_some _ _ _ ho
    exact ih2 insts1 hg (ih1 hg hw insts1 h1) out h2
  · intro insts sub hg hw out ho
    simp only [emitRepeat] at ho
    injection ho with h1; subst h1
    exact hw
  · intro insts sub k ih1 ih2 hg hw out ho
    simp only [emitRepeat, Option.bind_eq_bind] at ho
    obtain ⟨insts1, h1, h2⟩ := option_bind_some _ _ _ ho
    exact ih2 insts1 hg (ih1 hg hw insts1 h1) out h2
  · intro insts fixups _ hw out ho
    simp only [emitAltChain] at ho
    injection ho with h1; subst h1
    exact hw
  · intro insts fixups b ih hg hw out ho
    simp only [groupsGe1List, Bool.and_eq_true] at hg
    simp only [emitAltChain, Option.bind_eq_bind] at ho
    obtain ⟨insts1, h1, h2⟩ := option_bind_some _ _ _ ho
    injection h2 with h2; subst h2
    exact ih hg.1 hw insts1 h1
  · intro insts fixups b rest hne
    try dsimp only
    intro ih1 ih2 hg hw out ho
    cases rest with
    | nil => exact absurd rfl hne
    | cons b2 rest' =>
      simp only [groupsGe1List, Bool.and_eq_true] at hg
      simp only [emitAltChain, Option.bind_eq_bind] at ho
      obtain ⟨insts2, h1, h2⟩ := option_bind_some _ _ _ ho
      have hw1 : savesGe2 (insts ++ [Inst.Nop]) = true := by
        simp [savesGe2_append, hw, savesGe2]
      have hw2 := ih1 hg.1 hw1 insts2 h1
      have hw3 : savesGe2 (insts2 ++ [Inst.Nop]) = true := by
        simp [savesGe2_append, hw2, savesGe2]
      have hw4 := savesGe2_set ((insts2 ++ [Inst.Nop])) insts.length
        (Inst.Split (insts ++ [Inst.Nop]).length (insts2 ++ [Inst.Nop]).length)
        (by intro s; simp) hw3
      have := ih2 insts2
      try dsimp only at this
      exact this (by simp [groupsGe1List, hg.2.1, hg.2.2]) hw4 out h2
  · intro insts _ hw out ho
    simp only [emitList] at ho
    injection ho with h1; subst h1
    exact hw
  · intro insts n rest ih1 ih2 hg hw out ho
    simp only [groupsGe1List, Bool.and_eq_true] at hg
    simp only [emitList, Option.bind_eq_bind] at ho
    obtain ⟨insts1, h1, h2⟩ := option_bind_some _ _ _ ho
    exact ih2 insts1 hg.2 (ih1 hg.1 hw insts1 h1) out h2

/-- `groupsGe1List` distributes over append. -/
theorem groupsGe1List_append (l1 l2 : List AstNode) :
    groupsGe1List (l1 ++ l2) = (groupsGe1List l1 && groupsGe1List l2) := by
  induction l1 with
  | nil => simp [groupsGe1List]
  | cons n rest ih => simp [groupsGe1List, ih, Bool.and_assoc]

/-- One step of an if-chain of escape results: if the then-branch carries a
`groupsGe1` node and the else-chain preserves the property, so does the
whole chain. -/
theorem escape_chain_g1 {cond : Prop} [Decidable cond] (x : AstNode × PState)
    (y : Except String (AstNode × PState)) (hx : groupsGe1 x.1 = true)
    (hy : ∀ a s', y = .ok (a, s') → groupsGe1 a = true) :
    ∀ a s', (if cond then Except.ok x else y) = .ok (a, s') → groupsGe1 a = true := by
  intro a s' h
  split at h
  · injection h with h1
    subst h1
    exact hx
  · exact hy a s' h

/-- Base case of an escape if-chain. -/
theorem escape_base_g1 (x : AstNode × PState) (hx : groupsGe1 x.1 = true) :
    ∀ a s', (Except.ok x : Except String (AstNode × PState)) = .ok (a, s') →
      groupsGe1 a = true := by
  intro a s' h
  injection h with h1
  subst h1
  exact hx

/-- Top-level escapes produce flat nodes: group indices trivially ≥ 1. -/
theorem parse_escape_g1 (s : PState) (a : AstNode) (s' : PState)
    (h : parse_escape s = .ok (a, s')) : groupsGe1 a = true := by
  simp only [parse_escape] at h
  repeat' split at h
  all_goals try exact Except.noConfusion h
  refine escape_chain_g1 _ _ (by rfl) ?_ a s' h
  iterate 11 refine escape_chain_g1 _ _ (by rfl) ?_
  exact escape_base_g1 _ (by rfl)

/-- A parsed character class is a `CharClass` node: groups trivially ≥ 1. -/
theorem parse_char_class_g1 (s : PState) (a : AstNode) (s' : PState)
    (h : parse_char_class s = .ok (a, s')) : groupsGe1 a = true := by
  simp only [parse_char_class] at h
  repeat' split at h
  all_goals
    obtain ⟨⟨items, s3⟩, h1, h2⟩ := except_bind_ok _ _ _ h
    injection h2 with h2
    injection h2 with h3 h4
    subst h3
    rfl

/-- `quantify` wraps its argument in a `Quantifier` node. -/
theorem quantify_g1 (node : AstNode) (kind : QuantifierKind) (s : PState)
    (h : groupsGe1 node = true) : groupsGe1 (quantify node kind s).1 = true := by
  simp only [quantify]
  split <;> simpa [groupsGe1] using h

/-- Every node produced by the parser has all its capturing-group indices
≥ 1 (`group_count` is incremented before being used as an index). -/
theorem parser_groupsGe1 (fuel : Nat) :
    (∀ s a s', parse_alternation fuel s = .ok (a, s') → groupsGe1 a = true) ∧
    (∀ branches s a s', parse_alt_branches fuel branches s = .ok (a, s') →
      groupsGe1List branches = true → groupsGe1 a = true) ∧
    (∀ s a s', parse_concat fuel s = .ok (a, s') → groupsGe1 a = true) ∧
    (∀ nodes s a s', parse_concat_nodes fuel nodes s = .ok (a, s') →
      groupsGe1List nodes = true → groupsGe1 a = true) ∧
    (∀ s a s', parse_quantified fuel s = .ok (a, s') → groupsGe1 a = true) ∧
    (∀ s a s', parse_atom fuel s = .ok (a, s') → groupsGe1 a = true) ∧
    (∀ s a s', parse_group fuel s = .ok (a, s') → groupsGe1 a = true) := by
  induction fuel with
  | zero =>
    refine ⟨?_, ?_, ?_, ?_, ?_, ?_, ?_⟩ <;>
      (intros; exact Except.noConfusion (by assumption))
  | succ fuel ih =>
    obtain ⟨ihA, ihB, ihC, ihD, ihQ, ihAt, ihG⟩ := ih
    refine ⟨?_, ?_, ?_, ?_, ?_, ?_, ?_⟩
    · -- parse_alternation
      intro s a s' h
      simp only [parse_alternation] at h
      obtain ⟨⟨first, s1⟩, h1, h2⟩ := except_bind_ok _ _ _ h
      exact ihB [first] s1 a s' h2 (by simp [groupsGe1List, ihC s first s1 h1])
    · -- parse_alt_branches
      intro branches s a s' h hbr
      simp only [parse_alt_branches] at h
      split at h
      · obtain ⟨⟨b, s2⟩, h1, h2⟩ := except_bind_ok _ _ _ h
        refine ihB (branches ++ [b]) s2 a s' h2 ?_
        simp [groupsGe1List_append, hbr, groupsGe1List, ihC _ b s2 h1]
      · split at h
        · injection h with h1; injection h1 with h2 h3; subst h2
          simpa [groupsGe1List] using hbr
        · injection h with h1; injection h1 with h2 h3; subst h2
          simpa [groupsGe1] using hbr
    · -- parse_concat
      intro s a s' h
      exact ihD [] s a s' (by simpa [parse_concat] using h) rfl
    · -- parse_concat_nodes
      intro nodes s a s' h hns
      simp only [parse_concat_nodes] at h
      rcases hp : peek s with _ | ch <;> simp only [hp] at h
      · split at h
        · injection h with h1; injection h1 with h2 h3; subst h2
          simpa [groupsGe1List] using hns
        · injection h with h1; injection h1 with h2 h3; subst h2
          simpa [groupsGe1] using hns
      · split at h
        · split at h
          · injection h with h1; injection h1 with h2 h3; subst h2
            simpa [groupsGe1List] using hns
          · injection h with h1; injection h1 with h2 h3; subst h2
            simpa [groupsGe1] using hns
        · obtain ⟨⟨n, s1⟩, h1, h2⟩ := except_bind_ok _ _ _ h
          refine ihD (nodes ++ [n]) s1 a s' h2 ?_
          simp [groupsGe1List_append, hns, groupsGe1List, ihQ s n s1 h1]
    · -- parse_quantified
      intro s a s' h
      simp only [parse_quantified] at h
      obtain ⟨⟨node, s1⟩, h1, h2⟩ := except_bind_ok _ _ _ h
      have hnode := ihAt s node s1 h1
      split at h2
      · injection h2 with h3
        have := congrArg Prod.fst h3
        simp only at this
        rw [← this]
        exact quantify_g1 node _ _ hnode
      · injection h2 with h3
        have := congrArg Prod.fst h3
        simp only at this
        rw [← this]
        exact quantify_g1 node _ _ hnode
      · injection h2 with h3
        have := congrArg Prod.fst h3
        simp only at this
        rw [← this]
        exact quantify_g1 node _ _ hnode
      · split at h2
        · injection h2 with h3; injection h3 with h4 h5; subst h4
          simpa [groupsGe1] using hnode
        · injection h2 with h3; injection h3 with h4 h5; subst h4
          exact hnode
      · injection h2 with h3; injection h3 with h4 h5; subst h4
        exact hnode
    · -- parse_atom
      intro s a s' h
      simp only [parse_atom] at h
      split at h
      · exact Except.noConfusion h
      · exact ihG _ a s' h
      · exact parse_char_class_g1 _ a s' h
      · injection h with h1; injection h1 with h2 h3; subst h2; rfl
      · injection h with h1; injection h1 with h2 h3; subst h2; rfl
      · injection h with h1; injection h1 with h2 h3; subst h2; rfl
      · exact parse_escape_g1 _ a s' h
      · injection h with h1; injection h1 with h2 h3; subst h2; rfl
    · -- parse_group
      intro s a s' h
      simp only [parse_group] at h
      split at h
      · split at h
        · obtain ⟨⟨node, s3⟩, h1, h2⟩ := except_bind_ok _ _ _ h
          obtain ⟨s4, h3, h4⟩ := except_bind_ok _ _ _ h2
          injection h4 with h5; injection h5 with h6 h7; subst h6
          simpa [groupsGe1] using ihA _ node s3 h1
        · obtain ⟨⟨node, s3⟩, h1, h2⟩ := except_bind_ok _ _ _ h
          obtain ⟨s4, h3, h4⟩ := except_bind_ok _ _ _ h2
          injection h4 with h5; injection h5 with h6 h7; subst h6
          simpa [groupsGe1] using ihA _ node s3 h1
        · obtain ⟨⟨node, s3⟩, h1, h2⟩ := except_bind_ok _ _ _ h
          obtain ⟨s4, h3, h4⟩ := except_bind_ok _ _ _ h2
          injection h4 with h5; injection h5 with h6 h7; subst h6
          simpa [groupsGe1] using ihA _ node s3 h1
        · split at h
          · obtain ⟨⟨node, s4⟩, h1, h2⟩ := except_bind_ok _ _ _ h
            obtain ⟨s5, h3, h4⟩ := except_bind_ok _ _ _ h2
            injection h4 with h5; injection h5 with h6 h7; subst h6
            simpa [groupsGe1] using ihA _ node s4 h1
          · obtain ⟨⟨node, s4⟩, h1, h2⟩ := except_bind_ok _ _ _ h
            obtain ⟨s5, h3, h4⟩ := except_bind_ok _ _ _ h2
            injection h4 with h5; injection h5 with h6 h7; subst h6
            simpa [groupsGe1] using ihA _ node s4 h1
          · exact Except.noConfusion h
        · exact Except.noConfusion h
      · obtain ⟨⟨node, s2⟩, h1, h2⟩ := except_bind_ok _ _ _ h
        obtain ⟨s3, h3, h4⟩ := except_bind_ok _ _ _ h2
        injection h4 with h5; injection h5 with h6 h7; subst h6
        simp only [groupsGe1, Bool.and_eq_true, decide_eq_true_eq]
        exact ⟨by omega, ihA _ node s2 h1⟩

/-- The parsed pattern of `parseAll` has all group indices ≥ 1. -/
theorem parseAll_groupsGe1 (fuel : Nat) (pattern : List Char) (ast : AstNode) (g : Nat)
    (h : parseAll fuel pattern = .ok (ast, g)) : groupsGe1 ast = true := by
  simp only [parseAll] at h
  obtain ⟨⟨node, s1⟩, h1, h2⟩ := except_bind_ok _ _ _ h
  split at h2
  · exact Except.noConfusion h2
  · injection h2 with h3; injection h3 with h4 h5; subst h4
    exact (parser_groupsGe1 fuel).1 _ node s1 h1

/-! ## Claim C7 — undo-log discipline at Split -/

/-- C7: whenever the first branch of a `Split` fails, popping the undo log
back to the mark recorded at the `Split` (the log's length when the `Split`
was reached) restores the capture array to exactly its value at that moment:
every slot write made by the failed branch — `Save` writes and slots
propagated out of positive lookarounds — was logged and is undone. -/
theorem C7_split_undo_discipline (fuel : Nat) (prog : Program) (chars : List Char)
    (pos pc first second : Nat) (caps : Caps) (undo : Undo) (depth : Nat)
    (caps' : Caps) (undo' : Undo)
    (_hpc : prog.insts.get? pc = some (.Split first second))
    (hfail : exec fuel prog chars pos first caps undo (depth + 1) = .out false caps' undo') :
    popTo undo.length caps' undo' = (caps, undo) :=
  (vm_false_restores fuel).2 prog chars pos first caps undo (depth + 1) caps' undo' hfail

/-- Witness for C7: the failing first branch of the `Split` of `a|ab`
against the input `x`. -/
theorem C7_witness :
    progAab.insts.get? 0 = some (.Split 1 3) ∧
    exec 10 progAab "x".toList 0 1 (initCaps 2 0) [] 1 = .out false (initCaps 2 0) [] ∧
    popTo ([] : Undo).length (initCaps 2 0) [] = (initCaps 2 0, []) :=
  ⟨rfl, rfl,
    C7_split_undo_discipline 10 progAab "x".toList 0 0 1 3 (initCaps 2 0) [] 0
      (initCaps 2 0) [] rfl rfl⟩

/-! ## Claim C4 — the `\s` / `\S` character sets -/

/-- C4 counterexample: the claim includes the vertical tab (U+000B) in the set
matched by `\s`, but `shorthand_matches` (via Rust's `is_ascii_whitespace`)
rejects it — and accordingly `\S` accepts it. -/
theorem C4_counterexample :
    shorthand_matches (Char.ofNat 11) ShorthandKind.Space = false ∧
    shorthand_matches (Char.ofNat 11) ShorthandKind.NonSpace = true := by
  decide

/-- C4 amended: for every character `c`, `\s` matches `c` iff `c` is one of
space, tab, newline, carriage return, form feed (the vertical tab is *not*
matched), and `\S` matches exactly the complement of that set. -/
theorem C4_amended (c : Char) :
    (shorthand_matches c ShorthandKind.Space = true ↔
      (c = ' ' ∨ c = '\t' ∨ c = '\n' ∨ c = '\r' ∨ c = Char.ofNat 12)) ∧
    shorthand_matches c ShorthandKind.NonSpace = !shorthand_matches c ShorthandKind.Space := by
  refine ⟨?_, by simp [shorthand_matches]⟩
  simp only [shorthand_matches, isAsciiWhitespace, Bool.or_eq_true, decide_eq_true_eq,
    Char.ext_iff, UInt32.ext_iff, Char.toNat,
    show (' '.val.toNat) = 32 from rfl, show ('\t'.val.toNat) = 9 from rfl,
    show ('\n'.val.toNat) = 10 from rfl, show ('\r'.val.toNat) = 13 from rfl,
    show ((Char.ofNat 12).val.toNat) = 12 from rfl]
  omega

/-! ## Claim C5 — backreference to an absent group -/

/-- C5: the pattern `\5` parses with zero capturing groups, compiles to a
`Backref 5` program, and searching it against the input `x` *faults* (the
`Backref` arm indexes capture slots 10 and 11 of the 2-slot array) instead of
failing the branch as the claim states. -/
theorem C5_backref_absent_group_faults :
    parseAll 50 "\\5".toList = .ok (.Backreference 5, 0) ∧
    compile (.Backreference 5) 0 = some progC5 ∧
    search 50 progC5 "x".toList = .fault := by
  refine ⟨rfl, ?_, rfl⟩
  simp [compile, emit, extract_first_char, progC5]

/-! ## Claim C10 — compiling a Range quantifier with m < n -/

/-- C10 counterexample: the pattern `a{3,1}` parses to a `Range 3 1`
quantifier, and compiling it faults (`none`): the repetition count `m - n`
underflows `usize`. -/
theorem C10_counterexample :
    parseAll 50 "a{3,1}".toList = .ok (astC10, 0) ∧
    compile astC10 0 = none := by
  refine ⟨rfl, ?_⟩
  simp [compile, astC10, emit, emit_quantifier, emitRepeat, emitRepeatQuestion]

/-! ## Claim C6 — `group_count` versus `(` occurrences -/

/-- C6 counterexample: the pattern `\(` parses successfully (to the literal
`(`) with `group_count = 0`, yet it contains one occurrence of `(` not
immediately followed by `?`. -/
theorem C6_counterexample :
    parseAll 50 "\\(".toList = .ok (.Literal '(', 0) ∧
    countOpens "\\(".toList = 1 := by
  exact ⟨rfl, rfl⟩

/-! ## Claim C3 — reported group bounds versus the overall match -/

/-- C3 counterexample: for `(?<=(a))b` on `ab`, search reports the match
`[1, 2)` with group 1 = `(0, 1)` — the group starts *before* the overall
match start, refuting `a ≤ start`; and for `a(?=(b))` on `ab`, search reports
the match `[0, 1)` with group 1 = `(1, 2)` — the group ends *after* the
overall match end, refuting `end ≤ b`. -/
theorem C3_counterexample :
    (parseAll 50 "(?<=(a))b".toList = .ok (astC3, 1) ∧
      compile astC3 1 = some progC3 ∧
      search 50 progC3 "ab".toList = .found ⟨1, 2, [some 1, some 2, some 0, some 1]⟩ ∧
      ¬(1 ≤ 0)) ∧
    (parseAll 50 "a(?=(b))".toList = .ok (astC3b, 1) ∧
      compile astC3b 1 = some progC3b ∧
      search 50 progC3b "ab".toList = .found ⟨0, 1, [some 0, some 1, some 1, some 2]⟩ ∧
      ¬(2 ≤ 1)) := by
  refine ⟨⟨rfl, ?_, rfl, by omega⟩, ⟨rfl, ?_, rfl, by omega⟩⟩
  · simp [compile, astC3, emit, emitList, extract_first_char, progC3]
  · simp [compile, astC3b, emit, emitList, extract_first_char, progC3b]

/-! ## Claim C10 (amended part) — compilation succeeds for well-formed ranges -/

/-- `Option.bind` preserves definedness. -/
theorem isSome_bind_of {α β : Type} {o : Option α} {f : α → Option β}
    (h1 : o.isSome) (h2 : ∀ a, (f a).isSome) : (o.bind f).isSome := by
  cases o with
  | none => simp at h1
  | some a => simpa using h2 a

/-- Emission never fails on a tree whose Range quantifiers are all
well-formed: the only failing emission path is the `m - n` underflow. -/
theorem emit_total :
    ∀ (insts : List Inst) (node : AstNode), rangesWF node = true → (emit insts node).isSome := by
  intro insts₀ node₀
  refine emit.induct
    (fun insts node => rangesWF node = true → (emit insts node).isSome)
    (fun insts sub kind greedy =>
      rangeOkKind kind = true → rangesWF sub = true →
        (emit_quantifier insts sub kind greedy).isSome)
    (fun insts sub greedy k =>
      rangesWF sub = true → (emitRepeatQuestion insts sub greedy k).isSome)
    (fun insts sub k => rangesWF sub = true → (emitRepeat insts sub k).isSome)
    (fun insts bs fixups =>
      rangesWFList bs = true → (emitAltChain insts bs fixups).isSome)
    (fun insts ns => rangesWFList ns = true → (emitList insts ns).isSome)
    ?_ ?_ ?_ ?_ ?_ ?_ ?_ ?_ ?_ ?_ ?_ ?_ ?_ ?_ ?_ ?_ ?_ ?_ ?_ ?_ ?_ ?_ ?_ ?_ ?_ ?_ ?_ ?_
    ?_ ?_ ?_ ?_ ?_ ?_ insts₀ node₀
  · intro insts ch _; simp [emit]
  · intro insts _; simp [emit]
  · intro insts nodes ih h
    simpa [emit] using ih (by simpa [rangesWF] using h)
  · intro insts _; simp [emit]
  · intro insts b ih h
    simp only [rangesWF, rangesWFList, Bool.and_eq_true] at h
    simpa [emit] using ih h.1
  · intro insts b1 b2 rest ih h
    simp only [rangesWF] at h
    have h1 := ih h
    simp only [emit, Option.bind_eq_bind]
    exact isSome_bind_of h1 (fun p => by cases p; simp)
  · intro insts sub kind greedy ih h
    simp only [rangesWF, Bool.and_eq_true] at h
    simpa [emit] using ih h.1 h.2
  · intro insts ranges negated _; simp [emit]
  · intro insts k _; simp [emit]
  · intro insts _; simp [emit]
  · intro insts _; simp [emit]
  · intro insts _; simp [emit]
  · intro insts _; simp [emit]
  · intro insts index sub
    try dsimp only
    intro ih h
    simp only [rangesWF] at h
    simp only [emit, Option.bind_eq_bind]
    exact isSome_bind_of (ih h) (fun a => by simp)
  · intro insts sub ih h
    simp only [rangesWF] at h
    simpa [emit] using ih h
  · intro insts idx _; simp [emit]
  · intro insts sub positive
    try dsimp only
    intro ih h
    simp only [rangesWF] at h
    simp only [emit, Option.bind_eq_bind]
    exact isSome_bind_of (ih h) (fun a => by cases positive <;> simp)
  · intro insts sub positive
    try dsimp only
    intro ih h
    simp only [rangesWF] at h
    simp only [emit, Option.bind_eq_bind]
    exact isSome_bind_of (ih h) (fun a => by cases positive <;> simp)
  · intro insts sub flags
    try dsimp only
    intro ih h
    simp only [rangesWF] at h
    simp only [emit, Option.bind_eq_bind]
    exact isSome_bind_of (ih h) (fun a => by simp)
  · intro insts sub greedy
    try dsimp only
    intro ih _ h
    simp only [emit_quantifier, Option.bind_eq_bind]
    exact isSome_bind_of (ih h) (fun a => by cases greedy <;> simp)
  · intro insts sub greedy ih _ h
    simp only [emit_quantifier, Option.bind_eq_bind]
    exact isSome_bind_of (ih h) (fun a => by cases greedy <;> simp)
  · intro insts sub greedy
    try dsimp only
    intro ih _ h
    simp only [emit_quantifier, Option.bind_eq_bind]
    exact isSome_bind_of (ih h) (fun a => by cases greedy <;> simp)
  · intro insts sub greedy n ih _ h
    simpa [emit_quantifier] using ih h
  · intro insts sub greedy n ih1 ih2 _ h
    simp only [emit_quantifier, Option.bind_eq_bind]
    exact isSome_bind_of (ih1 h)
      (fun a => by simpa [emit_quantifier, Option.bind_eq_bind] using ih2 a rfl h)
  · intro insts sub greedy n m ih1 ih2 hk h
    have hle : n ≤ m := by simpa [rangeOkKind] using hk
    simp only [emit_quantifier, Option.bind_eq_bind]
    exact isSome_bind_of (ih1 h) (fun a => by rw [if_pos hle]; exact ih2 a h)
  · intro insts sub greedy _; simp [emitRepeatQuestion]
  · intro insts sub greedy k ih1 ih2 h
    simp only [emitRepeatQuestion, Option.bind_eq_bind]
    exact isSome_bind_of (ih1 rfl h) (fun a => ih2 a h)
  · intro insts sub _; simp [emitRepeat]
  · intro insts sub k ih1 ih2 h
    simp only [emitRepeat, Option.bind_eq_bind]
    exact isSome_bind_of (ih1 h) (fun a => ih2 a h)
  · intro insts fixups _; simp [emitAltChain]
  · intro insts fixups b ih h
    simp only [rangesWFList, Bool.and_eq_true] at h
    simp only [emitAltChain, Option.bind_eq_bind]
    exact isSome_bind_of (ih h.1) (fun a => by simp)
  · intro insts fixups b rest hne
    try dsimp only
    intro ih1 ih2 h
    cases rest with
    | nil => exact absurd rfl hne
    | cons b2 rest' =>
      simp only [rangesWFList, Bool.and_eq_true] at h
      simp only [emitAltChain, Option.bind_eq_bind]
      exact isSome_bind_of (ih1 h.1) (fun a => by
        have := ih2 a
        try dsimp only at this
        exact this (by simp [rangesWFList, h.2.1, h.2.2]))
  · intro insts _; simp [emitList]
  · intro insts n rest ih1 ih2 h
    simp only [rangesWFList, Bool.and_eq_true] at h
    simp only [emitList, Option.bind_eq_bind]
    exact isSome_bind_of (ih1 h.1) (fun a => ih2 a h.2)

/-- C10 amended: for every syntax tree in which each `Range(n, m)` quantifier
has `n ≤ m`, compilation terminates and returns a program; a tree with
`m < n` (such as the parse of `a{3,1}`, see the counterexample) faults on the
`m - n` repetition-count subtraction. -/
theorem C10_amended (ast : AstNode) (n_groups : Nat) (h : rangesWF ast = true) :
    ∃ p, compile ast n_groups = some p := by
  have h2 : (compile ast n_groups).isSome := by
    simp only [compile, Option.bind_eq_bind]
    exact isSome_bind_of (emit_total [] ast h) (fun a => by simp)
  exact Option.isSome_iff_exists.mp h2

/-- Witness for C10: the tree of the pattern `a` is Range-well-formed and
compiles. -/
theorem C10_witness :
    rangesWF (.Literal 'a') = true ∧ ∃ p, compile (.Literal 'a') 0 = some p :=
  ⟨rfl, C10_amended (.Literal 'a') 0 rfl⟩

/-! ## Claim C8 — termination of VM execution -/

/-- On `(?:)*?b` against `c` the VM loops forever: the state at the lazy
star's `Split` recurs exactly (same position, captures and undo log, same
depth) after the failing first branch and the `Jump` back, so every fuel is
exhausted. -/
theorem lazyEmptyStarSpins (fuel : Nat) :
    execLoop fuel progC8 "c".toList 0 0 (initCaps 2 0) [] 0 = .spin := by
  induction fuel using Nat.strong_induction_on with
  | _ fuel ih =>
    match fuel with
    | 0 => rfl
    | 1 => rfl
    | 2 => rfl
    | (k + 3) => exact ih (k + 1) (by omega)

/-- C8: the pattern `(?:)*?b` parses and compiles, yet running the VM on
input `c` never terminates, for every amount of fuel: the lazy-star cycle is
re-entered through the Split's *second* branch in the same frame, which does
not increase the depth counter, so the depth bound never fires and the claim
that execution always terminates fails. -/
theorem C8_execution_can_diverge :
    parseAll 50 "(?:)*?b".toList = .ok (astC8, 0) ∧
    compile astC8 0 = some progC8 ∧
    ∀ fuel, search fuel progC8 "c".toList = .spin := by
  refine ⟨rfl, ?_, ?_⟩
  · simp [compile, astC8, emit, emitList, emit_quantifier, extract_first_char, progC8]
  · intro fuel
    cases fuel with
    | zero => rfl
    | succ m =>
      have hx : exec (m + 1) progC8 "c".toList 0 0 (initCaps 2 0) [] 0 = .spin :=
        lazyEmptyStarSpins m
      simp only [search, searchFrom, show List.range 2 = [0, 1] from rfl,
        show progC8.anchored_start = false from rfl,
        show progC8.first_char = (none : Option Char) from rfl,
        show (progC8.n_groups + 1) * 2 = 2 from rfl, Bool.false_eq_true, if_false]
      rw [hx]

/-! ## Claim C9 — left-to-right alternation preference -/

/-- C9: at a `Split`, if executing the first (left) target succeeds then the
whole dispatch returns exactly that success — the second (right) target is
never consulted; and concretely, searching the compiled `a|ab` against `ab`
reports the overall match `[0, 1)`, i.e. the text `a` of the first
alternative. -/
theorem C9_alternation_left_preference :
    (∀ fuel program chars pos pc first second captures undo depth c u,
        program.insts.get? pc = some (.Split first second) →
        exec fuel program chars pos first captures undo (depth + 1) = .out true c u →
        execLoop (fuel + 1) program chars pos pc captures undo depth = .out true c u) ∧
    parseAll 50 "a|ab".toList = .ok (astAab, 0) ∧
    compile astAab 0 = some progAab ∧
    search 50 progAab "ab".toList = .found ⟨0, 1, [some 0, some 1]⟩ := by
  refine ⟨?_, rfl, ?_, rfl⟩
  · intro fuel program chars pos pc f s captures undo depth c u hpc hfirst
    simp only [execLoop, hpc]
    rw [hfirst]
  · simp [compile, astAab, emit, emitList, emitAltChain, applyFixups, extract_first_char,
      progAab]

/-- Witness for C9: the concrete `Split` of `progAab` with its succeeding
first branch. -/
theorem C9_witness :
    progAab.insts.get? 0 = some (.Split 1 3) ∧
    exec 10 progAab "ab".toList 0 1 (initCaps 2 0) [] 1 = .out true [some 0, some 1] [] ∧
    execLoop 11 progAab "ab".toList 0 0 (initCaps 2 0) [] 0 = .out true [some 0, some 1] [] :=
  ⟨rfl, rfl,
    C9_alternation_left_preference.1 10 progAab "ab".toList 0 0 1 3 (initCaps 2 0) [] 0
      [some 0, some 1] [] rfl rfl⟩

/-! ## Claim C1 — soundness of a reported search result -/

/-- A `getD` hit at a `some` value implies the index is in range. -/
theorem getD_some_lt (l : Caps) (n p : Nat) (h : l.getD n none = some p) :
    n < l.length := by
  by_contra hn
  rw [List.getD_eq_default _ _ (Nat.le_of_not_lt hn)] at h
  exact Option.noConfusion h

/-- C1: for every pattern that parses (yielding a syntax tree and a group
count) and compiles, if `search` on the compiled program returns a result
`r`, then capture slot 0 of `r` equals `r.start`, capture slot 1 equals
`r.end_`, and the substring `[r.start, r.end_)` of the input is accepted by
the program in the engine's own sense (`AcceptsAt`: some VM run from
`r.start` on a fresh capture array succeeds with match-end `r.end_`). -/
theorem C1_search_sound (pfuel fuel : Nat) (pattern : List Char) (ast : AstNode)
    (g : Nat) (prog : Program) (chars : List Char) (r : MatchResult)
    (hparse : parseAll pfuel pattern = .ok (ast, g))
    (hcompile : compile ast g = some prog)
    (hsearch : search fuel prog chars = .found r) :
    r.captures.getD 0 none = some r.start ∧
    r.captures.getD 1 none = some r.end_ ∧
    AcceptsAt prog chars r.start r.end_ := by
  have hg1 : groupsGe1 ast = true := parseAll_groupsGe1 pfuel pattern ast g hparse
  simp only [compile] at hcompile
  obtain ⟨insts0, hemit, hmk⟩ := option_bind_some _ _ _ hcompile
  have hsaves : savesGe2 prog.insts = true := by
    injection hmk with hmk
    subst hmk
    show savesGe2 (insts0 ++ [Inst.Match]) = true
    rw [savesGe2_append]
    have h1 : savesGe2 insts0 = true := emit_savesGe2 [] ast hg1 rfl insts0 hemit
    simp [h1, savesGe2]
  obtain ⟨start, caps, undo, hexec, hr⟩ := search_found fuel prog chars r hsearch
  obtain ⟨h0, hu, hp⟩ := (vm_slot0 fuel).2 prog chars start 0 _ [] 0 true caps undo
    hsaves (by simp) hexec
  obtain ⟨p, hp1⟩ := hp rfl
  have hinit : (initCaps ((prog.n_groups + 1) * 2) start).getD 0 none = some start := by
    simp only [initCaps]
    exact getD_set_lt _ 0 _ none (by simp)
  have hlen : 1 < caps.length := getD_some_lt caps 1 p hp1
  subst hr
  simp only [finishResult, hp1, Option.getD_some]
  refine ⟨?_, ?_, ?_⟩
  · rw [getD_set_ne caps 1 0 _ _ (by omega), h0, hinit]
  · exact getD_set_lt caps 1 _ _ hlen
  · exact ⟨fuel, caps, undo, hexec, hp1⟩

/-- Witness for C1: pattern `a`, input `a`; the search result is
`⟨0, 1, [some 0, some 1]⟩`. -/
theorem C1_witness :
    (⟨0, 1, [some 0, some 1]⟩ : MatchResult).captures.getD 0 none =
      some (⟨0, 1, [some 0, some 1]⟩ : MatchResult).start ∧
    (⟨0, 1, [some 0, some 1]⟩ : MatchResult).captures.getD 1 none =
      some (⟨0, 1, [some 0, some 1]⟩ : MatchResult).end_ ∧
    AcceptsAt ⟨[.Char 'a', .Match], 0, some 'a', false⟩ "a".toList 0 1 :=
  C1_search_sound 50 50 "a".toList (.Literal 'a') 0
    ⟨[.Char 'a', .Match], 0, some 'a', false⟩ "a".toList ⟨0, 1, [some 0, some 1]⟩
    rfl (by simp [compile, emit, extract_first_char]) rfl

/-! ## Claim C2 — the search pre-filters refine the naive driver -/

/-- With `AssertStart` as first instruction, the VM fails immediately at any
nonzero start position. -/
theorem exec_assertStart_fail (fuel : Nat) (prog : Program) (chars : List Char)
    (pos : Nat) (caps : Caps) (undo : Undo)
    (h0 : prog.insts.get? 0 = some .AssertStart) (hpos : pos ≠ 0) :
    exec (fuel + 2) prog chars pos 0 caps undo 0 = .out false caps undo := by
  simp only [exec, execLoop, h0, MAX_DEPTH]
  rw [if_neg (by omega), if_neg hpos]

/-- With `Char fc` as first instruction, the VM fails immediately at any
start position whose character is not `fc`. -/
theorem exec_firstChar_fail (fuel : Nat) (prog : Program) (chars : List Char)
    (pos : Nat) (fc : Char) (caps : Caps) (undo : Undo)
    (h0 : prog.insts.get? 0 = some (.Char fc)) (hne : chars.get? pos ≠ some fc) :
    exec (fuel + 2) prog chars pos 0 caps undo 0 = .out false caps undo := by
  simp only [exec, execLoop, h0, MAX_DEPTH]
  rw [if_neg (by omega), if_neg hne]

/-- The naive driver reports no match over any list of nonzero start
positions when the program begins with `AssertStart`. -/
theorem searchNaiveFrom_assertStart_tail (fuel : Nat) (prog : Program)
    (chars : List Char) (ns : Nat) (h0 : prog.insts.get? 0 = some .AssertStart) :
    ∀ starts : List Nat, (∀ s ∈ starts, s ≠ 0) →
      searchNaiveFrom (fuel + 2) prog chars ns starts = .nomatch := by
  intro starts
  induction starts with
  | nil => intro _; rfl
  | cons start rest ih =>
    intro hs
    simp only [searchNaiveFrom]
    rw [exec_assertStart_fail fuel prog chars start _ _ h0 (hs start (by simp))]
    exact ih (fun s hsm => hs s (by simp [hsm]))

/-- Without a required first literal the filtered and naive search loops
coincide on every list of start positions. -/
theorem searchFrom_no_filter (fuel : Nat) (prog : Program) (chars : List Char)
    (ns : Nat) (hfc : prog.first_char = none) :
    ∀ starts : List Nat,
      searchFrom fuel prog chars ns starts = searchNaiveFrom fuel prog chars ns starts := by
  intro starts
  induction starts with
  | nil => rfl
  | cons start rest ih =>
    simp only [searchFrom, searchNaiveFrom, hfc, Bool.false_eq_true, if_false]
    rcases hx : exec fuel prog chars start 0 (initCaps ns start) [] 0 with
        ⟨_ | _, c, u⟩ | _ | _ <;>
      simp only [hx] <;> first | exact ih | rfl

/-- With a required first literal that is also the program's first
instruction, the filtered and naive search loops coincide on every list of
start positions: each skipped position would have failed its VM run on the
very first instruction. -/
theorem searchFrom_char_filter (fuel : Nat) (prog : Program) (chars : List Char)
    (ns : Nat) (fc : Char) (hfc : prog.first_char = some fc)
    (h0 : prog.insts.get? 0 = some (.Char fc)) :
    ∀ starts : List Nat,
      searchFrom (fuel + 2) prog chars ns starts =
        searchNaiveFrom (fuel + 2) prog chars ns starts := by
  intro starts
  induction starts with
  | nil => rfl
  | cons start rest ih =>
    simp only [searchFrom, searchNaiveFrom, hfc]
    by_cases hskip : (if start < chars.length then chars.getD start fc != fc else true) = true
    · rw [if_pos hskip, ih]
      have hne : chars.get? start ≠ some fc := by
        intro hc
        split at hskip
        · rw [List.getD_eq_getElem?_getD, ← List.get?_eq_getElem?, hc] at hskip
          simp at hskip
        · rename_i hge
          rw [List.get?_eq_none.mpr (by omega)] at hc
          exact Option.noConfusion hc
      rw [exec_firstChar_fail fuel prog chars start fc _ _ h0 hne]
    · rw [if_neg hskip]
      rcases hx : exec (fuel + 2) prog chars start 0 (initCaps ns start) [] 0 with
          ⟨_ | _, c, u⟩ | _ | _ <;>
        simp only [hx] <;> first | exact ih | rfl

/-- Case bundle for C2: `search` agrees with the naive driver whenever the
program's pre-filter fields are consistent with its first instruction (as
`compile` guarantees). -/
theorem search_eq_naive_of (fuel : Nat) (prog : Program) (chars : List Char)
    (hcases :
      (prog.anchored_start = true ∧ prog.insts.get? 0 = some .AssertStart) ∨
      (prog.anchored_start = false ∧ prog.first_char = none) ∨
      (∃ fc, prog.anchored_start = false ∧ prog.first_char = some fc ∧
        prog.insts.get? 0 = some (.Char fc))) :
    search (fuel + 2) prog chars = searchNaive (fuel + 2) prog chars := by
  rcases hcases with ⟨ha, h0⟩ | ⟨ha, hfc⟩ | ⟨fc, ha, hfc, h0⟩
  · simp only [search, searchNaive, ha, if_true]
    rw [List.range_succ_eq_map]
    simp only [searchNaiveFrom]
    rcases hx : exec (fuel + 2) prog chars 0 0
        (initCaps ((prog.n_groups + 1) * 2) 0) [] 0 with ⟨_ | _, c, u⟩ | _ | _ <;>
      simp only [hx]
    exact (searchNaiveFrom_assertStart_tail fuel prog chars _ h0 _
      (by intro s hsm; rcases List.mem_map.mp hsm with ⟨t, _, rfl⟩; exact Nat.succ_ne_zero t)).symm
  · simp only [search, searchNaive, ha, if_false]
    exact searchFrom_no_filter (fuel + 2) prog chars _ hfc _
  · simp only [search, searchNaive, ha, if_false]
    exact searchFrom_char_filter fuel prog chars _ fc hfc h0 _

/-- C2: for every compiled program and every input, `search` — with its
anchored-at-start and required-first-literal pre-filters — returns exactly
the same result (same start, end and captures) as the naive driver
`searchNaive`, which runs the VM at every start position `0..=len` in
increasing order with no filtering; in particular the reported match starts
at the leftmost matching position. -/
theorem C2_search_refines_naive (fuel : Nat) (ast : AstNode) (g : Nat)
    (prog : Program) (chars : List Char)
    (hcompile : compile ast g = some prog) :
    search (fuel + 2) prog chars = searchNaive (fuel + 2) prog chars := by
  refine search_eq_naive_of fuel prog chars ?_
  simp only [compile] at hcompile
  obtain ⟨insts0, hemit, hmk⟩ := option_bind_some _ _ _ hcompile
  injection hmk with hmk
  subst hmk
  rcases hh : (insts0 ++ [Inst.Match]).head? with _ | i
  · simp at hh
  · have h0 : (insts0 ++ [Inst.Match]).get? 0 = some i := by
      rw [List.get?_zero]; exact hh
    cases i <;>
      first
        | exact Or.inl ⟨by simp [hh], h0⟩
        | (rename_i ch; exact Or.inr (Or.inr ⟨ch, by simp [hh], by
            simp [extract_first_char, hh], h0⟩))
        | exact Or.inr (Or.inl ⟨by simp [hh], by simp [extract_first_char, hh]⟩)

/-- Witness for C2: the program of pattern `a` against input `ba`. -/
theorem C2_witness :
    search 50 ⟨[.Char 'a', .Match], 0, some 'a', false⟩ "ba".toList =
      searchNaive 50 ⟨[.Char 'a', .Match], 0, some 'a', false⟩ "ba".toList :=
  C2_search_refines_naive 48 (.Literal 'a') 0
    ⟨[.Char 'a', .Match], 0, some 'a', false⟩ "ba".toList
    (by simp [compile, emit, extract_first_char])

/-! ## Claim C6 (amended part) — group counting for plain patterns -/

/-- Unfolding `countFrom` at a position holding the character `c`. -/
theorem countFrom_cons (chars : List Char) (pos : Nat) (c : Char)
    (h : chars.get? pos = some c) :
    countFrom chars pos =
      (if c = '(' ∧ chars.get? (pos + 1) ≠ some '?' then 1 else 0) +
        countFrom chars (pos + 1) := by
  have hlt : pos < chars.length := by
    by_contra hn
    rw [List.get?_len_le (Nat.le_of_not_lt hn)] at h
    exact Option.noConfusion h
  have hx : chars[pos]? = some c := by rw [← List.get?_eq_getElem?]; exact h
  have hv : chars[pos] = c := by
    rw [List.getElem?_eq_getElem hlt] at hx
    exact Option.some_inj.mp hx
  rw [countFrom, List.drop_eq_getElem_cons hlt, hv, countOpens]
  have hh : (chars.drop (pos + 1)).head? = chars.get? (pos + 1) := by
    rw [List.head?_drop, ← List.get?_eq_getElem?]
  rw [hh]
  rfl

/-- A non-`(` position does not change the count of remaining opens. -/
theorem countFrom_step_ne (chars : List Char) (pos : Nat)
    (h : chars.get? pos ≠ some '(') :
    countFrom chars pos = countFrom chars (pos + 1) := by
  rcases hc : chars.get? pos with _ | c
  · have hle : chars.length ≤ pos := List.get?_eq_none.mp hc
    rw [countFrom, countFrom, List.drop_eq_nil_of_le hle,
      List.drop_eq_nil_of_le (by omega)]
  · rw [countFrom_cons chars pos c hc, if_neg]
    · simp
    · rintro ⟨rfl, -⟩
      exact h hc

/-- A counted `(` position (not followed by `?`) contributes one open. -/
theorem countFrom_step_open (chars : List Char) (pos : Nat)
    (h : chars.get? pos = some '(') (h2 : chars.get? (pos + 1) ≠ some '?') :
    countFrom chars pos = 1 + countFrom chars (pos + 1) := by
  rw [countFrom_cons chars pos '(' h, if_pos ⟨rfl, h2⟩]

/-- A `(` immediately followed by `?` is not counted. -/
theorem countFrom_step_open_q (chars : List Char) (pos : Nat)
    (h : chars.get? pos = some '(') (h2 : chars.get? (pos + 1) = some '?') :
    countFrom chars pos = countFrom chars (pos + 1) := by
  rw [countFrom_cons chars pos '(' h, if_neg (by rintro ⟨-, hx⟩; exact hx h2)]
  simp

/-- `advance` at a peeked character moves the cursor one step. -/
theorem advance_peek (s : PState) (c : Char) (h : peek s = some c) :
    (advance s).2 = ⟨s.chars, s.pos + 1, s.group_count⟩ := by
  simp only [advance]
  rw [show s.chars.get? s.pos = some c from h]

/-- A successful `expectCh` consumed exactly the expected character. -/
theorem expectCh_ok (c : Char) (s s' : PState) (h : expectCh c s = .ok s') :
    peek s = some c ∧ s' = ⟨s.chars, s.pos + 1, s.group_count⟩ := by
  simp only [expectCh, advance] at h
  rcases hc : s.chars.get? s.pos with _ | c' <;> simp only [hc] at h
  · exact Except.noConfusion h
  · split at h
    · rename_i heq
      subst heq
      injection h with h1
      exact ⟨hc, h1.symm⟩
    · exact Except.noConfusion h

/-- `StateInv` is reflexive. -/
theorem StateInv_rfl (s : PState) : StateInv s s :=
  ⟨rfl, rfl⟩

/-- `StateInv` composes. -/
theorem StateInv_trans {s s1 s2 : PState} (h1 : StateInv s s1) (h2 : StateInv s1 s2) :
    StateInv s s2 := by
  obtain ⟨hc1, he1⟩ := h1
  obtain ⟨hc2, he2⟩ := h2
  rw [hc1] at hc2 he2
  exact ⟨hc2, by omega⟩

/-- Consuming a peeked non-`(` character preserves the C6 invariant. -/
theorem StateInv_advance (s : PState) (c : Char) (h : peek s = some c)
    (hc : c ≠ '(') : StateInv s (advance s).2 := by
  rw [advance_peek s c h]
  refine ⟨rfl, ?_⟩
  rw [show countFrom s.chars (⟨s.chars, s.pos + 1, s.group_count⟩ : PState).pos =
    countFrom s.chars (s.pos + 1) from rfl]
  rw [← countFrom_step_ne s.chars s.pos
    (by rw [show s.chars.get? s.pos = peek s from rfl, h]; intro hx;
        exact hc (Option.some_inj.mp hx))]

/-- `StateInv_advance` with the successor state in explicit form. -/
theorem StateInv_advance_mk (s : PState) (c : Char) (h : peek s = some c)
    (hc : c ≠ '(') : StateInv s ⟨s.chars, s.pos + 1, s.group_count⟩ := by
  have h2 := StateInv_advance s c h hc
  rwa [advance_peek s c h] at h2

/-- A successful `expectCh` of a non-`(` character preserves the invariant. -/
theorem StateInv_expectCh (c : Char) (s s' : PState) (hc : c ≠ '(')
    (h : expectCh c s = .ok s') : StateInv s s' := by
  obtain ⟨hp, hs⟩ := expectCh_ok c s s' h
  subst hs
  refine ⟨rfl, ?_⟩
  rw [show countFrom s.chars (⟨s.chars, s.pos + 1, s.group_count⟩ : PState).pos =
    countFrom s.chars (s.pos + 1) from rfl]
  rw [← countFrom_step_ne s.chars s.pos
    (by rw [show s.chars.get? s.pos = peek s from rfl, hp]; intro hx;
        exact hc (Option.some_inj.mp hx))]

/-- Every entry of a `takeWhile` prefix is an entry of the base list
satisfying the predicate. -/
theorem takeWhile_get (p : Char → Bool) (l : List Char) :
    ∀ i, i < (l.takeWhile p).length → ∃ c, l.get? i = some c ∧ p c = true := by
  induction l with
  | nil => intro i hi; simp at hi
  | cons x xs ih =>
    intro i hi
    rw [List.takeWhile_cons] at hi
    by_cases hpx : p x = true
    · rw [if_pos hpx] at hi
      cases i with
      | zero => exact ⟨x, rfl, hpx⟩
      | succ j =>
        obtain ⟨c, hc, hp⟩ := ih j (by simpa using hi)
        exact ⟨c, hc, hp⟩
    · rw [if_neg hpx] at hi
      simp at hi

/-- A run of ASCII digits contains no `(`, so it leaves the count of
remaining opens unchanged. -/
theorem countFrom_digits (chars : List Char) (k : Nat) :
    ∀ pos, (∀ i, i < k → ∃ c, chars.get? (pos + i) = some c ∧ isAsciiDigit c = true) →
      countFrom chars pos = countFrom chars (pos + k) := by
  induction k with
  | zero => intro pos _; rfl
  | succ k ih =>
    intro pos h
    obtain ⟨c, hc, hd⟩ := h 0 (by omega)
    rw [Nat.add_zero] at hc
    have hne : chars.get? pos ≠ some '(' := by
      rw [hc]
      intro hx
      rw [Option.some_inj.mp hx] at hd
      exact absurd hd (by decide)
    rw [countFrom_step_ne chars pos hne,
      show pos + (k + 1) = (pos + 1) + k by omega]
    refine ih (pos + 1) ?_
    intro i hi
    obtain ⟨c2, hc2, hd2⟩ := h (i + 1) (by omega)
    exact ⟨c2, by rw [show pos + 1 + i = pos + (i + 1) by omega]; exact hc2, hd2⟩

/-- `parse_number` preserves the C6 invariant (it consumes only digits and
never touches `group_count`). -/
theorem StateInv_parse_number (s : PState) (n : Nat) (s' : PState)
    (h : parse_number s = .ok (n, s')) : StateInv s s' := by
  simp only [parse_number] at h
  split at h
  · exact Except.noConfusion h
  · split at h
    · injection h with h1
      injection h1 with h2 h3
      subst h3
      refine ⟨rfl, ?_⟩
      rw [show (⟨s.chars, s.pos + ((s.chars.drop s.pos).takeWhile isAsciiDigit).length,
        s.group_count⟩ : PState).pos =
          s.pos + ((s.chars.drop s.pos).takeWhile isAsciiDigit).length from rfl]
      rw [← countFrom_digits s.chars _ s.pos ?_]
      intro i hi
      obtain ⟨c, hc, hp⟩ := takeWhile_get isAsciiDigit (s.chars.drop s.pos) i hi
      rw [List.get?_drop] at hc
      exact ⟨c, hc, hp⟩
    · exact Except.noConfusion h

/-- `quantify` preserves the C6 invariant (it consumes at most a `?`). -/
theorem StateInv_quantify (node : AstNode) (kind : QuantifierKind) (s : PState) :
    StateInv s (quantify node kind s).2 := by
  simp only [quantify]
  split
  · rename_i hq
    exact StateInv_advance s '?' hq (by decide)
  · exact StateInv_rfl s

/-- The optional trailing `?` of a brace quantifier preserves the C6
invariant. -/
theorem StateInv_qmark_tail {A : Type} (s3 : PState) (x y : A) (r : A) (s' : PState)
    (h : (if peek s3 = some '?' then pure (x, (advance s3).2) else pure (y, s3) :
      Except String (A × PState)) = .ok (r, s')) : StateInv s3 s' := by
  split at h
  · rename_i hq
    injection h with h1
    injection h1 with h2 h3
    subst h3
    exact StateInv_advance s3 '?' hq (by decide)
  · injection h with h1
    injection h1 with h2 h3
    subst h3
    exact StateInv_rfl s3

/-- `try_parse_brace_contents` preserves the C6 invariant (it consumes only
digits, `,`, `}` and `?`). -/
theorem StateInv_brace (s : PState) (r : QuantifierKind × Bool) (s' : PState)
    (h : try_parse_brace_contents s = .ok (r, s')) : StateInv s s' := by
  simp only [try_parse_brace_contents] at h
  obtain ⟨⟨n, s1⟩, h1, h2⟩ := except_bind_ok _ _ _ h
  refine StateInv_trans (StateInv_parse_number s n s1 h1) ?_
  split at h2
  · rename_i hcomma
    refine StateInv_trans (StateInv_advance s1 ',' hcomma (by decide)) ?_
    split at h2
    · rw [pure_bind] at h2
      obtain ⟨s3, h5, h6⟩ := except_bind_ok _ _ _ h2
      exact StateInv_trans (StateInv_expectCh '}' _ s3 (by decide) h5)
        (StateInv_qmark_tail s3 _ _ _ s' h6)
    · obtain ⟨⟨m, s3⟩, h5, h6⟩ := except_bind_ok _ _ _ h2
      rw [pure_bind] at h6
      obtain ⟨s4, h7, h8⟩ := except_bind_ok _ _ _ h6
      exact StateInv_trans (StateInv_parse_number _ m s3 h5)
        (StateInv_trans (StateInv_expectCh '}' _ s4 (by decide) h7)
          (StateInv_qmark_tail s4 _ _ _ s' h8))
  · rw [pure_bind] at h2
    obtain ⟨s3, h5, h6⟩ := except_bind_ok _ _ _ h2
    exact StateInv_trans (StateInv_expectCh '}' _ s3 (by decide) h5)
      (StateInv_qmark_tail s3 _ _ _ s' h6)

/-- Every parser function preserves the C6 invariant on plain patterns (no
backslash, no character class): the pattern is unchanged and `group_count`
grows by exactly the number of counted `(` occurrences consumed. -/
theorem parser_countInv (fuel : Nat) :
    (∀ s a s', plainPattern s.chars = true → parse_alternation fuel s = .ok (a, s') →
      StateInv s s') ∧
    (∀ branches s a s', plainPattern s.chars = true →
      parse_alt_branches fuel branches s = .ok (a, s') → StateInv s s') ∧
    (∀ s a s', plainPattern s.chars = true → parse_concat fuel s = .ok (a, s') →
      StateInv s s') ∧
    (∀ nodes s a s', plainPattern s.chars = true →
      parse_concat_nodes fuel nodes s = .ok (a, s') → StateInv s s') ∧
    (∀ s a s', plainPattern s.chars = true → parse_quantified fuel s = .ok (a, s') →
      StateInv s s') ∧
    (∀ s a s', plainPattern s.chars = true → parse_atom fuel s = .ok (a, s') →
      StateInv s s') ∧
    (∀ s a s', plainPattern s.chars = true → peek s = some '(' →
      parse_group fuel s = .ok (a, s') → StateInv s s') := by
  induction fuel with
  | zero =>
    refine ⟨?_, ?_, ?_, ?_, ?_, ?_, ?_⟩ <;>
      (intros; exact Except.noConfusion (by assumption))
  | succ fuel ih =>
    obtain ⟨ihA, ihB, ihC, ihD, ihQ, ihAt, ihG⟩ := ih
    refine ⟨?_, ?_, ?_, ?_, ?_, ?_, ?_⟩
    · -- parse_alternation
      intro s a s' hpl h
      simp only [parse_alternation] at h
      obtain ⟨⟨first, s1⟩, h1, h2⟩ := except_bind_ok _ _ _ h
      have inv1 := ihC s first s1 hpl h1
      exact StateInv_trans inv1 (ihB [first] s1 a s' (by rw [inv1.1]; exact hpl) h2)
    · -- parse_alt_branches
      intro branches s a s' hpl h
      simp only [parse_alt_branches] at h
      split at h
      · rename_i hbar
        obtain ⟨⟨b, s2⟩, h1, h2⟩ := except_bind_ok _ _ _ h
        have inv0 : StateInv s (advance s).2 := StateInv_advance s '|' hbar (by decide)
        have hpl1 : plainPattern (advance s).2.chars = true := by
          rw [advance_peek s '|' hbar]; exact hpl
        have inv1 := ihC _ b s2 hpl1 h1
        refine StateInv_trans inv0 (StateInv_trans inv1 ?_)
        exact ihB (branches ++ [b]) s2 a s' (by rw [inv1.1]; exact hpl1) h2
      · split at h <;> (injection h with h1; injection h1 with h2 h3; subst h3; exact StateInv_rfl s)
    · -- parse_concat
      intro s a s' hpl h
      exact ihD [] s a s' hpl (by simpa [parse_concat] using h)
    · -- parse_concat_nodes
      intro nodes s a s' hpl h
      simp only [parse_concat_nodes] at h
      rcases hp : peek s with _ | ch <;> simp only [hp] at h
      · split at h <;> (injection h with h1; injection h1 with h2 h3; subst h3; exact StateInv_rfl s)
      · split at h
        · split at h <;> (injection h with h1; injection h1 with h2 h3; subst h3; exact StateInv_rfl s)
        · obtain ⟨⟨n, s1⟩, h1, h2⟩ := except_bind_ok _ _ _ h
          have inv1 := ihQ s n s1 hpl h1
          exact StateInv_trans inv1 (ihD (nodes ++ [n]) s1 a s' (by rw [inv1.1]; exact hpl) h2)
    · -- parse_quantified
      intro s a s' hpl h
      simp only [parse_quantified] at h
      obtain ⟨⟨node, s1⟩, h1, h2⟩ := except_bind_ok _ _ _ h
      have inv1 := ihAt s node s1 hpl h1
      refine StateInv_trans inv1 ?_
      split at h2
      · rename_i hstar
        injection h2 with h3
        have h4 := congrArg Prod.snd h3
        simp only at h4
        rw [← h4]
        exact StateInv_trans (StateInv_advance s1 '*' hstar (by decide))
          (StateInv_quantify node _ _)
      · rename_i hplus
        injection h2 with h3
        have h4 := congrArg Prod.snd h3
        simp only at h4
        rw [← h4]
        exact StateInv_trans (StateInv_advance s1 '+' hplus (by decide))
          (StateInv_quantify node _ _)
      · rename_i hques
        injection h2 with h3
        have h4 := congrArg Prod.snd h3
        simp only at h4
        rw [← h4]
        exact StateInv_trans (StateInv_advance s1 '?' hques (by decide))
          (StateInv_quantify node _ _)
      · rename_i hbrace
        rcases hb : try_parse_brace_contents (advance s1).2 with e | ⟨⟨kind, greedy⟩, s3⟩ <;>
          simp only [hb] at h2
        · injection h2 with h3
          injection h3 with h4 h5
          subst h5
          exact ⟨rfl, rfl⟩
        · injection h2 with h3
          injection h3 with h4 h5
          subst h5
          exact StateInv_trans (StateInv_advance s1 '{' hbrace (by decide))
            (StateInv_brace _ _ s3 hb)
      · injection h2 with h3
        injection h3 with h4 h5
        subst h5
        exact StateInv_rfl s1
    · -- parse_atom
      intro s a s' hpl h
      simp only [parse_atom] at h
      split at h
      · exact Except.noConfusion h
      · rename_i hp
        exact ihG s a s' hpl hp h
      · rename_i hp
        exfalso
        have hmem : '[' ∈ s.chars := List.get?_mem hp
        have h2 : ∀ c ∈ s.chars, (c ≠ '\\' && c ≠ '[') = true := List.all_eq_true.mp hpl
        simpa using h2 '[' hmem
      · rename_i hp
        injection h with h1
        have h4 := congrArg Prod.snd h1
        simp only at h4
        rw [← h4]
        exact StateInv_advance s '.' hp (by decide)
      · rename_i hp
        injection h with h1
        have h4 := congrArg Prod.snd h1
        simp only at h4
        rw [← h4]
        exact StateInv_advance s '^' hp (by decide)
      · rename_i hp
        injection h with h1
        have h4 := congrArg Prod.snd h1
        simp only at h4
        rw [← h4]
        exact StateInv_advance s '$' hp (by decide)
      · rename_i hp
        exfalso
        have hmem : '\\' ∈ s.chars := List.get?_mem hp
        have h2 : ∀ c ∈ s.chars, (c ≠ '\\' && c ≠ '[') = true := List.all_eq_true.mp hpl
        simpa using h2 '\\' hmem
      · rename_i ch hne1 hne2 hne3 hne4 hne5 hne6 hp
        injection h with h1
        have h4 := congrArg Prod.snd h1
        simp only at h4
        rw [← h4]
        exact StateInv_advance s ch hp (fun hx => hne1 hx)
    · -- parse_group
      intro s a s' hpl hp h
      have hp' : s.chars.get? s.pos = some '(' := hp
      simp only [parse_group] at h
      rw [advance_peek s '(' hp] at h
      split at h
      · rename_i hq
        have hq' : s.chars.get? (s.pos + 1) = some '?' := hq
        have e1 : countFrom s.chars s.pos = countFrom s.chars (s.pos + 1) :=
          countFrom_step_open_q _ _ hp' hq'
        have e2 : countFrom s.chars (s.pos + 1) = countFrom s.chars (s.pos + 1 + 1) :=
          countFrom_step_ne _ _ (by rw [hq']; decide)
        have inv02 : StateInv s ⟨s.chars, s.pos + 1 + 1, s.group_count⟩ := by
          refine ⟨rfl, ?_⟩
          show s.group_count + countFrom s.chars (s.pos + 1 + 1) =
            s.group_count + countFrom s.chars s.pos
          omega
        rw [advance_peek _ '?' hq] at h
        refine StateInv_trans inv02 ?_
        split at h
        · rename_i hc
          rw [advance_peek _ ':' hc] at h
          obtain ⟨⟨node, s3⟩, h1, h2⟩ := except_bind_ok _ _ _ h
          obtain ⟨s4, h3, h4⟩ := except_bind_ok _ _ _ h2
          injection h4 with h5
          injection h5 with h6 h7
          subst h7
          refine StateInv_trans (StateInv_advance_mk _ ':' hc (by decide)) ?_
          exact StateInv_trans (ihA _ node s3 hpl h1) (StateInv_expectCh ')' s3 s4 (by decide) h3)
        · rename_i hc
          rw [advance_peek _ '=' hc] at h
          obtain ⟨⟨node, s3⟩, h1, h2⟩ := except_bind_ok _ _ _ h
          obtain ⟨s4, h3, h4⟩ := except_bind_ok _ _ _ h2
          injection h4 with h5
          injection h5 with h6 h7
          subst h7
          refine StateInv_trans (StateInv_advance_mk _ '=' hc (by decide)) ?_
          exact StateInv_trans (ihA _ node s3 hpl h1) (StateInv_expectCh ')' s3 s4 (by decide) h3)
        · rename_i hc
          rw [advance_peek _ '!' hc] at h
          obtain ⟨⟨node, s3⟩, h1, h2⟩ := except_bind_ok _ _ _ h
          obtain ⟨s4, h3, h4⟩ := except_bind_ok _ _ _ h2
          injection h4 with h5
          injection h5 with h6 h7
          subst h7
          refine StateInv_trans (StateInv_advance_mk _ '!' hc (by decide)) ?_
          exact StateInv_trans (ihA _ node s3 hpl h1) (StateInv_expectCh ')' s3 s4 (by decide) h3)
        · rename_i hc
          rw [advance_peek _ '<' hc] at h
          refine StateInv_trans (StateInv_advance_mk _ '<' hc (by decide)) ?_
          split at h
          · rename_i hd
            rw [advance_peek _ '=' hd] at h
            obtain ⟨⟨node, s4⟩, h1, h2⟩ := except_bind_ok _ _ _ h
            obtain ⟨s5, h3, h4⟩ := except_bind_ok _ _ _ h2
            injection h4 with h5
            injection h5 with h6 h7
            subst h7
            refine StateInv_trans (StateInv_advance_mk _ '=' hd (by decide)) ?_
            exact StateInv_trans (ihA _ node s4 hpl h1)
              (StateInv_expectCh ')' s4 s5 (by decide) h3)
          · rename_i hd
            rw [advance_peek _ '!' hd] at h
            obtain ⟨⟨node, s4⟩, h1, h2⟩ := except_bind_ok _ _ _ h
            obtain ⟨s5, h3, h4⟩ := except_bind_ok _ _ _ h2
            injection h4 with h5
            injection h5 with h6 h7
            subst h7
            refine StateInv_trans (StateInv_advance_mk _ '!' hd (by decide)) ?_
            exact StateInv_trans (ihA _ node s4 hpl h1)
              (StateInv_expectCh ')' s4 s5 (by decide) h3)
          · exact Except.noConfusion h
        · exact Except.noConfusion h
      · rename_i hq
        obtain ⟨⟨node, s2⟩, h1, h2⟩ := except_bind_ok _ _ _ h
        obtain ⟨s3, h3, h4⟩ := except_bind_ok _ _ _ h2
        injection h4 with h5
        injection h5 with h6 h7
        subst h7
        have e0 : countFrom s.chars s.pos = 1 + countFrom s.chars (s.pos + 1) :=
          countFrom_step_open _ _ hp' (fun hx => hq hx)
        have inv1 := ihA ⟨s.chars, s.pos + 1, s.group_count + 1⟩ node s2 hpl h1
        have hc2 : s2.chars = s.chars := inv1.1
        have he2 : s2.group_count + countFrom s.chars s2.pos =
            (s.group_count + 1) + countFrom s.chars (s.pos + 1) := inv1.2
        have inv2 := StateInv_expectCh ')' s2 s3 (by decide) h3
        have hc3 : s3.chars = s2.chars := inv2.1
        have he3 : s3.group_count + countFrom s2.chars s3.pos =
            s2.group_count + countFrom s2.chars s2.pos := inv2.2
        rw [hc2] at he3
        refine ⟨by rw [hc3, hc2], ?_⟩
        omega

/-- C6 amended: for every pattern containing no backslash and no `[` (so no
escapes and no character classes) that parses successfully, the parser's
`group_count` equals the number of occurrences of `(` in the pattern not
immediately followed by `?`. -/
theorem C6_amended (fuel : Nat) (pattern : List Char) (ast : AstNode) (g : Nat)
    (hpl : plainPattern pattern = true)
    (h : parseAll fuel pattern = .ok (ast, g)) : g = countOpens pattern := by
  simp only [parseAll] at h
  obtain ⟨⟨node, s1⟩, h1, h2⟩ := except_bind_ok _ _ _ h
  have inv := (parser_countInv fuel).1 ⟨pattern, 0, 0⟩ node s1 hpl h1
  split at h2
  · exact Except.noConfusion h2
  · rename_i hend
    injection h2 with h3
    injection h3 with h4 h5
    subst h5
    have hend' : ¬(s1.pos < s1.chars.length) := hend
    have hc : s1.chars = pattern := inv.1
    have he : s1.group_count + countFrom pattern s1.pos = 0 + countFrom pattern 0 := inv.2
    rw [hc] at hend'
    have hzero : countFrom pattern s1.pos = 0 := by
      rw [countFrom, List.drop_eq_nil_of_le (by omega)]
      rfl
    have hfull : countFrom pattern 0 = countOpens pattern := by
      rw [countFrom, List.drop_zero]
    show s1.group_count = countOpens pattern
    omega

/-- Witness for C6 amended: the pattern `(a)(?:b)` has one counted `(` and
parses with `group_count = 1`. -/
theorem C6_witness : (1 : Nat) = countOpens "(a)(?:b)".toList :=
  C6_amended 50 "(a)(?:b)".toList (.Concat [.Group 1 (.Literal 'a'),
    .NonCapturingGroup (.Literal 'b')]) 1 (by decide) rfl

/-! ## Claim C3 (amended part) — bounds on reported capture positions -/

/-- A `getD` hit in a bounded capture array is bounded. -/
theorem CapsLe_getD (caps : Caps) (n i p : Nat) (h : CapsLe caps n = true)
    (hg : caps.getD i none = some p) : p ≤ n := by
  rcases hx : caps.get? i with _ | v
  · rw [List.getD_eq_getElem?_getD, ← List.get?_eq_getElem?, hx] at hg
    exact Option.noConfusion hg
  · have hv : v = some p := by
      rw [List.getD_eq_getElem?_getD, ← List.get?_eq_getElem?, hx] at hg
      simpa using hg
    have hmem : (some p : Option Nat) ∈ caps := hv ▸ List.get?_mem hx
    have := List.all_eq_true.mp h _ hmem
    simpa using this

/-- Setting a bounded (or unset) value preserves `CapsLe`. -/
theorem CapsLe_set (caps : Caps) (n i : Nat) (v : Option Nat) (h : CapsLe caps n = true)
    (hv : ∀ p, v = some p → p ≤ n) : CapsLe (caps.set i v) n = true := by
  refine List.all_eq_true.mpr ?_
  intro x hx
  rcases List.mem_or_eq_of_mem_set hx with hx | hx
  · exact List.all_eq_true.mp h x hx
  · rw [hx]
    rcases v with _ | p
    · rfl
    · simpa using hv p rfl

/-- Values of a bounded undo log are bounded. -/
theorem UndoLe_mem (undo : Undo) (n : Nat) (e : UndoEntry) (h : UndoLe undo n = true)
    (he : e ∈ undo) : ∀ p, e.2 = some p → p ≤ n := by
  intro p hp
  have := List.all_eq_true.mp h e he
  rw [hp] at this
  simpa using this

/-- Pushing a bounded entry preserves `UndoLe`. -/
theorem UndoLe_cons (undo : Undo) (n : Nat) (e : UndoEntry) (h : UndoLe undo n = true)
    (he : ∀ p, e.2 = some p → p ≤ n) : UndoLe (e :: undo) n = true := by
  refine List.all_eq_true.mpr ?_
  intro x hx
  rcases List.mem_cons.mp hx with hx | hx
  · subst hx
    rcases he2 : x.2 with _ | p
    · simp [he2]
    · simpa [he2] using he p he2
  · exact List.all_eq_true.mp h x hx

/-- The tail of a bounded undo log is bounded. -/
theorem UndoLe_tail (undo : Undo) (n : Nat) (e : UndoEntry)
    (h : UndoLe (e :: undo) n = true) : UndoLe undo n = true := by
  refine List.all_eq_true.mpr ?_
  intro x hx
  exact List.all_eq_true.mp h x (by simp [hx])

/-- Popping the undo log back to a mark preserves both bounds. -/
theorem popTo_bounds (m : Nat) (caps : Caps) (undo : Undo) (n : Nat)
    (hc : CapsLe caps n = true) (hu : UndoLe undo n = true) :
    CapsLe (popTo m caps undo).1 n = true ∧ UndoLe (popTo m caps undo).2 n = true := by
  induction undo generalizing caps with
  | nil => exact ⟨hc, rfl⟩
  | cons e rest ih =>
    simp only [popTo]
    split
    · exact ⟨hc, hu⟩
    · exact ih (caps.set e.1 e.2)
        (CapsLe_set caps n e.1 e.2 hc (UndoLe_mem _ n e hu (by simp)))
        (UndoLe_tail rest n e hu)

/-- The propagation loop of the positive lookaround arms preserves both
bounds when the sub-run's captures are bounded. -/
theorem propagateFrom_bounds (sub : Caps) (idxs : List Nat) (n : Nat) :
    ∀ (caps : Caps) (undo : Undo), CapsLe sub n = true → CapsLe caps n = true →
      UndoLe undo n = true →
      CapsLe (propagateFrom sub idxs caps undo).1 n = true ∧
      UndoLe (propagateFrom sub idxs caps undo).2 n = true := by
  induction idxs with
  | nil => intro caps undo _ hc hu; exact ⟨hc, hu⟩
  | cons i rest ih =>
    intro caps undo hs hc hu
    simp only [propagateFrom]
    split
    · exact ih (caps.set i (sub.getD i none)) ((i, caps.getD i none) :: undo) hs
        (CapsLe_set caps n i _ hc (fun p hp => CapsLe_getD sub n i p hs hp))
        (UndoLe_cons undo n (i, caps.getD i none) hu
          (fun p hp => CapsLe_getD caps n i p hc hp))
    · exact ih caps undo hs hc hu

/-- `propagate` preserves both bounds. -/
theorem propagate_bounds (sub caps : Caps) (undo : Undo) (n : Nat)
    (hs : CapsLe sub n = true) (hc : CapsLe caps n = true) (hu : UndoLe undo n = true) :
    CapsLe (propagate sub caps undo).1 n = true ∧
    UndoLe (propagate sub caps undo).2 n = true :=
  propagateFrom_bounds sub _ n caps undo hs hc hu

/-- The fresh capture array of a search attempt is bounded by the input
length whenever the start position is. -/
theorem CapsLe_initCaps (ns start n : Nat) (h : start ≤ n) :
    CapsLe (initCaps ns start) n = true := by
  refine CapsLe_set _ n 0 _ ?_ ?_
  · refine List.all_eq_true.mpr ?_
    intro x hx
    rw [(List.mem_replicate.mp hx).2]
  · intro p hp
    injection hp with hp
    omega

/-- The VM preserves the capture/undo bounds invariant: started at a
position within the input with bounded captures and undo log, every returned
capture array and undo log holds only positions ≤ the input length, and a
successful run leaves slot 1 set to a position at or after the start. -/
theorem vm_bounds (fuel : Nat) :
    (∀ prog chars pos pc caps undo depth r caps' undo',
        pos ≤ chars.length → CapsLe caps chars.length = true →
        UndoLe undo chars.length = true →
        execLoop fuel prog chars pos pc caps undo depth = .out r caps' undo' →
        CapsLe caps' chars.length = true ∧ UndoLe undo' chars.length = true ∧
          (r = true → ∃ p, caps'.getD 1 none = some p ∧ pos ≤ p)) ∧
    (∀ prog chars pos pc caps undo depth r caps' undo',
        pos ≤ chars.length → CapsLe caps chars.length = true →
        UndoLe undo chars.length = true →
        exec fuel prog chars pos pc caps undo depth = .out r caps' undo' →
        CapsLe caps' chars.length = true ∧ UndoLe undo' chars.length = true ∧
          (r = true → ∃ p, caps'.getD 1 none = some p ∧ pos ≤ p)) ∧
    (∀ prog chars pos s1 s2 caps undo depth r caps' undo',
        pos ≤ chars.length → CapsLe caps chars.length = true →
        UndoLe undo chars.length = true →
        execSub fuel prog chars pos s1 s2 caps undo depth = .out r caps' undo' →
        CapsLe caps' chars.length = true ∧ UndoLe undo' chars.length = true ∧
          (r = true → ∃ p, caps'.getD 1 none = some p ∧ pos ≤ p)) ∧
    (∀ prog chars lbs pos s1 s2 caps depth c,
        pos ≤ chars.length → CapsLe caps chars.length = true →
        lbScan fuel prog chars lbs pos s1 s2 caps depth = .found c →
        CapsLe c chars.length = true) := by
  induction fuel with
  | zero =>
    refine ⟨?_, ?_, ?_, ?_⟩
    · intro prog chars pos pc caps undo depth r caps' undo' _ _ _ h
      exact ExecOut.noConfusion h
    · intro prog chars pos pc caps undo depth r caps' undo' _ _ _ h
      exact ExecOut.noConfusion h
    · intro prog chars pos s1 s2 caps undo depth r caps' undo' _ _ _ h
      exact ExecOut.noConfusion h
    · intro prog chars lbs pos s1 s2 caps depth c _ _ h
      exact LbOut.noConfusion h
  | succ fuel ih =>
    obtain ⟨ihL, ihE, ihS, ihB⟩ := ih
    refine ⟨?_, ?_, ?_, ?_⟩
    · intro prog chars pos pc caps undo depth r caps' undo' hpos hc hu h
      rcases hpc : prog.insts.get? pc with _ | inst
      · simp only [execLoop, hpc] at h
        injection h with h1 h2 h3
        subst h1; subst h2; subst h3
        exact ⟨hc, hu, by simp⟩
      · cases inst <;> simp only [execLoop, hpc] at h
        case Match =>
          split at h
          · injection h with h1 h2 h3
            subst h1; subst h2; subst h3
            refine ⟨CapsLe_set caps _ 1 _ hc (fun p hp => by injection hp with hp; omega),
              hu, fun _ => ⟨pos, ?_, Nat.le_refl pos⟩⟩
            exact getD_set_lt caps 1 _ _ (by assumption)
          · exact ExecOut.noConfusion h
        case Char expected =>
          split at h
          · rename_i hcc
            have hlt : pos < chars.length := by
              by_contra hn
              rw [List.get?_len_le (Nat.le_of_not_lt hn)] at hcc
              exact Option.noConfusion hcc
            obtain ⟨q1, q2, q3⟩ := ihL _ _ _ _ _ _ _ _ _ _ (by omega) hc hu h
            refine ⟨q1, q2, fun hr => ?_⟩
            obtain ⟨p, hp1, hp2⟩ := q3 hr
            exact ⟨p, hp1, by omega⟩
          · injection h with h1 h2 h3; subst h1; subst h2; subst h3
            exact ⟨hc, hu, by simp⟩
        case AnyChar =>
          rcases hcc : chars.get? pos with _ | c <;> simp only [hcc] at h
          · injection h with h1 h2 h3; subst h1; subst h2; subst h3
            exact ⟨hc, hu, by simp⟩
          · have hlt : pos < chars.length := by
              by_contra hn
              rw [List.get?_len_le (Nat.le_of_not_lt hn)] at hcc
              exact Option.noConfusion hcc
            split at h
            · obtain ⟨q1, q2, q3⟩ := ihL _ _ _ _ _ _ _ _ _ _ (by omega) hc hu h
              refine ⟨q1, q2, fun hr => ?_⟩
              obtain ⟨p, hp1, hp2⟩ := q3 hr
              exact ⟨p, hp1, by omega⟩
            · injection h with h1 h2 h3; subst h1; subst h2; subst h3
              exact ⟨hc, hu, by simp⟩
        case CharClass ranges negated =>
          rcases hcc : chars.get? pos with _ | c <;> simp only [hcc] at h
          · injection h with h1 h2 h3; subst h1; subst h2; subst h3
            exact ⟨hc, hu, by simp⟩
          · have hlt : pos < chars.length := by
              by_contra hn
              rw [List.get?_len_le (Nat.le_of_not_lt hn)] at hcc
              exact Option.noConfusion hcc
            split at h
            · obtain ⟨q1, q2, q3⟩ := ihL _ _ _ _ _ _ _ _ _ _ (by omega) hc hu h
              refine ⟨q1, q2, fun hr => ?_⟩
              obtain ⟨p, hp1, hp2⟩ := q3 hr
              exact ⟨p, hp1, by omega⟩
            · injection h with h1 h2 h3; subst h1; subst h2; subst h3
              exact ⟨hc, hu, by simp⟩
        case ShorthandClass kind =>
          rcases hcc : chars.get? pos with _ | c <;> simp only [hcc] at h
          · injection h with h1 h2 h3; subst h1; subst h2; subst h3
            exact ⟨hc, hu, by simp⟩
          · have hlt : pos < chars.length := by
              by_contra hn
              rw [List.get?_len_le (Nat.le_of_not_lt hn)] at hcc
              exact Option.noConfusion hcc
            split at h
            · obtain ⟨q1, q2, q3⟩ := ihL _ _ _ _ _ _ _ _ _ _ (by omega) hc hu h
              refine ⟨q1, q2, fun hr => ?_⟩
              obtain ⟨p, hp1, hp2⟩ := q3 hr
              exact ⟨p, hp1, by omega⟩
            · injection h with h1 h2 h3; subst h1; subst h2; subst h3
              exact ⟨hc, hu, by simp⟩
        case Jump target =>
          exact ihL _ _ _ _ _ _ _ _ _ _ hpos hc hu h
        case Split first second =>
          rcases hx : exec fuel prog chars pos first caps undo (depth + 1) with
            ⟨_ | _, c, u⟩ | _ | _ <;> simp only [hx] at h
          · obtain ⟨g1, g2, _⟩ := ihE _ _ _ _ _ _ _ _ _ _ hpos hc hu hx
            obtain ⟨p1, p2⟩ := popTo_bounds undo.length c u _ g1 g2
            exact ihL _ _ _ _ _ _ _ _ _ _ hpos p1 p2 h
          · injection h with h1 h2 h3; subst h1; subst h2; subst h3
            exact ihE _ _ _ _ _ _ _ _ _ _ hpos hc hu hx
          · exact ExecOut.noConfusion h
          · exact ExecOut.noConfusion h
        case Save slot =>
          split at h
          · exact ihL _ _ _ _ _ _ _ _ _ _ hpos
              (CapsLe_set caps _ slot _ hc (fun p hp => by injection hp with hp; omega))
              (UndoLe_cons undo _ (slot, caps.getD slot none) hu
                (fun p hp => CapsLe_getD caps _ slot p hc hp)) h
          · exact ExecOut.noConfusion h
        case AssertStart =>
          split at h
          · exact ihL _ _ _ _ _ _ _ _ _ _ hpos hc hu h
          · injection h with h1 h2 h3; subst h1; subst h2; subst h3
            exact ⟨hc, hu, by simp⟩
        case AssertEnd =>
          split at h
          · exact ihL _ _ _ _ _ _ _ _ _ _ hpos hc hu h
          · injection h with h1 h2 h3; subst h1; subst h2; subst h3
            exact ⟨hc, hu, by simp⟩
        case AssertWordBoundary =>
          split at h
          · exact ihL _ _ _ _ _ _ _ _ _ _ hpos hc hu h
          · injection h with h1 h2 h3; subst h1; subst h2; subst h3
            exact ⟨hc, hu, by simp⟩
        case AssertNonWordBoundary =>
          split at h
          · exact ihL _ _ _ _ _ _ _ _ _ _ hpos hc hu h
          · injection h with h1 h2 h3; subst h1; subst h2; subst h3
            exact ⟨hc, hu, by simp⟩
        case Backref group_idx =>
          split at h
          case isTrue =>
            split at h
            case _ gs ge =>
              split at h
              · split at h
                · split at h
                  · split at h
                    · rename_i hge hplen hgelen hteq
                      obtain ⟨q1, q2, q3⟩ := ihL _ _ _ _ _ _ _ _ _ _ (by omega) hc hu h
                      refine ⟨q1, q2, fun hr => ?_⟩
                      obtain ⟨p, hp1, hp2⟩ := q3 hr
                      exact ⟨p, hp1, by omega⟩
                    · injection h with h1 h2 h3; subst h1; subst h2; subst h3
                      exact ⟨hc, hu, by simp⟩
                  · exact ExecOut.noConfusion h
                · injection h with h1 h2 h3; subst h1; subst h2; subst h3
                  exact ⟨hc, hu, by simp⟩
              · exact ExecOut.noConfusion h
            all_goals (injection h with h1 h2 h3; subst h1; subst h2; subst h3; exact ⟨hc, hu, by simp⟩)
          case isFalse => exact ExecOut.noConfusion h
        case LookaheadPositive sub_start sub_end =>
          rcases hx : execSub fuel prog chars pos sub_start sub_end caps [] (depth + 1) with
            ⟨_ | _, c, u⟩ | _ | _ <;> simp only [hx] at h
          · injection h with h1 h2 h3; subst h1; subst h2; subst h3
            exact ⟨hc, hu, by simp⟩
          · obtain ⟨g1, g2, _⟩ := ihS _ _ _ _ _ _ _ _ _ _ _ hpos hc (by rfl) hx
            obtain ⟨p1, p2⟩ := propagate_bounds c caps undo _ g1 hc hu
            exact ihL _ _ _ _ _ _ _ _ _ _ hpos p1 p2 h
          · exact ExecOut.noConfusion h
          · exact ExecOut.noConfusion h
        case LookaheadNegative sub_start sub_end =>
          rcases hx : execSub fuel prog chars pos sub_start sub_end caps [] (depth + 1) with
            ⟨_ | _, c, u⟩ | _ | _ <;> simp only [hx] at h
          · exact ihL _ _ _ _ _ _ _ _ _ _ hpos hc hu h
          · injection h with h1 h2 h3; subst h1; subst h2; subst h3
            exact ⟨hc, hu, by simp⟩
          · exact ExecOut.noConfusion h
          · exact ExecOut.noConfusion h
        case LookbehindPositive sub_start sub_end =>
          rcases hx : lbScan fuel prog chars (List.range (pos + 1)) pos sub_start sub_end caps
              (depth + 1) with ⟨c⟩ | _ | _ | _ <;> simp only [hx] at h
          · have g1 := ihB _ _ _ _ _ _ _ _ _ hpos hc hx
            obtain ⟨p1, p2⟩ := propagate_bounds c caps undo _ g1 hc hu
            exact ihL _ _ _ _ _ _ _ _ _ _ hpos p1 p2 h
          · injection h with h1 h2 h3; subst h1; subst h2; subst h3
            exact ⟨hc, hu, by simp⟩
          · exact ExecOut.noConfusion h
          · exact ExecOut.noConfusion h
        case LookbehindNegative sub_start sub_end =>
          rcases hx : lbScan fuel prog chars (List.range (pos + 1)) pos sub_start sub_end caps
              (depth + 1) with ⟨c⟩ | _ | _ | _ <;> simp only [hx] at h
          · injection h with h1 h2 h3; subst h1; subst h2; subst h3
            exact ⟨hc, hu, by simp⟩
          · exact ihL _ _ _ _ _ _ _ _ _ _ hpos hc hu h
          · exact ExecOut.noConfusion h
          · exact ExecOut.noConfusion h
        case Nop =>
          exact ihL _ _ _ _ _ _ _ _ _ _ hpos hc hu h
        case CaseInsensitiveOn => exact ExecOut.noConfusion h
        case CaseInsensitiveOff => exact ExecOut.noConfusion h
    · intro prog chars pos pc caps undo depth r caps' undo' hpos hc hu h
      simp only [exec] at h
      split at h
      · injection h with h1 h2 h3; subst h1; subst h2; subst h3
        exact ⟨hc, hu, by simp⟩
      · exact ihL _ _ _ _ _ _ _ _ _ _ hpos hc hu h
    · intro prog chars pos s1 s2 caps undo depth r caps' undo' hpos hc hu h
      simp only [execSub] at h
      split at h
      · rcases hx : exec fuel prog chars pos s1 (caps.set 1 none) undo depth with
          ⟨_ | _, c, u⟩ | _ | _ <;> simp only [hx] at h
        · injection h with h1 h2 h3
          subst h1; subst h2; subst h3
          obtain ⟨g1, g2, _⟩ := ihE _ _ _ _ _ _ _ _ _ _ hpos
            (CapsLe_set caps _ 1 none hc (fun p hp => Option.noConfusion hp)) hu hx
          exact ⟨CapsLe_set c _ 1 _ g1 (fun p hp => CapsLe_getD caps _ 1 p hc hp), g2, by simp⟩
        · injection h with h1 h2 h3
          subst h1; subst h2; subst h3
          exact ihE _ _ _ _ _ _ _ _ _ _ hpos
            (CapsLe_set caps _ 1 none hc (fun p hp => Option.noConfusion hp)) hu hx
        · exact ExecOut.noConfusion h
        · exact ExecOut.noConfusion h
      · exact ExecOut.noConfusion h
    · intro prog chars lbs pos s1 s2 caps depth c hpos hc h
      cases lbs with
      | nil =>
        simp only [lbScan] at h
        exact LbOut.noConfusion h
      | cons lb rest =>
        simp only [lbScan] at h
        rcases hx : execSub fuel prog chars (pos - lb) s1 s2 caps [] depth with
          ⟨_ | _, sc, u⟩ | _ | _ <;> simp only [hx] at h
        · exact ihB _ _ _ _ _ _ _ _ _ hpos hc h
        · split at h
          · injection h with h1
            subst h1
            obtain ⟨g1, _, _⟩ := ihS _ _ _ _ _ _ _ _ _ _ _ (by omega) hc (by rfl) hx
            exact g1
          · exact ihB _ _ _ _ _ _ _ _ _ hpos hc h
        · exact LbOut.noConfusion h
        · exact LbOut.noConfusion h

/-- Like `searchFrom_found`, additionally carrying the bound on the start
position from the list of candidate starts. -/
theorem searchFrom_found_le (fuel : Nat) (prog : Program) (chars : List Char) (ns : Nat) :
    ∀ (starts : List Nat) (r : MatchResult),
      (∀ s ∈ starts, s ≤ chars.length) →
      searchFrom fuel prog chars ns starts = .found r →
      ∃ start caps undo, start ≤ chars.length ∧
        exec fuel prog chars start 0 (initCaps ns start) [] 0 = .out true caps undo ∧
        r = finishResult start caps := by
  intro starts
  induction starts with
  | nil => intro r _ h; exact SearchOut.noConfusion h
  | cons start rest ih =>
    intro r hb h
    simp only [searchFrom] at h
    repeat' split at h
    all_goals try exact ih r (fun s hs => hb s (by simp [hs])) h
    all_goals try exact SearchOut.noConfusion h
    all_goals (rename_i captures undo heq; exact ⟨start, captures, undo, hb start (by simp), heq, by injection h with h1; exact h1.symm⟩)

/-- Like `search_found`, additionally carrying `start ≤ |input|`. -/
theorem search_found_le (fuel : Nat) (prog : Program) (chars : List Char) (r : MatchResult)
    (h : search fuel prog chars = .found r) :
    ∃ start caps undo, start ≤ chars.length ∧
      exec fuel prog chars start 0 (initCaps ((prog.n_groups + 1) * 2) start) [] 0 =
        .out true caps undo ∧
      r = finishResult start caps := by
  simp only [search] at h
  split at h
  · split at h
    all_goals try exact SearchOut.noConfusion h
    rename_i captures undo heq
    exact ⟨0, captures, undo, by omega, heq, by injection h with h1; exact h1.symm⟩
  · exact searchFrom_found_le fuel prog chars _ _ r
      (fun s hs => by have := List.mem_range.mp hs; omega) h

/-- Slot view of the lookaround propagation loop: a slot in the index list
and in range receives the sub-run's value, any other slot keeps the outer
value. -/
theorem propagateFrom_getD (sub : Caps) (idxs : List Nat) :
    ∀ (caps : Caps) (undo : Undo) (i : Nat),
      (propagateFrom sub idxs caps undo).1.getD i none =
        if i ∈ idxs ∧ i < caps.length then sub.getD i none else caps.getD i none := by
  induction idxs with
  | nil =>
    intro caps undo i
    simp [propagateFrom]
  | cons j rest ih =>
    intro caps undo i
    by_cases hch : sub.getD j none ≠ caps.getD j none
    · simp only [propagateFrom, if_pos hch]
      rw [ih, List.length_set]
      by_cases hir : i ∈ rest
      · by_cases hlen : i < caps.length
        · rw [if_pos ⟨hir, hlen⟩, if_pos ⟨List.mem_cons_of_mem _ hir, hlen⟩]
        · rw [if_neg (fun hcon => hlen hcon.2), if_neg (fun hcon => hlen hcon.2)]
          by_cases hij : i = j
          · subst hij
            rw [List.set_eq_of_length_le (by omega)]
          · exact getD_set_ne caps j i _ none (fun he => hij he.symm)
      · rw [if_neg (fun hcon => hir hcon.1)]
        by_cases hij : i = j
        · subst hij
          by_cases hlen : i < caps.length
          · rw [if_pos ⟨List.mem_cons_self _ _, hlen⟩]
            exact getD_set_lt caps i _ none hlen
          · rw [if_neg (fun hcon => hlen hcon.2),
              List.set_eq_of_length_le (by omega)]
        · rw [if_neg (fun hcon => (List.mem_cons.mp hcon.1).elim hij hir)]
          exact getD_set_ne caps j i _ none (fun he => hij he.symm)
    · simp only [propagateFrom, if_neg hch]
      rw [ih]
      push_neg at hch
      by_cases hcond : i ∈ rest ∧ i < caps.length
      · rw [if_pos hcond, if_pos ⟨List.mem_cons_of_mem _ hcond.1, hcond.2⟩]
      · rw [if_neg hcond]
        by_cases hcond2 : i ∈ j :: rest ∧ i < caps.length
        · have hij : i = j := by
            rcases List.mem_cons.mp hcond2.1 with h | h
            · exact h
            · exact absurd ⟨h, hcond2.2⟩ hcond
          rw [if_pos hcond2, hij]
          exact hch.symm
        · rw [if_neg hcond2]

/-- Slot view of `propagate`: a slot ≥ 2 receives the sub-run's value when
it is in range of the outer array, and keeps the outer value otherwise. -/
theorem propagate_getD (sub caps : Caps) (undo : Undo) (i : Nat) (h2 : 2 ≤ i) :
    (propagate sub caps undo).1.getD i none =
      if i < caps.length then sub.getD i none else caps.getD i none := by
  unfold propagate
  rw [propagateFrom_getD]
  by_cases h : i < caps.length
  · have hm : i ∈ List.range' 2 (caps.length - 2) := List.mem_range'_1.mpr ⟨h2, by omega⟩
    rw [if_pos ⟨hm, h⟩, if_pos h]
  · rw [if_neg (fun hcon => h hcon.2), if_neg h]

/-- A group pair that is ordered in the sub-run's captures stays ordered
after propagation into the outer captures. -/
theorem propagate_GoodPair (sub caps : Caps) (undo : Undo) (k : Nat) (hk : 1 ≤ k)
    (hs : GoodPair sub k) : GoodPair (propagate sub caps undo).1 k := by
  intro v w hv hw
  rw [propagate_getD sub caps undo _ (by omega)] at hv
  rw [propagate_getD sub caps undo _ (by omega)] at hw
  by_cases h1 : 2 * k < caps.length
  · rw [if_pos h1] at hv
    by_cases h2 : 2 * k + 1 < caps.length
    · rw [if_pos h2] at hw
      exact hs v w hv hw
    · rw [if_neg h2, List.getD_eq_default _ _ (by omega)] at hw
      exact Option.noConfusion hw
  · rw [if_neg h1, List.getD_eq_default _ _ (by omega)] at hv
    exact Option.noConfusion hv

/-- A group pair the sub-run did not change survives propagation with the
outer captures' values. -/
theorem propagate_pairUnchanged (sub caps : Caps) (undo : Undo) (k : Nat) (hk : 1 ≤ k)
    (h1 : sub.getD (2 * k) none = caps.getD (2 * k) none)
    (h2 : sub.getD (2 * k + 1) none = caps.getD (2 * k + 1) none) :
    (propagate sub caps undo).1.getD (2 * k) none = caps.getD (2 * k) none ∧
    (propagate sub caps undo).1.getD (2 * k + 1) none = caps.getD (2 * k + 1) none := by
  refine ⟨?_, ?_⟩
  · rw [propagate_getD sub caps undo _ (by omega)]
    split
    · exact h1
    · rfl
  · rw [propagate_getD sub caps undo _ (by omega)]
    split
    · exact h2
    · rfl

/-- Writing any slot other than the two slots of group `k` preserves the
pair's ordering. -/
theorem GoodPair_set (caps : Caps) (k slot : Nat) (v : Option Nat) (h : GoodPair caps k)
    (h1 : slot ≠ 2 * k) (h2 : slot ≠ 2 * k + 1) : GoodPair (caps.set slot v) k := by
  intro a b ha hb
  rw [getD_set_ne caps slot (2 * k) v none h1] at ha
  rw [getD_set_ne caps slot (2 * k + 1) v none h2] at hb
  exact h a b ha hb

/-- Bridge from the per-group ordering property to the executable
`pairsOrdered` check. -/
theorem pairsOrdered_of (caps : Caps) (h : ∀ j, 1 ≤ j → GoodPair caps j) :
    pairsOrdered caps = true := by
  unfold pairsOrdered
  rw [List.all_eq_true]
  intro j _
  show (if 1 ≤ j then goodPairB caps j else true) = true
  split
  · rename_i hj1
    unfold goodPairB
    split
    · rename_i v w hv hw
      exact decide_eq_true (h j hj1 v w hv hw)
    · rfl
  · rfl

/-- `advance` never changes `group_count`. -/
theorem advance_gc (s : PState) : (advance s).2.group_count = s.group_count := by
  simp only [advance]
  rcases h : s.chars.get? s.pos with _ | c <;> rfl

/-- `quantify` never changes `group_count`. -/
theorem quantify_gc (node : AstNode) (kind : QuantifierKind) (s : PState) :
    (quantify node kind s).2.group_count = s.group_count := by
  simp only [quantify]
  split
  · exact advance_gc s
  · rfl

/-- A successful `expectCh` never changes `group_count`. -/
theorem expectCh_gc (c : Char) (s s' : PState) (h : expectCh c s = .ok s') :
    s'.group_count = s.group_count := by
  obtain ⟨_, hs⟩ := expectCh_ok c s s' h
  subst hs
  rfl

/-- `parse_number` never changes `group_count`. -/
theorem parse_number_gc (s : PState) (n : Nat) (s' : PState)
    (h : parse_number s = .ok (n, s')) : s'.group_count = s.group_count := by
  simp only [parse_number] at h
  split at h
  · exact Except.noConfusion h
  · split at h
    · injection h with h1
      injection h1 with h2 h3
      subst h3
      rfl
    · exact Except.noConfusion h

/-- The optional-lazy-`?` epilogue of a brace quantifier never changes
`group_count`. -/
theorem qmark_tail_gc {A : Type} (s3 : PState) (x y : A) (r : A) (s' : PState)
    (h : (if peek s3 = some '?' then pure (x, (advance s3).2) else pure (y, s3) :
      Except String (A × PState)) = .ok (r, s')) : s'.group_count = s3.group_count := by
  split at h
  · injection h with h1
    injection h1 with h2 h3
    subst h3
    exact advance_gc s3
  · injection h with h1
    injection h1 with h2 h3
    subst h3
    rfl

/-- `try_parse_brace_contents` never changes `group_count`. -/
theorem brace_gc (s : PState) (r : QuantifierKind × Bool) (s' : PState)
    (h : try_parse_brace_contents s = .ok (r, s')) : s'.group_count = s.group_count := by
  simp only [try_parse_brace_contents] at h
  obtain ⟨⟨n, s1⟩, h1, h2⟩ := except_bind_ok _ _ _ h
  dsimp only at h2
  have g1 := parse_number_gc s n s1 h1
  split at h2
  · have g2 := advance_gc s1
    split at h2
    · rw [pure_bind] at h2
      dsimp only at h2
      obtain ⟨s3, h5, h6⟩ := except_bind_ok _ _ _ h2
      have g3 := expectCh_gc '}' _ s3 h5
      have g4 := qmark_tail_gc _ _ _ _ _ h6
      omega
    · obtain ⟨⟨m, s3⟩, h5, h6⟩ := except_bind_ok _ _ _ h2
      dsimp only at h6
      rw [pure_bind] at h6
      dsimp only at h6
      obtain ⟨s4, h7, h8⟩ := except_bind_ok _ _ _ h6
      have g3 := parse_number_gc _ m s3 h5
      have g4 := expectCh_gc '}' _ s4 h7
      have g5 := qmark_tail_gc _ _ _ _ _ h8
      omega
  · rw [pure_bind] at h2
    dsimp only at h2
    obtain ⟨s3, h5, h6⟩ := except_bind_ok _ _ _ h2
    have g3 := expectCh_gc '}' _ s3 h5
    have g4 := qmark_tail_gc _ _ _ _ _ h6
    omega

/-- The character-class item loop never changes `group_count` (it only
advances the cursor). -/
theorem parse_class_items_gc (fuel : Nat) :
    ∀ items s r s', parse_class_items fuel items s = .ok (r, s') →
      s'.group_count = s.group_count := by
  induction fuel with
  | zero => intro items s r s' h; exact Except.noConfusion h
  | succ fuel ih =>
    intro items s r s' h
    simp only [parse_class_items] at h
    split at h
    · injection h with h1
      injection h1 with h2 h3
      subst h3
      rfl
    · split at h
      · exact Except.noConfusion h
      · split at h
        · exact Except.noConfusion h
        · rename_i ch s2 heq
          have hr := ih _ _ _ _ h
          have g2 : s2.group_count = (advance s).2.group_count := by
            have hq := congrArg (fun p => p.2.group_count) heq
            simp only at hq
            rw [← hq, advance_gc]
          have g1 := advance_gc s
          omega
      · split at h
        · split at h
          · split at h
            · rename_i eCh s4 heq
              have hr := ih _ _ _ _ h
              have g4 : s4.group_count = s.group_count := by
                have hq := congrArg (fun p => p.2.group_count) heq
                simp only at hq
                rw [← hq, advance_gc, advance_gc, advance_gc, advance_gc]
              omega
            · exact Except.noConfusion h
          · have hr := ih _ _ _ _ h
            simp only [advance_gc] at hr
            exact hr
          · exact Except.noConfusion h
        · have hr := ih _ _ _ _ h
          simp only [advance_gc] at hr
          exact hr

/-- A parsed character class never changes `group_count` and is a flat
`CharClass` node. -/
theorem parse_char_class_wf (s : PState) (a : AstNode) (s' : PState)
    (h : parse_char_class s = .ok (a, s')) :
    s'.group_count = s.group_count ∧ (∀ n, groupsGt n a = true) ∧ wfIdx a = true := by
  simp only [parse_char_class] at h
  repeat' split at h
  all_goals (
    obtain ⟨⟨items, s3⟩, h1, h2⟩ := except_bind_ok _ _ _ h
    injection h2 with h2
    injection h2 with h3 h4
    subst h3
    subst h4
    have g := parse_class_items_gc _ _ _ _ _ h1
    simp only [advance_gc] at g
    refine ⟨?_, fun n => rfl, rfl⟩
    simp only [advance_gc]
    exact g)

/-- One step of an if-chain of escape results, generalised over the
property carried by the produced node and state. -/
theorem escape_chain_P (P : AstNode × PState → Prop) {cond : Prop} [Decidable cond]
    (x : AstNode × PState) (y : Except String (AstNode × PState)) (hx : P x)
    (hy : ∀ a s', y = .ok (a, s') → P (a, s')) :
    ∀ a s', (if cond then Except.ok x else y) = .ok (a, s') → P (a, s') := by
  intro a s' h
  split at h
  · injection h with h1
    subst h1
    exact hx
  · exact hy a s' h

/-- A parsed top-level escape never changes `group_count` and is a flat
node. -/
theorem parse_escape_wf (s : PState) (a : AstNode) (s' : PState)
    (h : parse_escape s = .ok (a, s')) :
    s'.group_count = s.group_count ∧ (∀ n, groupsGt n a = true) ∧ wfIdx a = true := by
  simp only [parse_escape] at h
  rcases ha : advance ((advance s).2) with ⟨oc, s1⟩
  rw [ha] at h
  cases oc with
  | none => exact Except.noConfusion h
  | some ch =>
    dsimp only at h
    have hgc : s1.group_count = s.group_count := by
      have hq := congrArg (fun p => p.2.group_count) ha
      dsimp only at hq
      rw [advance_gc, advance_gc] at hq
      exact hq.symm
    by_cases hc0 : ch = 'd'
    · rw [if_pos hc0] at h
      injection h with hE
      injection hE with h2 h3
      subst h2
      subst h3
      exact ⟨hgc, fun n => rfl, rfl⟩
    rw [if_neg hc0] at h
    by_cases hc1 : ch = 'D'
    · rw [if_pos hc1] at h
      injection h with hE
      injection hE with h2 h3
      subst h2
      subst h3
      exact ⟨hgc, fun n => rfl, rfl⟩
    rw [if_neg hc1] at h
    by_cases hc2 : ch = 'w'
    · rw [if_pos hc2] at h
      injection h with hE
      injection hE with h2 h3
      subst h2
      subst h3
      exact ⟨hgc, fun n => rfl, rfl⟩
    rw [if_neg hc2] at h
    by_cases hc3 : ch = 'W'
    · rw [if_pos hc3] at h
      injection h with hE
      injection hE with h2 h3
      subst h2
      subst h3
      exact ⟨hgc, fun n => rfl, rfl⟩
    rw [if_neg hc3] at h
    by_cases hc4 : ch = 's'
    · rw [if_pos hc4] at h
      injection h with hE
      injection hE with h2 h3
      subst h2
      subst h3
      exact ⟨hgc, fun n => rfl, rfl⟩
    rw [if_neg hc4] at h
    by_cases hc5 : ch = 'S'
    · rw [if_pos hc5] at h
      injection h with hE
      injection hE with h2 h3
      subst h2
      subst h3
      exact ⟨hgc, fun n => rfl, rfl⟩
    rw [if_neg hc5] at h
    by_cases hc6 : ch = 'b'
    · rw [if_pos hc6] at h
      injection h with hE
      injection hE with h2 h3
      subst h2
      subst h3
      exact ⟨hgc, fun n => rfl, rfl⟩
    rw [if_neg hc6] at h
    by_cases hc7 : ch = 'B'
    · rw [if_pos hc7] at h
      injection h with hE
      injection hE with h2 h3
      subst h2
      subst h3
      exact ⟨hgc, fun n => rfl, rfl⟩
    rw [if_neg hc7] at h
    by_cases hc8 : (isAsciiDigit ch && decide (ch ≠ '0')) = true
    · rw [if_pos hc8] at h
      injection h with hE
      injection hE with h2 h3
      subst h2
      subst h3
      exact ⟨hgc, fun n => rfl, rfl⟩
    rw [if_neg hc8] at h
    by_cases hc9 : ch = 'n'
    · rw [if_pos hc9] at h
      injection h with hE
      injection hE with h2 h3
      subst h2
      subst h3
      exact ⟨hgc, fun n => rfl, rfl⟩
    rw [if_neg hc9] at h
    by_cases hc10 : ch = 'r'
    · rw [if_pos hc10] at h
      injection h with hE
      injection hE with h2 h3
      subst h2
      subst h3
      exact ⟨hgc, fun n => rfl, rfl⟩
    rw [if_neg hc10] at h
    by_cases hc11 : ch = 't'
    · rw [if_pos hc11] at h
      injection h with hE
      injection hE with h2 h3
      subst h2
      subst h3
      exact ⟨hgc, fun n => rfl, rfl⟩
    rw [if_neg hc11] at h
    injection h with hE
    injection hE with h2 h3
    subst h2
    subst h3
    exact ⟨hgc, fun n => rfl, rfl⟩

/-- `groupsGt` is antitone in the bound. -/
theorem groupsGt_mono (m n : Nat) (hmn : m ≤ n) :
    (∀ a, groupsGt n a = true → groupsGt m a = true) ∧
    (∀ l, groupsGtList n l = true → groupsGtList m l = true) := by
  refine groupsGt.mutual_induct n
    (fun a => groupsGt n a = true → groupsGt m a = true)
    (fun l => groupsGtList n l = true → groupsGtList m l = true)
    ?_ ?_ ?_ ?_ ?_ ?_ ?_ ?_ ?_ ?_ ?_ ?_ ?_ ?_ ?_ ?_
  · intro c h; rfl
  · intro h; rfl
  · intro ns ih h
    simp only [groupsGt] at h ⊢
    exact ih h
  · intro bs ih h
    simp only [groupsGt] at h ⊢
    exact ih h
  · intro sub kind greedy ih h
    simp only [groupsGt] at h ⊢
    exact ih h
  · intro items neg h; rfl
  · intro kind h; rfl
  · intro kind h; rfl
  · intro index sub ih h
    simp only [groupsGt, Bool.and_eq_true, decide_eq_true_eq] at h ⊢
    exact ⟨by omega, ih h.2⟩
  · intro sub ih h
    simp only [groupsGt] at h ⊢
    exact ih h
  · intro idx h; rfl
  · intro sub b ih h
    simp only [groupsGt] at h ⊢
    exact ih h
  · intro sub b ih h
    simp only [groupsGt] at h ⊢
    exact ih h
  · intro sub fl ih h
    simp only [groupsGt] at h ⊢
    exact ih h
  · intro h; rfl
  · intro a r ih1 ih2 h
    simp only [groupsGtList, Bool.and_eq_true] at h ⊢
    exact ⟨ih1 h.1, ih2 h.2⟩

/-- `groupsGtList` distributes over append. -/
theorem groupsGtList_append (n : Nat) (l1 l2 : List AstNode) :
    groupsGtList n (l1 ++ l2) = (groupsGtList n l1 && groupsGtList n l2) := by
  induction l1 with
  | nil => simp [groupsGtList]
  | cons a rest ih => simp [groupsGtList, ih, Bool.and_assoc]

/-- `wfIdxList` distributes over append. -/
theorem wfIdxList_append (l1 l2 : List AstNode) :
    wfIdxList (l1 ++ l2) = (wfIdxList l1 && wfIdxList l2) := by
  induction l1 with
  | nil => simp [wfIdxList]
  | cons a rest ih => simp [wfIdxList, ih, Bool.and_assoc]

/-- `quantify` preserves group-index facts of the wrapped node. -/
theorem quantify_wf (node : AstNode) (kind : QuantifierKind) (t : PState) (n : Nat)
    (hg : groupsGt n node = true) (hw : wfIdx node = true) :
    groupsGt n (quantify node kind t).1 = true ∧ wfIdx (quantify node kind t).1 = true := by
  simp only [quantify]
  split <;> exact ⟨by simpa [groupsGt] using hg, by simpa [wfIdx] using hw⟩

/-- Every parser function produces group-index well-formed trees:
`group_count` is monotone, every group index in the produced node exceeds
the `group_count` at entry (each index is `group_count + 1` at its own
opening parenthesis), and in particular every group's body only contains
groups with strictly larger indices (`wfIdx`). -/
theorem parser_wfIdx (fuel : Nat) :
    (∀ s a s', parse_alternation fuel s = .ok (a, s') →
      s.group_count ≤ s'.group_count ∧ groupsGt s.group_count a = true ∧ wfIdx a = true) ∧
    (∀ n branches s a s', parse_alt_branches fuel branches s = .ok (a, s') →
      n ≤ s.group_count → groupsGtList n branches = true → wfIdxList branches = true →
      s.group_count ≤ s'.group_count ∧ groupsGt n a = true ∧ wfIdx a = true) ∧
    (∀ s a s', parse_concat fuel s = .ok (a, s') →
      s.group_count ≤ s'.group_count ∧ groupsGt s.group_count a = true ∧ wfIdx a = true) ∧
    (∀ n nodes s a s', parse_concat_nodes fuel nodes s = .ok (a, s') →
      n ≤ s.group_count → groupsGtList n nodes = true → wfIdxList nodes = true →
      s.group_count ≤ s'.group_count ∧ groupsGt n a = true ∧ wfIdx a = true) ∧
    (∀ s a s', parse_quantified fuel s = .ok (a, s') →
      s.group_count ≤ s'.group_count ∧ groupsGt s.group_count a = true ∧ wfIdx a = true) ∧
    (∀ s a s', parse_atom fuel s = .ok (a, s') →
      s.group_count ≤ s'.group_count ∧ groupsGt s.group_count a = true ∧ wfIdx a = true) ∧
    (∀ s a s', parse_group fuel s = .ok (a, s') →
      s.group_count ≤ s'.group_count ∧ groupsGt s.group_count a = true ∧ wfIdx a = true) := by
  induction fuel with
  | zero =>
    refine ⟨?_, ?_, ?_, ?_, ?_, ?_, ?_⟩ <;>
      (intros; exact Except.noConfusion (by assumption))
  | succ fuel ih =>
    obtain ⟨ihA, ihB, ihC, ihD, ihQ, ihAt, ihG⟩ := ih
    refine ⟨?_, ?_, ?_, ?_, ?_, ?_, ?_⟩
    · -- parse_alternation
      intro s a s' h
      simp only [parse_alternation] at h
      obtain ⟨⟨first, s1⟩, h1, h2⟩ := except_bind_ok _ _ _ h
      obtain ⟨m1, g1, w1⟩ := ihC s first s1 h1
      obtain ⟨m2, g2, w2⟩ := ihB s.group_count [first] s1 a s' h2 m1
        (by simp [groupsGtList, g1]) (by simp [wfIdxList, w1])
      exact ⟨by omega, g2, w2⟩
    · -- parse_alt_branches
      intro n branches s a s' h hn hbr hwf
      simp only [parse_alt_branches] at h
      split at h
      · obtain ⟨⟨b, s2⟩, h1, h2⟩ := except_bind_ok _ _ _ h
        obtain ⟨m1, g1, w1⟩ := ihC _ b s2 h1
        have hadv := advance_gc s
        simp only [advance_gc] at m1 g1
        have g1' : groupsGt n b = true := (groupsGt_mono n _ (by omega)).1 b g1
        obtain ⟨m2, g2, w2⟩ := ihB n (branches ++ [b]) s2 a s' h2 (by omega)
          (by rw [groupsGtList_append]; simp [hbr, groupsGtList, g1'])
          (by rw [wfIdxList_append]; simp [hwf, wfIdxList, w1])
        exact ⟨by omega, g2, w2⟩
      · split at h
        · injection h with h1
          injection h1 with h2 h3
          subst h2; subst h3
          simp only [groupsGtList, Bool.and_eq_true] at hbr
          simp only [wfIdxList, Bool.and_eq_true] at hwf
          exact ⟨Nat.le_refl _, hbr.1, hwf.1⟩
        · injection h with h1
          injection h1 with h2 h3
          subst h2; subst h3
          exact ⟨Nat.le_refl _, by simpa [groupsGt] using hbr, by simpa [wfIdx] using hwf⟩
    · -- parse_concat
      intro s a s' h
      exact ihD s.group_count [] s a s' (by simpa [parse_concat] using h)
        (Nat.le_refl _) rfl rfl
    · -- parse_concat_nodes
      intro n nodes s a s' h hn hns hwf
      simp only [parse_concat_nodes] at h
      rcases hp : peek s with _ | ch <;> simp only [hp] at h
      · split at h
        · injection h with h1
          injection h1 with h2 h3
          subst h2; subst h3
          simp only [groupsGtList, Bool.and_eq_true] at hns
          simp only [wfIdxList, Bool.and_eq_true] at hwf
          exact ⟨Nat.le_refl _, hns.1, hwf.1⟩
        · injection h with h1
          injection h1 with h2 h3
          subst h2; subst h3
          exact ⟨Nat.le_refl _, by simpa [groupsGt] using hns, by simpa [wfIdx] using hwf⟩
      · split at h
        · split at h
          · injection h with h1
            injection h1 with h2 h3
            subst h2; subst h3
            simp only [groupsGtList, Bool.and_eq_true] at hns
            simp only [wfIdxList, Bool.and_eq_true] at hwf
            exact ⟨Nat.le_refl _, hns.1, hwf.1⟩
          · injection h with h1
            injection h1 with h2 h3
            subst h2; subst h3
            exact ⟨Nat.le_refl _, by simpa [groupsGt] using hns, by simpa [wfIdx] using hwf⟩
        · obtain ⟨⟨nb, s1⟩, h1, h2⟩ := except_bind_ok _ _ _ h
          obtain ⟨m1, g1, w1⟩ := ihQ s nb s1 h1
          have g1' : groupsGt n nb = true := (groupsGt_mono n _ hn).1 nb g1
          obtain ⟨m2, g2, w2⟩ := ihD n (nodes ++ [nb]) s1 a s' h2 (by omega)
            (by rw [groupsGtList_append]; simp [hns, groupsGtList, g1'])
            (by rw [wfIdxList_append]; simp [hwf, wfIdxList, w1])
          exact ⟨by omega, g2, w2⟩
    · -- parse_quantified
      intro s a s' h
      simp only [parse_quantified] at h
      obtain ⟨⟨node, s1⟩, h1, h2⟩ := except_bind_ok _ _ _ h
      obtain ⟨m1, g1, w1⟩ := ihAt s node s1 h1
      obtain ⟨gq, wq⟩ := quantify_wf node .Star ((advance s1).2) s.group_count g1 w1
      split at h2
      · injection h2 with h3
        obtain ⟨gq, wq⟩ := quantify_wf node .Star ((advance s1).2) s.group_count g1 w1
        have hfst := congrArg Prod.fst h3
        have hsnd := congrArg (fun p => p.2.group_count) h3
        simp only at hfst hsnd
        rw [quantify_gc, advance_gc] at hsnd
        exact ⟨by omega, by rw [← hfst]; exact gq, by rw [← hfst]; exact wq⟩
      · injection h2 with h3
        obtain ⟨gq, wq⟩ := quantify_wf node .Plus ((advance s1).2) s.group_count g1 w1
        have hfst := congrArg Prod.fst h3
        have hsnd := congrArg (fun p => p.2.group_count) h3
        simp only at hfst hsnd
        rw [quantify_gc, advance_gc] at hsnd
        exact ⟨by omega, by rw [← hfst]; exact gq, by rw [← hfst]; exact wq⟩
      · injection h2 with h3
        obtain ⟨gq, wq⟩ := quantify_wf node .Question ((advance s1).2) s.group_count g1 w1
        have hfst := congrArg Prod.fst h3
        have hsnd := congrArg (fun p => p.2.group_count) h3
        simp only at hfst hsnd
        rw [quantify_gc, advance_gc] at hsnd
        exact ⟨by omega, by rw [← hfst]; exact gq, by rw [← hfst]; exact wq⟩
      · split at h2
        · rename_i r s3 heq
          injection h2 with h3
          injection h3 with h4 h5
          subst h4; subst h5
          have hbgc := brace_gc _ _ _ heq
          simp only [advance_gc] at hbgc
          exact ⟨by omega, by simpa [groupsGt] using g1, by simpa [wfIdx] using w1⟩
        · injection h2 with h3
          injection h3 with h4 h5
          subst h4; subst h5
          exact ⟨m1, g1, w1⟩
      · injection h2 with h3
        injection h3 with h4 h5
        subst h4; subst h5
        exact ⟨m1, g1, w1⟩
    · -- parse_atom
      intro s a s' h
      simp only [parse_atom] at h
      split at h
      · exact Except.noConfusion h
      · exact ihG _ a s' h
      · obtain ⟨hgc, hg, hw⟩ := parse_char_class_wf s a s' h
        exact ⟨by omega, hg _, hw⟩
      · injection h with h1
        injection h1 with h2 h3
        subst h2; subst h3
        exact ⟨by simp [advance_gc], rfl, rfl⟩
      · injection h with h1
        injection h1 with h2 h3
        subst h2; subst h3
        exact ⟨by simp [advance_gc], rfl, rfl⟩
      · injection h with h1
        injection h1 with h2 h3
        subst h2; subst h3
        exact ⟨by simp [advance_gc], rfl, rfl⟩
      · obtain ⟨hgc, hg, hw⟩ := parse_escape_wf s a s' h
        exact ⟨by omega, hg _, hw⟩
      · injection h with h1
        injection h1 with h2 h3
        subst h2; subst h3
        exact ⟨by simp [advance_gc], rfl, rfl⟩
    · -- parse_group
      intro s a s' h
      simp only [parse_group] at h
      split at h
      · split at h
        · obtain ⟨⟨node, s3⟩, h1, h2⟩ := except_bind_ok _ _ _ h
          obtain ⟨s4, h3, h4⟩ := except_bind_ok _ _ _ h2
          injection h4 with h5
          injection h5 with h6 h7
          subst h6; subst h7
          obtain ⟨m1, g1, w1⟩ := ihA _ node s3 h1
          simp only [advance_gc] at m1 g1
          have hegc := expectCh_gc ')' s3 s4 h3
          exact ⟨by omega, by simpa [groupsGt] using g1, by simpa [wfIdx] using w1⟩
        · obtain ⟨⟨node, s3⟩, h1, h2⟩ := except_bind_ok _ _ _ h
          obtain ⟨s4, h3, h4⟩ := except_bind_ok _ _ _ h2
          injection h4 with h5
          injection h5 with h6 h7
          subst h6; subst h7
          obtain ⟨m1, g1, w1⟩ := ihA _ node s3 h1
          simp only [advance_gc] at m1 g1
          have hegc := expectCh_gc ')' s3 s4 h3
          exact ⟨by omega, by simpa [groupsGt] using g1, by simpa [wfIdx] using w1⟩
        · obtain ⟨⟨node, s3⟩, h1, h2⟩ := except_bind_ok _ _ _ h
          obtain ⟨s4, h3, h4⟩ := except_bind_ok _ _ _ h2
          injection h4 with h5
          injection h5 with h6 h7
          subst h6; subst h7
          obtain ⟨m1, g1, w1⟩ := ihA _ node s3 h1
          simp only [advance_gc] at m1 g1
          have hegc := expectCh_gc ')' s3 s4 h3
          exact ⟨by omega, by simpa [groupsGt] using g1, by simpa [wfIdx] using w1⟩
        · split at h
          · obtain ⟨⟨node, s4⟩, h1, h2⟩ := except_bind_ok _ _ _ h
            obtain ⟨s5, h3, h4⟩ := except_bind_ok _ _ _ h2
            injection h4 with h5
            injection h5 with h6 h7
            subst h6; subst h7
            obtain ⟨m1, g1, w1⟩ := ihA _ node s4 h1
            simp only [advance_gc] at m1 g1
            have hegc := expectCh_gc ')' s4 s5 h3
            exact ⟨by omega, by simpa [groupsGt] using g1, by simpa [wfIdx] using w1⟩
          · obtain ⟨⟨node, s4⟩, h1, h2⟩ := except_bind_ok _ _ _ h
            obtain ⟨s5, h3, h4⟩ := except_bind_ok _ _ _ h2
            injection h4 with h5
            injection h5 with h6 h7
            subst h6; subst h7
            obtain ⟨m1, g1, w1⟩ := ihA _ node s4 h1
            simp only [advance_gc] at m1 g1
            have hegc := expectCh_gc ')' s4 s5 h3
            exact ⟨by omega, by simpa [groupsGt] using g1, by simpa [wfIdx] using w1⟩
          · exact Except.noConfusion h
        · exact Except.noConfusion h
      · obtain ⟨⟨node, s2⟩, h1, h2⟩ := except_bind_ok _ _ _ h
        obtain ⟨s3, h3, h4⟩ := except_bind_ok _ _ _ h2
        injection h4 with h5
        injection h5 with h6 h7
        subst h6; subst h7
        obtain ⟨m1, g1, w1⟩ := ihA _ node s2 h1
        have m1' : (advance s).2.group_count + 1 ≤ s2.group_count := m1
        have g1' : groupsGt ((advance s).2.group_count + 1) node = true := g1
        have hadv := advance_gc s
        have hegc := expectCh_gc ')' s2 s3 h3
        have gmono : groupsGt s.group_count node = true :=
          (groupsGt_mono s.group_count _ (by omega)).1 node g1'
        refine ⟨by omega, ?_, ?_⟩
        · simp only [groupsGt, Bool.and_eq_true, decide_eq_true_eq]
          exact ⟨by omega, gmono⟩
        · simp only [wfIdx, Bool.and_eq_true]
          exact ⟨g1', w1⟩

/-- The tree of a successfully parsed pattern is group-index well-formed:
no capturing group is nested inside a group with the same or a larger
index. -/
theorem parseAll_wfIdx (fuel : Nat) (pattern : List Char) (ast : AstNode) (g : Nat)
    (h : parseAll fuel pattern = .ok (ast, g)) : wfIdx ast = true := by
  simp only [parseAll] at h
  obtain ⟨⟨node, s1⟩, h1, h2⟩ := except_bind_ok _ _ _ h
  split at h2
  · exact Except.noConfusion h2
  · injection h2 with h3
    injection h3 with h4 h5
    subst h4
    exact ((parser_wfIdx fuel).1 _ node s1 h1).2.2

/-- `instTargetsLe` is monotone in the bound. -/
theorem instTargetsLe_mono (inst : Inst) (m n : Nat) (h : m ≤ n)
    (hi : instTargetsLe inst m) : instTargetsLe inst n := by
  cases inst <;> simp only [instTargetsLe] at hi ⊢ <;> first | trivial | omega

/-- `instTargetsGe` is antitone in the bound. -/
theorem instTargetsGe_mono (inst : Inst) (m n : Nat) (h : m ≤ n)
    (hi : instTargetsGe inst n) : instTargetsGe inst m := by
  cases inst <;> simp only [instTargetsGe] at hi ⊢ <;> first | trivial | omega

/-- Confinement only depends on the instructions inside the window. -/
theorem Confined_congr (insts insts' : List Inst) (lo hi : Nat)
    (hag : ∀ p, lo ≤ p → p < hi → insts'.get? p = insts.get? p)
    (h : Confined insts lo hi) : Confined insts' lo hi := by
  intro p hlo hhi
  rw [hag p hlo hhi]
  exact h p hlo hhi

/-- Confinement of a window from per-instruction operand bounds: operands
between `lo` and `hi - 1`, and every consuming instruction followed by a
position inside the window (or being the final `Match`). -/
theorem Confined_chunk (insts : List Inst) (lo hi : Nat)
    (h : ∀ p inst, lo ≤ p → p < hi → insts.get? p = some inst →
      instTargetsGe inst lo ∧ instTargetsLe inst (hi - 1) ∧
        (inst = .Match ∨ p + 1 < hi)) :
    Confined insts lo hi := by
  intro p hlo hhi
  rcases hp : insts.get? p with _ | inst
  · trivial
  · obtain ⟨hge, hle, hstep⟩ := h p inst hlo hhi hp
    cases inst
    case Match => trivial
    case Jump t =>
      have hge' : lo ≤ t := hge
      have hle' : t ≤ hi - 1 := hle
      exact ⟨hge', by omega⟩
    case Split a b =>
      have hge' : lo ≤ a ∧ lo ≤ b := hge
      have hle' : a ≤ hi - 1 ∧ b ≤ hi - 1 := hle
      exact ⟨hge'.1, by omega, hge'.2, by omega⟩
    case LookaheadPositive a b =>
      have hge' : lo ≤ a ∧ lo ≤ b := hge
      have hle' : a ≤ hi - 1 ∧ b ≤ hi - 1 := hle
      exact ⟨hge'.1, by omega, hge'.2, by omega⟩
    case LookaheadNegative a b =>
      have hge' : lo ≤ a ∧ lo ≤ b := hge
      have hle' : a ≤ hi - 1 ∧ b ≤ hi - 1 := hle
      exact ⟨hge'.1, by omega, hge'.2, by omega⟩
    case LookbehindPositive a b =>
      have hge' : lo ≤ a ∧ lo ≤ b := hge
      have hle' : a ≤ hi - 1 ∧ b ≤ hi - 1 := hle
      exact ⟨hge'.1, by omega, hge'.2, by omega⟩
    case LookbehindNegative a b =>
      have hge' : lo ≤ a ∧ lo ≤ b := hge
      have hle' : a ≤ hi - 1 ∧ b ≤ hi - 1 := hle
      exact ⟨hge'.1, by omega, hge'.2, by omega⟩
    all_goals
      cases hstep with
      | inl he => exact Inst.noConfusion he
      | inr hlt => exact hlt

/-- Appending a non-lookaround instruction preserves span well-formedness. -/
theorem spansWF_append (insts : List Inst) (v : Inst)
    (hv : ∀ a b, v ≠ .LookaheadPositive a b ∧ v ≠ .LookaheadNegative a b ∧
      v ≠ .LookbehindPositive a b ∧ v ≠ .LookbehindNegative a b)
    (h : spansWF insts) : spansWF (insts ++ [v]) := by
  intro p s1 s2 hlk
  have hp : p < insts.length := by
    rcases Nat.lt_or_ge p insts.length with hlt | hge
    · exact hlt
    · exfalso
      rcases Nat.eq_or_lt_of_le hge with he | hl
      · have hgv : (insts ++ [v]).get? p = some v := by
          rw [← he]
          exact List.get?_concat_length insts v
        rcases hlk with hx | hx | hx | hx <;>
          (have hxx := Option.some.inj (hgv.symm.trans hx))
        · exact (hv s1 s2).1 hxx
        · exact (hv s1 s2).2.1 hxx
        · exact (hv s1 s2).2.2.1 hxx
        · exact (hv s1 s2).2.2.2 hxx
      · have hlen : (insts ++ [v]).length ≤ p := by
          simp only [List.length_append, List.length_cons, List.length_nil]
          omega
        have hnone : (insts ++ [v]).get? p = none := List.get?_eq_none.mpr hlen
        rcases hlk with hx | hx | hx | hx <;>
          (rw [hnone] at hx; exact Option.noConfusion hx)
  have hag : (insts ++ [v]).get? p = insts.get? p := List.get?_append hp
  have hlk' : isLookAt insts p s1 s2 := by
    rcases hlk with hx | hx | hx | hx <;> rw [hag] at hx
    exacts [Or.inl hx, Or.inr (Or.inl hx), Or.inr (Or.inr (Or.inl hx)),
      Or.inr (Or.inr (Or.inr hx))]
  obtain ⟨g1, g2, g3, g4⟩ := h p s1 s2 hlk'
  refine ⟨g1, by simp only [List.length_append, List.length_cons, List.length_nil]; omega, ?_, ?_⟩
  · rw [List.get?_append (by omega)]
    exact g3
  · exact Confined_congr insts (insts ++ [v]) s1 s2
      (fun q h1 h2 => List.get?_append (by omega)) g4

/-- Overwriting a position outside every span with a non-lookaround
instruction preserves span well-formedness. -/
theorem spansWF_set_nolook (insts : List Inst) (j : Nat) (v : Inst)
    (hv : ∀ a b, v ≠ .LookaheadPositive a b ∧ v ≠ .LookaheadNegative a b ∧
      v ≠ .LookbehindPositive a b ∧ v ≠ .LookbehindNegative a b)
    (havoid : ∀ p s1 s2, isLookAt insts p s1 s2 → ¬(s1 ≤ j ∧ j < s2))
    (h : spansWF insts) : spansWF (insts.set j v) := by
  intro p s1 s2 hlk
  have hpj : p ≠ j := by
    intro he
    by_cases hlt : j < insts.length
    · have hgv := List.get?_set_eq_of_lt v hlt
      rcases hlk with hx | hx | hx | hx <;>
        (rw [he] at hx
         have hxx := Option.some.inj (hgv.symm.trans hx))
      · exact (hv s1 s2).1 hxx
      · exact (hv s1 s2).2.1 hxx
      · exact (hv s1 s2).2.2.1 hxx
      · exact (hv s1 s2).2.2.2 hxx
    · have hgn : (insts.set j v).get? p = none := by
        rw [he]
        exact List.get?_eq_none.mpr (by rw [List.length_set]; omega)
      rcases hlk with hx | hx | hx | hx <;>
        (rw [hgn] at hx; exact Option.noConfusion hx)
  have hag : (insts.set j v).get? p = insts.get? p :=
    List.get?_set_ne v insts (fun he => hpj he.symm)
  have hlk' : isLookAt insts p s1 s2 := by
    rcases hlk with hx | hx | hx | hx <;> rw [hag] at hx
    exacts [Or.inl hx, Or.inr (Or.inl hx), Or.inr (Or.inr (Or.inl hx)),
      Or.inr (Or.inr (Or.inr hx))]
  obtain ⟨g1, g2, g3, g4⟩ := h p s1 s2 hlk'
  have hav := havoid p s1 s2 hlk'
  refine ⟨g1, by rw [List.length_set]; exact g2, ?_, ?_⟩
  · rw [List.get?_set_ne v insts (fun he => hav ⟨by omega, by omega⟩)]
    exact g3
  · refine Confined_congr insts _ s1 s2 ?_ g4
    intro q h1 h2
    exact List.get?_set_ne v insts (fun he => hav ⟨by omega, by omega⟩)

/-- Installing a lookaround instruction at a position outside every existing
span preserves span well-formedness, provided the new span is itself
well-formed. -/
theorem spansWF_set_look (insts : List Inst) (j : Nat) (v : Inst) (a b : Nat)
    (hj : j < insts.length)
    (hvshape : v = .LookaheadPositive a b ∨ v = .LookaheadNegative a b ∨
      v = .LookbehindPositive a b ∨ v = .LookbehindNegative a b)
    (hnew : a < b ∧ b ≤ insts.length ∧ (insts.set j v).get? (b - 1) = some .Match ∧
      Confined (insts.set j v) a b)
    (havoid : ∀ p s1 s2, isLookAt insts p s1 s2 → ¬(s1 ≤ j ∧ j < s2))
    (h : spansWF insts) : spansWF (insts.set j v) := by
  intro p s1 s2 hlk
  by_cases hpj : p = j
  · subst hpj
    have hgv := List.get?_set_eq_of_lt v hj
    rcases hvshape with hv | hv | hv | hv <;> subst hv <;>
      rcases hlk with hx | hx | hx | hx <;>
        (have hxx := Option.some.inj (hgv.symm.trans hx))
    all_goals try exact Inst.noConfusion hxx
    all_goals (
      injection hxx with e1 e2
      subst e1
      subst e2
      exact ⟨hnew.1, by rw [List.length_set]; exact hnew.2.1, hnew.2.2.1, hnew.2.2.2⟩)
  · have hag : (insts.set j v).get? p = insts.get? p :=
      List.get?_set_ne v insts (fun he => hpj he.symm)
    have hlk' : isLookAt insts p s1 s2 := by
      rcases hlk with hx | hx | hx | hx <;> rw [hag] at hx
      exacts [Or.inl hx, Or.inr (Or.inl hx), Or.inr (Or.inr (Or.inl hx)),
        Or.inr (Or.inr (Or.inr hx))]
    obtain ⟨g1, g2, g3, g4⟩ := h p s1 s2 hlk'
    have hav := havoid p s1 s2 hlk'
    refine ⟨g1, by rw [List.length_set]; exact g2, ?_, ?_⟩
    · rw [List.get?_set_ne v insts (fun he => hav ⟨by omega, by omega⟩)]
      exact g3
    · refine Confined_congr insts _ s1 s2 ?_ g4
      intro q h1 h2
      exact List.get?_set_ne v insts (fun he => hav ⟨by omega, by omega⟩)

/-- The identity emission step. -/
theorem Geom_rfl (insts : List Inst) : Geom insts insts := by
  refine ⟨fun p _ => rfl, Nat.le_refl _, id, ?_, fun _ s => s⟩
  intro p inst hp hinst
  rw [List.get?_eq_none.mpr hp] at hinst
  exact Option.noConfusion hinst

/-- Emission geometry composes. -/
theorem Geom_trans {i1 i2 i3 : List Inst} (h1 : Geom i1 i2) (h2 : Geom i2 i3) :
    Geom i1 i3 := by
  obtain ⟨a1, b1, c1, d1, e1⟩ := h1
  obtain ⟨a2, b2, c2, d2, e2⟩ := h2
  refine ⟨?_, by omega, fun t => c2 (c1 t), ?_, fun t s => e2 (c1 t) (e1 t s)⟩
  · intro p hp
    rw [a2 p (by omega), a1 p hp]
  · intro p inst hp hinst
    by_cases hp2 : i2.length ≤ p
    · exact instTargetsGe_mono _ _ _ b1 (d2 p inst hp2 hinst)
    · push_neg at hp2
      rw [a2 p hp2] at hinst
      exact d1 p inst hp hinst

/-- Appending one non-lookaround instruction whose operands point into
`[insts.length, out.length]` extends the geometry. -/
theorem Geom_snoc_of (insts out : List Inst) (v : Inst)
    (hg : Geom insts out)
    (hvT : instTargetsLe v (out.length + 1))
    (hvG : instTargetsGe v insts.length)
    (hv : ∀ a b, v ≠ .LookaheadPositive a b ∧ v ≠ .LookaheadNegative a b ∧
      v ≠ .LookbehindPositive a b ∧ v ≠ .LookbehindNegative a b) :
    Geom insts (out ++ [v]) := by
  obtain ⟨g1, g2, g3, g4, g5⟩ := hg
  refine ⟨?_, ?_, ?_, ?_, ?_⟩
  · intro p hp
    rw [List.get?_append (by omega)]
    exact g1 p hp
  · simp only [List.length_append, List.length_cons, List.length_nil]
    omega
  · intro hT p inst hp
    by_cases hlt : p < out.length
    · rw [List.get?_append hlt] at hp
      exact instTargetsLe_mono _ _ _
        (by simp only [List.length_append, List.length_cons, List.length_nil]; omega)
        (g3 hT p inst hp)
    · rcases Nat.eq_or_lt_of_le (Nat.le_of_not_lt hlt) with he | hl
      · rw [← he, List.get?_concat_length] at hp
        injection hp with hp
        subst hp
        exact instTargetsLe_mono _ _ _
          (by simp only [List.length_append, List.length_cons, List.length_nil]; omega) hvT
      · have hnone : (out ++ [v]).length ≤ p := by
          simp only [List.length_append, List.length_cons, List.length_nil]
          omega
        rw [List.get?_eq_none.mpr hnone] at hp
        exact Option.noConfusion hp
  · intro p inst hp hinst
    by_cases hlt : p < out.length
    · rw [List.get?_append hlt] at hinst
      exact g4 p inst hp hinst
    · rcases Nat.eq_or_lt_of_le (Nat.le_of_not_lt hlt) with he | hl
      · rw [← he, List.get?_concat_length] at hinst
        injection hinst with hx
        subst hx
        exact hvG
      · have hnone : (out ++ [v]).length ≤ p := by
          simp only [List.length_append, List.length_cons, List.length_nil]
          omega
        rw [List.get?_eq_none.mpr hnone] at hinst
        exact Option.noConfusion hinst
  · intro hT hs
    exact spansWF_append out v hv (g5 hT hs)

/-- Overwriting a placeholder at or after the base with a non-lookaround
instruction whose operands point into `[insts.length, out.length]`
preserves the geometry. -/
theorem Geom_set_nolook (insts out : List Inst) (j : Nat) (v : Inst)
    (hg : Geom insts out) (hj : insts.length ≤ j)
    (hvT : instTargetsLe v out.length)
    (hvG : instTargetsGe v insts.length)
    (hv : ∀ a b, v ≠ .LookaheadPositive a b ∧ v ≠ .LookaheadNegative a b ∧
      v ≠ .LookbehindPositive a b ∧ v ≠ .LookbehindNegative a b)
    (havoid : TargLe insts → spansWF insts →
      ∀ p s1 s2, isLookAt out p s1 s2 → ¬(s1 ≤ j ∧ j < s2)) :
    Geom insts (out.set j v) := by
  obtain ⟨g1, g2, g3, g4, g5⟩ := hg
  refine ⟨?_, by rw [List.length_set]; exact g2, ?_, ?_, ?_⟩
  · intro p hp
    rw [List.get?_set_ne v out (by omega)]
    exact g1 p hp
  · intro hT p inst hp
    rw [List.length_set]
    by_cases hpj : p = j
    · subst hpj
      by_cases hlt : p < out.length
      · rw [List.get?_set_eq_of_lt v hlt] at hp
        injection hp with hx
        subst hx
        exact hvT
      · rw [List.set_eq_of_length_le (by omega), List.get?_eq_none.mpr (by omega)] at hp
        exact Option.noConfusion hp
    · rw [List.get?_set_ne v out (fun he => hpj he.symm)] at hp
      exact g3 hT p inst hp
  · intro p inst hp hinst
    by_cases hpj : p = j
    · subst hpj
      by_cases hlt : p < out.length
      · rw [List.get?_set_eq_of_lt v hlt] at hinst
        injection hinst with hx
        subst hx
        exact hvG
      · rw [List.set_eq_of_length_le (by omega), List.get?_eq_none.mpr (by omega)] at hinst
        exact Option.noConfusion hinst
    · rw [List.get?_set_ne v out (fun he => hpj he.symm)] at hinst
      exact g4 p inst hp hinst
  · intro hT hs
    exact spansWF_set_nolook out j v hv (havoid hT hs) (g5 hT hs)

/-- Installing a lookaround at a placeholder (the lookaround arms' final
backpatch) preserves the geometry, provided the new span is well-formed. -/
theorem Geom_set_look (insts out : List Inst) (j : Nat) (v : Inst) (a b : Nat)
    (hg : Geom insts out) (hj : insts.length ≤ j) (hjlt : j < out.length)
    (hvshape : v = .LookaheadPositive a b ∨ v = .LookaheadNegative a b ∨
      v = .LookbehindPositive a b ∨ v = .LookbehindNegative a b)
    (haT : a ≤ out.length) (hbT : b ≤ out.length)
    (haG : insts.length ≤ a) (hbG : insts.length ≤ b)
    (hnew : TargLe insts → spansWF insts →
      a < b ∧ b ≤ out.length ∧ (out.set j v).get? (b - 1) = some .Match ∧
        Confined (out.set j v) a b)
    (havoid : TargLe insts → spansWF insts →
      ∀ p s1 s2, isLookAt out p s1 s2 → ¬(s1 ≤ j ∧ j < s2)) :
    Geom insts (out.set j v) := by
  obtain ⟨g1, g2, g3, g4, g5⟩ := hg
  have hvT : instTargetsLe v out.length := by
    rcases hvshape with hv | hv | hv | hv <;> subst hv <;> exact ⟨haT, hbT⟩
  have hvG : instTargetsGe v insts.length := by
    rcases hvshape with hv | hv | hv | hv <;> subst hv <;> exact ⟨haG, hbG⟩
  refine ⟨?_, by rw [List.length_set]; exact g2, ?_, ?_, ?_⟩
  · intro p hp
    rw [List.get?_set_ne v out (by omega)]
    exact g1 p hp
  · intro hT p inst hp
    rw [List.length_set]
    by_cases hpj : p = j
    · subst hpj
      rw [List.get?_set_eq_of_lt v hjlt] at hp
      injection hp with hx
      subst hx
      exact hvT
    · rw [List.get?_set_ne v out (fun he => hpj he.symm)] at hp
      exact g3 hT p inst hp
  · intro p inst hp hinst
    by_cases hpj : p = j
    · subst hpj
      rw [List.get?_set_eq_of_lt v hjlt] at hinst
      injection hinst with hx
      subst hx
      exact hvG
    · rw [List.get?_set_ne v out (fun he => hpj he.symm)] at hinst
      exact g4 p inst hp hinst
  · intro hT hs
    exact spansWF_set_look out j v a b hjlt hvshape (hnew hT hs) (havoid hT hs) (g5 hT hs)

/-- Slot view of `applyFixups`. -/
theorem applyFixups_get (fixups : List Nat) :
    ∀ (insts : List Inst) (endIdx p : Nat),
      (applyFixups insts fixups endIdx).get? p =
        if p ∈ fixups ∧ p < insts.length then some (.Jump endIdx) else insts.get? p := by
  induction fixups with
  | nil =>
    intro insts endIdx p
    simp [applyFixups]
  | cons j rest ih =>
    intro insts endIdx p
    show (applyFixups (insts.set j (.Jump endIdx)) rest endIdx).get? p = _
    rw [ih, List.length_set]
    by_cases h1 : p ∈ rest ∧ p < insts.length
    · rw [if_pos h1, if_pos ⟨List.mem_cons_of_mem _ h1.1, h1.2⟩]
    · rw [if_neg h1]
      by_cases hpj : p = j
      · subst hpj
        by_cases hlt : p < insts.length
        · rw [if_pos ⟨List.mem_cons_self _ _, hlt⟩]
          exact List.get?_set_eq_of_lt _ hlt
        · rw [if_neg (fun hc => hlt hc.2), List.set_eq_of_length_le (by omega)]
      · rw [List.get?_set_ne _ insts (fun he => hpj he.symm)]
        by_cases h2 : p ∈ j :: rest ∧ p < insts.length
        · exfalso
          rcases List.mem_cons.mp h2.1 with he | hm
          · exact hpj he
          · exact h1 ⟨hm, h2.2⟩
        · rw [if_neg h2]

/-- `applyFixups` preserves the program length. -/
theorem applyFixups_length (fixups : List Nat) :
    ∀ (insts : List Inst) (endIdx : Nat),
      (applyFixups insts fixups endIdx).length = insts.length := by
  induction fixups with
  | nil => intro insts endIdx; rfl
  | cons j rest ih =>
    intro insts endIdx
    show (applyFixups (insts.set j (.Jump endIdx)) rest endIdx).length = _
    rw [ih, List.length_set]

/-- Classification of the lookaround spans of an emitted block: every span
either lies in the old code (and ends within it) or lies entirely in the
freshly emitted chunk. -/
theorem spanClass (insts insts2 final : List Inst)
    (hpre : ∀ p, p < insts.length → final.get? p = insts.get? p)
    (hbase : ∀ s1 s2, ¬isLookAt final insts.length s1 s2)
    (hchunk : ∀ p inst, insts.length + 1 ≤ p → p < insts2.length →
      final.get? p = some inst →
      instTargetsGe inst (insts.length + 1) ∧ instTargetsLe inst insts2.length)
    (hrest : ∀ p s1 s2, insts2.length ≤ p → ¬isLookAt final p s1 s2)
    (hs : spansWF insts) :
    ∀ p s1 s2, isLookAt final p s1 s2 →
      (p < insts.length ∧ s2 ≤ insts.length) ∨
        (insts.length + 1 ≤ s1 ∧ s2 ≤ insts2.length) := by
  intro p s1 s2 hlk
  rcases Nat.lt_or_ge p insts.length with hp | hp
  · left
    have hlk' : isLookAt insts p s1 s2 := by
      rcases hlk with hx | hx | hx | hx <;> rw [hpre p hp] at hx
      exacts [Or.inl hx, Or.inr (Or.inl hx), Or.inr (Or.inr (Or.inl hx)),
        Or.inr (Or.inr (Or.inr hx))]
    exact ⟨hp, (hs p s1 s2 hlk').2.1⟩
  · rcases Nat.eq_or_lt_of_le hp with he | hl
    · exact absurd (he ▸ hlk) (hbase s1 s2)
    · rcases Nat.lt_or_ge p insts2.length with hp2 | hp2
      · right
        rcases hlk with hx | hx | hx | hx <;>
          (obtain ⟨hge, hle⟩ := hchunk p _ (by omega) hp2 hx
           have hge' : insts.length + 1 ≤ s1 ∧ insts.length + 1 ≤ s2 := hge
           have hle' : s1 ≤ insts2.length ∧ s2 ≤ insts2.length := hle
           exact ⟨hge'.1, hle'.2⟩)
      · exact absurd hlk (hrest p s1 s2 hp2)

/-- A position at the base or at the end of the chunk is outside every span
of the emitted block. -/
theorem avoid_of_spanClass (insts2 final : List Inst) (n j : Nat)
    (hclass : ∀ p s1 s2, isLookAt final p s1 s2 →
      (p < n ∧ s2 ≤ n) ∨ (n + 1 ≤ s1 ∧ s2 ≤ insts2.length))
    (hj : n ≤ j) (hj2 : j ≤ n ∨ insts2.length ≤ j) :
    ∀ p s1 s2, isLookAt final p s1 s2 → ¬(s1 ≤ j ∧ j < s2) := by
  intro p s1 s2 hlk hc
  rcases hclass p s1 s2 hlk with hcl | hcl <;> rcases hj2 with hj2 | hj2 <;>
    (obtain ⟨c1, c2⟩ := hcl; omega)

/-- A fix-up position in the old code is outside every span of the emitted
block, provided it was outside every old span. -/
theorem avoidOld_of_spanClass (insts insts2 final : List Inst) (j : Nat)
    (hpre : ∀ p, p < insts.length → final.get? p = insts.get? p)
    (hclass : ∀ p s1 s2, isLookAt final p s1 s2 →
      (p < insts.length ∧ s2 ≤ insts.length) ∨
        (insts.length + 1 ≤ s1 ∧ s2 ≤ insts2.length))
    (hav : ∀ p s1 s2, isLookAt insts p s1 s2 → ¬(s1 ≤ j ∧ j < s2))
    (hj : j < insts.length) :
    ∀ p s1 s2, isLookAt final p s1 s2 → ¬(s1 ≤ j ∧ j < s2) := by
  intro p s1 s2 hlk hc
  rcases hclass p s1 s2 hlk with ⟨hp, hc2⟩ | ⟨h1, h2⟩
  · have hlk' : isLookAt insts p s1 s2 := by
      rcases hlk with hx | hx | hx | hx <;> rw [hpre p hp] at hx
      exacts [Or.inl hx, Or.inr (Or.inl hx), Or.inr (Or.inr (Or.inl hx)),
        Or.inr (Or.inr (Or.inr hx))]
    exact hav p s1 s2 hlk' hc
  · omega

/-- Length of a one-element append. -/
theorem length_snoc (l : List Inst) (v : Inst) : (l ++ [v]).length = l.length + 1 := by
  simp

/-- Every program the compiler emits has sound geometry: `emit` only
appends (back-patching only placeholders it created), keeps all operands
within the program, points new instructions only at the new region, and
produces well-formed lookaround spans. -/
theorem emit_geom :
    ∀ (insts : List Inst) (node : AstNode) (out : List Inst),
      emit insts node = some out → Geom insts out := by
  intro insts₀ node₀
  refine emit.induct
    (fun insts node => ∀ out, emit insts node = some out → Geom insts out)
    (fun insts sub kind greedy => ∀ out, emit_quantifier insts sub kind greedy = some out →
      Geom insts out)
    (fun insts sub greedy k => ∀ out, emitRepeatQuestion insts sub greedy k = some out →
      Geom insts out)
    (fun insts sub k => ∀ out, emitRepeat insts sub k = some out → Geom insts out)
    (fun insts bs fixups => ∀ out, emitAltChain insts bs fixups = some out →
      Geom insts out.1 ∧
      ((∀ j ∈ fixups, j < insts.length ∧ insts.get? j = some Inst.Nop) →
        ∀ j ∈ out.2, (j ∈ fixups ∨ insts.length ≤ j) ∧ j < out.1.length ∧
          out.1.get? j = some Inst.Nop) ∧
      (TargLe insts → spansWF insts →
        (∀ j ∈ fixups, j < insts.length ∧ insts.get? j = some Inst.Nop ∧
          ∀ p s1 s2, isLookAt insts p s1 s2 → ¬(s1 ≤ j ∧ j < s2)) →
        ∀ j ∈ out.2, ∀ p s1 s2, isLookAt out.1 p s1 s2 → ¬(s1 ≤ j ∧ j < s2)))
    (fun insts ns => ∀ out, emitList insts ns = some out → Geom insts out)
    ?_ ?_ ?_ ?_ ?_ ?_ ?_ ?_ ?_ ?_ ?_ ?_ ?_ ?_ ?_ ?_ ?_ ?_ ?_ ?_ ?_ ?_ ?_ ?_ ?_ ?_ ?_ ?_
    ?_ ?_ ?_ ?_ ?_ ?_ insts₀ node₀
  · intro insts ch out ho
    simp only [emit] at ho
    injection ho with h1
    subst h1
    exact Geom_snoc_of insts insts _ (Geom_rfl insts) True.intro True.intro
      (by
        intro a b
        exact ⟨fun h => Inst.noConfusion h, fun h => Inst.noConfusion h,
          fun h => Inst.noConfusion h, fun h => Inst.noConfusion h⟩)
  · intro insts out ho
    simp only [emit] at ho
    injection ho with h1
    subst h1
    exact Geom_snoc_of insts insts _ (Geom_rfl insts) True.intro True.intro
      (by
        intro a b
        exact ⟨fun h => Inst.noConfusion h, fun h => Inst.noConfusion h,
          fun h => Inst.noConfusion h, fun h => Inst.noConfusion h⟩)
  · intro insts nodes ih out ho
    exact ih out (by simpa [emit] using ho)
  · intro insts out ho
    simp only [emit] at ho
    injection ho with h1
    subst h1
    exact Geom_rfl insts
  · intro insts b ih out ho
    exact ih out (by simpa [emit] using ho)
  · intro insts b1 b2 rest ih out ho
    simp only [emit, Option.bind_eq_bind] at ho
    obtain ⟨⟨insts1, fxs⟩, h1, h2⟩ := option_bind_some _ _ _ ho
    injection h2 with h2
    subst h2
    obtain ⟨hgeom, hfix2, hfix3⟩ := ih (insts1, fxs) h1
    dsimp only at hgeom hfix2 hfix3
    obtain ⟨g1, g2, g3, g4, g5⟩ := hgeom
    have hfempty : ∀ j ∈ ([] : List Nat), j < insts.length ∧ insts.get? j = some Inst.Nop :=
      fun j hj => absurd hj (List.not_mem_nil j)
    have hfx := hfix2 hfempty
    have hfxge : ∀ j ∈ fxs, insts.length ≤ j := by
      intro j hj
      rcases (hfx j hj).1 with hor | hor
      · exact absurd hor (List.not_mem_nil j)
      · exact hor
    refine ⟨?_, ?_, ?_, ?_, ?_⟩
    · intro p hp
      have hnc : ¬(p ∈ fxs ∧ p < insts1.length) := by
        intro hc
        have := hfxge p hc.1
        omega
      rw [applyFixups_get, if_neg hnc]
      exact g1 p hp
    · rw [applyFixups_length]
      exact g2
    · intro hT p inst hp
      rw [applyFixups_length]
      rw [applyFixups_get] at hp
      by_cases hc : p ∈ fxs ∧ p < insts1.length
      · rw [if_pos hc] at hp
        injection hp with hx
        subst hx
        exact Nat.le_refl _
      · rw [if_neg hc] at hp
        exact g3 hT p inst hp
    · intro p inst hp hinst
      rw [applyFixups_get] at hinst
      by_cases hc : p ∈ fxs ∧ p < insts1.length
      · rw [if_pos hc] at hinst
        injection hinst with hx
        subst hx
        exact g2
      · rw [if_neg hc] at hinst
        exact g4 p inst hp hinst
    · intro hT hs
      have hs1 := g5 hT hs
      have havd := hfix3 hT hs (fun j hj => absurd hj (List.not_mem_nil j))
      intro p s1 s2 hlk
      have hpfix : ¬(p ∈ fxs ∧ p < insts1.length) := by
        intro hc
        have hjump : (applyFixups insts1 fxs insts1.length).get? p =
            some (Inst.Jump insts1.length) := by
          rw [applyFixups_get, if_pos hc]
        rcases hlk with hx | hx | hx | hx <;>
          (have hxx := Option.some.inj (hjump.symm.trans hx); exact Inst.noConfusion hxx)
      have hag : (applyFixups insts1 fxs insts1.length).get? p = insts1.get? p := by
        rw [applyFixups_get, if_neg hpfix]
      have hlk' : isLookAt insts1 p s1 s2 := by
        rcases hlk with hx | hx | hx | hx <;> rw [hag] at hx
        exacts [Or.inl hx, Or.inr (Or.inl hx), Or.inr (Or.inr (Or.inl hx)),
          Or.inr (Or.inr (Or.inr hx))]
      obtain ⟨w1, w2, w3, w4⟩ := hs1 p s1 s2 hlk'
      have hnotin : ∀ q, s1 ≤ q → q < s2 → ¬(q ∈ fxs ∧ q < insts1.length) := by
        intro q hq1 hq2 hc
        exact havd q hc.1 p s1 s2 hlk' ⟨hq1, hq2⟩
      refine ⟨w1, ?_, ?_, ?_⟩
      · rw [applyFixups_length]
        exact w2
      · rw [applyFixups_get, if_neg (hnotin (s2 - 1) (by omega) (by omega))]
        exact w3
      · refine Confined_congr insts1 _ s1 s2 ?_ w4
        intro q hq1 hq2
        rw [applyFixups_get, if_neg (hnotin q hq1 hq2)]
  · intro insts sub kind greedy ih out ho
    exact ih out (by simpa [emit] using ho)
  · intro insts ranges negated out ho
    simp only [emit] at ho
    injection ho with h1
    subst h1
    exact Geom_snoc_of insts insts _ (Geom_rfl insts) True.intro True.intro
      (by
        intro a b
        exact ⟨fun h => Inst.noConfusion h, fun h => Inst.noConfusion h,
          fun h => Inst.noConfusion h, fun h => Inst.noConfusion h⟩)
  · intro insts k out ho
    simp only [emit] at ho
    injection ho with h1
    subst h1
    exact Geom_snoc_of insts insts _ (Geom_rfl insts) True.intro True.intro
      (by
        intro a b
        exact ⟨fun h => Inst.noConfusion h, fun h => Inst.noConfusion h,
          fun h => Inst.noConfusion h, fun h => Inst.noConfusion h⟩)
  · intro insts out ho
    simp only [emit] at ho
    injection ho with h1
    subst h1
    exact Geom_snoc_of insts insts _ (Geom_rfl insts) True.intro True.intro
      (by
        intro a b
        exact ⟨fun h => Inst.noConfusion h, fun h => Inst.noConfusion h,
          fun h => Inst.noConfusion h, fun h => Inst.noConfusion h⟩)
  · intro insts out ho
    simp only [emit] at ho
    injection ho with h1
    subst h1
    exact Geom_snoc_of insts insts _ (Geom_rfl insts) True.intro True.intro
      (by
        intro a b
        exact ⟨fun h => Inst.noConfusion h, fun h => Inst.noConfusion h,
          fun h => Inst.noConfusion h, fun h => Inst.noConfusion h⟩)
  · intro insts out ho
    simp only [emit] at ho
    injection ho with h1
    subst h1
    exact Geom_snoc_of insts insts _ (Geom_rfl insts) True.intro True.intro
      (by
        intro a b
        exact ⟨fun h => Inst.noConfusion h, fun h => Inst.noConfusion h,
          fun h => Inst.noConfusion h, fun h => Inst.noConfusion h⟩)
  · intro insts out ho
    simp only [emit] at ho
    injection ho with h1
    subst h1
    exact Geom_snoc_of insts insts _ (Geom_rfl insts) True.intro True.intro
      (by
        intro a b
        exact ⟨fun h => Inst.noConfusion h, fun h => Inst.noConfusion h,
          fun h => Inst.noConfusion h, fun h => Inst.noConfusion h⟩)
  · intro insts index sub
    try dsimp only
    intro ih out ho
    simp only [emit, Option.bind_eq_bind] at ho
    obtain ⟨insts2, h1, h2⟩ := option_bind_some _ _ _ ho
    injection h2 with h2
    subst h2
    have hGs : Geom insts (insts ++ [Inst.Save (index * 2)]) :=
      Geom_snoc_of insts insts _ (Geom_rfl insts) True.intro True.intro
        (by
        intro a b
        exact ⟨fun h => Inst.noConfusion h, fun h => Inst.noConfusion h,
          fun h => Inst.noConfusion h, fun h => Inst.noConfusion h⟩)
    have hG2 : Geom insts insts2 := Geom_trans hGs (ih insts2 h1)
    exact Geom_snoc_of insts insts2 _ hG2 True.intro True.intro
      (by
        intro a b
        exact ⟨fun h => Inst.noConfusion h, fun h => Inst.noConfusion h,
          fun h => Inst.noConfusion h, fun h => Inst.noConfusion h⟩)
  · intro insts sub ih out ho
    exact ih out (by simpa [emit] using ho)
  · intro insts idx out ho
    simp only [emit] at ho
    injection ho with h1
    subst h1
    exact Geom_snoc_of insts insts _ (Geom_rfl insts) True.intro True.intro
      (by
        intro a b
        exact ⟨fun h => Inst.noConfusion h, fun h => Inst.noConfusion h,
          fun h => Inst.noConfusion h, fun h => Inst.noConfusion h⟩)
  · intro insts sub positive
    try dsimp only
    intro ih out ho
    simp only [emit, Option.bind_eq_bind] at ho
    obtain ⟨insts2, h1, h2⟩ := option_bind_some _ _ _ ho
    simp only [length_snoc] at h2
    have hB := ih insts2 h1
    have hGnop : Geom insts (insts ++ [Inst.Nop]) :=
      Geom_snoc_of insts insts _ (Geom_rfl insts) True.intro True.intro
        (by
        intro a b
        exact ⟨fun h => Inst.noConfusion h, fun h => Inst.noConfusion h,
          fun h => Inst.noConfusion h, fun h => Inst.noConfusion h⟩)
    have hG2 : Geom insts insts2 := Geom_trans hGnop hB
    have hlen1 : insts.length + 1 ≤ insts2.length := by
      have := hB.2.1
      simpa using this
    have hchunkI : TargLe insts → ∀ p inst, insts.length + 1 ≤ p → p < insts2.length →
        insts2.get? p = some inst →
        instTargetsGe inst (insts.length + 1) ∧ instTargetsLe inst insts2.length := by
      intro hT p inst hp1 hp2 hpi
      constructor
      · exact instTargetsGe_mono _ _ _ (by simp only [length_snoc]; omega)
          (hB.2.2.2.1 p inst (by simp only [length_snoc]; omega) hpi)
      · exact hB.2.2.1 (hGnop.2.2.1 hT) p inst hpi
    have hnopv : insts2.get? insts.length = some Inst.Nop := by
      rw [hB.1 insts.length (by simp only [length_snoc]; omega)]
      exact List.get?_concat_length insts Inst.Nop
    have hG3 : Geom insts (insts2 ++ [Inst.Match]) :=
      Geom_snoc_of insts insts2 _ hG2 True.intro True.intro
        (by
        intro a b
        exact ⟨fun h => Inst.noConfusion h, fun h => Inst.noConfusion h,
          fun h => Inst.noConfusion h, fun h => Inst.noConfusion h⟩)
    have hbase : ∀ s1 s2, ¬isLookAt (insts2 ++ [Inst.Match]) insts.length s1 s2 := by
      intro s1 s2 hlk
      have hbv : (insts2 ++ [Inst.Match]).get? insts.length = some Inst.Nop := by
        rw [List.get?_append (by omega)]
        exact hnopv
      rcases hlk with hx | hx | hx | hx <;>
        (have hxx := Option.some.inj (hbv.symm.trans hx); exact Inst.noConfusion hxx)
    have hrest : ∀ p s1 s2, insts2.length ≤ p → ¬isLookAt (insts2 ++ [Inst.Match]) p s1 s2 := by
      intro p s1 s2 hp hlk
      rcases Nat.eq_or_lt_of_le hp with he | hl
      · have hbv : (insts2 ++ [Inst.Match]).get? p = some Inst.Match := by
          rw [← he]
          exact List.get?_concat_length insts2 Inst.Match
        rcases hlk with hx | hx | hx | hx <;>
          (have hxx := Option.some.inj (hbv.symm.trans hx); exact Inst.noConfusion hxx)
      · have hbn : (insts2 ++ [Inst.Match]).get? p = none :=
          List.get?_eq_none.mpr (by simp only [length_snoc]; omega)
        rcases hlk with hx | hx | hx | hx <;> (rw [hbn] at hx; exact Option.noConfusion hx)
    have hclass : TargLe insts → spansWF insts →
        ∀ p s1 s2, isLookAt (insts2 ++ [Inst.Match]) p s1 s2 →
          (p < insts.length ∧ s2 ≤ insts.length) ∨
            (insts.length + 1 ≤ s1 ∧ s2 ≤ insts2.length) := by
      intro hT hs
      refine spanClass insts insts2 _ hG3.1 hbase ?_ hrest hs
      intro p inst hp1 hp2 hpi
      rw [List.get?_append hp2] at hpi
      exact hchunkI hT p inst hp1 hp2 hpi
    have hcommon : TargLe insts → ∀ v : Inst,
        insts.length + 1 < insts2.length + 1 ∧
        insts2.length + 1 ≤ (insts2 ++ [Inst.Match]).length ∧
        ((insts2 ++ [Inst.Match]).set insts.length v).get? (insts2.length + 1 - 1) =
          some Inst.Match ∧
        Confined ((insts2 ++ [Inst.Match]).set insts.length v)
          (insts.length + 1) (insts2.length + 1) := by
      intro hT v
      refine ⟨by omega, by simp only [length_snoc]; omega, ?_, ?_⟩
      · have he : insts2.length + 1 - 1 = insts2.length := by omega
        rw [he, List.get?_set_ne v _ (by omega)]
        exact List.get?_concat_length insts2 Inst.Match
      · refine Confined_chunk _ _ _ ?_
        intro p inst hp1 hp2 hpi
        rw [List.get?_set_ne v _ (by omega)] at hpi
        rcases Nat.lt_or_ge p insts2.length with hpc | hpc
        · rw [List.get?_append hpc] at hpi
          obtain ⟨hge, hle⟩ := hchunkI hT p inst hp1 hpc hpi
          refine ⟨hge, ?_, Or.inr (by omega)⟩
          have he : insts2.length + 1 - 1 = insts2.length := by omega
          rw [he]
          exact hle
        · have he : p = insts2.length := by omega
          subst he
          rw [List.get?_concat_length] at hpi
          injection hpi with hx
          subst hx
          exact ⟨trivial, trivial, Or.inl rfl⟩
    have havoidm : TargLe insts → spansWF insts →
        ∀ p s1 s2, isLookAt (insts2 ++ [Inst.Match]) p s1 s2 →
          ¬(s1 ≤ insts.length ∧ insts.length < s2) := by
      intro hT hs
      exact avoid_of_spanClass insts2 _ insts.length insts.length (hclass hT hs)
        (Nat.le_refl _) (Or.inl (Nat.le_refl _))
    split at h2 <;>
      (injection h2 with h2
       subst h2
       refine Geom_set_look insts (insts2 ++ [Inst.Match]) insts.length _
         (insts.length + 1) (insts2.length + 1) hG3 (Nat.le_refl _)
         (by simp only [length_snoc]; omega) ?_
         (by simp only [length_snoc]; omega) (by simp only [length_snoc]; omega)
         (by omega) (by omega)
         (fun hT _ => hcommon hT _) havoidm)
    · exact Or.inl rfl
    · exact Or.inr (Or.inl rfl)
  · intro insts sub positive
    try dsimp only
    intro ih out ho
    simp only [emit, Option.bind_eq_bind] at ho
    obtain ⟨insts2, h1, h2⟩ := option_bind_some _ _ _ ho
    simp only [length_snoc] at h2
    have hB := ih insts2 h1
    have hGnop : Geom insts (insts ++ [Inst.Nop]) :=
      Geom_snoc_of insts insts _ (Geom_rfl insts) True.intro True.intro
        (by
        intro a b
        exact ⟨fun h => Inst.noConfusion h, fun h => Inst.noConfusion h,
          fun h => Inst.noConfusion h, fun h => Inst.noConfusion h⟩)
    have hG2 : Geom insts insts2 := Geom_trans hGnop hB
    have hlen1 : insts.length + 1 ≤ insts2.length := by
      have := hB.2.1
      simpa using this
    have hchunkI : TargLe insts → ∀ p inst, insts.length + 1 ≤ p → p < insts2.length →
        insts2.get? p = some inst →
        instTargetsGe inst (insts.length + 1) ∧ instTargetsLe inst insts2.length := by
      intro hT p inst hp1 hp2 hpi
      constructor
      · exact instTargetsGe_mono _ _ _ (by simp only [length_snoc]; omega)
          (hB.2.2.2.1 p inst (by simp only [length_snoc]; omega) hpi)
      · exact hB.2.2.1 (hGnop.2.2.1 hT) p inst hpi
    have hnopv : insts2.get? insts.length = some Inst.Nop := by
      rw [hB.1 insts.length (by simp only [length_snoc]; omega)]
      exact List.get?_concat_length insts Inst.Nop
    have hG3 : Geom insts (insts2 ++ [Inst.Match]) :=
      Geom_snoc_of insts insts2 _ hG2 True.intro True.intro
        (by
        intro a b
        exact ⟨fun h => Inst.noConfusion h, fun h => Inst.noConfusion h,
          fun h => Inst.noConfusion h, fun h => Inst.noConfusion h⟩)
    have hbase : ∀ s1 s2, ¬isLookAt (insts2 ++ [Inst.Match]) insts.length s1 s2 := by
      intro s1 s2 hlk
      have hbv : (insts2 ++ [Inst.Match]).get? insts.length = some Inst.Nop := by
        rw [List.get?_append (by omega)]
        exact hnopv
      rcases hlk with hx | hx | hx | hx <;>
        (have hxx := Option.some.inj (hbv.symm.trans hx); exact Inst.noConfusion hxx)
    have hrest : ∀ p s1 s2, insts2.length ≤ p → ¬isLookAt (insts2 ++ [Inst.Match]) p s1 s2 := by
      intro p s1 s2 hp hlk
      rcases Nat.eq_or_lt_of_le hp with he | hl
      · have hbv : (insts2 ++ [Inst.Match]).get? p = some Inst.Match := by
          rw [← he]
          exact List.get?_concat_length insts2 Inst.Match
        rcases hlk with hx | hx | hx | hx <;>
          (have hxx := Option.some.inj (hbv.symm.trans hx); exact Inst.noConfusion hxx)
      · have hbn : (insts2 ++ [Inst.Match]).get? p = none :=
          List.get?_eq_none.mpr (by simp only [length_snoc]; omega)
        rcases hlk with hx | hx | hx | hx <;> (rw [hbn] at hx; exact Option.noConfusion hx)
    have hclass : TargLe insts → spansWF insts →
        ∀ p s1 s2, isLookAt (insts2 ++ [Inst.Match]) p s1 s2 →
          (p < insts.length ∧ s2 ≤ insts.length) ∨
            (insts.length + 1 ≤ s1 ∧ s2 ≤ insts2.length) := by
      intro hT hs
      refine spanClass insts insts2 _ hG3.1 hbase ?_ hrest hs
      intro p inst hp1 hp2 hpi
      rw [List.get?_append hp2] at hpi
      exact hchunkI hT p inst hp1 hp2 hpi
    have hcommon : TargLe insts → ∀ v : Inst,
        insts.length + 1 < insts2.length + 1 ∧
        insts2.length + 1 ≤ (insts2 ++ [Inst.Match]).length ∧
        ((insts2 ++ [Inst.Match]).set insts.length v).get? (insts2.length + 1 - 1) =
          some Inst.Match ∧
        Confined ((insts2 ++ [Inst.Match]).set insts.length v)
          (insts.length + 1) (insts2.length + 1) := by
      intro hT v
      refine ⟨by omega, by simp only [length_snoc]; omega, ?_, ?_⟩
      · have he : insts2.length + 1 - 1 = insts2.length := by omega
        rw [he, List.get?_set_ne v _ (by omega)]
        exact List.get?_concat_length insts2 Inst.Match
      · refine Confined_chunk _ _ _ ?_
        intro p inst hp1 hp2 hpi
        rw [List.get?_set_ne v _ (by omega)] at hpi
        rcases Nat.lt_or_ge p insts2.length with hpc | hpc
        · rw [List.get?_append hpc] at hpi
          obtain ⟨hge, hle⟩ := hchunkI hT p inst hp1 hpc hpi
          refine ⟨hge, ?_, Or.inr (by omega)⟩
          have he : insts2.length + 1 - 1 = insts2.length := by omega
          rw [he]
          exact hle
        · have he : p = insts2.length := by omega
          subst he
          rw [List.get?_concat_length] at hpi
          injection hpi with hx
          subst hx
          exact ⟨trivial, trivial, Or.inl rfl⟩
    have havoidm : TargLe insts → spansWF insts →
        ∀ p s1 s2, isLookAt (insts2 ++ [Inst.Match]) p s1 s2 →
          ¬(s1 ≤ insts.length ∧ insts.length < s2) := by
      intro hT hs
      exact avoid_of_spanClass insts2 _ insts.length insts.length (hclass hT hs)
        (Nat.le_refl _) (Or.inl (Nat.le_refl _))
    split at h2 <;>
      (injection h2 with h2
       subst h2
       refine Geom_set_look insts (insts2 ++ [Inst.Match]) insts.length _
         (insts.length + 1) (insts2.length + 1) hG3 (Nat.le_refl _)
         (by simp only [length_snoc]; omega) ?_
         (by simp only [length_snoc]; omega) (by simp only [length_snoc]; omega)
         (by omega) (by omega)
         (fun hT _ => hcommon hT _) havoidm)
    · exact Or.inr (Or.inr (Or.inl rfl))
    · exact Or.inr (Or.inr (Or.inr rfl))
  · intro insts sub fl
    try dsimp only
    intro ih out ho
    simp only [emit, Option.bind_eq_bind] at ho
    obtain ⟨insts2, h1, h2⟩ := option_bind_some _ _ _ ho
    injection h2 with h2
    subst h2
    have hGon : Geom insts (insts ++ [Inst.CaseInsensitiveOn]) :=
      Geom_snoc_of insts insts _ (Geom_rfl insts) True.intro True.intro
        (by
        intro a b
        exact ⟨fun h => Inst.noConfusion h, fun h => Inst.noConfusion h,
          fun h => Inst.noConfusion h, fun h => Inst.noConfusion h⟩)
    have hG2 : Geom insts insts2 := Geom_trans hGon (ih insts2 h1)
    exact Geom_snoc_of insts insts2 _ hG2 True.intro True.intro
      (by
        intro a b
        exact ⟨fun h => Inst.noConfusion h, fun h => Inst.noConfusion h,
          fun h => Inst.noConfusion h, fun h => Inst.noConfusion h⟩)
  · intro insts sub greedy
    try dsimp only
    intro ih out ho
    simp only [emit_quantifier, Option.bind_eq_bind] at ho
    obtain ⟨insts2, h1, h2⟩ := option_bind_some _ _ _ ho
    simp only [length_snoc] at h2
    have hB := ih insts2 h1
    have hGnop : Geom insts (insts ++ [Inst.Nop]) :=
      Geom_snoc_of insts insts _ (Geom_rfl insts) True.intro True.intro
        (by
        intro a b
        exact ⟨fun h => Inst.noConfusion h, fun h => Inst.noConfusion h,
          fun h => Inst.noConfusion h, fun h => Inst.noConfusion h⟩)
    have hG2 : Geom insts insts2 := Geom_trans hGnop hB
    have hlen1 : insts.length + 1 ≤ insts2.length := by
      have := hB.2.1
      simpa using this
    have hchunkI : TargLe insts → ∀ p inst, insts.length + 1 ≤ p → p < insts2.length →
        insts2.get? p = some inst →
        instTargetsGe inst (insts.length + 1) ∧ instTargetsLe inst insts2.length := by
      intro hT p inst hp1 hp2 hpi
      constructor
      · exact instTargetsGe_mono _ _ _ (by simp only [length_snoc]; omega)
          (hB.2.2.2.1 p inst (by simp only [length_snoc]; omega) hpi)
      · exact hB.2.2.1 (hGnop.2.2.1 hT) p inst hpi
    have hnopv : insts2.get? insts.length = some Inst.Nop := by
      rw [hB.1 insts.length (by simp only [length_snoc]; omega)]
      exact List.get?_concat_length insts Inst.Nop
    have hG3 : Geom insts (insts2 ++ [Inst.Jump insts.length]) :=
      Geom_snoc_of insts insts2 _ hG2 (show insts.length ≤ insts2.length + 1 by omega)
        (Nat.le_refl insts.length)
        (by
        intro a b
        exact ⟨fun h => Inst.noConfusion h, fun h => Inst.noConfusion h,
          fun h => Inst.noConfusion h, fun h => Inst.noConfusion h⟩)
    have hbase : ∀ s1 s2, ¬isLookAt (insts2 ++ [Inst.Jump insts.length]) insts.length s1 s2 := by
      intro s1 s2 hlk
      have hbv : (insts2 ++ [Inst.Jump insts.length]).get? insts.length = some Inst.Nop := by
        rw [List.get?_append (by omega)]
        exact hnopv
      rcases hlk with hx | hx | hx | hx <;>
        (have hxx := Option.some.inj (hbv.symm.trans hx); exact Inst.noConfusion hxx)
    have hrest : ∀ p s1 s2, insts2.length ≤ p →
        ¬isLookAt (insts2 ++ [Inst.Jump insts.length]) p s1 s2 := by
      intro p s1 s2 hp hlk
      rcases Nat.eq_or_lt_of_le hp with he | hl
      · have hbv : (insts2 ++ [Inst.Jump insts.length]).get? p =
            some (Inst.Jump insts.length) := by
          rw [← he]
          exact List.get?_concat_length insts2 _
        rcases hlk with hx | hx | hx | hx <;>
          (have hxx := Option.some.inj (hbv.symm.trans hx); exact Inst.noConfusion hxx)
      · have hbn : (insts2 ++ [Inst.Jump insts.length]).get? p = none :=
          List.get?_eq_none.mpr (by simp only [length_snoc]; omega)
        rcases hlk with hx | hx | hx | hx <;> (rw [hbn] at hx; exact Option.noConfusion hx)
    have hclass : TargLe insts → spansWF insts →
        ∀ p s1 s2, isLookAt (insts2 ++ [Inst.Jump insts.length]) p s1 s2 →
          (p < insts.length ∧ s2 ≤ insts.length) ∨
            (insts.length + 1 ≤ s1 ∧ s2 ≤ insts2.length) := by
      intro hT hs
      refine spanClass insts insts2 _ hG3.1 hbase ?_ hrest hs
      intro p inst hp1 hp2 hpi
      rw [List.get?_append hp2] at hpi
      exact hchunkI hT p inst hp1 hp2 hpi
    split at h2 <;>
      (injection h2 with h2
       subst h2
       refine Geom_set_nolook insts (insts2 ++ [Inst.Jump insts.length]) insts.length _
         hG3 (Nat.le_refl _) ⟨by simp only [length_snoc]; omega,
           by simp only [length_snoc]; omega⟩ ⟨by omega, by omega⟩
         (by
        intro a b
        exact ⟨fun h => Inst.noConfusion h, fun h => Inst.noConfusion h,
          fun h => Inst.noConfusion h, fun h => Inst.noConfusion h⟩) ?_
       intro hT hs
       exact avoid_of_spanClass insts2 _ insts.length insts.length (hclass hT hs)
         (Nat.le_refl _) (Or.inl (Nat.le_refl _)))
  · intro insts sub greedy ih out ho
    simp only [emit_quantifier, Option.bind_eq_bind] at ho
    obtain ⟨insts1, h1, h2⟩ := option_bind_some _ _ _ ho
    have hG1 := ih insts1 h1
    have hlen : insts.length ≤ insts1.length := hG1.2.1
    split at h2 <;>
      (injection h2 with h2
       subst h2
       exact Geom_snoc_of insts insts1 _ hG1 ⟨by omega, by omega⟩ ⟨by omega, by omega⟩
         (by
        intro a b
        exact ⟨fun h => Inst.noConfusion h, fun h => Inst.noConfusion h,
          fun h => Inst.noConfusion h, fun h => Inst.noConfusion h⟩))
  · intro insts sub greedy
    try dsimp only
    intro ih out ho
    simp only [emit_quantifier, Option.bind_eq_bind] at ho
    obtain ⟨insts2, h1, h2⟩ := option_bind_some _ _ _ ho
    simp only [length_snoc] at h2
    have hB := ih insts2 h1
    have hGnop : Geom insts (insts ++ [Inst.Nop]) :=
      Geom_snoc_of insts insts _ (Geom_rfl insts) True.intro True.intro
        (by
        intro a b
        exact ⟨fun h => Inst.noConfusion h, fun h => Inst.noConfusion h,
          fun h => Inst.noConfusion h, fun h => Inst.noConfusion h⟩)
    have hG2 : Geom insts insts2 := Geom_trans hGnop hB
    have hlen1 : insts.length + 1 ≤ insts2.length := by
      have := hB.2.1
      simpa using this
    have hchunkI : TargLe insts → ∀ p inst, insts.length + 1 ≤ p → p < insts2.length →
        insts2.get? p = some inst →
        instTargetsGe inst (insts.length + 1) ∧ instTargetsLe inst insts2.length := by
      intro hT p inst hp1 hp2 hpi
      constructor
      · exact instTargetsGe_mono _ _ _ (by simp only [length_snoc]; omega)
          (hB.2.2.2.1 p inst (by simp only [length_snoc]; omega) hpi)
      · exact hB.2.2.1 (hGnop.2.2.1 hT) p inst hpi
    have hnopv : insts2.get? insts.length = some Inst.Nop := by
      rw [hB.1 insts.length (by simp only [length_snoc]; omega)]
      exact List.get?_concat_length insts Inst.Nop
    have hbase : ∀ s1 s2, ¬isLookAt insts2 insts.length s1 s2 := by
      intro s1 s2 hlk
      rcases hlk with hx | hx | hx | hx <;>
        (have hxx := Option.some.inj (hnopv.symm.trans hx); exact Inst.noConfusion hxx)
    have hrest : ∀ p s1 s2, insts2.length ≤ p → ¬isLookAt insts2 p s1 s2 := by
      intro p s1 s2 hp hlk
      have hbn : insts2.get? p = none := List.get?_eq_none.mpr hp
      rcases hlk with hx | hx | hx | hx <;> (rw [hbn] at hx; exact Option.noConfusion hx)
    have hclass : TargLe insts → spansWF insts →
        ∀ p s1 s2, isLookAt insts2 p s1 s2 →
          (p < insts.length ∧ s2 ≤ insts.length) ∨
            (insts.length + 1 ≤ s1 ∧ s2 ≤ insts2.length) := by
      intro hT hs
      exact spanClass insts insts2 insts2 hG2.1 hbase (hchunkI hT) hrest hs
    split at h2 <;>
      (injection h2 with h2
       subst h2
       refine Geom_set_nolook insts insts2 insts.length _ hG2 (Nat.le_refl _)
         ⟨by omega, by omega⟩ ⟨by omega, by omega⟩
         (by
        intro a b
        exact ⟨fun h => Inst.noConfusion h, fun h => Inst.noConfusion h,
          fun h => Inst.noConfusion h, fun h => Inst.noConfusion h⟩) ?_
       intro hT hs
       exact avoid_of_spanClass insts2 insts2 insts.length insts.length (hclass hT hs)
         (Nat.le_refl _) (Or.inl (Nat.le_refl _)))
  · intro insts sub greedy n ih out ho
    exact ih out (by simpa [emit_quantifier] using ho)
  · intro insts sub greedy n ih1 ih2 out ho
    simp only [emit_quantifier, Option.bind_eq_bind] at ho
    obtain ⟨insts1, h1, h2⟩ := option_bind_some _ _ _ ho
    refine Geom_trans (ih1 insts1 h1) (ih2 insts1 out ?_)
    simp only [emit_quantifier, Option.bind_eq_bind]
    exact h2
  · intro insts sub greedy n m ih1 ih2 out ho
    simp only [emit_quantifier, Option.bind_eq_bind] at ho
    obtain ⟨insts1, h1, h2⟩ := option_bind_some _ _ _ ho
    split at h2
    · exact Geom_trans (ih1 insts1 h1) (ih2 insts1 out h2)
    · exact Option.noConfusion h2
  · intro insts sub greedy out ho
    simp only [emitRepeatQuestion] at ho
    injection ho with h1
    subst h1
    exact Geom_rfl insts
  · intro insts sub greedy k ih1 ih2 out ho
    simp only [emitRepeatQuestion, Option.bind_eq_bind] at ho
    obtain ⟨insts1, h1, h2⟩ := option_bind_some _ _ _ ho
    exact Geom_trans (ih1 insts1 h1) (ih2 insts1 out h2)
  · intro insts sub out ho
    simp only [emitRepeat] at ho
    injection ho with h1
    subst h1
    exact Geom_rfl insts
  · intro insts sub k ih1 ih2 out ho
    simp only [emitRepeat, Option.bind_eq_bind] at ho
    obtain ⟨insts1, h1, h2⟩ := option_bind_some _ _ _ ho
    exact Geom_trans (ih1 insts1 h1) (ih2 insts1 out h2)
  · intro insts fixups out ho
    simp only [emitAltChain] at ho
    injection ho with h1
    subst h1
    refine ⟨Geom_rfl insts, ?_, ?_⟩
    · intro hin j hj
      exact ⟨Or.inl hj, (hin j hj).1, (hin j hj).2⟩
    · intro hT hs hin j hj
      exact (hin j hj).2.2
  · intro insts fixups b ih out ho
    simp only [emitAltChain, Option.bind_eq_bind] at ho
    obtain ⟨insts1, h1, h2⟩ := option_bind_some _ _ _ ho
    injection h2 with h2
    subst h2
    have hG1 := ih insts1 h1
    dsimp only
    refine ⟨hG1, ?_, ?_⟩
    · intro hin j hj
      obtain ⟨hjl, hjn⟩ := hin j hj
      refine ⟨Or.inl hj, by have := hG1.2.1; omega, ?_⟩
      rw [hG1.1 j hjl]
      exact hjn
    · intro hT hs hin j hj p s1 s2 hlk
      obtain ⟨hjl, hjn, hjav⟩ := hin j hj
      by_cases hp : p < insts.length
      · have hlk' : isLookAt insts p s1 s2 := by
          rcases hlk with hx | hx | hx | hx <;> rw [hG1.1 p hp] at hx
          exacts [Or.inl hx, Or.inr (Or.inl hx), Or.inr (Or.inr (Or.inl hx)),
            Or.inr (Or.inr (Or.inr hx))]
        exact hjav p s1 s2 hlk'
      · push_neg at hp
        intro hc
        rcases hlk with hx | hx | hx | hx <;>
          (have hge := hG1.2.2.2.1 p _ hp hx
           have hge2 : insts.length ≤ s1 ∧ insts.length ≤ s2 := hge
           omega)
  · intro insts fixups b rest hne
    try dsimp only
    intro ih1 ih2 out ho
    cases rest with
    | nil => exact absurd rfl hne
    | cons b2 rest2 =>
      simp only [emitAltChain, Option.bind_eq_bind] at ho
      obtain ⟨insts2, h1, h2⟩ := option_bind_some _ _ _ ho
      have hB := ih1 insts2 h1
      have hGnop : Geom insts (insts ++ [Inst.Nop]) :=
        Geom_snoc_of insts insts _ (Geom_rfl insts) True.intro True.intro
          (by
        intro a b
        exact ⟨fun h => Inst.noConfusion h, fun h => Inst.noConfusion h,
          fun h => Inst.noConfusion h, fun h => Inst.noConfusion h⟩)
      have hG2 : Geom insts insts2 := Geom_trans hGnop hB
      have hlen1 : insts.length + 1 ≤ insts2.length := by
        have := hB.2.1
        simpa using this
      have hchunkI : TargLe insts → ∀ p inst, insts.length + 1 ≤ p → p < insts2.length →
          insts2.get? p = some inst →
          instTargetsGe inst (insts.length + 1) ∧ instTargetsLe inst insts2.length := by
        intro hT p inst hp1 hp2 hpi
        constructor
        · exact instTargetsGe_mono _ _ _ (by simp only [length_snoc]; omega)
            (hB.2.2.2.1 p inst (by simp only [length_snoc]; omega) hpi)
        · exact hB.2.2.1 (hGnop.2.2.1 hT) p inst hpi
      have hnopv : insts2.get? insts.length = some Inst.Nop := by
        rw [hB.1 insts.length (by simp only [length_snoc]; omega)]
        exact List.get?_concat_length insts Inst.Nop
      have hG3 : Geom insts (insts2 ++ [Inst.Nop]) :=
        Geom_snoc_of insts insts2 _ hG2 True.intro True.intro
          (by
        intro a b
        exact ⟨fun h => Inst.noConfusion h, fun h => Inst.noConfusion h,
          fun h => Inst.noConfusion h, fun h => Inst.noConfusion h⟩)
      have hbase : ∀ s1 s2, ¬isLookAt (insts2 ++ [Inst.Nop]) insts.length s1 s2 := by
        intro s1 s2 hlk
        have hbv : (insts2 ++ [Inst.Nop]).get? insts.length = some Inst.Nop := by
          rw [List.get?_append (by omega)]
          exact hnopv
        rcases hlk with hx | hx | hx | hx <;>
          (have hxx := Option.some.inj (hbv.symm.trans hx); exact Inst.noConfusion hxx)
      have hrest : ∀ p s1 s2, insts2.length ≤ p → ¬isLookAt (insts2 ++ [Inst.Nop]) p s1 s2 := by
        intro p s1 s2 hp hlk
        rcases Nat.eq_or_lt_of_le hp with he | hl
        · have hbv : (insts2 ++ [Inst.Nop]).get? p = some Inst.Nop := by
            rw [← he]
            exact List.get?_concat_length insts2 _
          rcases hlk with hx | hx | hx | hx <;>
            (have hxx := Option.some.inj (hbv.symm.trans hx); exact Inst.noConfusion hxx)
        · have hbn : (insts2 ++ [Inst.Nop]).get? p = none :=
            List.get?_eq_none.mpr (by simp only [length_snoc]; omega)
          rcases hlk with hx | hx | hx | hx <;> (rw [hbn] at hx; exact Option.noConfusion hx)
      have hclass3 : TargLe insts → spansWF insts →
          ∀ p s1 s2, isLookAt (insts2 ++ [Inst.Nop]) p s1 s2 →
            (p < insts.length ∧ s2 ≤ insts.length) ∨
              (insts.length + 1 ≤ s1 ∧ s2 ≤ insts2.length) := by
        intro hT hs
        refine spanClass insts insts2 _ hG3.1 hbase ?_ hrest hs
        intro p inst hp1 hp2 hpi
        rw [List.get?_append hp2] at hpi
        exact hchunkI hT p inst hp1 hp2 hpi
      have hG4 : Geom insts ((insts2 ++ [Inst.Nop]).set insts.length
          (Inst.Split (insts ++ [Inst.Nop]).length (insts2 ++ [Inst.Nop]).length)) := by
        refine Geom_set_nolook insts _ insts.length _ hG3 (Nat.le_refl _)
          ⟨by simp only [length_snoc]; omega, by simp only [length_snoc]; omega⟩
          ⟨by simp only [length_snoc]; omega, by simp only [length_snoc]; omega⟩
          (by
        intro a b
        exact ⟨fun h => Inst.noConfusion h, fun h => Inst.noConfusion h,
          fun h => Inst.noConfusion h, fun h => Inst.noConfusion h⟩) ?_
        intro hT hs
        exact avoid_of_spanClass insts2 _ insts.length insts.length (hclass3 hT hs)
          (Nat.le_refl _) (Or.inl (Nat.le_refl _))
      have hlen4 : ((insts2 ++ [Inst.Nop]).set insts.length
          (Inst.Split (insts ++ [Inst.Nop]).length (insts2 ++ [Inst.Nop]).length)).length =
          insts2.length + 1 := by
        rw [List.length_set]
        exact length_snoc _ _
      have hnop4 : ((insts2 ++ [Inst.Nop]).set insts.length
          (Inst.Split (insts ++ [Inst.Nop]).length (insts2 ++ [Inst.Nop]).length)).get?
          insts2.length = some Inst.Nop := by
        rw [List.get?_set_ne _ _ (by omega)]
        exact List.get?_concat_length insts2 Inst.Nop
      have hrec := ih2 insts2
      try dsimp only at hrec
      obtain ⟨rg, rfix2, rfix3⟩ := hrec out h2
      refine ⟨Geom_trans hG4 rg, ?_, ?_⟩
      · intro hin j hj
        have hin4 : ∀ j2 ∈ fixups ++ [insts2.length],
            j2 < ((insts2 ++ [Inst.Nop]).set insts.length
              (Inst.Split (insts ++ [Inst.Nop]).length (insts2 ++ [Inst.Nop]).length)).length ∧
            ((insts2 ++ [Inst.Nop]).set insts.length
              (Inst.Split (insts ++ [Inst.Nop]).length (insts2 ++ [Inst.Nop]).length)).get? j2 =
              some Inst.Nop := by
          intro j2 hj2
          rcases List.mem_append.mp hj2 with hold | hnew2
          · obtain ⟨hl, hn⟩ := hin j2 hold
            refine ⟨by rw [hlen4]; omega, ?_⟩
            rw [hG4.1 j2 hl]
            exact hn
          · have he : j2 = insts2.length := by simpa using hnew2
            subst he
            exact ⟨by rw [hlen4]; omega, hnop4⟩
        obtain ⟨hor, hlt, hnp⟩ := rfix2 hin4 j hj
        refine ⟨?_, hlt, hnp⟩
        rcases hor with hor | hor
        · rcases List.mem_append.mp hor with hmem | hmem
          · exact Or.inl hmem
          · have he : j = insts2.length := by simpa using hmem
            exact Or.inr (by omega)
        · rw [hlen4] at hor
          exact Or.inr (by omega)
      · intro hT hs hin j hj p s1 s2 hlk
        have hT4 := hG4.2.2.1 hT
        have hs4 := hG4.2.2.2.2 hT hs
        have hbase4 : ∀ s1' s2', ¬isLookAt ((insts2 ++ [Inst.Nop]).set insts.length
            (Inst.Split (insts ++ [Inst.Nop]).length (insts2 ++ [Inst.Nop]).length))
            insts.length s1' s2' := by
          intro s1' s2' hlk'
          have hbv := List.get?_set_eq_of_lt
            (Inst.Split (insts ++ [Inst.Nop]).length (insts2 ++ [Inst.Nop]).length)
            (l := insts2 ++ [Inst.Nop]) (show insts.length < (insts2 ++ [Inst.Nop]).length by
              simp only [length_snoc]; omega)
          rcases hlk' with hx | hx | hx | hx <;>
            (have hxx := Option.some.inj (hbv.symm.trans hx); exact Inst.noConfusion hxx)
        have hrest4 : ∀ p' s1' s2', insts2.length ≤ p' →
            ¬isLookAt ((insts2 ++ [Inst.Nop]).set insts.length
              (Inst.Split (insts ++ [Inst.Nop]).length (insts2 ++ [Inst.Nop]).length))
              p' s1' s2' := by
          intro p' s1' s2' hp' hlk'
          rcases Nat.eq_or_lt_of_le hp' with he | hl
          · subst he
            rcases hlk' with hx | hx | hx | hx <;>
              (have hxx := Option.some.inj (hnop4.symm.trans hx); exact Inst.noConfusion hxx)
          · have hbn : ((insts2 ++ [Inst.Nop]).set insts.length
                (Inst.Split (insts ++ [Inst.Nop]).length (insts2 ++ [Inst.Nop]).length)).get?
                p' = none :=
              List.get?_eq_none.mpr (by rw [hlen4]; omega)
            rcases hlk' with hx | hx | hx | hx <;>
              (rw [hbn] at hx; exact Option.noConfusion hx)
        have hclass4 : ∀ p' s1' s2', isLookAt ((insts2 ++ [Inst.Nop]).set insts.length
            (Inst.Split (insts ++ [Inst.Nop]).length (insts2 ++ [Inst.Nop]).length)) p' s1' s2' →
            (p' < insts.length ∧ s2' ≤ insts.length) ∨
              (insts.length + 1 ≤ s1' ∧ s2' ≤ insts2.length) := by
          refine spanClass insts insts2 _ hG4.1 hbase4 ?_ hrest4 hs
          intro p' inst hp1 hp2 hpi
          rw [List.get?_set_ne _ _ (by omega), List.get?_append hp2] at hpi
          exact hchunkI hT p' inst hp1 hp2 hpi
        have hin4 : ∀ j2 ∈ fixups ++ [insts2.length],
            j2 < ((insts2 ++ [Inst.Nop]).set insts.length
              (Inst.Split (insts ++ [Inst.Nop]).length (insts2 ++ [Inst.Nop]).length)).length ∧
            ((insts2 ++ [Inst.Nop]).set insts.length
              (Inst.Split (insts ++ [Inst.Nop]).length (insts2 ++ [Inst.Nop]).length)).get? j2 =
              some Inst.Nop ∧
            ∀ p' s1' s2', isLookAt ((insts2 ++ [Inst.Nop]).set insts.length
              (Inst.Split (insts ++ [Inst.Nop]).length (insts2 ++ [Inst.Nop]).length)) p' s1' s2' →
              ¬(s1' ≤ j2 ∧ j2 < s2') := by
          intro j2 hj2
          rcases List.mem_append.mp hj2 with hold | hnew2
          · obtain ⟨hl, hn, hav⟩ := hin j2 hold
            exact ⟨by rw [hlen4]; omega, by rw [hG4.1 j2 hl]; exact hn,
              avoidOld_of_spanClass insts insts2 _ j2 hG4.1 hclass4 hav hl⟩
          · have he : j2 = insts2.length := by simpa using hnew2
            subst he
            exact ⟨by rw [hlen4]; omega, hnop4,
              avoid_of_spanClass insts2 _ insts.length insts2.length hclass4
                (by omega) (Or.inr (Nat.le_refl _))⟩
        exact rfix3 hT4 hs4 hin4 j hj p s1 s2 hlk
  · intro insts out ho
    simp only [emitList] at ho
    injection ho with h1
    subst h1
    exact Geom_rfl insts
  · intro insts n rest ih1 ih2 out ho
    simp only [emitList, Option.bind_eq_bind] at ho
    obtain ⟨insts1, h1, h2⟩ := option_bind_some _ _ _ ho
    exact Geom_trans (ih1 insts1 h1) (ih2 insts1 out h2)

/-- Split a boolean conjunction equation. -/
theorem bool_and_split {a b : Bool} (h : (a && b) = true) : a = true ∧ b = true := by
  simp only [Bool.and_eq_true] at h
  exact h

/-- `extSide` at the updated point. -/
theorem extSide_at (side : Nat → Bool) (n : Nat) (w : Bool) : extSide side n w n = w :=
  if_pos rfl

/-- `extSide` away from the updated point. -/
theorem extSide_ne (side : Nat → Bool) (n : Nat) (w : Bool) (q : Nat) (h : q ≠ n) :
    extSide side n w q = side q :=
  if_neg h

/-- `sideCond` only reads the instruction list at its own position. -/
theorem sideCond_congr (insts out : List Inst) (side : Nat → Bool) (k p : Nat)
    (he : out.get? p = insts.get? p) (hc : sideCond insts side k p) :
    sideCond out side k p := by
  unfold sideCond at hc ⊢
  rw [he]
  exact hc

/-- `sideCond` at a position of the program transfers to any side marking
that agrees up to the program end (all side references of an instruction are
bounded by the program end when operands are). -/
theorem sideCond_ext (insts : List Inst) (side side2 : Nat → Bool) (k p : Nat)
    (hT : TargLe insts) (hp : p < insts.length)
    (hagree : ∀ q, q ≤ insts.length → side2 q = side q)
    (hc : sideCond insts side k p) : sideCond insts side2 k p := by
  rcases hk : insts.get? p with _ | inst
  · simp only [sideCond, hk]
  · have hT2 := hT p inst hk
    cases inst <;> simp only [sideCond, hk] at hc ⊢
    case Match =>
      rw [hagree p (by omega)]
      exact hc
    case Jump t =>
      have ht2 : t ≤ insts.length := hT2
      rw [hagree t ht2, hagree p (by omega)]
      exact hc
    case Split a b =>
      have ht2 : a ≤ insts.length ∧ b ≤ insts.length := hT2
      rw [hagree a ht2.1, hagree b ht2.2, hagree p (by omega)]
      exact hc
    case Save t =>
      rw [hagree (p + 1) (by omega), hagree p (by omega)]
      exact hc
    case LookaheadPositive s1 s2v =>
      have ht2 : s1 ≤ insts.length ∧ s2v ≤ insts.length := hT2
      refine ⟨?_, ?_, ?_⟩
      · rw [hagree s2v ht2.2, hagree p (by omega)]
        exact hc.1
      · rw [hagree s1 ht2.1, hagree p (by omega)]
        exact hc.2.1
      · rw [hagree p (by omega)]
        intro h3 q hq1 hq2
        rw [hagree q (by omega)]
        exact hc.2.2 h3 q hq1 hq2
    case LookaheadNegative s1 s2v =>
      have ht2 : s1 ≤ insts.length ∧ s2v ≤ insts.length := hT2
      refine ⟨?_, ?_, ?_⟩
      · rw [hagree s2v ht2.2, hagree p (by omega)]
        exact hc.1
      · rw [hagree s1 ht2.1, hagree p (by omega)]
        exact hc.2.1
      · rw [hagree p (by omega)]
        intro h3 q hq1 hq2
        rw [hagree q (by omega)]
        exact hc.2.2 h3 q hq1 hq2
    case LookbehindPositive s1 s2v =>
      have ht2 : s1 ≤ insts.length ∧ s2v ≤ insts.length := hT2
      refine ⟨?_, ?_, ?_⟩
      · rw [hagree s2v ht2.2, hagree p (by omega)]
        exact hc.1
      · rw [hagree s1 ht2.1, hagree p (by omega)]
        exact hc.2.1
      · rw [hagree p (by omega)]
        intro h3 q hq1 hq2
        rw [hagree q (by omega)]
        exact hc.2.2 h3 q hq1 hq2
    case LookbehindNegative s1 s2v =>
      have ht2 : s1 ≤ insts.length ∧ s2v ≤ insts.length := hT2
      refine ⟨?_, ?_, ?_⟩
      · rw [hagree s2v ht2.2, hagree p (by omega)]
        exact hc.1
      · rw [hagree s1 ht2.1, hagree p (by omega)]
        exact hc.2.1
      · rw [hagree p (by omega)]
        intro h3 q hq1 hq2
        rw [hagree q (by omega)]
        exact hc.2.2 h3 q hq1 hq2
    all_goals
      rw [hagree (p + 1) (by omega), hagree p (by omega)]
      exact hc

/-- `sideCondN` version of `sideCond_congr`. -/
theorem sideCondN_congr (insts out : List Inst) (side : Nat → Bool) (k p : Nat)
    (he : out.get? p = insts.get? p) (hc : sideCondN insts side k p) :
    sideCondN out side k p := by
  rcases hc with hc | hc
  · exact Or.inl (he.trans hc)
  · exact Or.inr (sideCond_congr insts out side k p he hc)

/-- `sideCondN` version of `sideCond_ext`. -/
theorem sideCondN_ext (insts : List Inst) (side side2 : Nat → Bool) (k p : Nat)
    (hT : TargLe insts) (hp : p < insts.length)
    (hagree : ∀ q, q ≤ insts.length → side2 q = side q)
    (hc : sideCondN insts side k p) : sideCondN insts side2 k p := by
  rcases hc with hc | hc
  · exact Or.inl hc
  · exact Or.inr (sideCond_ext insts side side2 k p hT hp hagree hc)

/-- Appending one instruction preserves an exempt-aware side marking, provided
the new position's condition holds for the extension. -/
theorem sideOkN_snoc (insts : List Inst) (side : Nat → Bool) (k : Nat) (v : Inst) (w : Bool)
    (hok : sideOkN insts side k) (hT : TargLe insts)
    (hnew : sideCondN (insts ++ [v]) (extSide side (insts.length + 1) w) k insts.length) :
    sideOkN (insts ++ [v]) (extSide side (insts.length + 1) w) k := by
  intro p
  rcases Nat.lt_trichotomy p insts.length with hp | hp | hp
  · refine sideCondN_congr insts _ _ k p (List.get?_append hp) ?_
    exact sideCondN_ext insts side _ k p hT hp
      (fun q hq => extSide_ne _ _ _ _ (by omega)) (hok p)
  · subst hp
    exact hnew
  · refine Or.inr ?_
    have hn : (insts ++ [v]).get? p = none :=
      List.get?_eq_none.mpr (by simp only [length_snoc]; omega)
    simp only [sideCond, hn]

/-- Patching one position preserves an exempt-aware side marking, provided
the patched position's condition holds afterwards. -/
theorem sideOkN_set (insts : List Inst) (side : Nat → Bool) (k j : Nat) (v : Inst)
    (hok : sideOkN insts side k)
    (hnew : sideCondN (insts.set j v) side k j) :
    sideOkN (insts.set j v) side k := by
  intro p
  by_cases hp : p = j
  · subst hp
    exact hnew
  · exact sideCondN_congr insts _ side k p (List.get?_set_ne v insts (Ne.symm hp)) (hok p)

/-- The common shape of all single-consumer emissions: extend the marking
across the new instruction with the entry value. -/
theorem emit_side_snocConsumer (insts : List Inst) (side : Nat → Bool) (k : Nat) (v : Inst)
    (hok : sideOkN insts side k) (hT : TargLe insts)
    (hcond : sideCondN (insts ++ [v]) (extSide side (insts.length + 1) (side insts.length)) k
      insts.length) :
    ∃ s2 : Nat → Bool, (∀ q, q ≤ insts.length → s2 q = side q) ∧
      s2 (insts ++ [v]).length = side insts.length ∧
      sideOkN (insts ++ [v]) s2 k ∧
      (∀ q, insts.length < q → q ≤ (insts ++ [v]).length → s2 q = side insts.length) := by
  refine ⟨extSide side (insts.length + 1) (side insts.length), ?_, ?_, ?_, ?_⟩
  · intro q hq
    exact extSide_ne _ _ _ _ (by omega)
  · rw [length_snoc, extSide_at]
  · exact sideOkN_snoc insts side k v _ hok hT hcond
  · intro q hq1 hq2
    rw [length_snoc] at hq2
    have he : q = insts.length + 1 := by omega
    subst he
    rw [extSide_at]

/-- Geometry of `emit_quantifier`, via the `Quantifier` arm of `emit`. -/
theorem emit_quantifier_geom (insts : List Inst) (sub : AstNode) (kind : QuantifierKind)
    (greedy : Bool) (out : List Inst) (h : emit_quantifier insts sub kind greedy = some out) :
    Geom insts out :=
  emit_geom insts (.Quantifier sub kind greedy) out (by simpa [emit] using h)

/-- Geometry of `emitRepeat`, via the `Exact` arm of `emit_quantifier`. -/
theorem emitRepeat_geom (insts : List Inst) (sub : AstNode) (n : Nat) (out : List Inst)
    (h : emitRepeat insts sub n = some out) : Geom insts out :=
  emit_quantifier_geom insts sub (.Exact n) true out (by simpa [emit_quantifier] using h)

/-- Geometry of `emitRepeatQuestion`, via the `Range 0 n` arm. -/
theorem emitRepeatQuestion_geom (insts : List Inst) (sub : AstNode) (greedy : Bool) (n : Nat)
    (out : List Inst) (h : emitRepeatQuestion insts sub greedy n = some out) : Geom insts out :=
  emit_quantifier_geom insts sub (.Range 0 n) greedy out (by
    simp only [emit_quantifier, emitRepeat, Option.bind_eq_bind, Option.some_bind, Nat.sub_zero]
    rw [if_pos (Nat.zero_le n)]
    exact h)

/-- Geometry of `emitList`, via the `Concat` arm of `emit`. -/
theorem emitList_geom (insts : List Inst) (ns : List AstNode) (out : List Inst)
    (h : emitList insts ns = some out) : Geom insts out :=
  emit_geom insts (.Concat ns) out (by simpa [emit] using h)

/-- Existence of a coherent group-`k` side marking for every emitted
program: the marking records exactly when group `k`'s `Save` bracket is
textually open; placeholders still waiting to be back-patched are exempt.
Alongside, the new region of an `emit` result contains no leftover `Nop`. -/
theorem emit_side :
    ∀ (insts : List Inst) (node : AstNode) (out : List Inst),
      emit insts node = some out →
      (∀ p, insts.length ≤ p → out.get? p ≠ some Inst.Nop) ∧
      (∀ k side, 1 ≤ k → sideOkN insts side k → TargLe insts →
        (side insts.length = true → groupsGt k node = true) →
        wfIdx node = true →
        ∃ s2 : Nat → Bool,
          (∀ q, q ≤ insts.length → s2 q = side q) ∧
          s2 out.length = side insts.length ∧
          sideOkN out s2 k ∧
          (groupsGt k node = true → side insts.length = false →
            ∀ q, insts.length < q → q ≤ out.length → s2 q = false)) := by
  intro insts₀ node₀
  refine emit.induct
    (fun insts node => ∀ out, emit insts node = some out →
      (∀ p, insts.length ≤ p → out.get? p ≠ some Inst.Nop) ∧
      (∀ k side, 1 ≤ k → sideOkN insts side k → TargLe insts →
        (side insts.length = true → groupsGt k node = true) →
        wfIdx node = true →
        ∃ s2 : Nat → Bool,
          (∀ q, q ≤ insts.length → s2 q = side q) ∧
          s2 out.length = side insts.length ∧
          sideOkN out s2 k ∧
          (groupsGt k node = true → side insts.length = false →
            ∀ q, insts.length < q → q ≤ out.length → s2 q = false)))
    (fun insts sub kind greedy => ∀ out, emit_quantifier insts sub kind greedy = some out →
      (∀ p, insts.length ≤ p → out.get? p ≠ some Inst.Nop) ∧
      (∀ k side, 1 ≤ k → sideOkN insts side k → TargLe insts →
        (side insts.length = true → groupsGt k sub = true) →
        wfIdx sub = true →
        ∃ s2 : Nat → Bool,
          (∀ q, q ≤ insts.length → s2 q = side q) ∧
          s2 out.length = side insts.length ∧
          sideOkN out s2 k ∧
          (groupsGt k sub = true → side insts.length = false →
            ∀ q, insts.length < q → q ≤ out.length → s2 q = false)))
    (fun insts sub greedy kr => ∀ out, emitRepeatQuestion insts sub greedy kr = some out →
      (∀ p, insts.length ≤ p → out.get? p ≠ some Inst.Nop) ∧
      (∀ k side, 1 ≤ k → sideOkN insts side k → TargLe insts →
        (side insts.length = true → groupsGt k sub = true) →
        wfIdx sub = true →
        ∃ s2 : Nat → Bool,
          (∀ q, q ≤ insts.length → s2 q = side q) ∧
          s2 out.length = side insts.length ∧
          sideOkN out s2 k ∧
          (groupsGt k sub = true → side insts.length = false →
            ∀ q, insts.length < q → q ≤ out.length → s2 q = false)))
    (fun insts sub kr => ∀ out, emitRepeat insts sub kr = some out →
      (∀ p, insts.length ≤ p → out.get? p ≠ some Inst.Nop) ∧
      (∀ k side, 1 ≤ k → sideOkN insts side k → TargLe insts →
        (side insts.length = true → groupsGt k sub = true) →
        wfIdx sub = true →
        ∃ s2 : Nat → Bool,
          (∀ q, q ≤ insts.length → s2 q = side q) ∧
          s2 out.length = side insts.length ∧
          sideOkN out s2 k ∧
          (groupsGt k sub = true → side insts.length = false →
            ∀ q, insts.length < q → q ≤ out.length → s2 q = false)))
    (fun insts bs fixups => ∀ out, emitAltChain insts bs fixups = some out →
      (∀ p, p < insts.length → out.1.get? p = insts.get? p) ∧
      insts.length ≤ out.1.length ∧
      (∀ j ∈ fixups, j ∈ out.2) ∧
      (∀ p, insts.length ≤ p → out.1.get? p = some Inst.Nop → p ∈ out.2) ∧
      (∀ k side, 1 ≤ k → sideOkN insts side k → TargLe insts →
        (side insts.length = true → groupsGtList k bs = true) →
        wfIdxList bs = true →
        (∀ j ∈ fixups, j < insts.length ∧ side j = side insts.length) →
        ∃ s2 : Nat → Bool,
          (∀ q, q ≤ insts.length → s2 q = side q) ∧
          s2 out.1.length = side insts.length ∧
          sideOkN out.1 s2 k ∧
          (∀ j ∈ out.2, j < out.1.length ∧ s2 j = side insts.length) ∧
          (groupsGtList k bs = true → side insts.length = false →
            ∀ q, insts.length < q → q ≤ out.1.length → s2 q = false)))
    (fun insts ns => ∀ out, emitList insts ns = some out →
      (∀ p, insts.length ≤ p → out.get? p ≠ some Inst.Nop) ∧
      (∀ k side, 1 ≤ k → sideOkN insts side k → TargLe insts →
        (side insts.length = true → groupsGtList k ns = true) →
        wfIdxList ns = true →
        ∃ s2 : Nat → Bool,
          (∀ q, q ≤ insts.length → s2 q = side q) ∧
          s2 out.length = side insts.length ∧
          sideOkN out s2 k ∧
          (groupsGtList k ns = true → side insts.length = false →
            ∀ q, insts.length < q → q ≤ out.length → s2 q = false)))
    ?_ ?_ ?_ ?_ ?_ ?_ ?_ ?_ ?_ ?_ ?_ ?_ ?_ ?_ ?_ ?_ ?_ ?_ ?_ ?_ ?_ ?_ ?_ ?_ ?_ ?_ ?_ ?_
    ?_ ?_ ?_ ?_ ?_ ?_ insts₀ node₀
  · intro insts ch out ho
    simp only [emit] at ho
    injection ho with h1
    subst h1
    refine ⟨?_, ?_⟩
    · intro p hp h3
      rcases Nat.eq_or_lt_of_le hp with he | hl
      · rw [← he, List.get?_concat_length] at h3
        injection h3 with h3
        exact Inst.noConfusion h3
      · rw [List.get?_eq_none.mpr (by simp only [length_snoc]; omega)] at h3
        exact Option.noConfusion h3
    · intro k side hk hok hT hgt hwf
      obtain ⟨s2, ha, he2, hso, hflat⟩ := emit_side_snocConsumer insts side k (Inst.Char ch) hok hT
        (Or.inr (by
          simp only [sideCond, List.get?_concat_length]
          rw [extSide_at, extSide_ne side (insts.length + 1) (side insts.length)
            insts.length (by omega)]))
      exact ⟨s2, ha, he2, hso, fun _ hf q hq1 hq2 => (hflat q hq1 hq2).trans hf⟩
  · intro insts out ho
    simp only [emit] at ho
    injection ho with h1
    subst h1
    refine ⟨?_, ?_⟩
    · intro p hp h3
      rcases Nat.eq_or_lt_of_le hp with he | hl
      · rw [← he, List.get?_concat_length] at h3
        injection h3 with h3
        exact Inst.noConfusion h3
      · rw [List.get?_eq_none.mpr (by simp only [length_snoc]; omega)] at h3
        exact Option.noConfusion h3
    · intro k side hk hok hT hgt hwf
      obtain ⟨s2, ha, he2, hso, hflat⟩ := emit_side_snocConsumer insts side k Inst.AnyChar hok hT
        (Or.inr (by
          simp only [sideCond, List.get?_concat_length]
          rw [extSide_at, extSide_ne side (insts.length + 1) (side insts.length)
            insts.length (by omega)]))
      exact ⟨s2, ha, he2, hso, fun _ hf q hq1 hq2 => (hflat q hq1 hq2).trans hf⟩
  · intro insts nodes ih out ho
    exact ih out (by simpa [emit] using ho)
  · intro insts out ho
    simp only [emit] at ho
    injection ho with h1
    subst h1
    refine ⟨?_, ?_⟩
    · intro p hp h3
      rw [List.get?_eq_none.mpr hp] at h3
      exact Option.noConfusion h3
    · intro k side hk hok hT hgt hwf
      exact ⟨side, fun q _ => rfl, rfl, hok, fun _ _ q hq1 hq2 => absurd hq1 (by omega)⟩
  · intro insts b ih out ho
    obtain ⟨hN, hS⟩ := ih out (by simpa [emit] using ho)
    refine ⟨hN, ?_⟩
    intro k side hk hok hT hgt hwf
    obtain ⟨s2, h1a, h2a, h3a, h4a⟩ := hS k side hk hok hT
      (fun h3 => (bool_and_split (hgt h3)).1)
      ((bool_and_split hwf).1)
    exact ⟨s2, h1a, h2a, h3a, fun hgtN hf => h4a ((bool_and_split hgtN).1) hf⟩
  · intro insts b1 b2 rest ih out ho
    simp only [emit, Option.bind_eq_bind] at ho
    obtain ⟨⟨insts1, fxs⟩, h1, h2⟩ := option_bind_some _ _ _ ho
    injection h2 with h2
    subst h2
    obtain ⟨hP5, hL5, hF5, hN5, hS5⟩ := ih (insts1, fxs) h1
    dsimp only at hP5 hL5 hF5 hN5 hS5
    dsimp only
    refine ⟨?_, ?_⟩
    · intro p hp h3
      rw [applyFixups_get] at h3
      by_cases hc : p ∈ fxs ∧ p < insts1.length
      · rw [if_pos hc] at h3
        injection h3 with h3
        exact Inst.noConfusion h3
      · rw [if_neg hc] at h3
        have hplt : p < insts1.length := by
          by_contra hcon
          rw [List.get?_eq_none.mpr (by omega)] at h3
          exact Option.noConfusion h3
        exact hc ⟨hN5 p hp h3, hplt⟩
    · intro k side hk hok hT hgt hwf
      obtain ⟨sC, hagC, hendC, hokC, hfixC, hallC⟩ := hS5 k side hk hok hT hgt hwf
        (fun j hj => absurd hj (List.not_mem_nil j))
      refine ⟨sC, hagC, ?_, ?_, ?_⟩
      · rw [applyFixups_length]
        exact hendC
      · intro p
        by_cases hc : p ∈ fxs ∧ p < insts1.length
        · refine Or.inr ?_
          have hg : (applyFixups insts1 fxs insts1.length).get? p =
              some (Inst.Jump insts1.length) := by
            rw [applyFixups_get, if_pos hc]
          simp only [sideCond, hg]
          rw [hendC, (hfixC p hc.1).2]
        · exact sideCondN_congr insts1 _ sC k p
            (by rw [applyFixups_get, if_neg hc]) (hokC p)
      · intro hgtN hf q hq1 hq2
        rw [applyFixups_length] at hq2
        exact hallC hgtN hf q hq1 hq2
  · intro insts sub kind greedy ih out ho
    exact ih out (by simpa [emit] using ho)
  · intro insts ranges negated out ho
    simp only [emit] at ho
    injection ho with h1
    subst h1
    refine ⟨?_, ?_⟩
    · intro p hp h3
      rcases Nat.eq_or_lt_of_le hp with he | hl
      · rw [← he, List.get?_concat_length] at h3
        injection h3 with h3
        exact Inst.noConfusion h3
      · rw [List.get?_eq_none.mpr (by simp only [length_snoc]; omega)] at h3
        exact Option.noConfusion h3
    · intro k side hk hok hT hgt hwf
      obtain ⟨s2, ha, he2, hso, hflat⟩ := emit_side_snocConsumer insts side k (Inst.CharClass ranges negated) hok hT
        (Or.inr (by
          simp only [sideCond, List.get?_concat_length]
          rw [extSide_at, extSide_ne side (insts.length + 1) (side insts.length)
            insts.length (by omega)]))
      exact ⟨s2, ha, he2, hso, fun _ hf q hq1 hq2 => (hflat q hq1 hq2).trans hf⟩
  · intro insts kd out ho
    simp only [emit] at ho
    injection ho with h1
    subst h1
    refine ⟨?_, ?_⟩
    · intro p hp h3
      rcases Nat.eq_or_lt_of_le hp with he | hl
      · rw [← he, List.get?_concat_length] at h3
        injection h3 with h3
        exact Inst.noConfusion h3
      · rw [List.get?_eq_none.mpr (by simp only [length_snoc]; omega)] at h3
        exact Option.noConfusion h3
    · intro k side hk hok hT hgt hwf
      obtain ⟨s2, ha, he2, hso, hflat⟩ := emit_side_snocConsumer insts side k (Inst.ShorthandClass kd) hok hT
        (Or.inr (by
          simp only [sideCond, List.get?_concat_length]
          rw [extSide_at, extSide_ne side (insts.length + 1) (side insts.length)
            insts.length (by omega)]))
      exact ⟨s2, ha, he2, hso, fun _ hf q hq1 hq2 => (hflat q hq1 hq2).trans hf⟩
  · intro insts out ho
    simp only [emit] at ho
    injection ho with h1
    subst h1
    refine ⟨?_, ?_⟩
    · intro p hp h3
      rcases Nat.eq_or_lt_of_le hp with he | hl
      · rw [← he, List.get?_concat_length] at h3
        injection h3 with h3
        exact Inst.noConfusion h3
      · rw [List.get?_eq_none.mpr (by simp only [length_snoc]; omega)] at h3
        exact Option.noConfusion h3
    · intro k side hk hok hT hgt hwf
      obtain ⟨s2, ha, he2, hso, hflat⟩ := emit_side_snocConsumer insts side k Inst.AssertStart hok hT
        (Or.inr (by
          simp only [sideCond, List.get?_concat_length]
          rw [extSide_at, extSide_ne side (insts.length + 1) (side insts.length)
            insts.length (by omega)]))
      exact ⟨s2, ha, he2, hso, fun _ hf q hq1 hq2 => (hflat q hq1 hq2).trans hf⟩
  · intro insts out ho
    simp only [emit] at ho
    injection ho with h1
    subst h1
    refine ⟨?_, ?_⟩
    · intro p hp h3
      rcases Nat.eq_or_lt_of_le hp with he | hl
      · rw [← he, List.get?_concat_length] at h3
        injection h3 with h3
        exact Inst.noConfusion h3
      · rw [List.get?_eq_none.mpr (by simp only [length_snoc]; omega)] at h3
        exact Option.noConfusion h3
    · intro k side hk hok hT hgt hwf
      obtain ⟨s2, ha, he2, hso, hflat⟩ := emit_side_snocConsumer insts side k Inst.AssertEnd hok hT
        (Or.inr (by
          simp only [sideCond, List.get?_concat_length]
          rw [extSide_at, extSide_ne side (insts.length + 1) (side insts.length)
            insts.length (by omega)]))
      exact ⟨s2, ha, he2, hso, fun _ hf q hq1 hq2 => (hflat q hq1 hq2).trans hf⟩
  · intro insts out ho
    simp only [emit] at ho
    injection ho with h1
    subst h1
    refine ⟨?_, ?_⟩
    · intro p hp h3
      rcases Nat.eq_or_lt_of_le hp with he | hl
      · rw [← he, List.get?_concat_length] at h3
        injection h3 with h3
        exact Inst.noConfusion h3
      · rw [List.get?_eq_none.mpr (by simp only [length_snoc]; omega)] at h3
        exact Option.noConfusion h3
    · intro k side hk hok hT hgt hwf
      obtain ⟨s2, ha, he2, hso, hflat⟩ := emit_side_snocConsumer insts side k Inst.AssertWordBoundary hok hT
        (Or.inr (by
          simp only [sideCond, List.get?_concat_length]
          rw [extSide_at, extSide_ne side (insts.length + 1) (side insts.length)
            insts.length (by omega)]))
      exact ⟨s2, ha, he2, hso, fun _ hf q hq1 hq2 => (hflat q hq1 hq2).trans hf⟩
  · intro insts out ho
    simp only [emit] at ho
    injection ho with h1
    subst h1
    refine ⟨?_, ?_⟩
    · intro p hp h3
      rcases Nat.eq_or_lt_of_le hp with he | hl
      · rw [← he, List.get?_concat_length] at h3
        injection h3 with h3
        exact Inst.noConfusion h3
      · rw [List.get?_eq_none.mpr (by simp only [length_snoc]; omega)] at h3
        exact Option.noConfusion h3
    · intro k side hk hok hT hgt hwf
      obtain ⟨s2, ha, he2, hso, hflat⟩ := emit_side_snocConsumer insts side k Inst.AssertNonWordBoundary hok hT
        (Or.inr (by
          simp only [sideCond, List.get?_concat_length]
          rw [extSide_at, extSide_ne side (insts.length + 1) (side insts.length)
            insts.length (by omega)]))
      exact ⟨s2, ha, he2, hso, fun _ hf q hq1 hq2 => (hflat q hq1 hq2).trans hf⟩
  · intro insts index sub
    try dsimp only
    intro ih out ho
    simp only [emit, Option.bind_eq_bind] at ho
    obtain ⟨insts2, h1, h2⟩ := option_bind_some _ _ _ ho
    injection h2 with h2
    subst h2
    obtain ⟨hNB, hSB⟩ := ih insts2 h1
    have hGs : Geom insts (insts ++ [Inst.Save (index * 2)]) :=
      Geom_snoc_of insts insts _ (Geom_rfl insts) True.intro True.intro
        (by
        intro a b
        exact ⟨fun h => Inst.noConfusion h, fun h => Inst.noConfusion h,
          fun h => Inst.noConfusion h, fun h => Inst.noConfusion h⟩)
    have hGB := emit_geom (insts ++ [Inst.Save (index * 2)]) sub insts2 h1
    have hlen1 : (insts ++ [Inst.Save (index * 2)]).length = insts.length + 1 :=
      length_snoc _ _
    have hlen12 : (insts ++ [Inst.Save (index * 2)]).length ≤ insts2.length := hGB.2.1
    refine ⟨?_, ?_⟩
    · intro p hp h3
      by_cases hpe : p < insts2.length
      · rw [List.get?_append hpe] at h3
        rcases Nat.lt_or_ge p (insts ++ [Inst.Save (index * 2)]).length with hp1 | hp1
        · have hpe2 : p = insts.length := by omega
          subst hpe2
          rw [hGB.1 insts.length (by omega), List.get?_concat_length] at h3
          injection h3 with h3
          exact Inst.noConfusion h3
        · exact hNB p hp1 h3
      · rcases Nat.eq_or_lt_of_le (Nat.le_of_not_lt hpe) with he | hl
        · rw [← he, List.get?_concat_length] at h3
          injection h3 with h3
          exact Inst.noConfusion h3
        · rw [List.get?_eq_none.mpr (by simp only [length_snoc]; omega)] at h3
          exact Option.noConfusion h3
    · intro k side hk hok hT hgt hwf
      have hgts : groupsGt index sub = true := (bool_and_split hwf).1
      have hwfs : wfIdx sub = true := (bool_and_split hwf).2
      by_cases hik : index = k
      · -- the bracket of group k itself: the entry side must be closed
        have hσ : side insts.length = false := by
          cases hσ1 : side insts.length
          · rfl
          · have h3 := of_decide_eq_true (bool_and_split (hgt hσ1)).1
            omega
        obtain ⟨sB, hagB, hendB, hokB, _⟩ := hSB k
          (extSide side (insts.length + 1) true) hk
          (sideOkN_snoc insts side k _ true hok hT (Or.inr (by
            simp only [sideCond, List.get?_concat_length]
            refine ⟨fun _ => ⟨?_, ?_⟩, fun h3 => absurd h3 (by omega),
              fun h3 _ => absurd (by omega : index * 2 = 2 * k) h3⟩
            · rw [extSide_ne side (insts.length + 1) true insts.length (by omega)]
              exact hσ
            · exact extSide_at _ _ _)))
          (hGs.2.2.1 hT)
          (fun _ => by rw [← hik]; exact hgts)
          hwfs
        have hendB' : sB insts2.length = true := by
          rw [hendB, hlen1, extSide_at]
        refine ⟨extSide sB (insts2.length + 1) false, ?_, ?_, ?_, ?_⟩
        · intro q hq
          rw [extSide_ne sB (insts2.length + 1) false q (by omega),
            hagB q (by omega), extSide_ne side (insts.length + 1) true q (by omega)]
        · rw [length_snoc, extSide_at, hσ]
        · refine sideOkN_snoc insts2 sB k _ false hokB (hGB.2.2.1 (hGs.2.2.1 hT)) (Or.inr ?_)
          simp only [sideCond, List.get?_concat_length]
          refine ⟨fun h3 => absurd h3 (by omega), fun _ => ⟨?_, ?_⟩,
            fun _ h3 => absurd (by omega : index * 2 + 1 = 2 * k + 1) h3⟩
          · rw [extSide_ne sB (insts2.length + 1) false insts2.length (by omega)]
            exact hendB'
          · exact extSide_at _ _ _
        · intro hgtN
          have h3 := of_decide_eq_true (bool_and_split hgtN).1
          exact absurd h3 (by omega)
      · -- some other group's bracket: the side value passes through
        obtain ⟨sB, hagB, hendB, hokB, hallB⟩ := hSB k
          (extSide side (insts.length + 1) (side insts.length)) hk
          (sideOkN_snoc insts side k _ (side insts.length) hok hT (Or.inr (by
            simp only [sideCond, List.get?_concat_length]
            refine ⟨fun h3 => absurd (by omega : index = k) hik,
              fun h3 => absurd h3 (by omega), fun _ _ => ?_⟩
            rw [extSide_at, extSide_ne side (insts.length + 1) (side insts.length)
              insts.length (by omega)])))
          (hGs.2.2.1 hT)
          (fun h3 => by
            rw [hlen1, extSide_at] at h3
            exact (bool_and_split (hgt h3)).2)
          hwfs
        have hendB' : sB insts2.length = side insts.length := by
          rw [hendB, hlen1, extSide_at]
        refine ⟨extSide sB (insts2.length + 1) (side insts.length), ?_, ?_, ?_, ?_⟩
        · intro q hq
          rw [extSide_ne sB (insts2.length + 1) (side insts.length) q (by omega),
            hagB q (by omega), extSide_ne side (insts.length + 1) (side insts.length) q
              (by omega)]
        · rw [length_snoc, extSide_at]
        · refine sideOkN_snoc insts2 sB k _ (side insts.length) hokB
            (hGB.2.2.1 (hGs.2.2.1 hT)) (Or.inr ?_)
          simp only [sideCond, List.get?_concat_length]
          refine ⟨fun h3 => absurd h3 (by omega),
            fun h3 => absurd (by omega : index = k) hik, fun _ _ => ?_⟩
          rw [extSide_at, extSide_ne sB (insts2.length + 1) (side insts.length)
            insts2.length (by omega)]
          exact hendB'.symm
        · intro hgtN hf q hq1 hq2
          have hgts2 : groupsGt k sub = true := (bool_and_split hgtN).2
          rw [length_snoc] at hq2
          by_cases hqe : q = insts2.length + 1
          · subst hqe
            rw [extSide_at]
            exact hf
          · rw [extSide_ne sB (insts2.length + 1) (side insts.length) q hqe]
            rcases Nat.eq_or_lt_of_le (show insts.length + 1 ≤ q by omega) with he | hl
            · rw [hagB q (by omega), ← he, extSide_at]
              exact hf
            · exact hallB hgts2 (by rw [hlen1, extSide_at]; exact hf) q (by omega) (by omega)
  · intro insts sub ih out ho
    exact ih out (by simpa [emit] using ho)
  · intro insts idx out ho
    simp only [emit] at ho
    injection ho with h1
    subst h1
    refine ⟨?_, ?_⟩
    · intro p hp h3
      rcases Nat.eq_or_lt_of_le hp with he | hl
      · rw [← he, List.get?_concat_length] at h3
        injection h3 with h3
        exact Inst.noConfusion h3
      · rw [List.get?_eq_none.mpr (by simp only [length_snoc]; omega)] at h3
        exact Option.noConfusion h3
    · intro k side hk hok hT hgt hwf
      obtain ⟨s2, ha, he2, hso, hflat⟩ := emit_side_snocConsumer insts side k (Inst.Backref idx) hok hT
        (Or.inr (by
          simp only [sideCond, List.get?_concat_length]
          rw [extSide_at, extSide_ne side (insts.length + 1) (side insts.length)
            insts.length (by omega)]))
      exact ⟨s2, ha, he2, hso, fun _ hf q hq1 hq2 => (hflat q hq1 hq2).trans hf⟩
  · intro insts sub positive
    try dsimp only
    intro ih out ho
    simp only [emit, Option.bind_eq_bind] at ho
    obtain ⟨insts2, h1, h2⟩ := option_bind_some _ _ _ ho
    simp only [length_snoc] at h2
    obtain ⟨hNB, hSB⟩ := ih insts2 h1
    have hGnop : Geom insts (insts ++ [Inst.Nop]) :=
      Geom_snoc_of insts insts _ (Geom_rfl insts) True.intro True.intro
        (by
        intro a b
        exact ⟨fun h => Inst.noConfusion h, fun h => Inst.noConfusion h,
          fun h => Inst.noConfusion h, fun h => Inst.noConfusion h⟩)
    have hGB := emit_geom (insts ++ [Inst.Nop]) sub insts2 h1
    have hlen1 : (insts ++ [Inst.Nop]).length = insts.length + 1 := length_snoc _ _
    have hlen12 : (insts ++ [Inst.Nop]).length ≤ insts2.length := hGB.2.1
    have hout : ∃ v : Inst,
        (v = Inst.LookaheadPositive (insts.length + 1) (insts2.length + 1) ∨
         v = Inst.LookaheadNegative (insts.length + 1) (insts2.length + 1)) ∧
        out = (insts2 ++ [Inst.Match]).set insts.length v := by
      split at h2 <;>
        (injection h2 with h2
         exact ⟨_, by first | exact Or.inl rfl | exact Or.inr rfl, h2.symm⟩)
    obtain ⟨v, hv, hoeq⟩ := hout
    subst hoeq
    have hltM : insts.length < (insts2 ++ [Inst.Match]).length := by
      rw [length_snoc]
      omega
    have hgv : ((insts2 ++ [Inst.Match]).set insts.length v).get? insts.length = some v :=
      List.get?_set_eq_of_lt v (l := insts2 ++ [Inst.Match]) hltM
    refine ⟨?_, ?_⟩
    · intro p hp h3
      by_cases hpj : p = insts.length
      · subst hpj
        rw [hgv] at h3
        injection h3 with h3
        rcases hv with rfl | rfl <;> exact Inst.noConfusion h3
      · rw [List.get?_set_ne v _ (Ne.symm hpj)] at h3
        by_cases hpe : p < insts2.length
        · rw [List.get?_append hpe] at h3
          exact hNB p (by omega) h3
        · rcases Nat.eq_or_lt_of_le (Nat.le_of_not_lt hpe) with he | hl
          · rw [← he, List.get?_concat_length] at h3
            injection h3 with h3
            exact Inst.noConfusion h3
          · rw [List.get?_eq_none.mpr (by simp only [length_snoc]; omega)] at h3
            exact Option.noConfusion h3
    · intro k side hk hok hT hgt hwf
      obtain ⟨sB, hagB, hendB, hokB, hallB⟩ := hSB k (extSide side (insts.length + 1) false)
        hk
        (sideOkN_snoc insts side k _ false hok hT (Or.inl (List.get?_concat_length _ _)))
        (hGnop.2.2.1 hT)
        (fun h3 => by
          rw [hlen1, extSide_at] at h3
          exact Bool.noConfusion h3)
        hwf
      have hendB' : sB insts2.length = false := by
        rw [hendB, hlen1, extSide_at]
      have hT2 : TargLe insts2 := hGB.2.2.1 (hGnop.2.2.1 hT)
      have heval : ∀ q, q ≤ insts.length →
          extSide sB (insts2.length + 1) (side insts.length) q = side q := by
        intro q hq
        rw [extSide_ne sB (insts2.length + 1) (side insts.length) q (by omega),
          hagB q (by omega), extSide_ne side (insts.length + 1) false q (by omega)]
      have hs0 : extSide sB (insts2.length + 1) (side insts.length) insts.length =
          side insts.length := heval insts.length (Nat.le_refl _)
      have hs1 : extSide sB (insts2.length + 1) (side insts.length) (insts.length + 1) =
          false := by
        rw [extSide_ne sB (insts2.length + 1) (side insts.length) (insts.length + 1)
          (by omega), hagB (insts.length + 1) (by omega), extSide_at]
      have hs2 : extSide sB (insts2.length + 1) (side insts.length) insts2.length =
          false := by
        rw [extSide_ne sB (insts2.length + 1) (side insts.length) insts2.length (by omega)]
        exact hendB'
      have hok3 : sideOkN (insts2 ++ [Inst.Match])
          (extSide sB (insts2.length + 1) (side insts.length)) k :=
        sideOkN_snoc insts2 sB k _ (side insts.length) hokB hT2 (Or.inr (by
          simp only [sideCond, List.get?_concat_length]
          exact hs2))
      refine ⟨extSide sB (insts2.length + 1) (side insts.length), heval, ?_, ?_, ?_⟩
      · rw [List.length_set, length_snoc, extSide_at]
      · refine sideOkN_set (insts2 ++ [Inst.Match]) _ k insts.length v hok3 (Or.inr ?_)
        rcases hv with rfl | rfl <;>
          (simp only [sideCond, hgv]
           refine ⟨by rw [extSide_at, hs0], fun _ => by rw [hs1], ?_⟩
           intro h3 q hq1 hq2
           rw [hs0] at h3
           have hgts : groupsGt k sub = true := hgt h3
           rw [extSide_ne sB (insts2.length + 1) (side insts.length) q (by omega)]
           rcases Nat.eq_or_lt_of_le hq1 with he | hl
           · rw [hagB q (by omega), ← he, extSide_at]
           · exact hallB hgts (by rw [hlen1, extSide_at]) q (by omega) (by omega))
      · intro hgtN hf q hq1 hq2
        rw [List.length_set, length_snoc] at hq2
        by_cases hqe : q = insts2.length + 1
        · subst hqe
          rw [extSide_at]
          exact hf
        · rw [extSide_ne sB (insts2.length + 1) (side insts.length) q hqe]
          rcases Nat.eq_or_lt_of_le (show insts.length + 1 ≤ q by omega) with he | hl
          · rw [hagB q (by omega), ← he, extSide_at]
          · exact hallB hgtN (by rw [hlen1, extSide_at]) q (by omega) (by omega)
  · intro insts sub positive
    try dsimp only
    intro ih out ho
    simp only [emit, Option.bind_eq_bind] at ho
    obtain ⟨insts2, h1, h2⟩ := option_bind_some _ _ _ ho
    simp only [length_snoc] at h2
    obtain ⟨hNB, hSB⟩ := ih insts2 h1
    have hGnop : Geom insts (insts ++ [Inst.Nop]) :=
      Geom_snoc_of insts insts _ (Geom_rfl insts) True.intro True.intro
        (by
        intro a b
        exact ⟨fun h => Inst.noConfusion h, fun h => Inst.noConfusion h,
          fun h => Inst.noConfusion h, fun h => Inst.noConfusion h⟩)
    have hGB := emit_geom (insts ++ [Inst.Nop]) sub insts2 h1
    have hlen1 : (insts ++ [Inst.Nop]).length = insts.length + 1 := length_snoc _ _
    have hlen12 : (insts ++ [Inst.Nop]).length ≤ insts2.length := hGB.2.1
    have hout : ∃ v : Inst,
        (v = Inst.LookbehindPositive (insts.length + 1) (insts2.length + 1) ∨
         v = Inst.LookbehindNegative (insts.length + 1) (insts2.length + 1)) ∧
        out = (insts2 ++ [Inst.Match]).set insts.length v := by
      split at h2 <;>
        (injection h2 with h2
         exact ⟨_, by first | exact Or.inl rfl | exact Or.inr rfl, h2.symm⟩)
    obtain ⟨v, hv, hoeq⟩ := hout
    subst hoeq
    have hltM : insts.length < (insts2 ++ [Inst.Match]).length := by
      rw [length_snoc]
      omega
    have hgv : ((insts2 ++ [Inst.Match]).set insts.length v).get? insts.length = some v :=
      List.get?_set_eq_of_lt v (l := insts2 ++ [Inst.Match]) hltM
    refine ⟨?_, ?_⟩
    · intro p hp h3
      by_cases hpj : p = insts.length
      · subst hpj
        rw [hgv] at h3
        injection h3 with h3
        rcases hv with rfl | rfl <;> exact Inst.noConfusion h3
      · rw [List.get?_set_ne v _ (Ne.symm hpj)] at h3
        by_cases hpe : p < insts2.length
        · rw [List.get?_append hpe] at h3
          exact hNB p (by omega) h3
        · rcases Nat.eq_or_lt_of_le (Nat.le_of_not_lt hpe) with he | hl
          · rw [← he, List.get?_concat_length] at h3
            injection h3 with h3
            exact Inst.noConfusion h3
          · rw [List.get?_eq_none.mpr (by simp only [length_snoc]; omega)] at h3
            exact Option.noConfusion h3
    · intro k side hk hok hT hgt hwf
      obtain ⟨sB, hagB, hendB, hokB, hallB⟩ := hSB k (extSide side (insts.length + 1) false)
        hk
        (sideOkN_snoc insts side k _ false hok hT (Or.inl (List.get?_concat_length _ _)))
        (hGnop.2.2.1 hT)
        (fun h3 => by
          rw [hlen1, extSide_at] at h3
          exact Bool.noConfusion h3)
        hwf
      have hendB' : sB insts2.length = false := by
        rw [hendB, hlen1, extSide_at]
      have hT2 : TargLe insts2 := hGB.2.2.1 (hGnop.2.2.1 hT)
      have heval : ∀ q, q ≤ insts.length →
          extSide sB (insts2.length + 1) (side insts.length) q = side q := by
        intro q hq
        rw [extSide_ne sB (insts2.length + 1) (side insts.length) q (by omega),
          hagB q (by omega), extSide_ne side (insts.length + 1) false q (by omega)]
      have hs0 : extSide sB (insts2.length + 1) (side insts.length) insts.length =
          side insts.length := heval insts.length (Nat.le_refl _)
      have hs1 : extSide sB (insts2.length + 1) (side insts.length) (insts.length + 1) =
          false := by
        rw [extSide_ne sB (insts2.length + 1) (side insts.length) (insts.length + 1)
          (by omega), hagB (insts.length + 1) (by omega), extSide_at]
      have hs2 : extSide sB (insts2.length + 1) (side insts.length) insts2.length =
          false := by
        rw [extSide_ne sB (insts2.length + 1) (side insts.length) insts2.length (by omega)]
        exact hendB'
      have hok3 : sideOkN (insts2 ++ [Inst.Match])
          (extSide sB (insts2.length + 1) (side insts.length)) k :=
        sideOkN_snoc insts2 sB k _ (side insts.length) hokB hT2 (Or.inr (by
          simp only [sideCond, List.get?_concat_length]
          exact hs2))
      refine ⟨extSide sB (insts2.length + 1) (side insts.length), heval, ?_, ?_, ?_⟩
      · rw [List.length_set, length_snoc, extSide_at]
      · refine sideOkN_set (insts2 ++ [Inst.Match]) _ k insts.length v hok3 (Or.inr ?_)
        rcases hv with rfl | rfl <;>
          (simp only [sideCond, hgv]
           refine ⟨by rw [extSide_at, hs0], fun _ => by rw [hs1], ?_⟩
           intro h3 q hq1 hq2
           rw [hs0] at h3
           have hgts : groupsGt k sub = true := hgt h3
           rw [extSide_ne sB (insts2.length + 1) (side insts.length) q (by omega)]
           rcases Nat.eq_or_lt_of_le hq1 with he | hl
           · rw [hagB q (by omega), ← he, extSide_at]
           · exact hallB hgts (by rw [hlen1, extSide_at]) q (by omega) (by omega))
      · intro hgtN hf q hq1 hq2
        rw [List.length_set, length_snoc] at hq2
        by_cases hqe : q = insts2.length + 1
        · subst hqe
          rw [extSide_at]
          exact hf
        · rw [extSide_ne sB (insts2.length + 1) (side insts.length) q hqe]
          rcases Nat.eq_or_lt_of_le (show insts.length + 1 ≤ q by omega) with he | hl
          · rw [hagB q (by omega), ← he, extSide_at]
          · exact hallB hgtN (by rw [hlen1, extSide_at]) q (by omega) (by omega)
  · intro insts sub fl
    try dsimp only
    intro ih out ho
    simp only [emit, Option.bind_eq_bind] at ho
    obtain ⟨insts2, h1, h2⟩ := option_bind_some _ _ _ ho
    injection h2 with h2
    subst h2
    obtain ⟨hNB, hSB⟩ := ih insts2 h1
    have hGs : Geom insts (insts ++ [Inst.CaseInsensitiveOn]) :=
      Geom_snoc_of insts insts _ (Geom_rfl insts) True.intro True.intro
        (by
        intro a b
        exact ⟨fun h => Inst.noConfusion h, fun h => Inst.noConfusion h,
          fun h => Inst.noConfusion h, fun h => Inst.noConfusion h⟩)
    have hGB := emit_geom (insts ++ [Inst.CaseInsensitiveOn]) sub insts2 h1
    have hlen1 : (insts ++ [Inst.CaseInsensitiveOn]).length = insts.length + 1 :=
      length_snoc _ _
    have hlen12 : (insts ++ [Inst.CaseInsensitiveOn]).length ≤ insts2.length := hGB.2.1
    refine ⟨?_, ?_⟩
    · intro p hp h3
      by_cases hpe : p < insts2.length
      · rw [List.get?_append hpe] at h3
        rcases Nat.lt_or_ge p (insts ++ [Inst.CaseInsensitiveOn]).length with hp1 | hp1
        · have hpe2 : p = insts.length := by omega
          subst hpe2
          rw [hGB.1 insts.length (by omega), List.get?_concat_length] at h3
          injection h3 with h3
          exact Inst.noConfusion h3
        · exact hNB p hp1 h3
      · rcases Nat.eq_or_lt_of_le (Nat.le_of_not_lt hpe) with he | hl
        · rw [← he, List.get?_concat_length] at h3
          injection h3 with h3
          exact Inst.noConfusion h3
        · rw [List.get?_eq_none.mpr (by simp only [length_snoc]; omega)] at h3
          exact Option.noConfusion h3
    · intro k side hk hok hT hgt hwf
      obtain ⟨sB, hagB, hendB, hokB, hallB⟩ := hSB k
        (extSide side (insts.length + 1) (side insts.length)) hk
        (sideOkN_snoc insts side k _ (side insts.length) hok hT (Or.inr (by
          simp only [sideCond, List.get?_concat_length]
          rw [extSide_at, extSide_ne side (insts.length + 1) (side insts.length)
            insts.length (by omega)])))
        (hGs.2.2.1 hT)
        (fun h3 => hgt (by rw [hlen1, extSide_at] at h3; exact h3))
        hwf
      have hendB' : sB insts2.length = side insts.length := by
        rw [hendB, hlen1, extSide_at]
      refine ⟨extSide sB (insts2.length + 1) (side insts.length), ?_, ?_, ?_, ?_⟩
      · intro q hq
        rw [extSide_ne sB (insts2.length + 1) (side insts.length) q (by omega),
          hagB q (by omega), extSide_ne side (insts.length + 1) (side insts.length) q
            (by omega)]
      · rw [length_snoc, extSide_at]
      · refine sideOkN_snoc insts2 sB k _ (side insts.length) hokB
          (hGB.2.2.1 (hGs.2.2.1 hT)) (Or.inr ?_)
        simp only [sideCond, List.get?_concat_length]
        rw [extSide_at, extSide_ne sB (insts2.length + 1) (side insts.length)
          insts2.length (by omega)]
        exact hendB'.symm
      · intro hgtN hf q hq1 hq2
        rw [length_snoc] at hq2
        by_cases hqe : q = insts2.length + 1
        · subst hqe
          rw [extSide_at]
          exact hf
        · rw [extSide_ne sB (insts2.length + 1) (side insts.length) q hqe]
          rcases Nat.eq_or_lt_of_le (show insts.length + 1 ≤ q by omega) with he | hl
          · rw [hagB q (by omega), ← he, extSide_at]
            exact hf
          · exact hallB hgtN (by rw [hlen1, extSide_at]; exact hf) q (by omega) (by omega)
  · intro insts sub greedy
    try dsimp only
    intro ih out ho
    simp only [emit_quantifier, Option.bind_eq_bind] at ho
    obtain ⟨insts2, h1, h2⟩ := option_bind_some _ _ _ ho
    simp only [length_snoc] at h2
    obtain ⟨hNB, hSB⟩ := ih insts2 h1
    have hGnop : Geom insts (insts ++ [Inst.Nop]) :=
      Geom_snoc_of insts insts _ (Geom_rfl insts) True.intro True.intro
        (by
        intro a b
        exact ⟨fun h => Inst.noConfusion h, fun h => Inst.noConfusion h,
          fun h => Inst.noConfusion h, fun h => Inst.noConfusion h⟩)
    have hGB := emit_geom (insts ++ [Inst.Nop]) sub insts2 h1
    have hlen1 : (insts ++ [Inst.Nop]).length = insts.length + 1 := length_snoc _ _
    have hlen12 : (insts ++ [Inst.Nop]).length ≤ insts2.length := hGB.2.1
    have hout : ∃ a b : Nat,
        ((a = insts.length + 1 ∧ b = insts2.length + 1) ∨
         (a = insts2.length + 1 ∧ b = insts.length + 1)) ∧
        out = (insts2 ++ [Inst.Jump insts.length]).set insts.length (Inst.Split a b) := by
      split at h2 <;>
        (injection h2 with h2
         exact ⟨_, _, by first | exact Or.inl ⟨rfl, rfl⟩ | exact Or.inr ⟨rfl, rfl⟩, h2.symm⟩)
    obtain ⟨a, b, hab, hoeq⟩ := hout
    subst hoeq
    have hltJ : insts.length < (insts2 ++ [Inst.Jump insts.length]).length := by
      rw [length_snoc]
      omega
    have hgv : ((insts2 ++ [Inst.Jump insts.length]).set insts.length
        (Inst.Split a b)).get? insts.length = some (Inst.Split a b) :=
      List.get?_set_eq_of_lt _ (l := insts2 ++ [Inst.Jump insts.length]) hltJ
    refine ⟨?_, ?_⟩
    · intro p hp h3
      by_cases hpj : p = insts.length
      · subst hpj
        rw [hgv] at h3
        injection h3 with h3
        exact Inst.noConfusion h3
      · rw [List.get?_set_ne _ _ (Ne.symm hpj)] at h3
        by_cases hpe : p < insts2.length
        · rw [List.get?_append hpe] at h3
          exact hNB p (by omega) h3
        · rcases Nat.eq_or_lt_of_le (Nat.le_of_not_lt hpe) with he | hl
          · rw [← he, List.get?_concat_length] at h3
            injection h3 with h3
            exact Inst.noConfusion h3
          · rw [List.get?_eq_none.mpr (by simp only [length_snoc]; omega)] at h3
            exact Option.noConfusion h3
    · intro k side hk hok hT hgt hwf
      obtain ⟨sB, hagB, hendB, hokB, hallB⟩ := hSB k
        (extSide side (insts.length + 1) (side insts.length)) hk
        (sideOkN_snoc insts side k _ (side insts.length) hok hT
          (Or.inl (List.get?_concat_length _ _)))
        (hGnop.2.2.1 hT)
        (fun h3 => hgt (by rw [hlen1, extSide_at] at h3; exact h3))
        hwf
      have hendB' : sB insts2.length = side insts.length := by
        rw [hendB, hlen1, extSide_at]
      have hT2 : TargLe insts2 := hGB.2.2.1 (hGnop.2.2.1 hT)
      have heval : ∀ q, q ≤ insts.length →
          extSide sB (insts2.length + 1) (side insts.length) q = side q := by
        intro q hq
        rw [extSide_ne sB (insts2.length + 1) (side insts.length) q (by omega),
          hagB q (by omega),
          extSide_ne side (insts.length + 1) (side insts.length) q (by omega)]
      have hs0 : extSide sB (insts2.length + 1) (side insts.length) insts.length =
          side insts.length := heval insts.length (Nat.le_refl _)
      have hs1 : extSide sB (insts2.length + 1) (side insts.length) (insts.length + 1) =
          side insts.length := by
        rw [extSide_ne sB (insts2.length + 1) (side insts.length) (insts.length + 1)
          (by omega), hagB (insts.length + 1) (by omega), extSide_at]
      have hs2 : extSide sB (insts2.length + 1) (side insts.length) insts2.length =
          side insts.length := by
        rw [extSide_ne sB (insts2.length + 1) (side insts.length) insts2.length (by omega)]
        exact hendB'
      have hsTop : extSide sB (insts2.length + 1) (side insts.length)
          (insts2.length + 1) = side insts.length := extSide_at _ _ _
      have hok3 : sideOkN (insts2 ++ [Inst.Jump insts.length])
          (extSide sB (insts2.length + 1) (side insts.length)) k :=
        sideOkN_snoc insts2 sB k _ (side insts.length) hokB hT2 (Or.inr (by
          simp only [sideCond, List.get?_concat_length]
          rw [hs0, hs2]))
      refine ⟨extSide sB (insts2.length + 1) (side insts.length), heval, ?_, ?_, ?_⟩
      · rw [List.length_set, length_snoc, extSide_at]
      · refine sideOkN_set (insts2 ++ [Inst.Jump insts.length]) _ k insts.length _ hok3
          (Or.inr ?_)
        simp only [sideCond, hgv]
        rcases hab with ⟨rfl, rfl⟩ | ⟨rfl, rfl⟩ <;>
          (constructor <;> first | rw [hs1, hs0] | rw [hsTop, hs0])
      · intro hgtN hf q hq1 hq2
        rw [List.length_set, length_snoc] at hq2
        by_cases hqe : q = insts2.length + 1
        · subst hqe
          rw [hsTop]
          exact hf
        · rw [extSide_ne sB (insts2.length + 1) (side insts.length) q hqe]
          rcases Nat.eq_or_lt_of_le (show insts.length + 1 ≤ q by omega) with he | hl
          · rw [hagB q (by omega), ← he, extSide_at]
            exact hf
          · exact hallB hgtN (by rw [hlen1, extSide_at]; exact hf) q (by omega) (by omega)
  · intro insts sub greedy ih out ho
    simp only [emit_quantifier, Option.bind_eq_bind] at ho
    obtain ⟨insts1, h1, h2⟩ := option_bind_some _ _ _ ho
    obtain ⟨hNB, hSB⟩ := ih insts1 h1
    have hGB := emit_geom insts sub insts1 h1
    have hlen01 : insts.length ≤ insts1.length := hGB.2.1
    have hout : ∃ a b : Nat,
        ((a = insts.length ∧ b = insts1.length + 1) ∨
         (a = insts1.length + 1 ∧ b = insts.length)) ∧
        out = insts1 ++ [Inst.Split a b] := by
      split at h2 <;>
        (injection h2 with h2
         exact ⟨_, _, by first | exact Or.inl ⟨rfl, rfl⟩ | exact Or.inr ⟨rfl, rfl⟩, h2.symm⟩)
    obtain ⟨a, b, hab, hoeq⟩ := hout
    subst hoeq
    refine ⟨?_, ?_⟩
    · intro p hp h3
      by_cases hpe : p < insts1.length
      · rw [List.get?_append hpe] at h3
        exact hNB p hp h3
      · rcases Nat.eq_or_lt_of_le (Nat.le_of_not_lt hpe) with he | hl
        · rw [← he, List.get?_concat_length] at h3
          injection h3 with h3
          exact Inst.noConfusion h3
        · rw [List.get?_eq_none.mpr (by simp only [length_snoc]; omega)] at h3
          exact Option.noConfusion h3
    · intro k side hk hok hT hgt hwf
      obtain ⟨sB, hagB, hendB, hokB, hallB⟩ := hSB k side hk hok hT hgt hwf
      have hT1 : TargLe insts1 := hGB.2.2.1 hT
      have hs0 : extSide sB (insts1.length + 1) (side insts.length) insts.length =
          side insts.length := by
        rw [extSide_ne sB (insts1.length + 1) (side insts.length) insts.length (by omega)]
        exact hagB insts.length (Nat.le_refl _)
      have hsL : extSide sB (insts1.length + 1) (side insts.length) insts1.length =
          side insts.length := by
        rw [extSide_ne sB (insts1.length + 1) (side insts.length) insts1.length (by omega)]
        exact hendB
      have hsTop : extSide sB (insts1.length + 1) (side insts.length)
          (insts1.length + 1) = side insts.length := extSide_at _ _ _
      refine ⟨extSide sB (insts1.length + 1) (side insts.length), ?_, ?_, ?_, ?_⟩
      · intro q hq
        rw [extSide_ne sB (insts1.length + 1) (side insts.length) q (by omega), hagB q hq]
      · rw [length_snoc, extSide_at]
      · refine sideOkN_snoc insts1 sB k _ (side insts.length) hokB hT1 (Or.inr ?_)
        simp only [sideCond, List.get?_concat_length]
        rcases hab with ⟨rfl, rfl⟩ | ⟨rfl, rfl⟩ <;>
          (constructor <;> first | rw [hs0, hsL] | rw [hsTop, hsL])
      · intro hgtN hf q hq1 hq2
        rw [length_snoc] at hq2
        by_cases hqe : q = insts1.length + 1
        · subst hqe
          rw [hsTop]
          exact hf
        · rw [extSide_ne sB (insts1.length + 1) (side insts.length) q hqe]
          exact hallB hgtN hf q hq1 (by omega)
  · intro insts sub greedy
    try dsimp only
    intro ih out ho
    simp only [emit_quantifier, Option.bind_eq_bind] at ho
    obtain ⟨insts2, h1, h2⟩ := option_bind_some _ _ _ ho
    simp only [length_snoc] at h2
    obtain ⟨hNB, hSB⟩ := ih insts2 h1
    have hGnop : Geom insts (insts ++ [Inst.Nop]) :=
      Geom_snoc_of insts insts _ (Geom_rfl insts) True.intro True.intro
        (by
        intro a b
        exact ⟨fun h => Inst.noConfusion h, fun h => Inst.noConfusion h,
          fun h => Inst.noConfusion h, fun h => Inst.noConfusion h⟩)
    have hGB := emit_geom (insts ++ [Inst.Nop]) sub insts2 h1
    have hlen1 : (insts ++ [Inst.Nop]).length = insts.length + 1 := length_snoc _ _
    have hlen12 : (insts ++ [Inst.Nop]).length ≤ insts2.length := hGB.2.1
    have hout : ∃ a b : Nat,
        ((a = insts.length + 1 ∧ b = insts2.length) ∨
         (a = insts2.length ∧ b = insts.length + 1)) ∧
        out = insts2.set insts.length (Inst.Split a b) := by
      split at h2 <;>
        (injection h2 with h2
         exact ⟨_, _, by first | exact Or.inl ⟨rfl, rfl⟩ | exact Or.inr ⟨rfl, rfl⟩, h2.symm⟩)
    obtain ⟨a, b, hab, hoeq⟩ := hout
    subst hoeq
    have hlt2 : insts.length < insts2.length := by omega
    have hgv : (insts2.set insts.length (Inst.Split a b)).get? insts.length =
        some (Inst.Split a b) := List.get?_set_eq_of_lt _ (l := insts2) hlt2
    refine ⟨?_, ?_⟩
    · intro p hp h3
      by_cases hpj : p = insts.length
      · subst hpj
        rw [hgv] at h3
        injection h3 with h3
        exact Inst.noConfusion h3
      · rw [List.get?_set_ne _ _ (Ne.symm hpj)] at h3
        by_cases hpe : p < insts2.length
        · exact hNB p (by omega) h3
        · rw [List.get?_eq_none.mpr (by omega)] at h3
          exact Option.noConfusion h3
    · intro k side hk hok hT hgt hwf
      obtain ⟨sB, hagB, hendB, hokB, hallB⟩ := hSB k
        (extSide side (insts.length + 1) (side insts.length)) hk
        (sideOkN_snoc insts side k _ (side insts.length) hok hT
          (Or.inl (List.get?_concat_length _ _)))
        (hGnop.2.2.1 hT)
        (fun h3 => hgt (by rw [hlen1, extSide_at] at h3; exact h3))
        hwf
      have hendB' : sB insts2.length = side insts.length := by
        rw [hendB, hlen1, extSide_at]
      have heval : ∀ q, q ≤ insts.length → sB q = side q := by
        intro q hq
        rw [hagB q (by omega),
          extSide_ne side (insts.length + 1) (side insts.length) q (by omega)]
      have h0 : sB insts.length = side insts.length := heval insts.length (Nat.le_refl _)
      have hq1e : sB (insts.length + 1) = side insts.length := by
        rw [hagB (insts.length + 1) (by omega), extSide_at]
      refine ⟨sB, heval, ?_, ?_, ?_⟩
      · rw [List.length_set]
        exact hendB'
      · refine sideOkN_set insts2 sB k insts.length _ hokB (Or.inr ?_)
        simp only [sideCond, hgv]
        rw [h0]
        rcases hab with ⟨rfl, rfl⟩ | ⟨rfl, rfl⟩ <;>
          (constructor <;> first | exact hq1e | exact hendB')
      · intro hgtN hf q hq1 hq2
        rw [List.length_set] at hq2
        rcases Nat.eq_or_lt_of_le (show insts.length + 1 ≤ q by omega) with he | hl
        · rw [hagB q (by omega), ← he, extSide_at]
          exact hf
        · exact hallB hgtN (by rw [hlen1, extSide_at]; exact hf) q (by omega) (by omega)
  · intro insts sub greedy n ih out ho
    exact ih out (by simpa [emit_quantifier] using ho)
  · intro insts sub greedy n ih1 ih2 out ho
    simp only [emit_quantifier, Option.bind_eq_bind] at ho
    obtain ⟨insts1, h1, h2⟩ := option_bind_some _ _ _ ho
    have h2a : emit_quantifier insts1 sub QuantifierKind.Star greedy = some out := by
      simp only [emit_quantifier, Option.bind_eq_bind]
      exact h2
    obtain ⟨hN1, hS1⟩ := ih1 insts1 h1
    obtain ⟨hN2, hS2⟩ := ih2 insts1 out h2a
    have hG1 := emitRepeat_geom insts sub n insts1 h1
    have hG2 := emit_quantifier_geom insts1 sub QuantifierKind.Star greedy out h2a
    refine ⟨?_, ?_⟩
    · intro p hp h3
      by_cases hp1 : p < insts1.length
      · rw [hG2.1 p hp1] at h3
        exact hN1 p hp h3
      · exact hN2 p (by omega) h3
    · intro k side hk hok hT hgt hwf
      obtain ⟨sB, hagB, hendB, hokB, hallB⟩ := hS1 k side hk hok hT hgt hwf
      obtain ⟨sC, hagC, hendC, hokC, hallC⟩ := hS2 k sB hk hokB (hG1.2.2.1 hT)
        (fun h3 => hgt (by rw [← hendB]; exact h3)) hwf
      have hlen01 : insts.length ≤ insts1.length := hG1.2.1
      refine ⟨sC, ?_, ?_, hokC, ?_⟩
      · intro q hq
        rw [hagC q (by omega), hagB q hq]
      · rw [hendC, hendB]
      · intro hgtN hf q hq1 hq2
        by_cases hq3 : q ≤ insts1.length
        · rw [hagC q hq3]
          exact hallB hgtN hf q hq1 hq3
        · exact hallC hgtN (by rw [hendB]; exact hf) q (by omega) hq2
  · intro insts sub greedy n m ih1 ih2 out ho
    simp only [emit_quantifier, Option.bind_eq_bind] at ho
    obtain ⟨insts1, h1, h2⟩ := option_bind_some _ _ _ ho
    split at h2
    case isTrue hnm =>
      obtain ⟨hN1, hS1⟩ := ih1 insts1 h1
      obtain ⟨hN2, hS2⟩ := ih2 insts1 out h2
      have hG1 := emitRepeat_geom insts sub n insts1 h1
      have hG2 := emitRepeatQuestion_geom insts1 sub greedy (m - n) out h2
      refine ⟨?_, ?_⟩
      · intro p hp h3
        by_cases hp1 : p < insts1.length
        · rw [hG2.1 p hp1] at h3
          exact hN1 p hp h3
        · exact hN2 p (by omega) h3
      · intro k side hk hok hT hgt hwf
        obtain ⟨sB, hagB, hendB, hokB, hallB⟩ := hS1 k side hk hok hT hgt hwf
        obtain ⟨sC, hagC, hendC, hokC, hallC⟩ := hS2 k sB hk hokB (hG1.2.2.1 hT)
          (fun h3 => hgt (by rw [← hendB]; exact h3)) hwf
        have hlen01 : insts.length ≤ insts1.length := hG1.2.1
        refine ⟨sC, ?_, ?_, hokC, ?_⟩
        · intro q hq
          rw [hagC q (by omega), hagB q hq]
        · rw [hendC, hendB]
        · intro hgtN hf q hq1 hq2
          by_cases hq3 : q ≤ insts1.length
          · rw [hagC q hq3]
            exact hallB hgtN hf q hq1 hq3
          · exact hallC hgtN (by rw [hendB]; exact hf) q (by omega) hq2
    case isFalse hnm =>
      exact Option.noConfusion h2
  · intro insts sub greedy out ho
    simp only [emitRepeatQuestion] at ho
    injection ho with h1
    subst h1
    refine ⟨?_, ?_⟩
    · intro p hp h3
      rw [List.get?_eq_none.mpr hp] at h3
      exact Option.noConfusion h3
    · intro k side hk hok hT hgt hwf
      exact ⟨side, fun q _ => rfl, rfl, hok, fun _ _ q hq1 hq2 => absurd hq1 (by omega)⟩
  · intro insts sub greedy kr ih1 ih2 out ho
    simp only [emitRepeatQuestion, Option.bind_eq_bind] at ho
    obtain ⟨insts1, h1, h2⟩ := option_bind_some _ _ _ ho
    obtain ⟨hN1, hS1⟩ := ih1 insts1 h1
    obtain ⟨hN2, hS2⟩ := ih2 insts1 out h2
    have hG1 := emit_quantifier_geom insts sub QuantifierKind.Question greedy insts1 h1
    have hG2 := emitRepeatQuestion_geom insts1 sub greedy kr out h2
    refine ⟨?_, ?_⟩
    · intro p hp h3
      by_cases hp1 : p < insts1.length
      · rw [hG2.1 p hp1] at h3
        exact hN1 p hp h3
      · exact hN2 p (by omega) h3
    · intro k side hk hok hT hgt hwf
      obtain ⟨sB, hagB, hendB, hokB, hallB⟩ := hS1 k side hk hok hT hgt hwf
      obtain ⟨sC, hagC, hendC, hokC, hallC⟩ := hS2 k sB hk hokB (hG1.2.2.1 hT)
        (fun h3 => hgt (by rw [← hendB]; exact h3)) hwf
      have hlen01 : insts.length ≤ insts1.length := hG1.2.1
      refine ⟨sC, ?_, ?_, hokC, ?_⟩
      · intro q hq
        rw [hagC q (by omega), hagB q hq]
      · rw [hendC, hendB]
      · intro hgtN hf q hq1 hq2
        by_cases hq3 : q ≤ insts1.length
        · rw [hagC q hq3]
          exact hallB hgtN hf q hq1 hq3
        · exact hallC hgtN (by rw [hendB]; exact hf) q (by omega) hq2
  · intro insts sub out ho
    simp only [emitRepeat] at ho
    injection ho with h1
    subst h1
    refine ⟨?_, ?_⟩
    · intro p hp h3
      rw [List.get?_eq_none.mpr hp] at h3
      exact Option.noConfusion h3
    · intro k side hk hok hT hgt hwf
      exact ⟨side, fun q _ => rfl, rfl, hok, fun _ _ q hq1 hq2 => absurd hq1 (by omega)⟩
  · intro insts sub kr ih1 ih2 out ho
    simp only [emitRepeat, Option.bind_eq_bind] at ho
    obtain ⟨insts1, h1, h2⟩ := option_bind_some _ _ _ ho
    obtain ⟨hN1, hS1⟩ := ih1 insts1 h1
    obtain ⟨hN2, hS2⟩ := ih2 insts1 out h2
    have hG1 := emit_geom insts sub insts1 h1
    have hG2 := emitRepeat_geom insts1 sub kr out h2
    refine ⟨?_, ?_⟩
    · intro p hp h3
      by_cases hp1 : p < insts1.length
      · rw [hG2.1 p hp1] at h3
        exact hN1 p hp h3
      · exact hN2 p (by omega) h3
    · intro k side hk hok hT hgt hwf
      obtain ⟨sB, hagB, hendB, hokB, hallB⟩ := hS1 k side hk hok hT hgt hwf
      obtain ⟨sC, hagC, hendC, hokC, hallC⟩ := hS2 k sB hk hokB (hG1.2.2.1 hT)
        (fun h3 => hgt (by rw [← hendB]; exact h3)) hwf
      have hlen01 : insts.length ≤ insts1.length := hG1.2.1
      refine ⟨sC, ?_, ?_, hokC, ?_⟩
      · intro q hq
        rw [hagC q (by omega), hagB q hq]
      · rw [hendC, hendB]
      · intro hgtN hf q hq1 hq2
        by_cases hq3 : q ≤ insts1.length
        · rw [hagC q hq3]
          exact hallB hgtN hf q hq1 hq3
        · exact hallC hgtN (by rw [hendB]; exact hf) q (by omega) hq2
  · intro insts fixups out ho
    simp only [emitAltChain] at ho
    injection ho with h1
    subst h1
    dsimp only
    refine ⟨fun p _ => rfl, Nat.le_refl _, fun j hj => hj, ?_, ?_⟩
    · intro p hp h3
      rw [List.get?_eq_none.mpr hp] at h3
      exact Option.noConfusion h3
    · intro k side hk hok hT hgt hwf hfix
      exact ⟨side, fun q _ => rfl, rfl, hok,
        fun j hj => ⟨(hfix j hj).1, (hfix j hj).2⟩,
        fun _ _ q hq1 hq2 => absurd hq1 (by omega)⟩
  · intro insts fixups b ih out ho
    simp only [emitAltChain, Option.bind_eq_bind] at ho
    obtain ⟨insts1, h1, h2⟩ := option_bind_some _ _ _ ho
    injection h2 with h2
    subst h2
    dsimp only
    obtain ⟨hNB, hSB⟩ := ih insts1 h1
    have hGB := emit_geom insts b insts1 h1
    refine ⟨hGB.1, hGB.2.1, fun j hj => hj, ?_, ?_⟩
    · intro p hp h3
      exact absurd h3 (hNB p hp)
    · intro k side hk hok hT hgt hwf hfix
      obtain ⟨sB, hagB, hendB, hokB, hallB⟩ := hSB k side hk hok hT
        (fun h3 => (bool_and_split (hgt h3)).1)
        ((bool_and_split hwf).1)
      refine ⟨sB, hagB, hendB, hokB, ?_, ?_⟩
      · intro j hj
        refine ⟨by have := hGB.2.1; have := (hfix j hj).1; omega, ?_⟩
        rw [hagB j (by have := (hfix j hj).1; omega)]
        exact (hfix j hj).2
      · intro hgtN hf q hq1 hq2
        exact hallB ((bool_and_split hgtN).1) hf q hq1 hq2
  · intro insts fixups b rest hne
    try dsimp only
    intro ih1 ih2 out ho
    cases rest with
    | nil => exact absurd rfl hne
    | cons b2 rest2 =>
      simp only [emitAltChain, Option.bind_eq_bind] at ho
      obtain ⟨insts2, h1, h2⟩ := option_bind_some _ _ _ ho
      obtain ⟨hNB, hSB⟩ := ih1 insts2 h1
      have hrec := ih2 insts2
      try dsimp only at hrec
      obtain ⟨rP, rL, rF, rN, rS⟩ := hrec out h2
      set I4 : List Inst := (insts2 ++ [Inst.Nop]).set insts.length
        (Inst.Split (insts ++ [Inst.Nop]).length (insts2 ++ [Inst.Nop]).length) with hI4
      have hGnop : Geom insts (insts ++ [Inst.Nop]) :=
        Geom_snoc_of insts insts _ (Geom_rfl insts) True.intro True.intro
          (by
        intro a b
        exact ⟨fun h => Inst.noConfusion h, fun h => Inst.noConfusion h,
          fun h => Inst.noConfusion h, fun h => Inst.noConfusion h⟩)
      have hGB := emit_geom (insts ++ [Inst.Nop]) b insts2 h1
      have hlen1 : (insts ++ [Inst.Nop]).length = insts.length + 1 := length_snoc _ _
      have hlen12 : (insts ++ [Inst.Nop]).length ≤ insts2.length := hGB.2.1
      have hlen3 : (insts2 ++ [Inst.Nop]).length = insts2.length + 1 := length_snoc _ _
      have hlen4I : I4.length = insts2.length + 1 := by
        rw [hI4, List.length_set]
        exact hlen3
      have hnop4 : I4.get? insts2.length = some Inst.Nop := by
        rw [hI4, List.get?_set_ne _ _ (by omega), List.get?_concat_length]
      have hgv4 : I4.get? insts.length = some (Inst.Split (insts ++ [Inst.Nop]).length
          (insts2 ++ [Inst.Nop]).length) := by
        rw [hI4]
        exact List.get?_set_eq_of_lt _ (l := insts2 ++ [Inst.Nop]) (by omega)
      refine ⟨?_, ?_, ?_, ?_, ?_⟩
      · intro p hp
        rw [rP p (by omega), hI4, List.get?_set_ne _ _ (by omega),
          List.get?_append (by omega), hGB.1 p (by omega), List.get?_append (by omega)]
      · have h3 := rL
        omega
      · intro j hj
        exact rF j (List.mem_append.mpr (Or.inl hj))
      · intro p hp h3
        by_cases hp4 : p < I4.length
        · rw [rP p hp4, hI4] at h3
          by_cases hpj : p = insts.length
          · subst hpj
            rw [List.get?_set_eq_of_lt _ (l := insts2 ++ [Inst.Nop]) (by omega)] at h3
            injection h3 with h3
            exact Inst.noConfusion h3
          · rw [List.get?_set_ne _ _ (Ne.symm hpj)] at h3
            by_cases hpe : p < insts2.length
            · rw [List.get?_append hpe] at h3
              exact absurd h3 (hNB p (by omega))
            · have he : p = insts2.length := by omega
              subst he
              exact rF insts2.length (List.mem_append.mpr (Or.inr (by simp)))
        · exact rN p (by omega) h3
      · intro k side hk hok hT hgt hwf hfix
        have hgtH : side insts.length = true → groupsGt k b = true := fun h3 =>
          (bool_and_split (hgt h3)).1
        have hgtT : side insts.length = true → groupsGtList k (b2 :: rest2) = true :=
          fun h3 => (bool_and_split (hgt h3)).2
        have hwfH : wfIdx b = true := (bool_and_split hwf).1
        have hwfT : wfIdxList (b2 :: rest2) = true := (bool_and_split hwf).2
        obtain ⟨sB, hagB, hendB, hokB, hallB⟩ := hSB k
          (extSide side (insts.length + 1) (side insts.length)) hk
          (sideOkN_snoc insts side k _ (side insts.length) hok hT
            (Or.inl (List.get?_concat_length _ _)))
          (hGnop.2.2.1 hT)
          (fun h3 => hgtH (by rw [hlen1, extSide_at] at h3; exact h3))
          hwfH
        have hendB' : sB insts2.length = side insts.length := by
          rw [hendB, hlen1, extSide_at]
        have hT2 : TargLe insts2 := hGB.2.2.1 (hGnop.2.2.1 hT)
        have hT3 : TargLe (insts2 ++ [Inst.Nop]) :=
          (Geom_snoc_of insts2 insts2 Inst.Nop (Geom_rfl insts2) True.intro True.intro
            (by
        intro a b
        exact ⟨fun h => Inst.noConfusion h, fun h => Inst.noConfusion h,
          fun h => Inst.noConfusion h, fun h => Inst.noConfusion h⟩)).2.2.1 hT2
        have hT4 : TargLe I4 := by
          intro p inst hp
          rw [hlen4I]
          rw [hI4] at hp
          by_cases hpj : p = insts.length
          · subst hpj
            rw [List.get?_set_eq_of_lt _ (l := insts2 ++ [Inst.Nop]) (by omega)] at hp
            injection hp with hpv
            subst hpv
            exact ⟨by omega, by omega⟩
          · rw [List.get?_set_ne _ _ (Ne.symm hpj)] at hp
            have := hT3 p inst hp
            exact instTargetsLe_mono _ _ _ (by omega) this
        have heval : ∀ q, q ≤ insts.length →
            extSide sB (insts2.length + 1) (side insts.length) q = side q := by
          intro q hq
          rw [extSide_ne sB (insts2.length + 1) (side insts.length) q (by omega),
            hagB q (by omega),
            extSide_ne side (insts.length + 1) (side insts.length) q (by omega)]
        have hs0 : extSide sB (insts2.length + 1) (side insts.length) insts.length =
            side insts.length := heval insts.length (Nat.le_refl _)
        have hs1 : extSide sB (insts2.length + 1) (side insts.length)
            (insts.length + 1) = side insts.length := by
          rw [extSide_ne sB (insts2.length + 1) (side insts.length) (insts.length + 1)
            (by omega), hagB (insts.length + 1) (by omega), extSide_at]
        have hs2 : extSide sB (insts2.length + 1) (side insts.length) insts2.length =
            side insts.length := by
          rw [extSide_ne sB (insts2.length + 1) (side insts.length) insts2.length
            (by omega)]
          exact hendB'
        have hsTop : extSide sB (insts2.length + 1) (side insts.length)
            (insts2.length + 1) = side insts.length := extSide_at _ _ _
        have hok3 : sideOkN (insts2 ++ [Inst.Nop])
            (extSide sB (insts2.length + 1) (side insts.length)) k :=
          sideOkN_snoc insts2 sB k _ (side insts.length) hokB hT2
            (Or.inl (List.get?_concat_length _ _))
        have hok4 : sideOkN I4 (extSide sB (insts2.length + 1) (side insts.length)) k := by
          rw [hI4]
          refine sideOkN_set (insts2 ++ [Inst.Nop]) _ k insts.length _ hok3 (Or.inr ?_)
          have hgv4a : ((insts2 ++ [Inst.Nop]).set insts.length
              (Inst.Split (insts ++ [Inst.Nop]).length (insts2 ++ [Inst.Nop]).length)).get?
              insts.length = some (Inst.Split (insts ++ [Inst.Nop]).length
                (insts2 ++ [Inst.Nop]).length) :=
            List.get?_set_eq_of_lt _ (l := insts2 ++ [Inst.Nop]) (by omega)
          simp only [sideCond, hgv4a]
          rw [hlen1, hlen3]
          exact ⟨by rw [hs1, hs0], by rw [hsTop, hs0]⟩
        have hs4e : extSide sB (insts2.length + 1) (side insts.length) I4.length =
            side insts.length := by
          rw [hlen4I]
          exact hsTop
        obtain ⟨sC, hagC, hendC, hokC, hfixC, hallC⟩ := rS k
          (extSide sB (insts2.length + 1) (side insts.length)) hk hok4 hT4
          (fun h3 => hgtT (by rw [hs4e] at h3; exact h3))
          hwfT
          (by
            intro j hj
            rcases List.mem_append.mp hj with hold | hnew2
            · obtain ⟨hjl, hjs⟩ := hfix j hold
              refine ⟨by omega, ?_⟩
              rw [hs4e, heval j (by omega)]
              exact hjs
            · have he : j = insts2.length := by simpa using hnew2
              subst he
              refine ⟨by omega, ?_⟩
              rw [hs4e, hs2])
        refine ⟨sC, ?_, ?_, hokC, ?_, ?_⟩
        · intro q hq
          rw [hagC q (by omega), heval q hq]
        · rw [hendC, hs4e]
        · intro j hj
          obtain ⟨hjl, hjs⟩ := hfixC j hj
          exact ⟨hjl, by rw [hjs, hs4e]⟩
        · intro hgtN hf q hq1 hq2
          have hgtH2 : groupsGt k b = true := (bool_and_split hgtN).1
          have hgtT2 : groupsGtList k (b2 :: rest2) = true := (bool_and_split hgtN).2
          by_cases hq4 : q ≤ I4.length
          · rw [hagC q hq4]
            by_cases hqe : q = insts2.length + 1
            · subst hqe
              rw [hsTop]
              exact hf
            · rw [extSide_ne sB (insts2.length + 1) (side insts.length) q hqe]
              rcases Nat.eq_or_lt_of_le (show insts.length + 1 ≤ q by omega) with he | hl
              · rw [hagB q (by omega), ← he, extSide_at]
                exact hf
              · exact hallB hgtH2 (by rw [hlen1, extSide_at]; exact hf) q (by omega)
                  (by omega)
          · exact hallC hgtT2 (by rw [hs4e]; exact hf) q (by omega) hq2
  · intro insts out ho
    simp only [emitList] at ho
    injection ho with h1
    subst h1
    refine ⟨?_, ?_⟩
    · intro p hp h3
      rw [List.get?_eq_none.mpr hp] at h3
      exact Option.noConfusion h3
    · intro k side hk hok hT hgt hwf
      exact ⟨side, fun q _ => rfl, rfl, hok, fun _ _ q hq1 hq2 => absurd hq1 (by omega)⟩
  · intro insts n rest ih1 ih2 out ho
    simp only [emitList, Option.bind_eq_bind] at ho
    obtain ⟨insts1, h1, h2⟩ := option_bind_some _ _ _ ho
    obtain ⟨hN1, hS1⟩ := ih1 insts1 h1
    obtain ⟨hN2, hS2⟩ := ih2 insts1 out h2
    have hG1 := emit_geom insts n insts1 h1
    have hG2 := emitList_geom insts1 rest out h2
    refine ⟨?_, ?_⟩
    · intro p hp h3
      by_cases hp1 : p < insts1.length
      · rw [hG2.1 p hp1] at h3
        exact hN1 p hp h3
      · exact hN2 p (by omega) h3
    · intro k side hk hok hT hgt hwf
      obtain ⟨sB, hagB, hendB, hokB, hallB⟩ := hS1 k side hk hok hT (fun h3 => (bool_and_split (hgt h3)).1) ((bool_and_split hwf).1)
      obtain ⟨sC, hagC, hendC, hokC, hallC⟩ := hS2 k sB hk hokB (hG1.2.2.1 hT)
        (fun h3 => (bool_and_split (hgt (by rw [← hendB]; exact h3))).2) ((bool_and_split hwf).2)
      have hlen01 : insts.length ≤ insts1.length := hG1.2.1
      refine ⟨sC, ?_, ?_, hokC, ?_⟩
      · intro q hq
        rw [hagC q (by omega), hagB q hq]
      · rw [hendC, hendB]
      · intro hgtN hf q hq1 hq2
        by_cases hq3 : q ≤ insts1.length
        · rw [hagC q hq3]
          exact hallB ((bool_and_split hgtN).1) hf q hq1 hq3
        · exact hallC ((bool_and_split hgtN).2) (by rw [hendB]; exact hf) q (by omega) hq2

/-- Inside a lookaround span whose interior the side marking declares
closed, no `Save` can target group `k`'s slots: an opening save would force
the side open right before the terminating `Match`, a closing save would
require it open inside. -/
theorem noKSaves_of_sideOk (insts : List Inst) (side : Nat → Bool) (k s1 s2 : Nat)
    (hok : sideOk insts side k)
    (hmatch : insts.get? (s2 - 1) = some .Match)
    (hint : ∀ q, s1 ≤ q → q < s2 → side q = false) :
    NoKSaves insts s1 s2 k := by
  intro p t hlo hhi hp
  have hc := hok p
  simp only [sideCond, hp] at hc
  obtain ⟨h2k, h2k1, _⟩ := hc
  refine ⟨?_, ?_⟩
  · intro ht
    obtain ⟨_, hnext⟩ := h2k ht
    by_cases hps : p + 1 < s2
    · rw [hint (p + 1) (by omega) hps] at hnext
      exact Bool.noConfusion hnext
    · have hp2 : p = s2 - 1 := by omega
      rw [hp2, hmatch] at hp
      injection hp with hp
      exact Inst.noConfusion hp
  · intro ht
    obtain ⟨hcur, _⟩ := h2k1 ht
    rw [hint p hlo hhi] at hcur
    exact Bool.noConfusion hcur

/-- A run that starts inside a window that is closed under control flow and
contains no `Save` for group `k` cannot change group `k`'s slots: on a
successful outcome both slots are exactly as at entry.  (`Split`'s failed
first branches are rolled back by the undo log; lookarounds nested in the
window recurse within it.) -/
theorem vm_untouched (k : Nat) (hk : 1 ≤ k) (fuel : Nat) :
    (∀ prog lo hi chars pos pc caps undo depth caps' undo',
        Confined prog.insts lo hi → NoKSaves prog.insts lo hi k →
        lo ≤ pc → pc < hi →
        execLoop fuel prog chars pos pc caps undo depth = .out true caps' undo' →
        caps'.getD (2 * k) none = caps.getD (2 * k) none ∧
        caps'.getD (2 * k + 1) none = caps.getD (2 * k + 1) none) ∧
    (∀ prog lo hi chars pos pc caps undo depth caps' undo',
        Confined prog.insts lo hi → NoKSaves prog.insts lo hi k →
        lo ≤ pc → pc < hi →
        exec fuel prog chars pos pc caps undo depth = .out true caps' undo' →
        caps'.getD (2 * k) none = caps.getD (2 * k) none ∧
        caps'.getD (2 * k + 1) none = caps.getD (2 * k + 1) none) ∧
    (∀ prog lo hi chars pos s1 s2 caps undo depth caps' undo',
        Confined prog.insts lo hi → NoKSaves prog.insts lo hi k →
        lo ≤ s1 → s1 < hi →
        execSub fuel prog chars pos s1 s2 caps undo depth = .out true caps' undo' →
        caps'.getD (2 * k) none = caps.getD (2 * k) none ∧
        caps'.getD (2 * k + 1) none = caps.getD (2 * k + 1) none) ∧
    (∀ prog lo hi chars lbs pos s1 s2 caps depth c,
        Confined prog.insts lo hi → NoKSaves prog.insts lo hi k →
        lo ≤ s1 → s1 < hi →
        lbScan fuel prog chars lbs pos s1 s2 caps depth = .found c →
        c.getD (2 * k) none = caps.getD (2 * k) none ∧
        c.getD (2 * k + 1) none = caps.getD (2 * k + 1) none) := by
  induction fuel with
  | zero =>
    refine ⟨?_, ?_, ?_, ?_⟩
    · intro prog lo hi chars pos pc caps undo depth caps' undo' _ _ _ _ h
      exact ExecOut.noConfusion h
    · intro prog lo hi chars pos pc caps undo depth caps' undo' _ _ _ _ h
      exact ExecOut.noConfusion h
    · intro prog lo hi chars pos s1 s2 caps undo depth caps' undo' _ _ _ _ h
      exact ExecOut.noConfusion h
    · intro prog lo hi chars lbs pos s1 s2 caps depth c _ _ _ _ h
      exact LbOut.noConfusion h
  | succ fuel ih =>
    obtain ⟨ihL, ihE, ihS, ihB⟩ := ih
    refine ⟨?_, ?_, ?_, ?_⟩
    · intro prog lo hi chars pos pc caps undo depth caps' undo' hConf hNoK hlo hhi h
      rcases hpc : prog.insts.get? pc with _ | inst
      · simp only [execLoop, hpc] at h
        injection h with h1
        exact Bool.noConfusion h1
      · cases inst <;> simp only [execLoop, hpc] at h
        case Match =>
          split at h
          · injection h with h1 h2 h3
            subst h2; subst h3
            exact ⟨getD_set_ne caps 1 (2 * k) _ none (by omega),
              getD_set_ne caps 1 (2 * k + 1) _ none (by omega)⟩
          · exact ExecOut.noConfusion h
        case Char expected =>
          have hcf : pc + 1 < hi := by
            have h0 := hConf pc hlo hhi; rw [hpc] at h0; exact h0
          split at h
          · exact ihL _ _ _ _ _ _ _ _ _ _ _ hConf hNoK (by omega) hcf h
          · injection h with h1
            exact Bool.noConfusion h1
        case AnyChar =>
          have hcf : pc + 1 < hi := by
            have h0 := hConf pc hlo hhi; rw [hpc] at h0; exact h0
          rcases hcc : chars.get? pos with _ | c <;> simp only [hcc] at h
          · injection h with h1
            exact Bool.noConfusion h1
          · split at h
            · exact ihL _ _ _ _ _ _ _ _ _ _ _ hConf hNoK (by omega) hcf h
            · injection h with h1
              exact Bool.noConfusion h1
        case CharClass ranges negated =>
          have hcf : pc + 1 < hi := by
            have h0 := hConf pc hlo hhi; rw [hpc] at h0; exact h0
          rcases hcc : chars.get? pos with _ | c <;> simp only [hcc] at h
          · injection h with h1
            exact Bool.noConfusion h1
          · split at h
            · exact ihL _ _ _ _ _ _ _ _ _ _ _ hConf hNoK (by omega) hcf h
            · injection h with h1
              exact Bool.noConfusion h1
        case ShorthandClass kind =>
          have hcf : pc + 1 < hi := by
            have h0 := hConf pc hlo hhi; rw [hpc] at h0; exact h0
          rcases hcc : chars.get? pos with _ | c <;> simp only [hcc] at h
          · injection h with h1
            exact Bool.noConfusion h1
          · split at h
            · exact ihL _ _ _ _ _ _ _ _ _ _ _ hConf hNoK (by omega) hcf h
            · injection h with h1
              exact Bool.noConfusion h1
        case Jump target =>
          have hcf : lo ≤ target ∧ target < hi := by
            have h0 := hConf pc hlo hhi; rw [hpc] at h0; exact h0
          exact ihL _ _ _ _ _ _ _ _ _ _ _ hConf hNoK hcf.1 hcf.2 h
        case Split first second =>
          have hcf : lo ≤ first ∧ first < hi ∧ lo ≤ second ∧ second < hi := by
            have h0 := hConf pc hlo hhi; rw [hpc] at h0; exact h0
          rcases hx : exec fuel prog chars pos first caps undo (depth + 1) with
            ⟨_ | _, c, u⟩ | _ | _ <;> simp only [hx] at h
          · have hrest := (vm_false_restores fuel).2 _ _ _ _ _ _ _ _ _ hx
            rw [hrest] at h
            exact ihL _ _ _ _ _ _ _ _ _ _ _ hConf hNoK hcf.2.2.1 hcf.2.2.2 h
          · injection h with h1 h2 h3
            subst h2; subst h3
            exact ihE _ _ _ _ _ _ _ _ _ _ _ hConf hNoK hcf.1 hcf.2.1 hx
          · exact ExecOut.noConfusion h
          · exact ExecOut.noConfusion h
        case Save slot =>
          have hcf : pc + 1 < hi := by
            have h0 := hConf pc hlo hhi; rw [hpc] at h0; exact h0
          split at h
          · obtain ⟨hs1, hs2⟩ := hNoK pc slot hlo hhi hpc
            obtain ⟨q1, q2⟩ := ihL _ _ _ _ _ _ _ _ _ _ _ hConf hNoK (by omega) hcf h
            exact ⟨q1.trans (getD_set_ne caps slot (2 * k) _ none hs1),
              q2.trans (getD_set_ne caps slot (2 * k + 1) _ none hs2)⟩
          · exact ExecOut.noConfusion h
        case AssertStart =>
          have hcf : pc + 1 < hi := by
            have h0 := hConf pc hlo hhi; rw [hpc] at h0; exact h0
          split at h
          · exact ihL _ _ _ _ _ _ _ _ _ _ _ hConf hNoK (by omega) hcf h
          · injection h with h1
            exact Bool.noConfusion h1
        case AssertEnd =>
          have hcf : pc + 1 < hi := by
            have h0 := hConf pc hlo hhi; rw [hpc] at h0; exact h0
          split at h
          · exact ihL _ _ _ _ _ _ _ _ _ _ _ hConf hNoK (by omega) hcf h
          · injection h with h1
            exact Bool.noConfusion h1
        case AssertWordBoundary =>
          have hcf : pc + 1 < hi := by
            have h0 := hConf pc hlo hhi; rw [hpc] at h0; exact h0
          split at h
          · exact ihL _ _ _ _ _ _ _ _ _ _ _ hConf hNoK (by omega) hcf h
          · injection h with h1
            exact Bool.noConfusion h1
        case AssertNonWordBoundary =>
          have hcf : pc + 1 < hi := by
            have h0 := hConf pc hlo hhi; rw [hpc] at h0; exact h0
          split at h
          · exact ihL _ _ _ _ _ _ _ _ _ _ _ hConf hNoK (by omega) hcf h
          · injection h with h1
            exact Bool.noConfusion h1
        case Backref group_idx =>
          have hcf : pc + 1 < hi := by
            have h0 := hConf pc hlo hhi; rw [hpc] at h0; exact h0
          split at h
          case isTrue =>
            split at h
            case _ gs ge =>
              split at h
              · split at h
                · split at h
                  · split at h
                    · exact ihL _ _ _ _ _ _ _ _ _ _ _ hConf hNoK (by omega) hcf h
                    · injection h with h1
                      exact Bool.noConfusion h1
                  · exact ExecOut.noConfusion h
                · injection h with h1
                  exact Bool.noConfusion h1
              · exact ExecOut.noConfusion h
            all_goals (injection h with h1; exact Bool.noConfusion h1)
          case isFalse => exact ExecOut.noConfusion h
        case LookaheadPositive sub_start sub_end =>
          have hcf : lo ≤ sub_start ∧ sub_start < hi ∧ lo ≤ sub_end ∧ sub_end < hi := by
            have h0 := hConf pc hlo hhi; rw [hpc] at h0; exact h0
          rcases hx : execSub fuel prog chars pos sub_start sub_end caps [] (depth + 1) with
            ⟨_ | _, c, u⟩ | _ | _ <;> simp only [hx] at h
          · injection h with h1
            exact Bool.noConfusion h1
          · obtain ⟨g1, g2⟩ := ihS _ _ _ _ _ _ _ _ _ _ _ _ hConf hNoK hcf.1 hcf.2.1 hx
            obtain ⟨p1, p2⟩ := propagate_pairUnchanged c caps undo k hk g1 g2
            obtain ⟨q1, q2⟩ := ihL _ _ _ _ _ _ _ _ _ _ _ hConf hNoK hcf.2.2.1 hcf.2.2.2 h
            exact ⟨q1.trans p1, q2.trans p2⟩
          · exact ExecOut.noConfusion h
          · exact ExecOut.noConfusion h
        case LookaheadNegative sub_start sub_end =>
          have hcf : lo ≤ sub_start ∧ sub_start < hi ∧ lo ≤ sub_end ∧ sub_end < hi := by
            have h0 := hConf pc hlo hhi; rw [hpc] at h0; exact h0
          rcases hx : execSub fuel prog chars pos sub_start sub_end caps [] (depth + 1) with
            ⟨_ | _, c, u⟩ | _ | _ <;> simp only [hx] at h
          · exact ihL _ _ _ _ _ _ _ _ _ _ _ hConf hNoK hcf.2.2.1 hcf.2.2.2 h
          · injection h with h1
            exact Bool.noConfusion h1
          · exact ExecOut.noConfusion h
          · exact ExecOut.noConfusion h
        case LookbehindPositive sub_start sub_end =>
          have hcf : lo ≤ sub_start ∧ sub_start < hi ∧ lo ≤ sub_end ∧ sub_end < hi := by
            have h0 := hConf pc hlo hhi; rw [hpc] at h0; exact h0
          rcases hx : lbScan fuel prog chars (List.range (pos + 1)) pos sub_start sub_end caps
              (depth + 1) with ⟨c⟩ | _ | _ | _ <;> simp only [hx] at h
          · obtain ⟨g1, g2⟩ := ihB _ _ _ _ _ _ _ _ _ _ _ hConf hNoK hcf.1 hcf.2.1 hx
            obtain ⟨p1, p2⟩ := propagate_pairUnchanged c caps undo k hk g1 g2
            obtain ⟨q1, q2⟩ := ihL _ _ _ _ _ _ _ _ _ _ _ hConf hNoK hcf.2.2.1 hcf.2.2.2 h
            exact ⟨q1.trans p1, q2.trans p2⟩
          · injection h with h1
            exact Bool.noConfusion h1
          · exact ExecOut.noConfusion h
          · exact ExecOut.noConfusion h
        case LookbehindNegative sub_start sub_end =>
          have hcf : lo ≤ sub_start ∧ sub_start < hi ∧ lo ≤ sub_end ∧ sub_end < hi := by
            have h0 := hConf pc hlo hhi; rw [hpc] at h0; exact h0
          rcases hx : lbScan fuel prog chars (List.range (pos + 1)) pos sub_start sub_end caps
              (depth + 1) with ⟨c⟩ | _ | _ | _ <;> simp only [hx] at h
          · injection h with h1
            exact Bool.noConfusion h1
          · exact ihL _ _ _ _ _ _ _ _ _ _ _ hConf hNoK hcf.2.2.1 hcf.2.2.2 h
          · exact ExecOut.noConfusion h
          · exact ExecOut.noConfusion h
        case Nop =>
          have hcf : pc + 1 < hi := by
            have h0 := hConf pc hlo hhi; rw [hpc] at h0; exact h0
          exact ihL _ _ _ _ _ _ _ _ _ _ _ hConf hNoK (by omega) hcf h
        case CaseInsensitiveOn => exact ExecOut.noConfusion h
        case CaseInsensitiveOff => exact ExecOut.noConfusion h
    · intro prog lo hi chars pos pc caps undo depth caps' undo' hConf hNoK hlo hhi h
      simp only [exec] at h
      split at h
      · injection h with h1
        exact Bool.noConfusion h1
      · exact ihL _ _ _ _ _ _ _ _ _ _ _ hConf hNoK hlo hhi h
    · intro prog lo hi chars pos s1 s2 caps undo depth caps' undo' hConf hNoK hlo hhi h
      simp only [execSub] at h
      split at h
      · rcases hx : exec fuel prog chars pos s1 (caps.set 1 none) undo depth with
          ⟨_ | _, c, u⟩ | _ | _ <;> simp only [hx] at h
        · injection h with h1
          exact Bool.noConfusion h1
        · injection h with h1 h2 h3
          subst h2; subst h3
          obtain ⟨g1, g2⟩ := ihE _ _ _ _ _ _ _ _ _ _ _ hConf hNoK hlo hhi hx
          exact ⟨g1.trans (getD_set_ne caps 1 (2 * k) none none (by omega)),
            g2.trans (getD_set_ne caps 1 (2 * k + 1) none none (by omega))⟩
        · exact ExecOut.noConfusion h
        · exact ExecOut.noConfusion h
      · exact ExecOut.noConfusion h
    · intro prog lo hi chars lbs pos s1 s2 caps depth c hConf hNoK hlo hhi h
      cases lbs with
      | nil =>
        simp only [lbScan] at h
        exact LbOut.noConfusion h
      | cons lb rest =>
        simp only [lbScan] at h
        rcases hx : execSub fuel prog chars (pos - lb) s1 s2 caps [] depth with
          ⟨_ | _, sc, u⟩ | _ | _ <;> simp only [hx] at h
        · exact ihB _ _ _ _ _ _ _ _ _ _ _ hConf hNoK hlo hhi h
        · split at h
          · injection h with h1
            subst h1
            exact ihS _ _ _ _ _ _ _ _ _ _ _ _ hConf hNoK hlo hhi hx
          · exact ihB _ _ _ _ _ _ _ _ _ _ _ hConf hNoK hlo hhi h
        · exact LbOut.noConfusion h
        · exact LbOut.noConfusion h

/-- The group-`k` pair invariant: running the VM over a program with a
coherent side marking and well-formed lookaround spans keeps group `k`'s
reported pair ordered.  While the marking is closed at the current pc the
pair is ordered; while it is open the start slot is set and at most the
current position (so the closing `Save` writes an end ≥ start); a
successful outcome from a closed position therefore has an ordered pair. -/
theorem vm_pair (fuel : Nat) :
    (∀ prog side k chars pos pc caps undo depth caps' undo',
        1 ≤ k → sideOk prog.insts side k → spansWF prog.insts →
        (side pc = false → GoodPair caps k) →
        (side pc = true → ∃ v, caps.getD (2 * k) none = some v ∧ v ≤ pos) →
        execLoop fuel prog chars pos pc caps undo depth = .out true caps' undo' →
        GoodPair caps' k) ∧
    (∀ prog side k chars pos pc caps undo depth caps' undo',
        1 ≤ k → sideOk prog.insts side k → spansWF prog.insts →
        (side pc = false → GoodPair caps k) →
        (side pc = true → ∃ v, caps.getD (2 * k) none = some v ∧ v ≤ pos) →
        exec fuel prog chars pos pc caps undo depth = .out true caps' undo' →
        GoodPair caps' k) ∧
    (∀ prog side k chars pos s1 s2 caps undo depth caps' undo',
        1 ≤ k → sideOk prog.insts side k → spansWF prog.insts →
        (side s1 = false → GoodPair caps k) →
        (side s1 = true → ∃ v, caps.getD (2 * k) none = some v ∧ v ≤ pos) →
        execSub fuel prog chars pos s1 s2 caps undo depth = .out true caps' undo' →
        GoodPair caps' k) ∧
    (∀ prog side k chars lbs pos s1 s2 caps depth c,
        1 ≤ k → sideOk prog.insts side k → spansWF prog.insts →
        side s1 = false → GoodPair caps k →
        lbScan fuel prog chars lbs pos s1 s2 caps depth = .found c →
        GoodPair c k) := by
  induction fuel with
  | zero =>
    refine ⟨?_, ?_, ?_, ?_⟩
    · intro prog side k chars pos pc caps undo depth caps' undo' _ _ _ _ _ h
      exact ExecOut.noConfusion h
    · intro prog side k chars pos pc caps undo depth caps' undo' _ _ _ _ _ h
      exact ExecOut.noConfusion h
    · intro prog side k chars pos s1 s2 caps undo depth caps' undo' _ _ _ _ _ h
      exact ExecOut.noConfusion h
    · intro prog side k chars lbs pos s1 s2 caps depth c _ _ _ _ _ h
      exact LbOut.noConfusion h
  | succ fuel ih =>
    obtain ⟨ihL, ihE, ihS, ihB⟩ := ih
    refine ⟨?_, ?_, ?_, ?_⟩
    · intro prog side k chars pos pc caps undo depth caps' undo' hk hso hsp hf ht h
      rcases hpc : prog.insts.get? pc with _ | inst
      · simp only [execLoop, hpc] at h
        injection h with h1
        exact Bool.noConfusion h1
      · have hsc := hso pc
        simp only [sideCond, hpc] at hsc
        cases inst <;> simp only [execLoop, hpc] at h
        case Match =>
          split at h
          · injection h with h1 h2 h3
            subst h2; subst h3
            exact GoodPair_set caps k 1 (some pos) (hf hsc) (by omega) (by omega)
          · exact ExecOut.noConfusion h
        case Char expected =>
          split at h
          · refine ihL _ _ _ _ _ _ _ _ _ _ _ hk hso hsp ?_ ?_ h
            · exact fun hh => hf (hsc.symm.trans hh)
            · intro hh
              obtain ⟨v, hv1, hv2⟩ := ht (hsc.symm.trans hh)
              exact ⟨v, hv1, by omega⟩
          · injection h with h1
            exact Bool.noConfusion h1
        case AnyChar =>
          rcases hcc : chars.get? pos with _ | c <;> simp only [hcc] at h
          · injection h with h1
            exact Bool.noConfusion h1
          · split at h
            · refine ihL _ _ _ _ _ _ _ _ _ _ _ hk hso hsp ?_ ?_ h
              · exact fun hh => hf (hsc.symm.trans hh)
              · intro hh
                obtain ⟨v, hv1, hv2⟩ := ht (hsc.symm.trans hh)
                exact ⟨v, hv1, by omega⟩
            · injection h with h1
              exact Bool.noConfusion h1
        case CharClass ranges negated =>
          rcases hcc : chars.get? pos with _ | c <;> simp only [hcc] at h
          · injection h with h1
            exact Bool.noConfusion h1
          · split at h
            · refine ihL _ _ _ _ _ _ _ _ _ _ _ hk hso hsp ?_ ?_ h
              · exact fun hh => hf (hsc.symm.trans hh)
              · intro hh
                obtain ⟨v, hv1, hv2⟩ := ht (hsc.symm.trans hh)
                exact ⟨v, hv1, by omega⟩
            · injection h with h1
              exact Bool.noConfusion h1
        case ShorthandClass kind =>
          rcases hcc : chars.get? pos with _ | c <;> simp only [hcc] at h
          · injection h with h1
            exact Bool.noConfusion h1
          · split at h
            · refine ihL _ _ _ _ _ _ _ _ _ _ _ hk hso hsp ?_ ?_ h
              · exact fun hh => hf (hsc.symm.trans hh)
              · intro hh
                obtain ⟨v, hv1, hv2⟩ := ht (hsc.symm.trans hh)
                exact ⟨v, hv1, by omega⟩
            · injection h with h1
              exact Bool.noConfusion h1
        case Jump target =>
          refine ihL _ _ _ _ _ _ _ _ _ _ _ hk hso hsp ?_ ?_ h
          · exact fun hh => hf (hsc.symm.trans hh)
          · exact fun hh => ht (hsc.symm.trans hh)
        case Split first second =>
          rcases hx : exec fuel prog chars pos first caps undo (depth + 1) with
            ⟨_ | _, c, u⟩ | _ | _ <;> simp only [hx] at h
          · have hrest := (vm_false_restores fuel).2 _ _ _ _ _ _ _ _ _ hx
            rw [hrest] at h
            refine ihL _ _ _ _ _ _ _ _ _ _ _ hk hso hsp ?_ ?_ h
            · exact fun hh => hf (hsc.2.symm.trans hh)
            · exact fun hh => ht (hsc.2.symm.trans hh)
          · injection h with h1 h2 h3
            subst h2; subst h3
            refine ihE _ _ _ _ _ _ _ _ _ _ _ hk hso hsp ?_ ?_ hx
            · exact fun hh => hf (hsc.1.symm.trans hh)
            · exact fun hh => ht (hsc.1.symm.trans hh)
          · exact ExecOut.noConfusion h
          · exact ExecOut.noConfusion h
        case Save slot =>
          obtain ⟨h2k, h2k1, hoth⟩ := hsc
          split at h
          · rename_i hslot
            by_cases hs1 : slot = 2 * k
            · subst hs1
              obtain ⟨hcur, hnext⟩ := h2k rfl
              refine ihL _ _ _ _ _ _ _ _ _ _ _ hk hso hsp ?_ ?_ h
              · exact fun hh => Bool.noConfusion (hnext.symm.trans hh)
              · exact fun _ => ⟨pos, getD_set_lt caps (2 * k) (some pos) none hslot,
                  Nat.le_refl pos⟩
            · by_cases hs2 : slot = 2 * k + 1
              · subst hs2
                obtain ⟨hcur, hnext⟩ := h2k1 rfl
                obtain ⟨v, hv1, hv2⟩ := ht hcur
                refine ihL _ _ _ _ _ _ _ _ _ _ _ hk hso hsp ?_ ?_ h
                · intro _ a b ha hb
                  rw [getD_set_ne caps (2 * k + 1) (2 * k) (some pos) none (by omega),
                    hv1] at ha
                  rw [getD_set_lt caps (2 * k + 1) (some pos) none hslot] at hb
                  injection ha with ha
                  injection hb with hb
                  omega
                · exact fun hh => Bool.noConfusion (hnext.symm.trans hh)
              · have hstab := hoth hs1 hs2
                refine ihL _ _ _ _ _ _ _ _ _ _ _ hk hso hsp ?_ ?_ h
                · exact fun hh =>
                    GoodPair_set caps k slot (some pos) (hf (hstab.symm.trans hh)) hs1 hs2
                · intro hh
                  obtain ⟨v, hv1, hv2⟩ := ht (hstab.symm.trans hh)
                  exact ⟨v, by
                    rw [getD_set_ne caps slot (2 * k) (some pos) none hs1]; exact hv1, hv2⟩
          · exact ExecOut.noConfusion h
        case AssertStart =>
          split at h
          · refine ihL _ _ _ _ _ _ _ _ _ _ _ hk hso hsp ?_ ?_ h
            · exact fun hh => hf (hsc.symm.trans hh)
            · exact fun hh => ht (hsc.symm.trans hh)
          · injection h with h1
            exact Bool.noConfusion h1
        case AssertEnd =>
          split at h
          · refine ihL _ _ _ _ _ _ _ _ _ _ _ hk hso hsp ?_ ?_ h
            · exact fun hh => hf (hsc.symm.trans hh)
            · exact fun hh => ht (hsc.symm.trans hh)
          · injection h with h1
            exact Bool.noConfusion h1
        case AssertWordBoundary =>
          split at h
          · refine ihL _ _ _ _ _ _ _ _ _ _ _ hk hso hsp ?_ ?_ h
            · exact fun hh => hf (hsc.symm.trans hh)
            · exact fun hh => ht (hsc.symm.trans hh)
          · injection h with h1
            exact Bool.noConfusion h1
        case AssertNonWordBoundary =>
          split at h
          · refine ihL _ _ _ _ _ _ _ _ _ _ _ hk hso hsp ?_ ?_ h
            · exact fun hh => hf (hsc.symm.trans hh)
            · exact fun hh => ht (hsc.symm.trans hh)
          · injection h with h1
            exact Bool.noConfusion h1
        case Backref group_idx =>
          split at h
          case isTrue =>
            split at h
            case _ gs ge =>
              split at h
              · split at h
                · split at h
                  · split at h
                    · refine ihL _ _ _ _ _ _ _ _ _ _ _ hk hso hsp ?_ ?_ h
                      · exact fun hh => hf (hsc.symm.trans hh)
                      · intro hh
                        obtain ⟨v, hv1, hv2⟩ := ht (hsc.symm.trans hh)
                        exact ⟨v, hv1, by omega⟩
                    · injection h with h1
                      exact Bool.noConfusion h1
                  · exact ExecOut.noConfusion h
                · injection h with h1
                  exact Bool.noConfusion h1
              · exact ExecOut.noConfusion h
            all_goals (injection h with h1; exact Bool.noConfusion h1)
          case isFalse => exact ExecOut.noConfusion h
        case LookaheadPositive sub_start sub_end =>
          rcases hx : execSub fuel prog chars pos sub_start sub_end caps [] (depth + 1) with
            ⟨_ | _, c, u⟩ | _ | _ <;> simp only [hx] at h
          · injection h with h1
            exact Bool.noConfusion h1
          · cases hσ : side pc with
            | false =>
              have hGood : GoodPair caps k := hf hσ
              have hs1f : side sub_start = false := hsc.2.1 hσ
              have hsubGood : GoodPair c k := by
                refine ihS _ _ _ _ _ _ _ _ _ _ _ _ hk hso hsp ?_ ?_ hx
                · exact fun _ => hGood
                · exact fun hh => Bool.noConfusion (hs1f.symm.trans hh)
              have hpGood := propagate_GoodPair c caps undo k hk hsubGood
              refine ihL _ _ _ _ _ _ _ _ _ _ _ hk hso hsp ?_ ?_ h
              · exact fun _ => hpGood
              · exact fun hh => Bool.noConfusion (((hsc.1.trans hσ).symm.trans hh))
            | true =>
              have hint := hsc.2.2 hσ
              obtain ⟨hs12, hs2len, hmatch, hconf⟩ := hsp pc sub_start sub_end (Or.inl hpc)
              have hnks := noKSaves_of_sideOk prog.insts side k sub_start sub_end hso
                hmatch hint
              obtain ⟨u1, u2⟩ := (vm_untouched k hk fuel).2.2.1 _ _ _ _ _ _ _ _ _ _ _ _
                hconf hnks (Nat.le_refl sub_start) hs12 hx
              obtain ⟨p1, p2⟩ := propagate_pairUnchanged c caps undo k hk u1 u2
              refine ihL _ _ _ _ _ _ _ _ _ _ _ hk hso hsp ?_ ?_ h
              · exact fun hh => Bool.noConfusion (((hsc.1.trans hσ).symm.trans hh))
              · intro _
                obtain ⟨v, hv1, hv2⟩ := ht hσ
                exact ⟨v, p1.trans hv1, hv2⟩
          · exact ExecOut.noConfusion h
          · exact ExecOut.noConfusion h
        case LookaheadNegative sub_start sub_end =>
          rcases hx : execSub fuel prog chars pos sub_start sub_end caps [] (depth + 1) with
            ⟨_ | _, c, u⟩ | _ | _ <;> simp only [hx] at h
          · refine ihL _ _ _ _ _ _ _ _ _ _ _ hk hso hsp ?_ ?_ h
            · exact fun hh => hf (hsc.1.symm.trans hh)
            · exact fun hh => ht (hsc.1.symm.trans hh)
          · injection h with h1
            exact Bool.noConfusion h1
          · exact ExecOut.noConfusion h
          · exact ExecOut.noConfusion h
        case LookbehindPositive sub_start sub_end =>
          rcases hx : lbScan fuel prog chars (List.range (pos + 1)) pos sub_start sub_end caps
              (depth + 1) with ⟨c⟩ | _ | _ | _ <;> simp only [hx] at h
          · cases hσ : side pc with
            | false =>
              have hGood : GoodPair caps k := hf hσ
              have hs1f : side sub_start = false := hsc.2.1 hσ
              have hsubGood : GoodPair c k :=
                ihB _ _ _ _ _ _ _ _ _ _ _ hk hso hsp hs1f hGood hx
              have hpGood := propagate_GoodPair c caps undo k hk hsubGood
              refine ihL _ _ _ _ _ _ _ _ _ _ _ hk hso hsp ?_ ?_ h
              · exact fun _ => hpGood
              · exact fun hh => Bool.noConfusion (((hsc.1.trans hσ).symm.trans hh))
            | true =>
              have hint := hsc.2.2 hσ
              obtain ⟨hs12, hs2len, hmatch, hconf⟩ := hsp pc sub_start sub_end
                (Or.inr (Or.inr (Or.inl hpc)))
              have hnks := noKSaves_of_sideOk prog.insts side k sub_start sub_end hso
                hmatch hint
              obtain ⟨u1, u2⟩ := (vm_untouched k hk fuel).2.2.2 _ _ _ _ _ _ _ _ _ _ _
                hconf hnks (Nat.le_refl sub_start) hs12 hx
              obtain ⟨p1, p2⟩ := propagate_pairUnchanged c caps undo k hk u1 u2
              refine ihL _ _ _ _ _ _ _ _ _ _ _ hk hso hsp ?_ ?_ h
              · exact fun hh => Bool.noConfusion (((hsc.1.trans hσ).symm.trans hh))
              · intro _
                obtain ⟨v, hv1, hv2⟩ := ht hσ
                exact ⟨v, p1.trans hv1, hv2⟩
          · injection h with h1
            exact Bool.noConfusion h1
          · exact ExecOut.noConfusion h
          · exact ExecOut.noConfusion h
        case LookbehindNegative sub_start sub_end =>
          rcases hx : lbScan fuel prog chars (List.range (pos + 1)) pos sub_start sub_end caps
              (depth + 1) with ⟨c⟩ | _ | _ | _ <;> simp only [hx] at h
          · injection h with h1
            exact Bool.noConfusion h1
          · refine ihL _ _ _ _ _ _ _ _ _ _ _ hk hso hsp ?_ ?_ h
            · exact fun hh => hf (hsc.1.symm.trans hh)
            · exact fun hh => ht (hsc.1.symm.trans hh)
          · exact ExecOut.noConfusion h
          · exact ExecOut.noConfusion h
        case Nop =>
          refine ihL _ _ _ _ _ _ _ _ _ _ _ hk hso hsp ?_ ?_ h
          · exact fun hh => hf (hsc.symm.trans hh)
          · exact fun hh => ht (hsc.symm.trans hh)
        case CaseInsensitiveOn => exact ExecOut.noConfusion h
        case CaseInsensitiveOff => exact ExecOut.noConfusion h
    · intro prog side k chars pos pc caps undo depth caps' undo' hk hso hsp hf ht h
      simp only [exec] at h
      split at h
      · injection h with h1
        exact Bool.noConfusion h1
      · exact ihL _ _ _ _ _ _ _ _ _ _ _ hk hso hsp hf ht h
    · intro prog side k chars pos s1 s2 caps undo depth caps' undo' hk hso hsp hf ht h
      simp only [execSub] at h
      split at h
      · rcases hx : exec fuel prog chars pos s1 (caps.set 1 none) undo depth with
          ⟨_ | _, c, u⟩ | _ | _ <;> simp only [hx] at h
        · injection h with h1
          exact Bool.noConfusion h1
        · injection h with h1 h2 h3
          subst h2; subst h3
          refine ihE _ _ _ _ _ _ _ _ _ _ _ hk hso hsp ?_ ?_ hx
          · exact fun hh => GoodPair_set caps k 1 none (hf hh) (by omega) (by omega)
          · intro hh
            obtain ⟨v, hv1, hv2⟩ := ht hh
            exact ⟨v, by
              rw [getD_set_ne caps 1 (2 * k) none none (by omega)]; exact hv1, hv2⟩
        · exact ExecOut.noConfusion h
        · exact ExecOut.noConfusion h
      · exact ExecOut.noConfusion h
    · intro prog side k chars lbs pos s1 s2 caps depth c hk hso hsp hsf hGood h
      cases lbs with
      | nil =>
        simp only [lbScan] at h
        exact LbOut.noConfusion h
      | cons lb rest =>
        simp only [lbScan] at h
        rcases hx : execSub fuel prog chars (pos - lb) s1 s2 caps [] depth with
          ⟨_ | _, sc, u⟩ | _ | _ <;> simp only [hx] at h
        · exact ihB _ _ _ _ _ _ _ _ _ _ _ hk hso hsp hsf hGood h
        · split at h
          · injection h with h1
            subst h1
            refine ihS _ _ _ _ _ _ _ _ _ _ _ _ hk hso hsp ?_ ?_ hx
            · exact fun _ => hGood
            · exact fun hh => Bool.noConfusion (hsf.symm.trans hh)
          · exact ihB _ _ _ _ _ _ _ _ _ _ _ hk hso hsp hsf hGood h
        · exact LbOut.noConfusion h
        · exact LbOut.noConfusion h

/-- Capture slots from index 2 on are unset in a fresh search capture array. -/
theorem initCaps_getD_ge2 (ns start i : Nat) (h2 : 2 ≤ i) :
    (initCaps ns start).getD i none = none := by
  unfold initCaps
  rw [getD_set_ne _ _ _ _ _ (by omega)]
  rcases Nat.lt_or_ge i ns with hlt | hge
  · simp [List.getD_eq_getElem?_getD, List.getElem?_replicate, hlt]
  · rw [List.getD_eq_default]
    simp only [List.length_replicate]
    omega

/-- Every compiled program of a parser-shaped syntax tree has well-formed
lookaround spans and, for each capturing group `k`, a coherent side marking
that is closed at the entry point. -/
theorem compile_side (ast : AstNode) (g : Nat) (prog : Program)
    (hwf : wfIdx ast = true) (hc : compile ast g = some prog) :
    spansWF prog.insts ∧
    ∀ k, 1 ≤ k → ∃ side, side 0 = false ∧ sideOk prog.insts side k := by
  simp only [compile, Option.bind_eq_bind] at hc
  obtain ⟨insts0, h0, h2⟩ := option_bind_some _ _ _ hc
  injection h2 with h2
  subst h2
  dsimp only
  have hTnil : TargLe ([] : List Inst) := by
    intro p inst hp
    rw [List.get?_eq_none.mpr (by simp)] at hp
    exact Option.noConfusion hp
  have hsnil : spansWF ([] : List Inst) := by
    intro p s1 s2 hlk
    rcases hlk with hx | hx | hx | hx <;>
      (rw [List.get?_eq_none.mpr (by simp)] at hx; exact Option.noConfusion hx)
  have hG0 := emit_geom [] ast insts0 h0
  have hT0 : TargLe insts0 := hG0.2.2.1 hTnil
  have hs0 : spansWF insts0 := hG0.2.2.2.2 hTnil hsnil
  have hGm : Geom insts0 (insts0 ++ [Inst.Match]) :=
    Geom_snoc_of insts0 insts0 _ (Geom_rfl insts0) True.intro True.intro
      (by
      intro a b
      exact ⟨fun h => Inst.noConfusion h, fun h => Inst.noConfusion h,
        fun h => Inst.noConfusion h, fun h => Inst.noConfusion h⟩)
  refine ⟨hGm.2.2.2.2 hT0 hs0, ?_⟩
  intro k hk
  obtain ⟨hN, hS⟩ := emit_side [] ast insts0 h0
  obtain ⟨sk, hag, hend, hokN, _⟩ := hS k (fun _ => false) hk
    (fun p => Or.inr (by
      simp only [sideCond]
      rw [List.get?_eq_none.mpr (by simp)]
      trivial))
    hTnil
    (fun h3 => Bool.noConfusion h3)
    hwf
  have hok0 : sideOk insts0 sk k := fun p => (hokN p).resolve_left (hN p (Nat.zero_le p))
  refine ⟨extSide sk (insts0.length + 1) false, ?_, ?_⟩
  · rw [extSide_ne sk (insts0.length + 1) false 0 (by omega), hag 0 (Nat.zero_le _)]
  · have hokNF : sideOkN (insts0 ++ [Inst.Match])
        (extSide sk (insts0.length + 1) false) k :=
      sideOkN_snoc insts0 sk k Inst.Match false (fun p => Or.inr (hok0 p)) hT0 (Or.inr (by
        simp only [sideCond, List.get?_concat_length]
        rw [extSide_ne sk (insts0.length + 1) false insts0.length (by omega)]
        exact hend))
    intro p
    refine (hokNF p).resolve_left ?_
    intro h3
    by_cases hpe : p < insts0.length
    · rw [List.get?_append hpe] at h3
      exact hN p (Nat.zero_le p) h3
    · rcases Nat.eq_or_lt_of_le (Nat.le_of_not_lt hpe) with he | hl
      · rw [← he, List.get?_concat_length] at h3
        injection h3 with h3
        exact Inst.noConfusion h3
      · rw [List.get?_eq_none.mpr (by simp only [length_snoc]; omega)] at h3
        exact Option.noConfusion h3

/-- C3 amended: for every pattern that parses and compiles and every input,
if `search` returns a result with start `a` and end `b`, then `a ≤ b ≤
|input|`, every set capture slot of the result — including group bounds
propagated out of lookaround sub-programs — holds a position `≤ |input|`,
and every group reported with both slots set satisfies group-start ≤
group-end.  (The original outer bracketing `a ≤ group-start` and
`group-end ≤ b` is refuted by the lookaround counterexample; the inner
ordering and the position bounds by the input are what survives.) -/
theorem C3_amended (pfuel fuel : Nat) (pattern : List Char) (ast : AstNode) (g : Nat)
    (prog : Program) (chars : List Char) (r : MatchResult)
    (hparse : parseAll pfuel pattern = .ok (ast, g))
    (hcompile : compile ast g = some prog)
    (hsearch : search fuel prog chars = .found r) :
    r.start ≤ r.end_ ∧ r.end_ ≤ chars.length ∧
    CapsLe r.captures chars.length = true ∧
    pairsOrdered r.captures = true := by
  obtain ⟨start, caps, undo, hstart, hexec, hr⟩ := search_found_le fuel prog chars r hsearch
  obtain ⟨g1, g2, g3⟩ := (vm_bounds fuel).2.1 prog chars start 0 _ [] 0 true caps undo
    hstart (CapsLe_initCaps _ start _ hstart) rfl hexec
  obtain ⟨p, hp1, hp2⟩ := g3 rfl
  have hwf := parseAll_wfIdx pfuel pattern ast g hparse
  obtain ⟨hspans, hsides⟩ := compile_side ast g prog hwf hcompile
  have hGP : ∀ k, 1 ≤ k → GoodPair caps k := by
    intro k hk
    obtain ⟨side, hside0, hsideok⟩ := hsides k hk
    refine (vm_pair fuel).2.1 prog side k chars start 0
      (initCaps ((prog.n_groups + 1) * 2) start) [] 0 caps undo hk hsideok hspans
      ?_ ?_ hexec
    · intro _ v w hv hw
      rw [initCaps_getD_ge2 _ _ _ (by omega)] at hv
      exact Option.noConfusion hv
    · intro h3
      rw [hside0] at h3
      exact Bool.noConfusion h3
  subst hr
  simp only [finishResult, hp1, Option.getD_some]
  have hple : p ≤ chars.length := CapsLe_getD caps _ 1 p g1 hp1
  refine ⟨hp2, hple, CapsLe_set caps _ 1 _ g1 (fun q hq => by injection hq with hq; omega),
    ?_⟩
  refine pairsOrdered_of _ ?_
  intro j hj
  exact GoodPair_set caps j 1 (some p) (hGP j hj) (by omega) (by omega)

/-- Witness for C3 amended: the lookbehind-capture pattern `(?<=(a))b` on
`ab` (the very counterexample to the unamended claim) satisfies the bounds
and the group ordering. -/
theorem C3_amended_witness :
    (⟨1, 2, [some 1, some 2, some 0, some 1]⟩ : MatchResult).start ≤
      (⟨1, 2, [some 1, some 2, some 0, some 1]⟩ : MatchResult).end_ ∧
    (⟨1, 2, [some 1, some 2, some 0, some 1]⟩ : MatchResult).end_ ≤ "ab".toList.length ∧
    CapsLe (⟨1, 2, [some 1, some 2, some 0, some 1]⟩ : MatchResult).captures
      "ab".toList.length = true ∧
    pairsOrdered (⟨1, 2, [some 1, some 2, some 0, some 1]⟩ : MatchResult).captures = true :=
  C3_amended 50 50 "(?<=(a))b".toList astC3 1 progC3 "ab".toList
    ⟨1, 2, [some 1, some 2, some 0, some 1]⟩ rfl
    (by simp [compile, astC3, emit, emitList, extract_first_char, progC3]) rfl

end RegexEngine



